import Mathlib

/-!
# FramI2C: shallow embedding of `src/src/FramI2C.cpp` / `src/src/FramI2C.h`

Conventions of the embedding.

* Target platform is the one the library is written for (Particle, 32-bit ARM,
  little endian): `int`, `unsigned int`, `uint32_t` and `size_t` are 32 bits wide.
  Machine integers are natural numbers; every C++ operation that can wrap is
  followed by an explicit `% 2^32` (or `% 2^16`, `% 2^8`).
* A `byte*` argument is a `Buffer` (the caller's RAM seen from the pointer) together
  with an offset where the source does pointer arithmetic (`buf += blockSize`).
* The FRAM chip behind the `Wire` bus is the record `Chip`: its memory and the log of
  bus transactions issued so far.
* Methods take the object state and the chip and return the new state, the new chip
  and their C++ result; reference out-parameters (`framResult &result`) are returned.
* `while` loops are structural recursions on a fuel argument; every call site passes
  fuel that is proved sufficient.
-/

namespace Fram

/-- A `byte` / `uint8_t`. -/
abbrev byte := Fin 256

/-- Caller RAM reachable from a `byte*`. -/
abbrev Buffer := Nat → byte

/-- Enumeration `framPartNumber` of `FramI2C.h` (without the sentinel `numberOfPartNumbers`). -/
inductive framPartNumber where
  | MB85RC64
  | MB85RC128A
  | MB85RC128B
  | MB85RC256A
  | MB85RC256B
  | MB85RC256V
  | MB85RC512T
  deriving DecidableEq, Repr

/-- Enumeration `framResult` of `FramI2C.h`. -/
inductive framResult where
  | framOK
  | framBadStartAddress
  | framBadNumberOfBytes
  | framBadFinishAddress
  | framArrayElementTooBig
  | framBadArrayIndex
  | framBadArrayStartAddress
  | framBadResponse
  | framPartNumberMismatch
  | framUnknownError
  deriving DecidableEq, Repr

open framResult

/-- One bus transaction of the block transport: a read request or a write, with the
16-bit device address sent in the address phase, the number of data bytes, and the offset
`buf` of the data in the caller's buffer (the pointer passed to the transport). -/
inductive WireCall where
  | requestFrom (framAddr numberOfBytes buf : Nat)
  | transmit (framAddr numberOfBytes buf : Nat)
  deriving DecidableEq, Repr

/-- Modelled from the spec: the block transport and the FRAM chip behind the `Wire`
object, which is not part of the repository ("transportRead(address, length)" returns
exactly `length` bytes, "transportWrite(address, bytes)" writes the bytes "starting at
deviceAddress", both byte-reliable). `mem` is the chip content by device address,
`calls` the transactions issued so far, oldest first. -/
structure Chip where
  mem : Nat → byte
  calls : List WireCall

/-- `static const byte _maxBufferSize = 128;` -/
def _maxBufferSize : Nat := 128

/-- The table `_topAddressForPartNumber` filled in by the constructor. -/
def _topAddressForPartNumber : framPartNumber → Nat
  | .MB85RC64 => 0x001FFF
  | .MB85RC128A => 0x003FFF
  | .MB85RC128B => 0x003FFF
  | .MB85RC256A => 0x007FFF
  | .MB85RC256B => 0x007FFF
  | .MB85RC256V => 0x007FFF
  | .MB85RC512T => 0x00FFFF

/-- Data members of `class FramI2C`. -/
structure FramI2C where
  _partNumber : framPartNumber
  _baseAddress : Nat
  _bottomAddress : Nat
  _topAddress : Nat
  _numberOfBuffers : Nat
  _nextFreeByte : Nat
  deriving DecidableEq, Repr

/-- Constructor `FramI2C::FramI2C(framPartNumber partNumber)`. -/
def FramI2C.new (partNumber : framPartNumber) : FramI2C :=
  let _baseAddress := 0x000000
  let _bottomAddress := (_baseAddress + _maxBufferSize) % 2 ^ 32
  let _topAddress := _topAddressForPartNumber partNumber
  { _partNumber := partNumber
    _baseAddress := _baseAddress
    _bottomAddress := _bottomAddress
    _topAddress := _topAddress
    _numberOfBuffers := ((_topAddress + 2 ^ 32 - _bottomAddress + 1) % 2 ^ 32) / _maxBufferSize
    _nextFreeByte := _bottomAddress }

/-- The receive loop of `_readMemory`: `buffer[i] = Wire.read()` for `i < numberOfBytes`,
the `i`-th byte delivered being the chip byte at `framAddr + i`. The pointer `buffer`
of the source is `buffer + buf` here. -/
def loadBytes (mem : Nat → byte) (framAddr : Nat) (buf : Nat) : Nat → Buffer → Buffer
  | 0, buffer => buffer
  | i + 1, buffer => fun j =>
      if j = buf + i then mem (framAddr + i) else loadBytes mem framAddr buf i buffer j

/-- The send loop of `_writeMemory`: `Wire.write(buffer[i])` for `i < numberOfBytes`,
the chip storing the `i`-th data byte at `framAddr + i`. -/
def storeBytes (mem : Nat → byte) (framAddr : Nat) (buffer : Buffer) (buf : Nat) :
    Nat → (Nat → byte)
  | 0 => mem
  | i + 1 => fun a =>
      if a = framAddr + i then buffer (buf + i) else storeBytes mem framAddr buffer buf i a

/-- `FramI2C::_readMemory(uint32_t address, uint8_t numberOfBytes, uint8_t *buffer)`. -/
def FramI2C._readMemory (w : Chip) (address numberOfBytes : Nat) (buffer : Buffer)
    (buf : Nat) : Chip × Buffer :=
  let framAddr := address % 2 ^ 16
  let n := numberOfBytes % 2 ^ 8
  ({ w with calls := w.calls ++ [WireCall.requestFrom framAddr n buf] },
   loadBytes w.mem framAddr buf n buffer)

/-- `FramI2C::_writeMemory(uint32_t address, uint8_t numberOfBytes, uint8_t *buffer)`. -/
def FramI2C._writeMemory (w : Chip) (address numberOfBytes : Nat) (buffer : Buffer)
    (buf : Nat) : Chip :=
  let framAddr := address % 2 ^ 16
  let n := numberOfBytes % 2 ^ 8
  { mem := storeBytes w.mem framAddr buffer buf n
    calls := w.calls ++ [WireCall.transmit framAddr n buf] }

/-- State of the locals of `read` / `write` around the `while` loop. -/
structure LoopState where
  w : Chip
  address : Nat
  numberOfBytes : Nat
  buffer : Buffer
  buf : Nat

/-- The loop `while (numberOfBytes >= blockSize)` of `FramI2C::read`, `blockSize = 30`. -/
def FramI2C.readLoop : Nat → LoopState → LoopState
  | 0, s => s
  | fuel + 1, s =>
    if s.numberOfBytes ≥ 30 then
      let r := FramI2C._readMemory s.w s.address 30 s.buffer s.buf
      FramI2C.readLoop fuel
        { w := r.1
          address := (s.address + 30) % 2 ^ 32
          numberOfBytes := s.numberOfBytes - 30
          buffer := r.2
          buf := s.buf + 30 }
    else s

/-- The loop `while (numberOfBytes >= blockSize)` of `FramI2C::write`, `blockSize = 30`. -/
def FramI2C.writeLoop : Nat → LoopState → LoopState
  | 0, s => s
  | fuel + 1, s =>
    if s.numberOfBytes ≥ 30 then
      FramI2C.writeLoop fuel
        { w := FramI2C._writeMemory s.w s.address 30 s.buffer s.buf
          address := (s.address + 30) % 2 ^ 32
          numberOfBytes := s.numberOfBytes - 30
          buffer := s.buffer
          buf := s.buf + 30 }
    else s

/-- `framResult FramI2C::read(uint32_t startAddress, unsigned int numberOfBytes, byte *buffer)`.
Returns the result code, the chip and the caller's buffer. -/
def FramI2C.read (f : FramI2C) (w : Chip) (startAddress numberOfBytes : Nat)
    (buffer : Buffer) : framResult × Chip × Buffer :=
  if startAddress < f._bottomAddress ∨ startAddress > f._topAddress then
    (framBadStartAddress, w, buffer)
  else if numberOfBytes > _maxBufferSize ∨ numberOfBytes = 0 then
    (framBadNumberOfBytes, w, buffer)
  else if (startAddress + numberOfBytes + (2 ^ 32 - 1)) % 2 ^ 32 > f._topAddress then
    (framBadFinishAddress, w, buffer)
  else
    let s := FramI2C.readLoop numberOfBytes
      { w := w, address := startAddress, numberOfBytes := numberOfBytes,
        buffer := buffer, buf := 0 }
    if s.numberOfBytes > 0 then
      let r := FramI2C._readMemory s.w s.address s.numberOfBytes s.buffer s.buf
      (framOK, r.1, r.2)
    else
      (framOK, s.w, s.buffer)

/-- `framResult FramI2C::write(uint32_t startAddress, unsigned int numberOfBytes, byte *buffer)`.
Returns the result code and the chip. -/
def FramI2C.write (f : FramI2C) (w : Chip) (startAddress numberOfBytes : Nat)
    (buffer : Buffer) : framResult × Chip :=
  if startAddress < f._bottomAddress ∨ startAddress > f._topAddress then
    (framBadStartAddress, w)
  else if numberOfBytes > _maxBufferSize ∨ numberOfBytes = 0 then
    (framBadNumberOfBytes, w)
  else if (startAddress + numberOfBytes + (2 ^ 32 - 1)) % 2 ^ 32 > f._topAddress then
    (framBadFinishAddress, w)
  else
    let s := FramI2C.writeLoop numberOfBytes
      { w := w, address := startAddress, numberOfBytes := numberOfBytes,
        buffer := buffer, buf := 0 }
    if s.numberOfBytes > 0 then
      (framOK, FramI2C._writeMemory s.w s.address s.numberOfBytes s.buffer s.buf)
    else
      (framOK, s.w)

/-- `void FramI2C::writeControlBlock(uint8_t *buffer)`; the result of `write` is dropped. -/
def FramI2C.writeControlBlock (f : FramI2C) (w : Chip) (buffer : Buffer) : Chip :=
  (f.write w f._baseAddress _maxBufferSize buffer).2

/-- `void FramI2C::readControlBlock(uint8_t *buffer)`; the result of `read` is dropped. -/
def FramI2C.readControlBlock (f : FramI2C) (w : Chip) (buffer : Buffer) : Chip × Buffer :=
  (f.read w f._baseAddress _maxBufferSize buffer).2

/-- `uint32_t FramI2C::allocateMemory(uint32_t numberOfBytes, framResult& result)`.
Returns the address, the result code and the updated object. -/
def FramI2C.allocateMemory (f : FramI2C) (numberOfBytes : Nat) : Nat × framResult × FramI2C :=
  if (f._nextFreeByte + numberOfBytes) % 2 ^ 32 < f._topAddress then
    let base := f._nextFreeByte % 2 ^ 16
    (base, framOK, { f with _nextFreeByte := (f._nextFreeByte + numberOfBytes) % 2 ^ 32 })
  else
    (0, framBadFinishAddress, f)


/-- The device object of capacity class `partNumber` whose allocator cursor is
`nextFreeByte`. Every state of a `FramI2C` object has this form: the constructor sets
all fields and `allocateMemory`, the only method that assigns a field afterwards,
assigns `_nextFreeByte` only. -/
def FramI2C.withCursor (partNumber : framPartNumber) (nextFreeByte : Nat) : FramI2C :=
  { FramI2C.new partNumber with _nextFreeByte := nextFreeByte }

/-- States of a `FramI2C` object reachable from construction by `allocateMemory` calls
with 32-bit arguments (no other method assigns a field). -/
inductive FramI2C.Reachable : FramI2C → Prop where
  | construct (partNumber : framPartNumber) : FramI2C.Reachable (FramI2C.new partNumber)
  | allocate (f : FramI2C) (numberOfBytes : Nat) (h : FramI2C.Reachable f)
      (h32 : numberOfBytes < 2 ^ 32) : FramI2C.Reachable (f.allocateMemory numberOfBytes).2.2

/-- The request classification in the words of the specification: bad start address if
the start is below `_bottomAddress` or above `_topAddress`, otherwise bad number of bytes
if the length is 0 or exceeds 128, otherwise bad finish address if
`startAddress + numberOfBytes - 1` (exact arithmetic) exceeds `_topAddress`, otherwise OK. -/
def classifyRequest (f : FramI2C) (startAddress numberOfBytes : Nat) : framResult :=
  if startAddress < f._bottomAddress ∨ startAddress > f._topAddress then framBadStartAddress
  else if numberOfBytes = 0 ∨ numberOfBytes > 128 then framBadNumberOfBytes
  else if startAddress + numberOfBytes - 1 > f._topAddress then framBadFinishAddress
  else framOK

/-- A run of `allocateMemory` calls, one per requested size, threading the device
object. Returns the pairs `(address, size)` of the calls that reported `framOK`, in
call order, and the final object. -/
def allocateAll (f : FramI2C) : List Nat → List (Nat × Nat) × FramI2C
  | [] => ([], f)
  | numberOfBytes :: rest =>
    let r := f.allocateMemory numberOfBytes
    let tl := allocateAll r.2.2 rest
    if r.2.1 = framOK then ((r.1, numberOfBytes) :: tl.1, tl.2) else tl

/-- `byte FramI2C::getMaxBufferSize()`. -/
def FramI2C.getMaxBufferSize (_f : FramI2C) : Nat := _maxBufferSize

/-- `uint32_t FramI2C::getNextFreeByte()`. -/
def FramI2C.getNextFreeByte (f : FramI2C) : Nat := f._nextFreeByte

/-- Data members of `class FramI2CArray` (the reference `_f` is passed to the methods). -/
structure FramI2CArray where
  _numberOfElements : Nat
  _sizeOfElement : Nat
  _startAddress : Nat
  deriving DecidableEq, Repr

/-- Constructor `FramI2CArray::FramI2CArray(f, numberOfElements, sizeOfElement, result)`.
Returns the array object, the device object after the allocation and `result`. -/
def FramI2CArray.new (f : FramI2C) (numberOfElements sizeOfElement : Nat) :
    FramI2CArray × FramI2C × framResult :=
  if sizeOfElement < f.getMaxBufferSize then
    let r := f.allocateMemory ((numberOfElements * sizeOfElement) % 2 ^ 32)
    ({ _numberOfElements := numberOfElements, _sizeOfElement := sizeOfElement,
       _startAddress := r.1 }, r.2.2, r.2.1)
  else
    ({ _numberOfElements := numberOfElements, _sizeOfElement := sizeOfElement,
       _startAddress := 0 }, f, framArrayElementTooBig)

/-- `void FramI2CArray::readElement(uint32_t index, byte *buffer, framResult &result)`.
Returns `result`, the chip and the caller's buffer. -/
def FramI2CArray.readElement (a : FramI2CArray) (f : FramI2C) (w : Chip) (index : Nat)
    (buffer : Buffer) : framResult × Chip × Buffer :=
  if a._startAddress = 0 then
    (framBadArrayStartAddress, w, buffer)
  else if index ≥ a._numberOfElements then
    (framBadArrayIndex, w, buffer)
  else
    f.read w ((a._startAddress + (index * a._sizeOfElement) % 2 ^ 32) % 2 ^ 32)
      a._sizeOfElement buffer

/-- `void FramI2CArray::writeElement(uint32_t index, byte *buffer, framResult &result)`.
Returns `result` and the chip. -/
def FramI2CArray.writeElement (a : FramI2CArray) (f : FramI2C) (w : Chip) (index : Nat)
    (buffer : Buffer) : framResult × Chip :=
  if a._startAddress = 0 then
    (framBadArrayStartAddress, w)
  else if index ≥ a._numberOfElements then
    (framBadArrayIndex, w)
  else
    f.write w ((a._startAddress + (index * a._sizeOfElement) % 2 ^ 32) % 2 ^ 32)
      a._sizeOfElement buffer

/-- The struct `addr_t` of `Ring_FramArray`: `{uint32_t pointerCheck; uint32_t tail;
uint32_t head;}`. -/
structure addr_t where
  pointerCheck : Nat
  tail : Nat
  head : Nat
  deriving DecidableEq, Repr

/-- `sizeof(_pointers)`: three `uint32_t` without padding. -/
def sizeofPointers : Nat := 12

/-- Byte `i` (little endian) of a `uint32_t`. -/
def le32 (x : Nat) (i : Nat) : byte := Fin.ofNat (x / 256 ^ i)

/-- The `uint32_t` stored little endian at offset `o` of a buffer. -/
def u32le (b : Buffer) (o : Nat) : Nat :=
  (b o).val + 256 * (b (o + 1)).val + 65536 * (b (o + 2)).val + 16777216 * (b (o + 3)).val

/-- The view `(uint8_t*)&_pointers` of the struct: the twelve bytes of its three fields
in declaration order, little endian. -/
def addr_t.toBytes (a : addr_t) : Buffer := fun i =>
  if i < 4 then le32 a.pointerCheck i
  else if i < 8 then le32 a.tail (i - 4)
  else if i < 12 then le32 a.head (i - 8)
  else 0

/-- The struct read back from its twelve bytes. -/
def addr_t.ofBytes (b : Buffer) : addr_t :=
  { pointerCheck := u32le b 0, tail := u32le b 4, head := u32le b 8 }

/-- Data members of `class Ring_FramArray` (the reference `_f` is passed to the methods). -/
structure Ring_FramArray where
  _numberOfElements : Nat
  _sizeOfElement : Nat
  _startAddress : Nat
  _tailAddress : Nat
  _headAddress : Nat
  _ringEndAddress : Nat
  _pointers : addr_t
  _pointersAddress : Nat
  deriving DecidableEq, Repr

/-- The conversion `(int)a` of a `uint32_t` (two's complement). -/
def toInt32 (a : Nat) : Int :=
  if a % 2 ^ 32 < 2 ^ 31 then ((a % 2 ^ 32 : Nat) : Int) else ((a % 2 ^ 32 : Nat) : Int) - 2 ^ 32

/-- The C++ expression `(int)a % (int)b` evaluated by `myModulo` has a defined value:
the divisor `(int)b` is not 0 and the operation is not `INT_MIN % -1` (whose quotient
overflows). At the other operands the behaviour of the program is undefined (on the
target the division traps). -/
def Ring_FramArray.myModuloDefined (a b : Nat) : Bool :=
  decide (toInt32 b ≠ 0) && !(decide (toInt32 a = -2 ^ 31) && decide (toInt32 b = -1))

/-- `uint32_t Ring_FramArray::myModulo(uint32_t a, uint32_t b)`: `x = (int)a % (int)b`
with the truncating remainder of C++, returned as is when non-negative and as
`(uint32_t)(x + b)` otherwise. This is the value of the call where `myModuloDefined a b`
holds. Where it does not hold (`(int)b = 0`, or `INT_MIN % -1`) the C++ remainder is
undefined and the program produces no value; the function is then the `Int.tmod`
expression all the same, and `stepChecked` is the semantics of a method call that
produces no state when the call evaluates `myModulo` at such operands. -/
def Ring_FramArray.myModulo (a b : Nat) : Nat :=
  let x : Int := Int.tmod (toInt32 a) (toInt32 b)
  if x ≥ 0 then x.toNat else ((x + (b : Int)) % 2 ^ 32).toNat

/-- Constructor `Ring_FramArray::Ring_FramArray(f, numberOfElements, sizeOfElement, result)`.
The members the constructor does not assign keep the indeterminate values of the raw
object `uninit`. Returns the ring object, the device object and `result`. -/
def Ring_FramArray.new (uninit : Ring_FramArray) (f : FramI2C)
    (numberOfElements sizeOfElement : Nat) : Ring_FramArray × FramI2C × framResult :=
  if sizeOfElement < f.getMaxBufferSize then
    let _numberOfElements := (numberOfElements + 1) % 2 ^ 32
    let r := f.allocateMemory
      (((_numberOfElements * sizeOfElement) % 2 ^ 32 + sizeofPointers) % 2 ^ 32)
    ({ uninit with
        _numberOfElements := _numberOfElements
        _sizeOfElement := sizeOfElement
        _startAddress := r.1
        _ringEndAddress := r.2.2.getNextFreeByte }, r.2.2, r.2.1)
  else
    ({ uninit with
        _numberOfElements := numberOfElements
        _sizeOfElement := sizeOfElement
        _startAddress := 0 }, f, framArrayElementTooBig)

/-- `void Ring_FramArray::setPointers()`. -/
def Ring_FramArray.setPointers (r : Ring_FramArray) (f : FramI2C) (w : Chip) :
    Ring_FramArray × Chip :=
  if ¬ (r._startAddress = 0) then
    let _pointers : addr_t :=
      { head := r._headAddress
        tail := r._tailAddress
        pointerCheck := ((r._pointersAddress + r._tailAddress) % 2 ^ 32 + r._headAddress) % 2 ^ 32 }
    ({ r with _pointers := _pointers },
     (f.write w r._pointersAddress sizeofPointers _pointers.toBytes).2)
  else
    (r, w)

/-- `void Ring_FramArray::getPointers()`: presets `tail = 99`, `head = 100` and reads
twelve bytes over the struct; the result code is dropped. -/
def Ring_FramArray.getPointers (r : Ring_FramArray) (f : FramI2C) (w : Chip) :
    Ring_FramArray × Chip :=
  let preset : addr_t := { r._pointers with tail := 99, head := 100 }
  let rd := f.read w r._pointersAddress sizeofPointers preset.toBytes
  ({ r with _pointers := addr_t.ofBytes rd.2.2 }, rd.2.1)

/-- `void Ring_FramArray::initialize()` (the `Wire.begin()` bus start-up is outside the
model). -/
def Ring_FramArray.initialize (r : Ring_FramArray) (f : FramI2C) (w : Chip) :
    Ring_FramArray × Chip :=
  let r1 := { r with _pointersAddress := (r._ringEndAddress + (2 ^ 32 - sizeofPointers)) % 2 ^ 32 }
  let g := r1.getPointers f w
  let r2 := g.1
  let check := ((r2._pointersAddress + r2._pointers.tail) % 2 ^ 32 + r2._pointers.head) % 2 ^ 32
  let r3 :=
    if check = r2._pointers.pointerCheck then
      { r2 with _tailAddress := r2._pointers.tail, _headAddress := r2._pointers.head }
    else
      { r2 with _tailAddress := 0, _headAddress := 0 }
  r3.setPointers f g.2

/-- `bool Ring_FramArray::isEmpty()`. -/
def Ring_FramArray.isEmpty (r : Ring_FramArray) : Bool :=
  if r._tailAddress = r._headAddress then true else false

/-- `bool Ring_FramArray::isFull()`. -/
def Ring_FramArray.isFull (r : Ring_FramArray) : Bool :=
  let inc := Ring_FramArray.myModulo ((r._headAddress + 1) % 2 ^ 32) r._numberOfElements
  if inc = r._tailAddress then true else false

/-- `bool Ring_FramArray::pop(byte *buffer)`. Returns the C++ result, the ring, the chip
and the caller's buffer. -/
def Ring_FramArray.pop (r : Ring_FramArray) (f : FramI2C) (w : Chip) (buffer : Buffer) :
    Bool × Ring_FramArray × Chip × Buffer :=
  if !r.isEmpty && !(decide (r._startAddress = 0)) then
    let rd := f.read w
      ((r._startAddress + (r._tailAddress * r._sizeOfElement) % 2 ^ 32) % 2 ^ 32)
      r._sizeOfElement buffer
    let r1 := { r with _tailAddress := (r._tailAddress + 1) % 2 ^ 32 }
    let r2 := { r1 with
      _tailAddress := Ring_FramArray.myModulo r1._tailAddress r1._numberOfElements }
    let s := r2.setPointers f rd.2.1
    (true, s.1, s.2, rd.2.2)
  else
    (false, r, w, buffer)

/-- `void Ring_FramArray::push(byte *buffer)`. -/
def Ring_FramArray.push (r : Ring_FramArray) (f : FramI2C) (w : Chip) (buffer : Buffer) :
    Ring_FramArray × Chip :=
  if !r.isFull then
    let wr := f.write w
      ((r._startAddress + (r._headAddress * r._sizeOfElement) % 2 ^ 32) % 2 ^ 32)
      r._sizeOfElement buffer
    let r1 := { r with _headAddress := (r._headAddress + 1) % 2 ^ 32 }
    let r2 := { r1 with
      _headAddress := Ring_FramArray.myModulo r1._headAddress r1._numberOfElements }
    r2.setPointers f wr.2
  else
    let wr := f.write w
      ((r._startAddress + (r._headAddress * r._sizeOfElement) % 2 ^ 32) % 2 ^ 32)
      r._sizeOfElement buffer
    let r1 := { r with
      _headAddress := (r._headAddress + 1) % 2 ^ 32
      _tailAddress := (r._tailAddress + 1) % 2 ^ 32 }
    let r2 := { r1 with
      _tailAddress := Ring_FramArray.myModulo r1._tailAddress r1._numberOfElements }
    let r3 := { r2 with
      _headAddress := Ring_FramArray.myModulo r2._headAddress r2._numberOfElements }
    r3.setPointers f wr.2

/-- A run of `push` calls, one per element, oldest first. -/
def Ring_FramArray.pushAll (f : FramI2C) : List Buffer → Ring_FramArray × Chip →
    Ring_FramArray × Chip
  | [], s => s
  | e :: es, s => Ring_FramArray.pushAll f es (s.1.push f s.2 e)

/-- A run of `k` `pop` calls, each into a copy of the caller buffer `out`. Returns the
results `(returned flag, buffer after the call)` in call order and the final state. -/
def Ring_FramArray.popN (f : FramI2C) (out : Buffer) : Nat → Ring_FramArray × Chip →
    List (Bool × Buffer) × (Ring_FramArray × Chip)
  | 0, s => ([], s)
  | k + 1, s =>
    let r := s.1.pop f s.2 out
    let tl := Ring_FramArray.popN f out k (r.2.1, r.2.2.1)
    ((r.1, r.2.2.2) :: tl.1, tl.2)

/-- Layout of a ring whose region was really allocated inside the device: at least two
physical slots of 1..127 bytes starting at or above `_bottomAddress`, followed by the
twelve-byte trailer at `_pointersAddress`, all at or below `_topAddress`. -/
structure RingGeom (f : FramI2C) (r : Ring_FramArray) : Prop where
  hne : 2 ≤ r._numberOfElements
  hsize : 1 ≤ r._sizeOfElement ∧ r._sizeOfElement ≤ 127
  hbot : 1 ≤ f._bottomAddress
  hstart : f._bottomAddress ≤ r._startAddress
  hptr : r._pointersAddress = r._startAddress + r._numberOfElements * r._sizeOfElement
  hend : r._pointersAddress + 12 ≤ f._topAddress + 1
  htop : f._topAddress < 2 ^ 16

/-- Number of queued elements for in-range indices: `(head - tail) mod physicalSlotCount`. -/
def occupancy (tail head numberOfElements : Nat) : Nat :=
  if tail ≤ head then head - tail else head + numberOfElements - tail

/-- Physical slot of the `j`-th queued element: `(tail + j) mod physicalSlotCount`. -/
def slotOf (tail j numberOfElements : Nat) : Nat :=
  if tail + j < numberOfElements then tail + j else tail + j - numberOfElements

/-- The ring `r` over chip `w` holds exactly the queue `q`, oldest element first: the
occupancy is `q.length` and the `j`-th element is stored, byte for byte, in the slot
`j` places after the tail. -/
def Rep (r : Ring_FramArray) (w : Chip) (q : List Buffer) : Prop :=
  q.length = occupancy r._tailAddress r._headAddress r._numberOfElements ∧
  ∀ j b, q[j]? = some b → ∀ i, i < r._sizeOfElement →
    w.mem (r._startAddress + slotOf r._tailAddress j r._numberOfElements * r._sizeOfElement + i)
      = b i

/-- The queue after a push onto a ring with `numberOfElements` physical slots: the new
element is appended, and the oldest one is dropped when the ring was full. -/
def qpush (numberOfElements : Nat) (q : List Buffer) (e : Buffer) : List Buffer :=
  if q.length + 1 < numberOfElements then q ++ [e] else q.drop 1 ++ [e]

/-- An index advanced by one modulo `numberOfElements`, for an in-range index. -/
def nextIndex (x numberOfElements : Nat) : Nat :=
  if x + 1 = numberOfElements then 0 else x + 1

/-- Representation invariant of an allocated ring: layout, in-range indices and the
abstract queue it holds. -/
structure RingInv (f : FramI2C) (r : Ring_FramArray) (w : Chip) (q : List Buffer) : Prop where
  geom : RingGeom f r
  htail : r._tailAddress < r._numberOfElements
  hhead : r._headAddress < r._numberOfElements
  rep : Rep r w q

/-- The checksum the code stores with a pair of indices:
`_pointersAddress + tail + head` in 32-bit arithmetic. -/
def pointerCheckOf (pointersAddress tail head : Nat) : Nat :=
  ((pointersAddress + tail) % 2 ^ 32 + head) % 2 ^ 32

/-- The twelve chip bytes at `_pointersAddress`, decoded as an `addr_t`. -/
def storedPointers (w : Chip) (pointersAddress : Nat) : addr_t :=
  addr_t.ofBytes (fun i => w.mem (pointersAddress + i))

/-- The trailer on the chip holds the in-memory indices of `r` with their checksum. -/
def Synced (r : Ring_FramArray) (w : Chip) : Prop :=
  ∀ i, i < 12 → w.mem (r._pointersAddress + i) =
    (addr_t.toBytes
      { pointerCheck := pointerCheckOf r._pointersAddress r._tailAddress r._headAddress
        tail := r._tailAddress, head := r._headAddress }) i

/-- Construction of a ring on the device object `f` followed by `initialize` over the
chip `w`: the start-up sequence of a sketch. Returns the ring and the chip. -/
def Ring_FramArray.boot (uninit : Ring_FramArray) (f : FramI2C)
    (numberOfElements sizeOfElement : Nat) (w : Chip) : Ring_FramArray × Chip :=
  Ring_FramArray.initialize (Ring_FramArray.new uninit f numberOfElements sizeOfElement).1
    (Ring_FramArray.new uninit f numberOfElements sizeOfElement).2.1 w

/-- A chip whose memory is all zero, with no transaction issued yet. -/
def zeroChip : Chip := ⟨fun _ => 0, []⟩

/-- A raw ring object whose members are all zero. -/
def rawRing : Ring_FramArray :=
  { _numberOfElements := 0, _sizeOfElement := 0, _startAddress := 0, _tailAddress := 0,
    _headAddress := 0, _ringEndAddress := 0, _pointers := ⟨0, 0, 0⟩, _pointersAddress := 0 }

/-- The element `{v}`: one payload byte `v` followed by zero padding. -/
def elem (v : Nat) : Buffer := fun i => if i = 0 then Fin.ofNat v else 0

/-- `bool Ring_FramArray::popFirstElement(byte *buffer)`. -/
def Ring_FramArray.popFirstElement (r : Ring_FramArray) (f : FramI2C) (w : Chip)
    (buffer : Buffer) : Bool × Ring_FramArray × Chip × Buffer :=
  if !r.isEmpty && !(decide (r._startAddress = 0)) then
    let rd := f.read w
      ((r._startAddress + (r._tailAddress * r._sizeOfElement) % 2 ^ 32) % 2 ^ 32)
      r._sizeOfElement buffer
    let r1 := { r with _tailAddress := (r._tailAddress + 1) % 2 ^ 32 }
    let r2 := { r1 with
      _tailAddress := Ring_FramArray.myModulo r1._tailAddress r1._numberOfElements }
    let s := r2.setPointers f rd.2.1
    (true, s.1, s.2, rd.2.2)
  else
    (false, r, w, buffer)

/-- `bool Ring_FramArray::popLastElement(byte *buffer)`; `_headAddress - 1` and
`_headAddress--` wrap modulo `2^32`. -/
def Ring_FramArray.popLastElement (r : Ring_FramArray) (f : FramI2C) (w : Chip)
    (buffer : Buffer) : Bool × Ring_FramArray × Chip × Buffer :=
  if !r.isEmpty && !(decide (r._startAddress = 0)) then
    let rd := f.read w
      ((r._startAddress +
        (Ring_FramArray.myModulo ((r._headAddress + (2 ^ 32 - 1)) % 2 ^ 32) r._numberOfElements
          * r._sizeOfElement) % 2 ^ 32) % 2 ^ 32)
      r._sizeOfElement buffer
    let r1 := { r with _headAddress := (r._headAddress + (2 ^ 32 - 1)) % 2 ^ 32 }
    let r2 := { r1 with
      _headAddress := Ring_FramArray.myModulo r1._headAddress r1._numberOfElements }
    let s := r2.setPointers f rd.2.1
    (true, s.1, s.2, rd.2.2)
  else
    (false, r, w, buffer)

/-- `void Ring_FramArray::pushElement(byte *buffer)`. -/
def Ring_FramArray.pushElement (r : Ring_FramArray) (f : FramI2C) (w : Chip)
    (buffer : Buffer) : Ring_FramArray × Chip :=
  if !r.isFull then
    let wr := f.write w
      ((r._startAddress + (r._headAddress * r._sizeOfElement) % 2 ^ 32) % 2 ^ 32)
      r._sizeOfElement buffer
    let r1 := { r with _headAddress := (r._headAddress + 1) % 2 ^ 32 }
    let r2 := { r1 with
      _headAddress := Ring_FramArray.myModulo r1._headAddress r1._numberOfElements }
    r2.setPointers f wr.2
  else
    let wr := f.write w
      ((r._startAddress + (r._headAddress * r._sizeOfElement) % 2 ^ 32) % 2 ^ 32)
      r._sizeOfElement buffer
    let r1 := { r with
      _headAddress := (r._headAddress + 1) % 2 ^ 32
      _tailAddress := (r._tailAddress + 1) % 2 ^ 32 }
    let r2 := { r1 with
      _tailAddress := Ring_FramArray.myModulo r1._tailAddress r1._numberOfElements }
    let r3 := { r2 with
      _headAddress := Ring_FramArray.myModulo r2._headAddress r2._numberOfElements }
    r3.setPointers f wr.2

/-- `bool Ring_FramArray::peekFirstElement(byte *buffer)`. -/
def Ring_FramArray.peekFirstElement (r : Ring_FramArray) (f : FramI2C) (w : Chip)
    (buffer : Buffer) : Bool × Chip × Buffer :=
  if !r.isEmpty && !(decide (r._startAddress = 0)) then
    let rd := f.read w
      ((r._startAddress + (r._tailAddress * r._sizeOfElement) % 2 ^ 32) % 2 ^ 32)
      r._sizeOfElement buffer
    (true, rd.2.1, rd.2.2)
  else
    (false, w, buffer)

/-- `bool Ring_FramArray::peekLastElement(byte *buffer)`. -/
def Ring_FramArray.peekLastElement (r : Ring_FramArray) (f : FramI2C) (w : Chip)
    (buffer : Buffer) : Bool × Chip × Buffer :=
  if !r.isEmpty && !(decide (r._startAddress = 0)) then
    let rd := f.read w
      ((r._startAddress +
        (Ring_FramArray.myModulo ((r._headAddress + (2 ^ 32 - 1)) % 2 ^ 32) r._numberOfElements
          * r._sizeOfElement) % 2 ^ 32) % 2 ^ 32)
      r._sizeOfElement buffer
    (true, rd.2.1, rd.2.2)
  else
    (false, w, buffer)

/-- The loop `while (i < _numberOfElements)` of `clearArray`, on the pair `(i, chip)`; the
result of each `write` is dropped. -/
def Ring_FramArray.clearLoop (r : Ring_FramArray) (f : FramI2C) : Nat → Nat × Chip → Nat × Chip
  | 0, s => s
  | fuel + 1, s =>
    if s.1 < r._numberOfElements then
      Ring_FramArray.clearLoop r f fuel
        ((s.1 + 1) % 2 ^ 32,
         (f.write s.2 ((r._startAddress + (s.1 * r._sizeOfElement) % 2 ^ 32) % 2 ^ 32)
            r._sizeOfElement (fun _ => 0)).2)
    else s

/-- `void Ring_FramArray::clearArray()`. The loop runs at most `_numberOfElements` times,
which is the fuel passed. -/
def Ring_FramArray.clearArray (r : Ring_FramArray) (f : FramI2C) (w : Chip) :
    Ring_FramArray × Chip :=
  if ¬ (r._startAddress = 0) then
    let s := Ring_FramArray.clearLoop r f r._numberOfElements (0, w)
    Ring_FramArray.setPointers { r with _tailAddress := 0, _headAddress := 0 } f s.2
  else
    (r, w)

/-- `void Ring_FramArray::getIndices(uint32_t *startAdd, uint32_t *endAdd)`. -/
def Ring_FramArray.getIndices (r : Ring_FramArray) : Nat × Nat :=
  (r._tailAddress, r._headAddress)

/-- `bool Ring_FramArray::setIndices(uint32_t startAddress, uint32_t endAddress)`. -/
def Ring_FramArray.setIndices (r : Ring_FramArray) (f : FramI2C) (w : Chip)
    (startAddress endAddress : Nat) : Bool × Ring_FramArray × Chip :=
  if ((startAddress ≥ 0) ∧ (startAddress < r._numberOfElements)) ∧
      ((endAddress ≥ 0) ∧ (endAddress < r._numberOfElements)) then
    let s := Ring_FramArray.setPointers
      { r with _tailAddress := startAddress, _headAddress := endAddress } f w
    (true, s.1, s.2)
  else
    (false, r, w)

/-- One `write` request issued by `format`, with its result (ghost record). -/
structure WriteCall where
  startAddress : Nat
  numberOfBytes : Nat
  result : framResult
  deriving DecidableEq, Repr

/-- State of the locals of `format` around its `while` loop, with the ghost list of the
`write` requests issued so far (oldest first). -/
structure FormatState where
  i : Nat
  result : framResult
  w : Chip
  writes : List WriteCall

/-- The loop `while ((i < _topAddress) && (result == framOK))` of `FramI2C::format`. -/
def FramI2C.formatLoop (f : FramI2C) (buffer : Buffer) : Nat → FormatState → FormatState
  | 0, s => s
  | fuel + 1, s =>
    if s.i < f._topAddress ∧ s.result = framOK then
      FramI2C.formatLoop f buffer fuel
        { i := (s.i + _maxBufferSize) % 2 ^ 32
          result := (f.write s.w s.i _maxBufferSize buffer).1
          w := (f.write s.w s.i _maxBufferSize buffer).2
          writes := s.writes ++
            [{ startAddress := s.i, numberOfBytes := _maxBufferSize,
               result := (f.write s.w s.i _maxBufferSize buffer).1 }] }
    else s

/-- `framResult FramI2C::format()`, returned with the chip and the ghost list of `write`
requests. The buffer is the zero-filled `byte buffer[_maxBufferSize]`; the loop adds 128
to `i` each round, so `_topAddress` rounds of fuel suffice. -/
def FramI2C.format (f : FramI2C) (w : Chip) : framResult × Chip × List WriteCall :=
  let s := FramI2C.formatLoop f (fun _ => 0) f._topAddress
    { i := f._bottomAddress, result := framOK, w := w, writes := [] }
  (s.result, s.w, s.writes)

/-- A call of one of the state-changing methods of `Ring_FramArray`, with its arguments
(for the pops, the caller's buffer). -/
inductive RingOp where
  | init
  | push (buffer : Buffer)
  | pushElement (buffer : Buffer)
  | pop (buffer : Buffer)
  | popFirstElement (buffer : Buffer)
  | popLastElement (buffer : Buffer)
  | clearArray
  | setIndices (startAddress endAddress : Nat)

/-- The effect of one method call on the ring object and the chip. -/
def Ring_FramArray.step (f : FramI2C) (s : Ring_FramArray × Chip) : RingOp →
    Ring_FramArray × Chip
  | .init => Ring_FramArray.initialize s.1 f s.2
  | .push b => s.1.push f s.2 b
  | .pushElement b => s.1.pushElement f s.2 b
  | .pop b => ((s.1.pop f s.2 b).2.1, (s.1.pop f s.2 b).2.2.1)
  | .popFirstElement b => ((s.1.popFirstElement f s.2 b).2.1, (s.1.popFirstElement f s.2 b).2.2.1)
  | .popLastElement b => ((s.1.popLastElement f s.2 b).2.1, (s.1.popLastElement f s.2 b).2.2.1)
  | .clearArray => s.1.clearArray f s.2
  | .setIndices a b => ((s.1.setIndices f s.2 a b).2.1, (s.1.setIndices f s.2 a b).2.2)

/-- A sequence of method calls, oldest first. -/
def Ring_FramArray.run (f : FramI2C) : List RingOp → Ring_FramArray × Chip →
    Ring_FramArray × Chip
  | [], s => s
  | op :: ops, s => Ring_FramArray.run f ops (Ring_FramArray.step f s op)

/-- The method calls other than `initialize`. -/
def RingOp.isInit : RingOp → Bool
  | .init => true
  | _ => false

/-- The transport calls of one accepted `read`/`write` in the words of the
specification: `n / 30` calls of 30 bytes at `s, s+30, ...` with buffer offsets
`0, 30, ...`, then one call of `n % 30` bytes at `s + 30*(n/30)` with the same buffer
offset when `n % 30 > 0`. `mk` is the kind of call (read request or write). -/
def chunkCalls (mk : Nat → Nat → Nat → WireCall) (s n : Nat) : List WireCall :=
  (List.range (n / 30)).map (fun k => mk (s + 30 * k) 30 (30 * k)) ++
    (if n % 30 > 0 then [mk (s + 30 * (n / 30)) (n % 30) (30 * (n / 30))] else [])

/-- The device addresses a transport write touches lie in `[lo, hi)` (read requests
touch none). -/
def WireCall.inside (lo hi : Nat) : WireCall → Prop
  | .requestFrom _ _ _ => True
  | .transmit a n _ => lo ≤ a ∧ a + n ≤ hi

/-- From chip `w` to chip `w'` only bytes in `[lo, hi)` were changed and every transport
write issued in between lies in `[lo, hi)`. -/
def Within (lo hi : Nat) (w w' : Chip) : Prop :=
  (∀ a, ¬ (lo ≤ a ∧ a < hi) → w'.mem a = w.mem a) ∧
  ∃ new, w'.calls = w.calls ++ new ∧ ∀ c ∈ new, WireCall.inside lo hi c

/-- The layout members of a ring object: slot count, element size, start address, end
address and trailer address. -/
def Ring_FramArray.layout (r : Ring_FramArray) : Nat × Nat × Nat × Nat × Nat :=
  (r._numberOfElements, r._sizeOfElement, r._startAddress, r._ringEndAddress,
   r._pointersAddress)

/-- The ring object has `n` physical slots and both indices are slot indices. -/
def IdxOK (n : Nat) (r : Ring_FramArray) : Prop :=
  r._numberOfElements = n ∧ r._tailAddress < n ∧ r._headAddress < n

/-- An index moved back by one modulo `numberOfElements`, for an in-range index. -/
def prevIndex (x numberOfElements : Nat) : Nat :=
  if x = 0 then numberOfElements - 1 else x - 1

/-- The calls `push`, `pushElement`, `pop`, `popFirstElement` and `popLastElement`. -/
def RingOp.isQueueOp : RingOp → Bool
  | .push _ => true
  | .pushElement _ => true
  | .pop _ => true
  | .popFirstElement _ => true
  | .popLastElement _ => true
  | _ => false

/-- The struct `_pointers` as `initialize` has it after its `getPointers()` call: the
twelve bytes read at `_ringEndAddress - sizeof(_pointers)`, or the preset values where the
read is rejected. -/
def Ring_FramArray.readTrailer (r : Ring_FramArray) (f : FramI2C) (w : Chip) : addr_t :=
  (Ring_FramArray.getPointers
    { r with _pointersAddress := (r._ringEndAddress + (2 ^ 32 - sizeofPointers)) % 2 ^ 32 }
    f w).1._pointers

/-- A chip that is zero everywhere except for the twelve bytes of the trailer
`{pointerCheck, tail, head}` stored at address `pointersAddress`. -/
def trailerChip (pointersAddress pointerCheck tail head : Nat) : Chip :=
  ⟨fun a => if pointersAddress ≤ a ∧ a < pointersAddress + 12 then
      (addr_t.toBytes { pointerCheck := pointerCheck, tail := tail, head := head })
        (a - pointersAddress)
    else 0, []⟩

/-- The ring object and the chip reached from the construction of a ring on the device
object `f` over the chip `w` by the method calls `ops` (oldest first). The methods run
against the device object as the constructor left it. -/
def Ring_FramArray.reach (uninit : Ring_FramArray) (f : FramI2C)
    (numberOfElements sizeOfElement : Nat) (w : Chip) (ops : List RingOp) :
    Ring_FramArray × Chip :=
  Ring_FramArray.run (Ring_FramArray.new uninit f numberOfElements sizeOfElement).2.1 ops
    ((Ring_FramArray.new uninit f numberOfElements sizeOfElement).1, w)

/-- The elements queued in the ring, oldest first, as they are stored on the chip: the
`j`-th one is the content of the slot `j` places after the tail. -/
def Ring_FramArray.contents (r : Ring_FramArray) (w : Chip) : List Buffer :=
  (List.range (occupancy r._tailAddress r._headAddress r._numberOfElements)).map
    (fun j i => w.mem (r._startAddress
      + slotOf r._tailAddress j r._numberOfElements * r._sizeOfElement + i))

/-- From chip `w` to chip `w'` only bytes in `[lo, hi)` were changed and the transport
calls issued in between are exactly `calls`. -/
def Effect (lo hi : Nat) (calls : List WireCall) (w w' : Chip) : Prop :=
  (∀ a, ¬ (lo ≤ a ∧ a < hi) → w'.mem a = w.mem a) ∧ w'.calls = w.calls ++ calls

/-- The transport calls that a method call on a ring is expected to issue, namely those
it issues when the device accepts every request it makes: an element request moves
`elementSize` bytes at `regionStart + slot * elementSize`, a trailer request moves 12
bytes at the trailer address `regionStart + (elementCount + 1) * elementSize`; each
request is chunked as in `chunkCalls`. `c` is `regionStart`, `N` is `elementCount`,
`S` is `elementSize`, and `tail`, `head` are the indices before the call. -/
def expectedCalls (c N S tail head : Nat) : RingOp → List WireCall
  | .init =>
    chunkCalls WireCall.requestFrom (c + (N + 1) * S) 12 ++
      chunkCalls WireCall.transmit (c + (N + 1) * S) 12
  | .push _ =>
    chunkCalls WireCall.transmit (c + head * S) S ++
      chunkCalls WireCall.transmit (c + (N + 1) * S) 12
  | .pushElement _ =>
    chunkCalls WireCall.transmit (c + head * S) S ++
      chunkCalls WireCall.transmit (c + (N + 1) * S) 12
  | .pop _ =>
    if tail = head then []
    else chunkCalls WireCall.requestFrom (c + tail * S) S ++
      chunkCalls WireCall.transmit (c + (N + 1) * S) 12
  | .popFirstElement _ =>
    if tail = head then []
    else chunkCalls WireCall.requestFrom (c + tail * S) S ++
      chunkCalls WireCall.transmit (c + (N + 1) * S) 12
  | .popLastElement _ =>
    if tail = head then []
    else chunkCalls WireCall.requestFrom (c + prevIndex head (N + 1) * S) S ++
      chunkCalls WireCall.transmit (c + (N + 1) * S) 12
  | .clearArray =>
    ((List.range (N + 1)).map (fun k => chunkCalls WireCall.transmit (c + k * S) S)).flatten ++
      chunkCalls WireCall.transmit (c + (N + 1) * S) 12
  | .setIndices a b =>
    if a < N + 1 ∧ b < N + 1 then chunkCalls WireCall.transmit (c + (N + 1) * S) 12 else []

/-- The operand pairs `(a, b)` of the `myModulo` calls that `push` / `pushElement` make
on the ring object `r`, in call order: the call inside `isFull()`, then the calls of the
branch taken. -/
def Ring_FramArray.pushModuloCalls (r : Ring_FramArray) : List (Nat × Nat) :=
  ((r._headAddress + 1) % 2 ^ 32, r._numberOfElements) ::
    (if !r.isFull then
      [((r._headAddress + 1) % 2 ^ 32, r._numberOfElements)]
    else
      [((r._tailAddress + 1) % 2 ^ 32, r._numberOfElements),
       ((r._headAddress + 1) % 2 ^ 32, r._numberOfElements)])

/-- The operand pairs `(a, b)` of the `myModulo` calls that a method call makes on the
ring object `r`, in call order. `initialize`, `clearArray`, `setIndices` and `isEmpty()`
call `myModulo` nowhere; `pop` / `popFirstElement` call it once and `popLastElement`
twice, inside their guard. -/
def Ring_FramArray.moduloCalls (r : Ring_FramArray) : RingOp → List (Nat × Nat)
  | .init => []
  | .push _ => r.pushModuloCalls
  | .pushElement _ => r.pushModuloCalls
  | .pop _ =>
    if !r.isEmpty && !(decide (r._startAddress = 0)) then
      [((r._tailAddress + 1) % 2 ^ 32, r._numberOfElements)]
    else []
  | .popFirstElement _ =>
    if !r.isEmpty && !(decide (r._startAddress = 0)) then
      [((r._tailAddress + 1) % 2 ^ 32, r._numberOfElements)]
    else []
  | .popLastElement _ =>
    if !r.isEmpty && !(decide (r._startAddress = 0)) then
      [((r._headAddress + (2 ^ 32 - 1)) % 2 ^ 32, r._numberOfElements),
       ((r._headAddress + (2 ^ 32 - 1)) % 2 ^ 32, r._numberOfElements)]
    else []
  | .clearArray => []
  | .setIndices _ _ => []

/-- One method call with the undefined behaviour of `myModulo` made explicit: `none` when
the call evaluates `(int)a % (int)b` at operands where it is undefined, otherwise the
state `step` gives. -/
def Ring_FramArray.stepChecked (f : FramI2C) (s : Ring_FramArray × Chip) (op : RingOp) :
    Option (Ring_FramArray × Chip) :=
  if (Ring_FramArray.moduloCalls s.1 op).all
      (fun ab => Ring_FramArray.myModuloDefined ab.1 ab.2) then
    some (Ring_FramArray.step f s op)
  else none

/-- A sequence of method calls, oldest first, with the undefined behaviour of `myModulo`
made explicit: `none` as soon as one call runs into it. -/
def Ring_FramArray.runChecked (f : FramI2C) : List RingOp → Ring_FramArray × Chip →
    Option (Ring_FramArray × Chip)
  | [], s => some s
  | op :: ops, s =>
    match Ring_FramArray.stepChecked f s op with
    | some s1 => Ring_FramArray.runChecked f ops s1
    | none => none

/-! ## Theorems -/

theorem loadBytes_apply (mem : Nat → byte) (framAddr buf : Nat) (n : Nat) (buffer : Buffer)
    (j : Nat) :
    loadBytes mem framAddr buf n buffer j =
      if buf ≤ j ∧ j < buf + n then mem (framAddr + (j - buf)) else buffer j := by
  induction n with
  | zero =>
    rw [if_neg (by omega)]
    rfl
  | succ i ih =>
    simp only [loadBytes, ih]
    split_ifs <;> first | (exfalso; omega) | (apply congrArg; omega)

theorem storeBytes_apply (mem : Nat → byte) (framAddr : Nat) (buffer : Buffer) (buf : Nat)
    (n : Nat) (a : Nat) :
    storeBytes mem framAddr buffer buf n a =
      if framAddr ≤ a ∧ a < framAddr + n then buffer (buf + (a - framAddr)) else mem a := by
  induction n with
  | zero =>
    rw [if_neg (by omega)]
    rfl
  | succ i ih =>
    simp only [storeBytes, ih]
    split_ifs <;> first | (exfalso; omega) | (apply congrArg; omega)

theorem writeLoop_spec (fuel : Nat) : ∀ (s : LoopState), s.numberOfBytes / 30 ≤ fuel →
    s.address + s.numberOfBytes ≤ 2 ^ 16 →
    (FramI2C.writeLoop fuel s).numberOfBytes = s.numberOfBytes % 30 ∧
    (FramI2C.writeLoop fuel s).address = s.address + 30 * (s.numberOfBytes / 30) ∧
    (FramI2C.writeLoop fuel s).buf = s.buf + 30 * (s.numberOfBytes / 30) ∧
    (FramI2C.writeLoop fuel s).buffer = s.buffer ∧
    ∀ a, (FramI2C.writeLoop fuel s).w.mem a =
      if s.address ≤ a ∧ a < s.address + 30 * (s.numberOfBytes / 30)
      then s.buffer (s.buf + (a - s.address)) else s.w.mem a := by
  induction fuel with
  | zero =>
    intro s hf ha
    have hz : FramI2C.writeLoop 0 s = s := rfl
    rw [hz]
    refine ⟨by omega, by omega, by omega, rfl, ?_⟩
    intro a
    rw [if_neg (by omega)]
  | succ fuel ih =>
    intro s hf ha
    unfold FramI2C.writeLoop
    by_cases hge : s.numberOfBytes ≥ 30
    · rw [if_pos hge]
      have hm : (s.address + 30) % 2 ^ 32 = s.address + 30 := by omega
      have ih1 := ih
        { w := FramI2C._writeMemory s.w s.address 30 s.buffer s.buf
          address := (s.address + 30) % 2 ^ 32
          numberOfBytes := s.numberOfBytes - 30
          buffer := s.buffer
          buf := s.buf + 30 } (by simp only; omega) (by simp only; omega)
      simp only at ih1
      obtain ⟨e1, e2, e3, e4, e5⟩ := ih1
      refine ⟨by rw [e1]; omega, by rw [e2]; omega, by rw [e3]; omega, e4, ?_⟩
      intro a
      rw [e5 a]
      simp only [FramI2C._writeMemory, storeBytes_apply]
      have hfa : s.address % 2 ^ 16 = s.address := by omega
      have h30 : 30 % 2 ^ 8 = 30 := by norm_num
      rw [hm, hfa, h30]
      split_ifs <;> first | (exfalso; omega) | (apply congrArg; omega)
    · rw [if_neg hge]
      refine ⟨by omega, by omega, by omega, rfl, ?_⟩
      intro a
      rw [if_neg (by omega)]

theorem readLoop_spec (fuel : Nat) : ∀ (s : LoopState), s.numberOfBytes / 30 ≤ fuel →
    s.address + s.numberOfBytes ≤ 2 ^ 16 →
    (FramI2C.readLoop fuel s).numberOfBytes = s.numberOfBytes % 30 ∧
    (FramI2C.readLoop fuel s).address = s.address + 30 * (s.numberOfBytes / 30) ∧
    (FramI2C.readLoop fuel s).buf = s.buf + 30 * (s.numberOfBytes / 30) ∧
    (FramI2C.readLoop fuel s).w.mem = s.w.mem ∧
    ∀ j, (FramI2C.readLoop fuel s).buffer j =
      if s.buf ≤ j ∧ j < s.buf + 30 * (s.numberOfBytes / 30)
      then s.w.mem (s.address + (j - s.buf)) else s.buffer j := by
  induction fuel with
  | zero =>
    intro s hf ha
    have hz : FramI2C.readLoop 0 s = s := rfl
    rw [hz]
    refine ⟨by omega, by omega, by omega, rfl, ?_⟩
    intro j
    rw [if_neg (by omega)]
  | succ fuel ih =>
    intro s hf ha
    unfold FramI2C.readLoop
    by_cases hge : s.numberOfBytes ≥ 30
    · rw [if_pos hge]
      have hm : (s.address + 30) % 2 ^ 32 = s.address + 30 := by omega
      have ih1 := ih
        { w := (FramI2C._readMemory s.w s.address 30 s.buffer s.buf).1
          address := (s.address + 30) % 2 ^ 32
          numberOfBytes := s.numberOfBytes - 30
          buffer := (FramI2C._readMemory s.w s.address 30 s.buffer s.buf).2
          buf := s.buf + 30 } (by simp only; omega) (by simp only; omega)
      simp only at ih1
      obtain ⟨e1, e2, e3, e4, e5⟩ := ih1
      refine ⟨by rw [e1]; omega, by rw [e2]; omega, by rw [e3]; omega, e4, ?_⟩
      intro j
      rw [e5 j]
      simp only [FramI2C._readMemory, loadBytes_apply]
      have hfa : s.address % 2 ^ 16 = s.address := by omega
      have h30 : 30 % 2 ^ 8 = 30 := by norm_num
      rw [hm, hfa, h30]
      split_ifs <;> first | (exfalso; omega) | (apply congrArg; omega)
    · rw [if_neg hge]
      refine ⟨by omega, by omega, by omega, rfl, ?_⟩
      intro j
      rw [if_neg (by omega)]


theorem FramI2C.write_valid (f : FramI2C) (w : Chip) (startAddress numberOfBytes : Nat)
    (buffer : Buffer) (hb : f._bottomAddress ≤ startAddress)
    (ht : startAddress + numberOfBytes ≤ f._topAddress + 1) (hn : 1 ≤ numberOfBytes)
    (hm : numberOfBytes ≤ 128) (htop : f._topAddress < 2 ^ 16) :
    (f.write w startAddress numberOfBytes buffer).1 = framOK ∧
    ∀ a, (f.write w startAddress numberOfBytes buffer).2.mem a =
      if startAddress ≤ a ∧ a < startAddress + numberOfBytes
      then buffer (a - startAddress) else w.mem a := by
  have hfin : (startAddress + numberOfBytes + (2 ^ 32 - 1)) % 2 ^ 32
      = startAddress + numberOfBytes - 1 := by omega
  obtain ⟨e1, e2, e3, e4, e5⟩ := writeLoop_spec numberOfBytes
    { w := w, address := startAddress, numberOfBytes := numberOfBytes,
      buffer := buffer, buf := 0 } (by simp only; omega) (by simp only; omega)
  simp only at e1 e2 e3 e4 e5
  unfold FramI2C.write
  rw [if_neg (by omega), if_neg (by simp only [_maxBufferSize]; omega), if_neg (by omega)]
  simp only
  by_cases hr : numberOfBytes % 30 > 0
  · rw [if_pos (by rw [e1]; exact hr)]
    refine ⟨rfl, ?_⟩
    intro a
    simp only [FramI2C._writeMemory, storeBytes_apply]
    rw [e1, e2, e3, e4, e5 a]
    have h1 : (startAddress + 30 * (numberOfBytes / 30)) % 2 ^ 16
        = startAddress + 30 * (numberOfBytes / 30) := by omega
    have h2 : numberOfBytes % 30 % 2 ^ 8 = numberOfBytes % 30 := by omega
    rw [h1, h2]
    split_ifs <;> first | (exfalso; omega) | (apply congrArg; omega)
  · rw [if_neg (by rw [e1]; exact hr)]
    refine ⟨rfl, ?_⟩
    intro a
    simp only
    rw [e5 a]
    split_ifs <;> first | (exfalso; omega) | (apply congrArg; omega)

theorem FramI2C.read_valid (f : FramI2C) (w : Chip) (startAddress numberOfBytes : Nat)
    (buffer : Buffer) (hb : f._bottomAddress ≤ startAddress)
    (ht : startAddress + numberOfBytes ≤ f._topAddress + 1) (hn : 1 ≤ numberOfBytes)
    (hm : numberOfBytes ≤ 128) (htop : f._topAddress < 2 ^ 16) :
    (f.read w startAddress numberOfBytes buffer).1 = framOK ∧
    (f.read w startAddress numberOfBytes buffer).2.1.mem = w.mem ∧
    ∀ j, (f.read w startAddress numberOfBytes buffer).2.2 j =
      if j < numberOfBytes then w.mem (startAddress + j) else buffer j := by
  have hfin : (startAddress + numberOfBytes + (2 ^ 32 - 1)) % 2 ^ 32
      = startAddress + numberOfBytes - 1 := by omega
  obtain ⟨e1, e2, e3, e4, e5⟩ := readLoop_spec numberOfBytes
    { w := w, address := startAddress, numberOfBytes := numberOfBytes,
      buffer := buffer, buf := 0 } (by simp only; omega) (by simp only; omega)
  simp only at e1 e2 e3 e4 e5
  unfold FramI2C.read
  rw [if_neg (by omega), if_neg (by simp only [_maxBufferSize]; omega), if_neg (by omega)]
  simp only
  by_cases hr : numberOfBytes % 30 > 0
  · rw [if_pos (by rw [e1]; exact hr)]
    refine ⟨rfl, e4, ?_⟩
    intro j
    simp only [FramI2C._readMemory, loadBytes_apply]
    rw [e1, e2, e3, e4, e5 j]
    have h1 : (startAddress + 30 * (numberOfBytes / 30)) % 2 ^ 16
        = startAddress + 30 * (numberOfBytes / 30) := by omega
    have h2 : numberOfBytes % 30 % 2 ^ 8 = numberOfBytes % 30 := by omega
    rw [h1, h2]
    split_ifs <;> first | (exfalso; omega) | (apply congrArg; omega)
  · rw [if_neg (by rw [e1]; exact hr)]
    refine ⟨rfl, e4, ?_⟩
    intro j
    simp only
    rw [e5 j]
    split_ifs <;> first | (exfalso; omega) | (apply congrArg; omega)

theorem topAddress_lt (partNumber : framPartNumber) :
    128 < _topAddressForPartNumber partNumber ∧ _topAddressForPartNumber partNumber < 2 ^ 16 := by
  cases partNumber <;> simp [_topAddressForPartNumber]

theorem FramI2C.withCursor_bottom (p : framPartNumber) (c : Nat) :
    (FramI2C.withCursor p c)._bottomAddress = 128 := rfl

theorem FramI2C.withCursor_top (p : framPartNumber) (c : Nat) :
    (FramI2C.withCursor p c)._topAddress = _topAddressForPartNumber p := rfl

theorem FramI2C.withCursor_base (p : framPartNumber) (c : Nat) :
    (FramI2C.withCursor p c)._baseAddress = 0 := rfl

theorem FramI2C.withCursor_next (p : framPartNumber) (c : Nat) :
    (FramI2C.withCursor p c)._nextFreeByte = c := rfl

theorem FramI2C.new_eq_withCursor (p : framPartNumber) :
    FramI2C.new p = FramI2C.withCursor p 128 := rfl

/-- C1: for every capacity class (and every allocator cursor), every start address and
length with controlBlockEnd <= start <= topAddress, 1 <= length <= 128 and
start + length - 1 <= topAddress and every data buffer, `write` returns framOK and the
following `read` of the same range returns framOK and delivers the data byte for byte.
The length is arbitrary in 1..128, so both the single-call case (below 30) and the
chunked case (30..128) are covered. -/
theorem C1_write_then_read (p : framPartNumber) (c : Nat) (w : Chip)
    (startAddress numberOfBytes : Nat) (data out : Buffer)
    (hlo : (FramI2C.withCursor p c)._bottomAddress ≤ startAddress)
    (_hhi : startAddress ≤ (FramI2C.withCursor p c)._topAddress)
    (hlen : 1 ≤ numberOfBytes ∧ numberOfBytes ≤ 128)
    (hfin : startAddress + numberOfBytes - 1 ≤ (FramI2C.withCursor p c)._topAddress) :
    ((FramI2C.withCursor p c).write w startAddress numberOfBytes data).1 = framOK ∧
    ((FramI2C.withCursor p c).read
        ((FramI2C.withCursor p c).write w startAddress numberOfBytes data).2
        startAddress numberOfBytes out).1 = framOK ∧
    ∀ i, i < numberOfBytes →
      ((FramI2C.withCursor p c).read
        ((FramI2C.withCursor p c).write w startAddress numberOfBytes data).2
        startAddress numberOfBytes out).2.2 i = data i := by
  have htop := (topAddress_lt p).2
  rw [FramI2C.withCursor_top] at hfin
  have hw := FramI2C.write_valid (FramI2C.withCursor p c) w startAddress numberOfBytes data
    hlo (by rw [FramI2C.withCursor_top]; omega) hlen.1 hlen.2
    (by rw [FramI2C.withCursor_top]; exact htop)
  have hr := FramI2C.read_valid (FramI2C.withCursor p c)
    ((FramI2C.withCursor p c).write w startAddress numberOfBytes data).2
    startAddress numberOfBytes out
    hlo (by rw [FramI2C.withCursor_top]; omega) hlen.1 hlen.2
    (by rw [FramI2C.withCursor_top]; exact htop)
  refine ⟨hw.1, hr.1, ?_⟩
  intro i hi
  rw [hr.2.2 i, if_pos hi, hw.2 (startAddress + i), if_pos (by omega)]
  apply congrArg
  omega

/-- Witness for C1: a 45-byte transfer (one 30-byte chunk and a 15-byte remainder) at
address 200 of an MB85RC64, checked at byte 44. -/
theorem C1_write_then_read_witness :
    ((FramI2C.withCursor .MB85RC64 128).write ⟨fun _ => 0, []⟩ 200 45
        (fun i => Fin.ofNat i)).1 = framOK ∧
    ((FramI2C.withCursor .MB85RC64 128).read
        ((FramI2C.withCursor .MB85RC64 128).write ⟨fun _ => 0, []⟩ 200 45
          (fun i => Fin.ofNat i)).2 200 45 (fun _ => 0)).2.2 44 = 44 :=
  have h := C1_write_then_read .MB85RC64 128 ⟨fun _ => 0, []⟩ 200 45
    (fun i => Fin.ofNat i) (fun _ => 0) (by decide) (by decide) (by decide) (by decide)
  ⟨h.1, h.2.2 44 (by decide)⟩

theorem FramI2C.allocateMemory_withCursor (p : framPartNumber) (c n : Nat) :
    ∃ c', ((FramI2C.withCursor p c).allocateMemory n).2.2 = FramI2C.withCursor p c' := by
  unfold FramI2C.allocateMemory
  split_ifs
  · exact ⟨_, rfl⟩
  · exact ⟨_, rfl⟩

/-- Every reachable device object is `withCursor p c` with a cursor below `2^16`. -/
theorem FramI2C.Reachable.eq_withCursor {f : FramI2C} (h : FramI2C.Reachable f) :
    ∃ p c, f = FramI2C.withCursor p c ∧ c < 2 ^ 16 := by
  induction h with
  | construct p => exact ⟨p, 128, rfl, by norm_num⟩
  | allocate f n _ _ ih =>
    obtain ⟨p, c, rfl, hc⟩ := ih
    have ht := (topAddress_lt p).2
    unfold FramI2C.allocateMemory
    split_ifs with h1
    · refine ⟨p, (c + n) % 2 ^ 32, rfl, ?_⟩
      rw [FramI2C.withCursor_next, FramI2C.withCursor_top] at h1
      omega
    · exact ⟨p, c, rfl, hc⟩

/-- The part of the allocator contract that the code meets: in a reachable state, when
the exact sum `_nextFreeByte + numberOfBytes` is below `_topAddress` the call returns the
old cursor with `framOK` and advances the cursor by `numberOfBytes`. -/
theorem FramI2C.allocateMemory_fits {f : FramI2C} (hf : FramI2C.Reachable f) (n : Nat)
    (h : f._nextFreeByte + n < f._topAddress) :
    f.allocateMemory n = (f._nextFreeByte, framOK, { f with _nextFreeByte := f._nextFreeByte + n }) := by
  obtain ⟨p, c, rfl, hc⟩ := hf.eq_withCursor
  have ht := (topAddress_lt p).2
  rw [FramI2C.withCursor_next, FramI2C.withCursor_top] at h
  unfold FramI2C.allocateMemory
  rw [FramI2C.withCursor_next, FramI2C.withCursor_top]
  have e1 : (c + n) % 2 ^ 32 = c + n := by omega
  have e2 : c % 2 ^ 16 = c := by omega
  rw [e1, e2, if_pos h]

/-- C2 (code defect): on a freshly constructed MB85RC128A the request
`numberOfBytes = 2^32 - 1` has exact sum `128 + (2^32 - 1) >= topAddress`, yet
`allocateMemory` returns address 128 with `framOK` and moves the cursor to 127, because
the bound check is evaluated on the 32-bit wrapped sum. -/
theorem C2_allocateMemory_wraps :
    FramI2C.Reachable (FramI2C.new .MB85RC128A) ∧
    (FramI2C.new .MB85RC128A)._topAddress ≤ (FramI2C.new .MB85RC128A)._nextFreeByte + 4294967295 ∧
    (FramI2C.new .MB85RC128A).allocateMemory 4294967295 =
      (128, framOK, FramI2C.withCursor .MB85RC128A 127) :=
  ⟨FramI2C.Reachable.construct _, by decide, by decide⟩

/-- C10 (code defect): one `allocateMemory` call with a 32-bit argument on a freshly
constructed device leaves `_nextFreeByte = 127`, below both its previous value 128 and
`_bottomAddress` (controlBlockEnd); same wrapped bound check as in C2. -/
theorem C10_cursor_decreases :
    (FramI2C.new .MB85RC128A)._nextFreeByte = 128 ∧
    FramI2C.Reachable ((FramI2C.new .MB85RC128A).allocateMemory 4294967295).2.2 ∧
    ((FramI2C.new .MB85RC128A).allocateMemory 4294967295).2.2._nextFreeByte = 127 ∧
    ((FramI2C.new .MB85RC128A).allocateMemory 4294967295).2.2._nextFreeByte
      < ((FramI2C.new .MB85RC128A).allocateMemory 4294967295).2.2._bottomAddress :=
  ⟨rfl, FramI2C.Reachable.allocate _ _ (FramI2C.Reachable.construct _) (by norm_num),
    by decide, by decide⟩

/-- What `writeControlBlock` and `readControlBlock` do in the code: `write` and `read`
reject the start address `_baseAddress = 0 < _bottomAddress`, so neither touches the
chip or the buffer. -/
theorem FramI2C.controlBlock_noop (p : framPartNumber) (c : Nat) (w : Chip) (buffer : Buffer) :
    (FramI2C.withCursor p c).writeControlBlock w buffer = w ∧
    (FramI2C.withCursor p c).readControlBlock w buffer = (w, buffer) := by
  constructor
  · unfold FramI2C.writeControlBlock FramI2C.write
    rw [if_pos (Or.inl (by rw [FramI2C.withCursor_base, FramI2C.withCursor_bottom]; norm_num))]
  · unfold FramI2C.readControlBlock FramI2C.read
    rw [if_pos (Or.inl (by rw [FramI2C.withCursor_base, FramI2C.withCursor_bottom]; norm_num))]

/-- C8 (code defect): on a fresh MB85RC128A over a zeroed chip, `writeControlBlock` of a
buffer of ones issues no transaction and leaves device byte 0 at 0, and the following
`readControlBlock` into a zeroed buffer delivers 0, not 1: `write` / `read` reject the
start address `_baseAddress`, which lies below `_bottomAddress`. -/
theorem C8_controlBlock_not_written :
    ((FramI2C.new .MB85RC128A).write ⟨fun _ => 0, []⟩ 0 128 (fun _ => 1)).1
      = framBadStartAddress ∧
    ((FramI2C.new .MB85RC128A).writeControlBlock ⟨fun _ => 0, []⟩ (fun _ => 1)).mem 0 = 0 ∧
    ((FramI2C.new .MB85RC128A).writeControlBlock ⟨fun _ => 0, []⟩ (fun _ => 1)).calls = [] ∧
    ((FramI2C.new .MB85RC128A).readControlBlock
      ((FramI2C.new .MB85RC128A).writeControlBlock ⟨fun _ => 0, []⟩ (fun _ => 1))
      (fun _ => 0)).2 0 = 0 := by
  refine ⟨by decide, by decide, by decide, by decide⟩

/-- C9: for every device object and every `(startAddress, numberOfBytes)`, `read` and
`write` both return the classification of the specification (start address first, then
the length, then the finish address), and whenever that is not `framOK` the chip (memory
and transaction log) and, for `read`, the caller's buffer are returned unchanged. -/
theorem C9_request_classification (p : framPartNumber) (c : Nat) (w : Chip)
    (startAddress numberOfBytes : Nat) (buffer : Buffer) :
    ((FramI2C.withCursor p c).read w startAddress numberOfBytes buffer).1
      = classifyRequest (FramI2C.withCursor p c) startAddress numberOfBytes ∧
    ((FramI2C.withCursor p c).write w startAddress numberOfBytes buffer).1
      = classifyRequest (FramI2C.withCursor p c) startAddress numberOfBytes ∧
    (classifyRequest (FramI2C.withCursor p c) startAddress numberOfBytes ≠ framOK →
      ((FramI2C.withCursor p c).read w startAddress numberOfBytes buffer).2 = (w, buffer) ∧
      ((FramI2C.withCursor p c).write w startAddress numberOfBytes buffer).2 = w) := by
  have ht := (topAddress_lt p).2
  unfold classifyRequest FramI2C.read FramI2C.write
  simp only [FramI2C.withCursor_bottom, FramI2C.withCursor_top, _maxBufferSize]
  by_cases h1 : startAddress < 128 ∨ startAddress > _topAddressForPartNumber p
  · simp only [if_pos h1]
    simp
  · simp only [if_neg h1]
    by_cases h2 : numberOfBytes > 128 ∨ numberOfBytes = 0
    · have h2' : numberOfBytes = 0 ∨ numberOfBytes > 128 := by omega
      simp only [if_pos h2, if_pos h2']
      simp
    · have h2' : ¬ (numberOfBytes = 0 ∨ numberOfBytes > 128) := by omega
      simp only [if_neg h2, if_neg h2']
      have e : (startAddress + numberOfBytes + (2 ^ 32 - 1)) % 2 ^ 32
          = startAddress + numberOfBytes - 1 := by omega
      rw [e]
      by_cases h3 : startAddress + numberOfBytes - 1 > _topAddressForPartNumber p
      · simp only [if_pos h3]
        simp
      · simp only [if_neg h3]
        refine ⟨?_, ?_, fun h => absurd rfl h⟩
        · split_ifs <;> rfl
        · split_ifs <;> rfl

/-- Invariant of a run of non-wrapping allocations started at cursor `c`: the final
object is `withCursor p c'` where `c' - c` is the total handed out, `c'` is `c` or lies
below the top address, every returned range lies in `[c, c')`, and the ranges are laid
out in call order without overlap. -/
theorem allocateAll_spec (p : framPartNumber) : ∀ (sizes : List Nat) (c : Nat), c < 2 ^ 16 →
    (∀ n ∈ sizes, n < 2 ^ 32 - 2 ^ 16) →
    ∃ c', (allocateAll (FramI2C.withCursor p c) sizes).2 = FramI2C.withCursor p c' ∧
      c + ((allocateAll (FramI2C.withCursor p c) sizes).1.map Prod.snd).sum = c' ∧
      (c' = c ∨ c' < _topAddressForPartNumber p) ∧
      (∀ r ∈ (allocateAll (FramI2C.withCursor p c) sizes).1, c ≤ r.1 ∧ r.1 + r.2 ≤ c') ∧
      (allocateAll (FramI2C.withCursor p c) sizes).1.Pairwise
        (fun r1 r2 => r1.1 + r1.2 ≤ r2.1) := by
  have ht := (topAddress_lt p).2
  intro sizes
  induction sizes with
  | nil =>
    intro c _ _
    exact ⟨c, rfl, by simp [allocateAll], Or.inl rfl, by simp [allocateAll],
      by simp [allocateAll]⟩
  | cons n rest ih =>
    intro c hc hs
    have hn : n < 2 ^ 32 - 2 ^ 16 := hs n (List.mem_cons_self _ _)
    have hrest : ∀ m ∈ rest, m < 2 ^ 32 - 2 ^ 16 := fun m hm => hs m (List.mem_cons_of_mem _ hm)
    have e1 : (c + n) % 2 ^ 32 = c + n := by omega
    have e2 : c % 2 ^ 16 = c := by omega
    by_cases hfit : c + n < _topAddressForPartNumber p
    · have hal : (FramI2C.withCursor p c).allocateMemory n
          = (c, framOK, FramI2C.withCursor p (c + n)) := by
        unfold FramI2C.allocateMemory
        rw [FramI2C.withCursor_next, FramI2C.withCursor_top, e1, e2, if_pos hfit]
        rfl
      obtain ⟨c', h1, h2, h3, h4, h5⟩ := ih (c + n) (by omega) hrest
      have hstep : allocateAll (FramI2C.withCursor p c) (n :: rest)
          = ((c, n) :: (allocateAll (FramI2C.withCursor p (c + n)) rest).1,
             (allocateAll (FramI2C.withCursor p (c + n)) rest).2) := by
        simp only [allocateAll, hal, if_true]
      rw [hstep]
      refine ⟨c', h1, ?_, ?_, ?_, ?_⟩
      · simp only [List.map_cons, List.sum_cons]
        omega
      · omega
      · intro r hr
        rcases List.mem_cons.1 hr with rfl | hr
        · simp only
          omega
        · have := h4 r hr
          omega
      · refine List.pairwise_cons.2 ⟨?_, h5⟩
        intro r hr
        have := h4 r hr
        simp only
        omega
    · have hal : (FramI2C.withCursor p c).allocateMemory n
          = (0, framBadFinishAddress, FramI2C.withCursor p c) := by
        unfold FramI2C.allocateMemory
        rw [FramI2C.withCursor_next, FramI2C.withCursor_top, e1, if_neg hfit]
      obtain ⟨c', h1, h2, h3, h4, h5⟩ := ih c hc hrest
      have hstep : allocateAll (FramI2C.withCursor p c) (n :: rest)
          = allocateAll (FramI2C.withCursor p c) rest := by
        simp only [allocateAll, hal]
        rfl
      rw [hstep]
      exact ⟨c', h1, h2, h3, h4, h5⟩

/-- C3: for every sequence of `allocateMemory` requests on a freshly constructed device
in which every size is below `2^32 - 2^16`, the ranges `[address, address + size)` of the
successful calls are pairwise disjoint, each lies inside `[controlBlockEnd, topAddress)`,
and the successfully allocated sizes sum to at most `topAddress - controlBlockEnd`. -/
theorem C3_allocations_disjoint (p : framPartNumber) (sizes : List Nat)
    (hsizes : ∀ n ∈ sizes, n < 2 ^ 32 - 2 ^ 16) :
    (allocateAll (FramI2C.new p) sizes).1.Pairwise
      (fun r1 r2 => ∀ x, ¬ (r1.1 ≤ x ∧ x < r1.1 + r1.2 ∧ r2.1 ≤ x ∧ x < r2.1 + r2.2)) ∧
    (∀ r ∈ (allocateAll (FramI2C.new p) sizes).1,
      (FramI2C.new p)._bottomAddress ≤ r.1 ∧ r.1 + r.2 ≤ (FramI2C.new p)._topAddress) ∧
    ((allocateAll (FramI2C.new p) sizes).1.map Prod.snd).sum
      ≤ (FramI2C.new p)._topAddress - (FramI2C.new p)._bottomAddress := by
  have ht := (topAddress_lt p).1
  obtain ⟨c', _, h2, h3, h4, h5⟩ := allocateAll_spec p sizes 128 (by norm_num) hsizes
  rw [FramI2C.new_eq_withCursor, FramI2C.withCursor_bottom, FramI2C.withCursor_top]
  refine ⟨?_, ?_, ?_⟩
  · refine h5.imp ?_
    intro r1 r2 h x
    omega
  · intro r hr
    have := h4 r hr
    omega
  · omega

/-- Witness for C3: three requests on an MB85RC64, the second too large to fit. -/
theorem C3_allocations_disjoint_witness :
    (allocateAll (FramI2C.new .MB85RC64) [100, 9000, 50]).1 = [(128, 100), (228, 50)] ∧
    ((allocateAll (FramI2C.new .MB85RC64) [100, 9000, 50]).1.map Prod.snd).sum
      ≤ (FramI2C.new .MB85RC64)._topAddress - (FramI2C.new .MB85RC64)._bottomAddress :=
  ⟨by decide, (C3_allocations_disjoint .MB85RC64 [100, 9000, 50] (by decide)).2.2⟩

theorem toInt32_small (a : Nat) (h : a < 2 ^ 31) : toInt32 a = (a : Int) := by
  unfold toInt32
  have e : a % 2 ^ 32 = a := by omega
  rw [e, if_pos h]

/-- On operands below `2^31` with a positive divisor, `myModulo` is the mathematical
remainder. -/
theorem Ring_FramArray.myModulo_eq (a b : Nat) (ha : a < 2 ^ 31) (hb : b < 2 ^ 31) :
    Ring_FramArray.myModulo a b = a % b := by
  unfold Ring_FramArray.myModulo
  rw [toInt32_small a ha, toInt32_small b hb]
  have e : Int.tmod (a : Int) (b : Int) = ((a % b : Nat) : Int) := rfl
  simp only [e]
  rw [if_pos (Int.natCast_nonneg _)]
  exact Int.toNat_natCast _

theorem u32le_toBytes (a : addr_t) (h1 : a.pointerCheck < 2 ^ 32) (h2 : a.tail < 2 ^ 32)
    (h3 : a.head < 2 ^ 32) : addr_t.ofBytes a.toBytes = a := by
  cases a with
  | mk pc t h =>
    simp only at h1 h2 h3
    simp only [addr_t.ofBytes, u32le, addr_t.toBytes, le32, Fin.ofNat]
    norm_num
    refine ⟨?_, ?_, ?_⟩ <;> omega

/-- Decoding depends only on the twelve bytes. -/
theorem addr_t.ofBytes_congr (b1 b2 : Buffer) (h : ∀ i, i < 12 → b1 i = b2 i) :
    addr_t.ofBytes b1 = addr_t.ofBytes b2 := by
  simp only [addr_t.ofBytes, u32le]
  rw [h 0 (by omega), h 1 (by omega), h 2 (by omega), h 3 (by omega), h 4 (by omega),
    h 5 (by omega), h 6 (by omega), h 7 (by omega), h 8 (by omega), h 9 (by omega),
    h 10 (by omega), h 11 (by omega)]

theorem slot_bound {k n s : Nat} (h : k < n) : k * s + s ≤ n * s := by
  have := Nat.mul_le_mul_right s (Nat.succ_le_of_lt h)
  rw [Nat.succ_mul] at this
  exact this

theorem slot_lt {k1 k2 s : Nat} (h : k1 < k2) : k1 * s + s ≤ k2 * s := slot_bound h

/-- Effect of `setPointers` on an allocated ring: the struct holds the in-memory indices
with their checksum and the chip holds its twelve bytes at `_pointersAddress`; nothing
else changes. -/
theorem Ring_FramArray.setPointers_spec {f : FramI2C} {r : Ring_FramArray} (g : RingGeom f r)
    (w : Chip) :
    (r.setPointers f w).1 = { r with _pointers :=
      { pointerCheck := ((r._pointersAddress + r._tailAddress) % 2 ^ 32 + r._headAddress) % 2 ^ 32
        tail := r._tailAddress, head := r._headAddress } } ∧
    ∀ a, (r.setPointers f w).2.mem a =
      if r._pointersAddress ≤ a ∧ a < r._pointersAddress + 12 then
        (addr_t.toBytes
          { pointerCheck :=
              ((r._pointersAddress + r._tailAddress) % 2 ^ 32 + r._headAddress) % 2 ^ 32
            tail := r._tailAddress, head := r._headAddress }) (a - r._pointersAddress)
      else w.mem a := by
  have hs : ¬ (r._startAddress = 0) := by
    have := g.hbot; have := g.hstart; omega
  unfold Ring_FramArray.setPointers
  rw [if_pos hs]
  refine ⟨rfl, ?_⟩
  have hw := FramI2C.write_valid f w r._pointersAddress sizeofPointers
    (addr_t.toBytes
      { pointerCheck := ((r._pointersAddress + r._tailAddress) % 2 ^ 32 + r._headAddress) % 2 ^ 32
        tail := r._tailAddress, head := r._headAddress })
    (by have := g.hptr; have := g.hstart; omega) (by have := g.hend; simp only [sizeofPointers]; omega)
    (by simp [sizeofPointers]) (by simp [sizeofPointers]) g.htop
  exact hw.2

/-- Address of slot `k` as the code computes it, for an in-range slot. -/
theorem RingGeom.slot_addr {f : FramI2C} {r : Ring_FramArray} (g : RingGeom f r) {k : Nat}
    (hk : k < r._numberOfElements) :
    (r._startAddress + (k * r._sizeOfElement) % 2 ^ 32) % 2 ^ 32
      = r._startAddress + k * r._sizeOfElement ∧
    r._startAddress + k * r._sizeOfElement + r._sizeOfElement ≤ r._pointersAddress := by
  have h1 := slot_bound (s := r._sizeOfElement) hk
  have h2 := g.hptr
  have h3 := g.hend
  have h4 := g.htop
  constructor <;> omega

/-- A `write` of one element into an in-range slot is accepted and changes exactly the
bytes of that slot. -/
theorem RingGeom.write_slot {f : FramI2C} {r : Ring_FramArray} (g : RingGeom f r) (w : Chip)
    {k : Nat} (hk : k < r._numberOfElements) (e : Buffer) :
    (f.write w ((r._startAddress + (k * r._sizeOfElement) % 2 ^ 32) % 2 ^ 32)
        r._sizeOfElement e).1 = framOK ∧
    ∀ a, (f.write w ((r._startAddress + (k * r._sizeOfElement) % 2 ^ 32) % 2 ^ 32)
        r._sizeOfElement e).2.mem a =
      if r._startAddress + k * r._sizeOfElement ≤ a ∧
          a < r._startAddress + k * r._sizeOfElement + r._sizeOfElement
      then e (a - (r._startAddress + k * r._sizeOfElement)) else w.mem a := by
  obtain ⟨h1, h2⟩ := g.slot_addr hk
  rw [h1]
  exact FramI2C.write_valid f w _ _ e (by have := g.hstart; omega)
    (by have := g.hend; omega) g.hsize.1 (by have := g.hsize.2; omega) g.htop

/-- A `read` of one element from an in-range slot is accepted, leaves the chip memory
alone and delivers the bytes of that slot. -/
theorem RingGeom.read_slot {f : FramI2C} {r : Ring_FramArray} (g : RingGeom f r) (w : Chip)
    {k : Nat} (hk : k < r._numberOfElements) (buffer : Buffer) :
    (f.read w ((r._startAddress + (k * r._sizeOfElement) % 2 ^ 32) % 2 ^ 32)
        r._sizeOfElement buffer).1 = framOK ∧
    (f.read w ((r._startAddress + (k * r._sizeOfElement) % 2 ^ 32) % 2 ^ 32)
        r._sizeOfElement buffer).2.1.mem = w.mem ∧
    ∀ j, (f.read w ((r._startAddress + (k * r._sizeOfElement) % 2 ^ 32) % 2 ^ 32)
        r._sizeOfElement buffer).2.2 j =
      if j < r._sizeOfElement then w.mem (r._startAddress + k * r._sizeOfElement + j)
      else buffer j := by
  obtain ⟨h1, h2⟩ := g.slot_addr hk
  rw [h1]
  exact FramI2C.read_valid f w _ _ buffer (by have := g.hstart; omega)
    (by have := g.hend; omega) g.hsize.1 (by have := g.hsize.2; omega) g.htop

theorem RingGeom.ne_lt {f : FramI2C} {r : Ring_FramArray} (g : RingGeom f r) :
    r._numberOfElements < 2 ^ 16 := by
  have h1 : r._numberOfElements * 1 ≤ r._numberOfElements * r._sizeOfElement :=
    Nat.mul_le_mul_left _ g.hsize.1
  have h2 := g.hptr
  have h3 := g.hend
  have h4 := g.htop
  omega

theorem mod_next {x n : Nat} (h : x < n) : (x + 1) % n = nextIndex x n := by
  unfold nextIndex
  split_ifs with h1
  · rw [h1]; exact Nat.mod_self n
  · exact Nat.mod_eq_of_lt (by omega)

/-- The code's increment-and-wrap of an in-range index is `nextIndex`. -/
theorem RingGeom.myModulo_next {f : FramI2C} {r : Ring_FramArray} (g : RingGeom f r) {x : Nat}
    (h : x < r._numberOfElements) :
    Ring_FramArray.myModulo ((x + 1) % 2 ^ 32) r._numberOfElements
      = nextIndex x r._numberOfElements := by
  have hn := g.ne_lt
  have e : (x + 1) % 2 ^ 32 = x + 1 := by omega
  rw [e, Ring_FramArray.myModulo_eq _ _ (by omega) (by omega), mod_next h]

theorem RingGeom.isFull_iff {f : FramI2C} {r : Ring_FramArray} (g : RingGeom f r)
    (hh : r._headAddress < r._numberOfElements) :
    r.isFull = true ↔ nextIndex r._headAddress r._numberOfElements = r._tailAddress := by
  unfold Ring_FramArray.isFull
  simp only [g.myModulo_next hh]
  split_ifs with h <;> simp [h]

theorem Ring_FramArray.isEmpty_iff (r : Ring_FramArray) :
    r.isEmpty = true ↔ r._tailAddress = r._headAddress := by
  unfold Ring_FramArray.isEmpty
  split_ifs with h <;> simp [h]

/-- What `push` does to an allocated ring with in-range indices: the layout members are
kept, the head advances, the tail advances exactly when the ring was full, the element
lands in the old head slot and the trailer is rewritten; no other chip byte changes. -/
theorem Ring_FramArray.push_spec {f : FramI2C} {r : Ring_FramArray} (g : RingGeom f r)
    (hh : r._headAddress < r._numberOfElements) (ht : r._tailAddress < r._numberOfElements)
    (w : Chip) (e : Buffer) :
    (r.push f w e).1._numberOfElements = r._numberOfElements ∧
    (r.push f w e).1._sizeOfElement = r._sizeOfElement ∧
    (r.push f w e).1._startAddress = r._startAddress ∧
    (r.push f w e).1._ringEndAddress = r._ringEndAddress ∧
    (r.push f w e).1._pointersAddress = r._pointersAddress ∧
    (r.push f w e).1._headAddress = nextIndex r._headAddress r._numberOfElements ∧
    (r.push f w e).1._tailAddress =
      (if nextIndex r._headAddress r._numberOfElements = r._tailAddress
       then nextIndex r._tailAddress r._numberOfElements else r._tailAddress) ∧
    (r.push f w e).1._pointers =
      { pointerCheck := ((r._pointersAddress + (r.push f w e).1._tailAddress) % 2 ^ 32
          + (r.push f w e).1._headAddress) % 2 ^ 32
        tail := (r.push f w e).1._tailAddress, head := (r.push f w e).1._headAddress } ∧
    ∀ a, (r.push f w e).2.mem a =
      if r._pointersAddress ≤ a ∧ a < r._pointersAddress + 12 then
        (addr_t.toBytes (r.push f w e).1._pointers) (a - r._pointersAddress)
      else if r._startAddress + r._headAddress * r._sizeOfElement ≤ a ∧
          a < r._startAddress + r._headAddress * r._sizeOfElement + r._sizeOfElement
      then e (a - (r._startAddress + r._headAddress * r._sizeOfElement)) else w.mem a := by
  have hw := (g.write_slot w hh e).2
  unfold Ring_FramArray.push
  by_cases hfull : r.isFull = true
  · have hf' := (g.isFull_iff hh).1 hfull
    simp only [hfull, Bool.not_true, Bool.false_eq_true, if_false]
    simp only [g.myModulo_next hh, g.myModulo_next ht]
    have g2 : RingGeom f { r with
        _headAddress := nextIndex r._headAddress r._numberOfElements
        _tailAddress := nextIndex r._tailAddress r._numberOfElements } :=
      ⟨g.hne, g.hsize, g.hbot, g.hstart, g.hptr, g.hend, g.htop⟩
    obtain ⟨s1, s2⟩ := Ring_FramArray.setPointers_spec g2
      (f.write w ((r._startAddress + (r._headAddress * r._sizeOfElement) % 2 ^ 32) % 2 ^ 32)
        r._sizeOfElement e).2
    simp only at s1 s2
    rw [s1]
    refine ⟨rfl, rfl, rfl, rfl, rfl, rfl, ?_, rfl, ?_⟩
    · rw [if_pos hf']
    · intro a
      rw [s2 a, hw a]
  · have hf' : ¬ nextIndex r._headAddress r._numberOfElements = r._tailAddress :=
      fun h => hfull ((g.isFull_iff hh).2 h)
    simp only [hfull, Bool.not_false, if_true]
    simp only [g.myModulo_next hh]
    have g2 : RingGeom f { r with
        _headAddress := nextIndex r._headAddress r._numberOfElements } :=
      ⟨g.hne, g.hsize, g.hbot, g.hstart, g.hptr, g.hend, g.htop⟩
    obtain ⟨s1, s2⟩ := Ring_FramArray.setPointers_spec g2
      (f.write w ((r._startAddress + (r._headAddress * r._sizeOfElement) % 2 ^ 32) % 2 ^ 32)
        r._sizeOfElement e).2
    simp only at s1 s2
    rw [s1]
    refine ⟨rfl, rfl, rfl, rfl, rfl, rfl, ?_, rfl, ?_⟩
    · rw [if_neg hf']
    · intro a
      rw [s2 a, hw a]

/-- What `pop` does to an allocated, non-empty ring with an in-range tail: it returns
`true`, delivers the bytes of the tail slot, advances the tail and rewrites the trailer;
no other chip byte changes. -/
theorem Ring_FramArray.pop_spec {f : FramI2C} {r : Ring_FramArray} (g : RingGeom f r)
    (ht : r._tailAddress < r._numberOfElements) (hne : r._tailAddress ≠ r._headAddress)
    (w : Chip) (buffer : Buffer) :
    (r.pop f w buffer).1 = true ∧
    (r.pop f w buffer).2.1._numberOfElements = r._numberOfElements ∧
    (r.pop f w buffer).2.1._sizeOfElement = r._sizeOfElement ∧
    (r.pop f w buffer).2.1._startAddress = r._startAddress ∧
    (r.pop f w buffer).2.1._ringEndAddress = r._ringEndAddress ∧
    (r.pop f w buffer).2.1._pointersAddress = r._pointersAddress ∧
    (r.pop f w buffer).2.1._headAddress = r._headAddress ∧
    (r.pop f w buffer).2.1._tailAddress = nextIndex r._tailAddress r._numberOfElements ∧
    (r.pop f w buffer).2.1._pointers =
      { pointerCheck := ((r._pointersAddress + (r.pop f w buffer).2.1._tailAddress) % 2 ^ 32
          + r._headAddress) % 2 ^ 32
        tail := (r.pop f w buffer).2.1._tailAddress, head := r._headAddress } ∧
    (∀ a, (r.pop f w buffer).2.2.1.mem a =
      if r._pointersAddress ≤ a ∧ a < r._pointersAddress + 12 then
        (addr_t.toBytes (r.pop f w buffer).2.1._pointers) (a - r._pointersAddress)
      else w.mem a) ∧
    ∀ j, (r.pop f w buffer).2.2.2 j =
      if j < r._sizeOfElement
      then w.mem (r._startAddress + r._tailAddress * r._sizeOfElement + j) else buffer j := by
  obtain ⟨_, hr2, hr3⟩ := g.read_slot w ht buffer
  have hs : ¬ (r._startAddress = 0) := by
    have := g.hbot; have := g.hstart; omega
  have hemp : r.isEmpty = false := by
    cases h : r.isEmpty
    · rfl
    · exact absurd ((Ring_FramArray.isEmpty_iff r).1 h) hne
  unfold Ring_FramArray.pop
  simp only [hemp, hs, Bool.not_false, decide_False, Bool.and_self, if_true]
  simp only [g.myModulo_next ht]
  have g2 : RingGeom f { r with
      _tailAddress := nextIndex r._tailAddress r._numberOfElements } :=
    ⟨g.hne, g.hsize, g.hbot, g.hstart, g.hptr, g.hend, g.htop⟩
  obtain ⟨s1, s2⟩ := Ring_FramArray.setPointers_spec g2
    (f.read w ((r._startAddress + (r._tailAddress * r._sizeOfElement) % 2 ^ 32) % 2 ^ 32)
      r._sizeOfElement buffer).2.1
  simp only at s1 s2
  rw [s1]
  refine ⟨trivial, rfl, rfl, rfl, rfl, rfl, rfl, rfl, rfl, ?_, hr3⟩
  intro a
  rw [s2 a, hr2]

/-- `pop` on an empty ring returns `false` and changes nothing. -/
theorem Ring_FramArray.pop_empty (f : FramI2C) (r : Ring_FramArray)
    (he : r._tailAddress = r._headAddress) (w : Chip) (buffer : Buffer) :
    r.pop f w buffer = (false, r, w, buffer) := by
  have hemp : r.isEmpty = true := (Ring_FramArray.isEmpty_iff r).2 he
  unfold Ring_FramArray.pop
  simp [hemp]

theorem nextIndex_lt {x n : Nat} (hn : 2 ≤ n) (h : x < n) : nextIndex x n < n := by
  unfold nextIndex
  split_ifs <;> omega

/-- After a `push`, slot `k` holds the pushed element if it is the old head slot and is
unchanged otherwise. -/
theorem Ring_FramArray.push_mem_slot {f : FramI2C} {r : Ring_FramArray} (g : RingGeom f r)
    (hh : r._headAddress < r._numberOfElements) (ht : r._tailAddress < r._numberOfElements)
    (w : Chip) (e : Buffer) {k i : Nat} (hk : k < r._numberOfElements)
    (hi : i < r._sizeOfElement) :
    (r.push f w e).2.mem (r._startAddress + k * r._sizeOfElement + i) =
      if k = r._headAddress then e i else w.mem (r._startAddress + k * r._sizeOfElement + i) := by
  obtain ⟨_, _, _, _, _, _, _, _, hmem⟩ := Ring_FramArray.push_spec g hh ht w e
  have hb := (g.slot_addr hk).2
  rw [hmem, if_neg (by omega)]
  by_cases hkh : k = r._headAddress
  · subst hkh
    rw [if_pos (by omega), if_pos rfl]
    apply congrArg
    omega
  · rw [if_neg hkh]
    rcases Nat.lt_or_gt_of_ne hkh with hlt | hgt
    · have := slot_lt (s := r._sizeOfElement) hlt
      rw [if_neg (by omega)]
    · have := slot_lt (s := r._sizeOfElement) hgt
      rw [if_neg (by omega)]

/-- A `pop` leaves every slot unchanged. -/
theorem Ring_FramArray.pop_mem_slot {f : FramI2C} {r : Ring_FramArray} (g : RingGeom f r)
    (ht : r._tailAddress < r._numberOfElements) (hne : r._tailAddress ≠ r._headAddress)
    (w : Chip) (buffer : Buffer) {k i : Nat} (hk : k < r._numberOfElements)
    (hi : i < r._sizeOfElement) :
    (r.pop f w buffer).2.2.1.mem (r._startAddress + k * r._sizeOfElement + i) =
      w.mem (r._startAddress + k * r._sizeOfElement + i) := by
  obtain ⟨_, _, _, _, _, _, _, _, _, hmem, _⟩ := Ring_FramArray.pop_spec g ht hne w buffer
  have hb := (g.slot_addr hk).2
  rw [hmem, if_neg (by omega)]

theorem slotOf_lt {t j n : Nat} (ht : t < n) (hj : j < n) : slotOf t j n < n := by
  unfold slotOf
  split_ifs <;> omega

/-- `push` refines the abstract queue operation `qpush`. -/
theorem Ring_FramArray.push_inv {f : FramI2C} {r : Ring_FramArray} {w : Chip}
    {q : List Buffer} (inv : RingInv f r w q) (e : Buffer) :
    RingInv f (r.push f w e).1 (r.push f w e).2 (qpush r._numberOfElements q e) ∧
    (r.push f w e).1._numberOfElements = r._numberOfElements ∧
    (r.push f w e).1._sizeOfElement = r._sizeOfElement := by
  obtain ⟨g, ht, hh, hlen, hrep⟩ := inv
  obtain ⟨e1, e2, e3, e4, e5, e6, e7, _, _⟩ := Ring_FramArray.push_spec g hh ht w e
  have hne := g.hne
  have g' : RingGeom f (r.push f w e).1 :=
    ⟨by rw [e1]; exact g.hne, by rw [e2]; exact g.hsize, g.hbot, by rw [e3]; exact g.hstart,
     by rw [e5, e3, e1, e2]; exact g.hptr, by rw [e5]; exact g.hend, g.htop⟩
  have hlen' := hlen
  unfold occupancy at hlen'
  have hlenlt : q.length < r._numberOfElements := by
    split_ifs at hlen' <;> omega
  refine ⟨⟨g', ?_, ?_, ?_, ?_⟩, e1, e2⟩
  · rw [e7, e1]
    split_ifs
    · exact nextIndex_lt hne ht
    · exact ht
  · rw [e6, e1]
    exact nextIndex_lt hne hh
  · rw [e6, e7, e1]
    unfold qpush occupancy nextIndex
    split_ifs at hlen' ⊢ <;> simp only [List.length_append, List.length_drop,
      List.length_singleton] <;> omega
  · intro j b hjb i hi
    rw [e2] at hi
    rw [e3, e7, e1, e2]
    have hjlen : j < (qpush r._numberOfElements q e).length := by
      rcases List.getElem?_eq_some.1 hjb with ⟨hj, _⟩
      exact hj
    unfold qpush at hjb hjlen
    by_cases hroom : q.length + 1 < r._numberOfElements
    · rw [if_pos hroom] at hjb hjlen
      have hnf : ¬ nextIndex r._headAddress r._numberOfElements = r._tailAddress := by
        unfold nextIndex
        split_ifs at hlen' ⊢ <;> omega
      rw [if_neg hnf]
      simp only [List.length_append, List.length_singleton] at hjlen
      have hk : slotOf r._tailAddress j r._numberOfElements < r._numberOfElements :=
        slotOf_lt ht (by omega)
      rw [Ring_FramArray.push_mem_slot g hh ht w e hk hi]
      rw [List.getElem?_append] at hjb
      by_cases hj : j < q.length
      · rw [if_pos hj] at hjb
        have hks : ¬ slotOf r._tailAddress j r._numberOfElements = r._headAddress := by
          unfold slotOf
          split_ifs at hlen' ⊢ <;> omega
        rw [if_neg hks]
        exact hrep j b hjb i hi
      · rw [if_neg hj] at hjb
        have hj0 : j - q.length = 0 := by omega
        rw [hj0] at hjb
        have hb : e = b := by simpa using hjb
        have hks : slotOf r._tailAddress j r._numberOfElements = r._headAddress := by
          unfold slotOf
          split_ifs at hlen' ⊢ <;> omega
        rw [if_pos hks, hb]
    · rw [if_neg hroom] at hjb hjlen
      have hf : nextIndex r._headAddress r._numberOfElements = r._tailAddress := by
        unfold nextIndex
        split_ifs at hlen' ⊢ <;> omega
      rw [if_pos hf]
      simp only [List.length_append, List.length_drop, List.length_singleton] at hjlen
      have hk : slotOf (nextIndex r._tailAddress r._numberOfElements) j r._numberOfElements
          < r._numberOfElements := slotOf_lt (nextIndex_lt hne ht) (by omega)
      rw [Ring_FramArray.push_mem_slot g hh ht w e hk hi]
      rw [List.getElem?_append] at hjb
      simp only [List.length_drop] at hjb
      by_cases hj : j < q.length - 1
      · rw [if_pos hj, List.getElem?_drop] at hjb
        have hks : ¬ slotOf (nextIndex r._tailAddress r._numberOfElements) j
            r._numberOfElements = r._headAddress := by
          unfold slotOf nextIndex
          split_ifs at hlen' ⊢ <;> omega
        rw [if_neg hks]
        have hsl : slotOf (nextIndex r._tailAddress r._numberOfElements) j r._numberOfElements
            = slotOf r._tailAddress (1 + j) r._numberOfElements := by
          unfold slotOf nextIndex
          split_ifs <;> omega
        rw [hsl]
        exact hrep (1 + j) b hjb i hi
      · rw [if_neg hj] at hjb
        have hj0 : j - (q.length - 1) = 0 := by omega
        rw [hj0] at hjb
        have hb : e = b := by simpa using hjb
        have hks : slotOf (nextIndex r._tailAddress r._numberOfElements) j
            r._numberOfElements = r._headAddress := by
          unfold slotOf nextIndex
          unfold nextIndex at hf
          split_ifs at hlen' hf ⊢ <;> omega
        rw [if_pos hks, hb]

/-- `pop` on a ring holding `x :: q` returns `true`, delivers `x` and leaves `q`. -/
theorem Ring_FramArray.pop_inv_cons {f : FramI2C} {r : Ring_FramArray} {w : Chip}
    {x : Buffer} {q : List Buffer} (inv : RingInv f r w (x :: q)) (buffer : Buffer) :
    (r.pop f w buffer).1 = true ∧
    (∀ i, i < r._sizeOfElement → (r.pop f w buffer).2.2.2 i = x i) ∧
    RingInv f (r.pop f w buffer).2.1 (r.pop f w buffer).2.2.1 q ∧
    (r.pop f w buffer).2.1._numberOfElements = r._numberOfElements ∧
    (r.pop f w buffer).2.1._sizeOfElement = r._sizeOfElement := by
  obtain ⟨g, ht, hh, hlen, hrep⟩ := inv
  have hne := g.hne
  have hlen' := hlen
  unfold occupancy at hlen'
  simp only [List.length_cons] at hlen'
  have hte : r._tailAddress ≠ r._headAddress := by
    split_ifs at hlen' <;> omega
  have hlenlt : q.length + 1 < r._numberOfElements := by
    split_ifs at hlen' <;> omega
  obtain ⟨e0, e1, e2, e3, e4, e5, e6, e7, _, _, ebuf⟩ :=
    Ring_FramArray.pop_spec g ht hte w buffer
  have g' : RingGeom f (r.pop f w buffer).2.1 :=
    ⟨by rw [e1]; exact g.hne, by rw [e2]; exact g.hsize, g.hbot, by rw [e3]; exact g.hstart,
     by rw [e5, e3, e1, e2]; exact g.hptr, by rw [e5]; exact g.hend, g.htop⟩
  refine ⟨e0, ?_, ⟨g', ?_, ?_, ?_, ?_⟩, e1, e2⟩
  · intro i hi
    rw [ebuf i, if_pos hi]
    have h0 := hrep 0 x (by simp) i hi
    have hs0 : slotOf r._tailAddress 0 r._numberOfElements = r._tailAddress := by
      unfold slotOf
      split_ifs <;> omega
    rw [hs0] at h0
    exact h0
  · rw [e7, e1]
    exact nextIndex_lt hne ht
  · rw [e6, e1]
    exact hh
  · rw [e6, e7, e1]
    unfold occupancy nextIndex
    split_ifs at hlen' ⊢ <;> omega
  · intro j b hjb i hi
    rw [e2] at hi
    rw [e3, e7, e1, e2]
    have hjlen : j < q.length := by
      rcases List.getElem?_eq_some.1 hjb with ⟨hj, _⟩
      exact hj
    have hk : slotOf (nextIndex r._tailAddress r._numberOfElements) j r._numberOfElements
        < r._numberOfElements := slotOf_lt (nextIndex_lt hne ht) (by omega)
    rw [Ring_FramArray.pop_mem_slot g ht hte w buffer hk hi]
    have hsl : slotOf (nextIndex r._tailAddress r._numberOfElements) j r._numberOfElements
        = slotOf r._tailAddress (j + 1) r._numberOfElements := by
      unfold slotOf nextIndex
      split_ifs <;> omega
    rw [hsl]
    exact hrep (j + 1) b (by rw [List.getElem?_cons_succ]; exact hjb) i hi

/-- `pop` on a ring holding the empty queue returns `false` and changes nothing. -/
theorem Ring_FramArray.pop_inv_nil {f : FramI2C} {r : Ring_FramArray} {w : Chip}
    (inv : RingInv f r w []) (buffer : Buffer) :
    r.pop f w buffer = (false, r, w, buffer) := by
  obtain ⟨g, ht, hh, hlen, _⟩ := inv
  unfold occupancy at hlen
  simp only [List.length_nil] at hlen
  have he : r._tailAddress = r._headAddress := by
    split_ifs at hlen <;> omega
  exact Ring_FramArray.pop_empty f r he w buffer

/-- A run of pushes refines the fold of `qpush`. -/
theorem Ring_FramArray.pushAll_inv {f : FramI2C} (es : List Buffer) :
    ∀ {r : Ring_FramArray} {w : Chip} {q : List Buffer}, RingInv f r w q →
    RingInv f (Ring_FramArray.pushAll f es (r, w)).1 (Ring_FramArray.pushAll f es (r, w)).2
      (es.foldl (qpush r._numberOfElements) q) ∧
    (Ring_FramArray.pushAll f es (r, w)).1._numberOfElements = r._numberOfElements ∧
    (Ring_FramArray.pushAll f es (r, w)).1._sizeOfElement = r._sizeOfElement := by
  induction es with
  | nil =>
    intro r w q inv
    exact ⟨inv, rfl, rfl⟩
  | cons e es ih =>
    intro r w q inv
    obtain ⟨inv1, h1, h2⟩ := Ring_FramArray.push_inv inv e
    obtain ⟨inv2, h3, h4⟩ := ih inv1
    simp only [Ring_FramArray.pushAll, List.foldl_cons]
    rw [h1] at inv2 h3
    rw [h2] at h4
    exact ⟨inv2, h3, h4⟩

/-- Popping `q.length + 1` times from a ring holding `q` delivers the elements of `q` in
order, each with result `true`, and then one `false` with the buffer untouched. -/
theorem Ring_FramArray.popN_spec {f : FramI2C} (out : Buffer) (q : List Buffer) :
    ∀ {r : Ring_FramArray} {w : Chip}, RingInv f r w q →
    (Ring_FramArray.popN f out (q.length + 1) (r, w)).1.length = q.length + 1 ∧
    (∀ (j : Nat) (x : Buffer), q[j]? = some x →
      ∃ b : Buffer, (Ring_FramArray.popN f out (q.length + 1) (r, w)).1[j]? = some (true, b) ∧
        ∀ i, i < r._sizeOfElement → b i = x i) ∧
    (Ring_FramArray.popN f out (q.length + 1) (r, w)).1[q.length]? = some (false, out) := by
  induction q with
  | nil =>
    intro r w inv
    have h := Ring_FramArray.pop_inv_nil inv out
    simp [Ring_FramArray.popN, h]
  | cons x q ih =>
    intro r w inv
    obtain ⟨h0, h1, inv', _, hsz⟩ := Ring_FramArray.pop_inv_cons inv out
    obtain ⟨i1, i2, i3⟩ := ih inv'
    have hstep : Ring_FramArray.popN f out ((x :: q).length + 1) (r, w) =
        (((r.pop f w out).1, (r.pop f w out).2.2.2) ::
          (Ring_FramArray.popN f out (q.length + 1)
            ((r.pop f w out).2.1, (r.pop f w out).2.2.1)).1,
         (Ring_FramArray.popN f out (q.length + 1)
            ((r.pop f w out).2.1, (r.pop f w out).2.2.1)).2) := rfl
    rw [hstep]
    refine ⟨by simp [i1], ?_, ?_⟩
    · intro j y hjy
      cases j with
      | zero =>
        have hxy : x = y := by simpa using hjy
        refine ⟨(r.pop f w out).2.2.2, by simp [h0], ?_⟩
        intro i hi
        rw [← hxy]
        exact h1 i hi
      | succ j =>
        rw [List.getElem?_cons_succ] at hjy
        obtain ⟨b, hb1, hb2⟩ := i2 j y hjy
        refine ⟨b, by simpa using hb1, ?_⟩
        intro i hi
        exact hb2 i (by rw [hsz]; exact hi)
    · simpa using i3

theorem u32le_lt (b : Buffer) (o : Nat) : u32le b o < 2 ^ 32 := by
  unfold u32le
  have h0 := (b o).isLt
  have h1 := (b (o + 1)).isLt
  have h2 := (b (o + 2)).isLt
  have h3 := (b (o + 3)).isLt
  omega

/-- `setPointers` when the ring is allocated and its trailer lies inside the device. -/
theorem Ring_FramArray.setPointers_trailer {f : FramI2C} {r : Ring_FramArray}
    (hs : ¬ (r._startAddress = 0)) (hb : f._bottomAddress ≤ r._pointersAddress)
    (he : r._pointersAddress + 12 ≤ f._topAddress + 1) (htop : f._topAddress < 2 ^ 16)
    (w : Chip) :
    (r.setPointers f w).1 = { r with _pointers :=
      { pointerCheck := pointerCheckOf r._pointersAddress r._tailAddress r._headAddress
        tail := r._tailAddress, head := r._headAddress } } ∧
    ∀ a, (r.setPointers f w).2.mem a =
      if r._pointersAddress ≤ a ∧ a < r._pointersAddress + 12 then
        (addr_t.toBytes
          { pointerCheck := pointerCheckOf r._pointersAddress r._tailAddress r._headAddress
            tail := r._tailAddress, head := r._headAddress }) (a - r._pointersAddress)
      else w.mem a := by
  unfold Ring_FramArray.setPointers
  rw [if_pos hs]
  refine ⟨rfl, ?_⟩
  have hw := FramI2C.write_valid f w r._pointersAddress sizeofPointers
    (addr_t.toBytes
      { pointerCheck := pointerCheckOf r._pointersAddress r._tailAddress r._headAddress
        tail := r._tailAddress, head := r._headAddress })
    hb (by simp only [sizeofPointers]; omega)
    (by simp [sizeofPointers]) (by simp [sizeofPointers]) htop
  exact hw.2

/-- `getPointers` when the trailer lies inside the device: the struct becomes the
decoded chip bytes, the chip memory is unchanged. -/
theorem Ring_FramArray.getPointers_trailer {f : FramI2C} {r : Ring_FramArray}
    (hb : f._bottomAddress ≤ r._pointersAddress)
    (he : r._pointersAddress + 12 ≤ f._topAddress + 1) (htop : f._topAddress < 2 ^ 16)
    (w : Chip) :
    (r.getPointers f w).1 = { r with _pointers := storedPointers w r._pointersAddress } ∧
    (r.getPointers f w).2.mem = w.mem := by
  obtain ⟨_, h2, h3⟩ := FramI2C.read_valid f w r._pointersAddress sizeofPointers
    (addr_t.toBytes { r._pointers with tail := 99, head := 100 })
    hb (by simp only [sizeofPointers]; omega)
    (by simp [sizeofPointers]) (by simp [sizeofPointers]) htop
  unfold Ring_FramArray.getPointers
  refine ⟨?_, h2⟩
  have : addr_t.ofBytes (f.read w r._pointersAddress sizeofPointers
      (addr_t.toBytes { r._pointers with tail := 99, head := 100 })).2.2
      = storedPointers w r._pointersAddress := by
    unfold storedPointers
    apply addr_t.ofBytes_congr
    intro i hi
    rw [h3 i, if_pos (by simp only [sizeofPointers]; exact hi)]
  simp only [this]

/-- What `initialize` does when the ring is allocated and `_ringEndAddress - 12` up to
`_ringEndAddress` lies inside the device: it adopts the stored indices when the stored
checksum matches and resets to `(0, 0)` otherwise, then rewrites the trailer. -/
theorem Ring_FramArray.initialize_spec {f : FramI2C} {r : Ring_FramArray}
    (hs : ¬ (r._startAddress = 0)) (hb : f._bottomAddress + 12 ≤ r._ringEndAddress)
    (he : r._ringEndAddress ≤ f._topAddress + 1) (htop : f._topAddress < 2 ^ 16)
    (w : Chip) :
    ( Ring_FramArray.initialize r f w).1._numberOfElements = r._numberOfElements ∧
    ( Ring_FramArray.initialize r f w).1._sizeOfElement = r._sizeOfElement ∧
    ( Ring_FramArray.initialize r f w).1._startAddress = r._startAddress ∧
    ( Ring_FramArray.initialize r f w).1._ringEndAddress = r._ringEndAddress ∧
    ( Ring_FramArray.initialize r f w).1._pointersAddress = r._ringEndAddress - 12 ∧
    (( Ring_FramArray.initialize r f w).1._tailAddress, ( Ring_FramArray.initialize r f w).1._headAddress) =
      (if pointerCheckOf (r._ringEndAddress - 12)
            (storedPointers w (r._ringEndAddress - 12)).tail
            (storedPointers w (r._ringEndAddress - 12)).head
          = (storedPointers w (r._ringEndAddress - 12)).pointerCheck
       then ((storedPointers w (r._ringEndAddress - 12)).tail,
             (storedPointers w (r._ringEndAddress - 12)).head)
       else (0, 0)) ∧
    (∀ a, ( Ring_FramArray.initialize r f w).2.mem a =
      if r._ringEndAddress - 12 ≤ a ∧ a < r._ringEndAddress - 12 + 12 then
        (addr_t.toBytes
          { pointerCheck := pointerCheckOf (r._ringEndAddress - 12)
              ( Ring_FramArray.initialize r f w).1._tailAddress ( Ring_FramArray.initialize r f w).1._headAddress
            tail := ( Ring_FramArray.initialize r f w).1._tailAddress
            head := ( Ring_FramArray.initialize r f w).1._headAddress }) (a - (r._ringEndAddress - 12))
      else w.mem a) := by
  have hP : (r._ringEndAddress + (2 ^ 32 - sizeofPointers)) % 2 ^ 32 = r._ringEndAddress - 12 := by
    simp only [sizeofPointers]
    omega
  unfold Ring_FramArray.initialize
  simp only [hP]
  obtain ⟨g1, g2⟩ := Ring_FramArray.getPointers_trailer
    (f := f) (r := { r with _pointersAddress := r._ringEndAddress - 12 })
    (by simp only; omega) (by simp only; omega) htop w
  simp only at g1 g2
  rw [g1]
  simp only
  by_cases hc : pointerCheckOf (r._ringEndAddress - 12)
      (storedPointers w (r._ringEndAddress - 12)).tail
      (storedPointers w (r._ringEndAddress - 12)).head
      = (storedPointers w (r._ringEndAddress - 12)).pointerCheck
  · have hc' := hc
    unfold pointerCheckOf at hc'
    rw [if_pos hc', if_pos hc]
    obtain ⟨s1, s2⟩ := Ring_FramArray.setPointers_trailer
      (f := f) (r := { r with
        _pointersAddress := r._ringEndAddress - 12
        _pointers := storedPointers w (r._ringEndAddress - 12)
        _tailAddress := (storedPointers w (r._ringEndAddress - 12)).tail
        _headAddress := (storedPointers w (r._ringEndAddress - 12)).head })
      hs (by simp only; omega) (by simp only; omega) htop
      ({ r with _pointersAddress := r._ringEndAddress - 12 }.getPointers f w).2
    simp only at s1 s2
    rw [s1]
    refine ⟨rfl, rfl, rfl, rfl, rfl, rfl, ?_⟩
    intro a
    rw [s2 a, g2]
  · have hc' := hc
    unfold pointerCheckOf at hc'
    rw [if_neg hc', if_neg hc]
    obtain ⟨s1, s2⟩ := Ring_FramArray.setPointers_trailer
      (f := f) (r := { r with
        _pointersAddress := r._ringEndAddress - 12
        _pointers := storedPointers w (r._ringEndAddress - 12)
        _tailAddress := 0
        _headAddress := 0 })
      hs (by simp only; omega) (by simp only; omega) htop
      ({ r with _pointersAddress := r._ringEndAddress - 12 }.getPointers f w).2
    simp only at s1 s2
    rw [s1]
    refine ⟨rfl, rfl, rfl, rfl, rfl, rfl, ?_⟩
    intro a
    rw [s2 a, g2]

/-- The size the ring constructor requests, when nothing wraps. -/
theorem ring_bytes_eq (N S : Nat) (h : (N + 1) * S + 12 < 2 ^ 32) :
    (((N + 1) % 2 ^ 32 * S) % 2 ^ 32 + sizeofPointers) % 2 ^ 32 = (N + 1) * S + 12 := by
  simp only [sizeofPointers]
  rcases Nat.eq_zero_or_pos S with h0 | hpos
  · subst h0
    simp
  · have h1 : (N + 1) * 1 ≤ (N + 1) * S := Nat.mul_le_mul_left _ hpos
    have h2 : (N + 1) % 2 ^ 32 = N + 1 := by omega
    rw [h2]
    omega

/-- A ring construction that reports `framOK` on a device whose cursor is at or above the
control block end, with no 32-bit wrap in the requested size or in the allocator's
sum: the region `[c, c + (N+1)*S + 12)` is allocated below the top address. -/
theorem Ring_FramArray.new_spec (uninit : Ring_FramArray) (p : framPartNumber) (c N S : Nat)
    (hres : (Ring_FramArray.new uninit (FramI2C.withCursor p c) N S).2.2 = framOK)
    (hfit : c + ((N + 1) * S + 12) < 2 ^ 32) :
    S ≤ 127 ∧ c + ((N + 1) * S + 12) < _topAddressForPartNumber p ∧
    (Ring_FramArray.new uninit (FramI2C.withCursor p c) N S).1 =
      { uninit with
        _numberOfElements := (N + 1) % 2 ^ 32
        _sizeOfElement := S
        _startAddress := c
        _ringEndAddress := c + ((N + 1) * S + 12) } ∧
    (Ring_FramArray.new uninit (FramI2C.withCursor p c) N S).2.1 =
      FramI2C.withCursor p (c + ((N + 1) * S + 12)) := by
  have htop := (topAddress_lt p).2
  unfold Ring_FramArray.new at hres ⊢
  by_cases hS : S < (FramI2C.withCursor p c).getMaxBufferSize
  · rw [if_pos hS] at hres ⊢
    have hS' : S < 128 := hS
    simp only at hres ⊢
    rw [ring_bytes_eq N S (by omega)] at hres ⊢
    unfold FramI2C.allocateMemory at hres ⊢
    rw [FramI2C.withCursor_next, FramI2C.withCursor_top] at hres ⊢
    have e1 : (c + ((N + 1) * S + 12)) % 2 ^ 32 = c + ((N + 1) * S + 12) := by omega
    rw [e1] at hres ⊢
    by_cases hlt : c + ((N + 1) * S + 12) < _topAddressForPartNumber p
    · rw [if_pos hlt]
      have e2 : c % 2 ^ 16 = c := by omega
      simp only [e2]
      exact ⟨by omega, hlt, rfl, rfl⟩
    · rw [if_neg hlt] at hres
      simp at hres
  · rw [if_neg hS] at hres
    simp at hres

/-- Pushing onto the empty queue of a ring with `n >= 2` physical slots keeps the last
`n - 1` elements. -/
theorem foldl_qpush (n : Nat) (hn : 2 ≤ n) (es : List Buffer) :
    es.foldl (qpush n) [] = es.drop (es.length - (n - 1)) := by
  induction es using List.reverseRecOn with
  | nil => simp
  | append_singleton es e ih =>
    rw [List.foldl_append, List.foldl_cons, List.foldl_nil, ih]
    unfold qpush
    simp only [List.length_drop, List.length_append, List.length_singleton]
    by_cases h : es.length + 1 < n
    · have h1 : es.length - (es.length - (n - 1)) + 1 < n := by omega
      have h2 : es.length - (n - 1) = 0 := by omega
      have h3 : es.length + 1 - (n - 1) = 0 := by omega
      rw [if_pos h1, h2, h3]
      rfl
    · have h1 : ¬ es.length - (es.length - (n - 1)) + 1 < n := by omega
      rw [if_neg h1, List.drop_drop]
      have h2 : es.length - (n - 1) + 1 = es.length + 1 - (n - 1) := by omega
      rw [h2, List.drop_append_of_le_length (by omega)]

/-- The representation relation only looks at the layout members, the indices and the
slot bytes. -/
theorem Rep.transfer {f : FramI2C} {r r' : Ring_FramArray} {w w' : Chip} {q : List Buffer}
    (g : RingGeom f r) (ht : r._tailAddress < r._numberOfElements)
    (hh : r._headAddress < r._numberOfElements) (h : Rep r w q)
    (e1 : r'._numberOfElements = r._numberOfElements)
    (e2 : r'._sizeOfElement = r._sizeOfElement) (e3 : r'._startAddress = r._startAddress)
    (e4 : r'._tailAddress = r._tailAddress) (e5 : r'._headAddress = r._headAddress)
    (hmem : ∀ a, a < r._pointersAddress → w'.mem a = w.mem a) : Rep r' w' q := by
  obtain ⟨hlen, hrep⟩ := h
  refine ⟨by rw [e1, e4, e5]; exact hlen, ?_⟩
  intro j b hjb i hi
  rw [e1, e2, e3, e4]
  rw [e2] at hi
  have hjlen : j < q.length := by
    rcases List.getElem?_eq_some.1 hjb with ⟨hj, _⟩
    exact hj
  have hlt : q.length < r._numberOfElements := by
    have hlen' := hlen
    unfold occupancy at hlen'
    have := g.hne
    split_ifs at hlen' <;> omega
  have hk := slotOf_lt ht (show j < r._numberOfElements by omega)
  have hb := (g.slot_addr hk).2
  rw [hmem _ (by omega)]
  exact hrep j b hjb i hi

/-- After a `push` the trailer on the chip matches the in-memory indices. -/
theorem Ring_FramArray.push_synced {f : FramI2C} {r : Ring_FramArray} (g : RingGeom f r)
    (hh : r._headAddress < r._numberOfElements) (ht : r._tailAddress < r._numberOfElements)
    (w : Chip) (e : Buffer) : Synced (r.push f w e).1 (r.push f w e).2 := by
  obtain ⟨_, _, _, _, e5, _, _, e8, hmem⟩ := Ring_FramArray.push_spec g hh ht w e
  intro i hi
  rw [e5, hmem, if_pos (by omega)]
  have : r._pointersAddress + i - r._pointersAddress = i := by omega
  rw [this, e8]
  rfl

/-- After a non-empty run of pushes the trailer on the chip matches the in-memory
indices; after an empty run it is as before. -/
theorem Ring_FramArray.pushAll_synced {f : FramI2C} (es : List Buffer) :
    ∀ {r : Ring_FramArray} {w : Chip} {q : List Buffer}, RingInv f r w q → Synced r w →
    Synced (Ring_FramArray.pushAll f es (r, w)).1 (Ring_FramArray.pushAll f es (r, w)).2 := by
  induction es with
  | nil =>
    intro r w q _ hs
    exact hs
  | cons e es ih =>
    intro r w q inv _
    obtain ⟨inv1, _, _⟩ := Ring_FramArray.push_inv inv e
    exact ih inv1 (Ring_FramArray.push_synced inv.geom inv.hhead inv.htail w e)

/-- A run of pushes keeps the start address and the trailer address. -/
theorem Ring_FramArray.pushAll_layout {f : FramI2C} (es : List Buffer) :
    ∀ {r : Ring_FramArray} {w : Chip} {q : List Buffer}, RingInv f r w q →
    (Ring_FramArray.pushAll f es (r, w)).1._startAddress = r._startAddress ∧
    (Ring_FramArray.pushAll f es (r, w)).1._pointersAddress = r._pointersAddress ∧
    ∀ a, a < r._startAddress →
      (Ring_FramArray.pushAll f es (r, w)).2.mem a = w.mem a := by
  induction es with
  | nil =>
    intro r w q _
    exact ⟨rfl, rfl, fun _ _ => rfl⟩
  | cons e es ih =>
    intro r w q inv
    obtain ⟨inv1, _, _⟩ := Ring_FramArray.push_inv inv e
    obtain ⟨_, _, e3, _, e5, _, _, _, hmem⟩ :=
      Ring_FramArray.push_spec inv.geom inv.hhead inv.htail w e
    obtain ⟨h1, h2, h3⟩ := ih inv1
    simp only [Ring_FramArray.pushAll]
    refine ⟨by rw [h1, e3], by rw [h2, e5], ?_⟩
    intro a ha
    rw [h3 a (by rw [e3]; exact ha), hmem a]
    have := inv.geom.hptr
    rw [if_neg (by omega), if_neg (by omega)]

/-- State of a ring right after `boot` on a device with cursor `c` at or above the
control block end, when construction reports `framOK` and nothing wraps. -/
theorem Ring_FramArray.boot_spec (uninit : Ring_FramArray) (p : framPartNumber) (c N S : Nat)
    (w : Chip) (hc : 128 ≤ c) (hS : 1 ≤ S)
    (hres : (Ring_FramArray.new uninit (FramI2C.withCursor p c) N S).2.2 = framOK)
    (hfit : c + ((N + 1) * S + 12) < 2 ^ 32) :
    (Ring_FramArray.new uninit (FramI2C.withCursor p c) N S).2.1
      = FramI2C.withCursor p (c + ((N + 1) * S + 12)) ∧
    (Ring_FramArray.boot uninit (FramI2C.withCursor p c) N S w).1._numberOfElements = N + 1 ∧
    (Ring_FramArray.boot uninit (FramI2C.withCursor p c) N S w).1._sizeOfElement = S ∧
    (Ring_FramArray.boot uninit (FramI2C.withCursor p c) N S w).1._startAddress = c ∧
    (Ring_FramArray.boot uninit (FramI2C.withCursor p c) N S w).1._pointersAddress
      = c + (N + 1) * S ∧
    ((Ring_FramArray.boot uninit (FramI2C.withCursor p c) N S w).1._tailAddress,
     (Ring_FramArray.boot uninit (FramI2C.withCursor p c) N S w).1._headAddress) =
      (if pointerCheckOf (c + (N + 1) * S) (storedPointers w (c + (N + 1) * S)).tail
            (storedPointers w (c + (N + 1) * S)).head
          = (storedPointers w (c + (N + 1) * S)).pointerCheck
       then ((storedPointers w (c + (N + 1) * S)).tail,
             (storedPointers w (c + (N + 1) * S)).head)
       else (0, 0)) ∧
    Synced (Ring_FramArray.boot uninit (FramI2C.withCursor p c) N S w).1
      (Ring_FramArray.boot uninit (FramI2C.withCursor p c) N S w).2 ∧
    (∀ a, a < c + (N + 1) * S →
      (Ring_FramArray.boot uninit (FramI2C.withCursor p c) N S w).2.mem a = w.mem a) ∧
    (2 ≤ N + 1 →
      RingGeom (FramI2C.withCursor p (c + ((N + 1) * S + 12)))
        (Ring_FramArray.boot uninit (FramI2C.withCursor p c) N S w).1) := by
  obtain ⟨hS127, hlt, hr, hf⟩ := Ring_FramArray.new_spec uninit p c N S hres hfit
  have htop := (topAddress_lt p).2
  have hN1 : (N + 1) * 1 ≤ (N + 1) * S := Nat.mul_le_mul_left _ hS
  have hmod : (N + 1) % 2 ^ 32 = N + 1 := by omega
  unfold Ring_FramArray.boot
  rw [hf, hr]
  obtain ⟨i1, i2, i3, i4, i5, i6, i7⟩ := Ring_FramArray.initialize_spec
    (f := FramI2C.withCursor p (c + ((N + 1) * S + 12)))
    (r := { uninit with
        _numberOfElements := (N + 1) % 2 ^ 32
        _sizeOfElement := S
        _startAddress := c
        _ringEndAddress := c + ((N + 1) * S + 12) })
    (by simp only; omega)
    (by rw [FramI2C.withCursor_bottom]; simp only; omega)
    (by rw [FramI2C.withCursor_top]; simp only; omega)
    (by rw [FramI2C.withCursor_top]; exact htop) w
  simp only at i1 i2 i3 i4 i5 i6 i7
  have hP : c + ((N + 1) * S + 12) - 12 = c + (N + 1) * S := by omega
  rw [hP] at i5 i6 i7
  refine ⟨rfl, by rw [i1, hmod], i2, i3, i5, i6, ?_, ?_, ?_⟩
  · intro i hi
    rw [i5, i7, if_pos (by omega)]
    have : c + (N + 1) * S + i - (c + (N + 1) * S) = i := by omega
    rw [this]
  · intro a ha
    rw [i7, if_neg (by omega)]
  · intro hN
    exact ⟨by rw [i1, hmod]; exact hN, by rw [i2]; exact ⟨hS, hS127⟩,
      by rw [FramI2C.withCursor_bottom]; norm_num,
      by rw [FramI2C.withCursor_bottom, i3]; exact hc,
      by rw [i5, i3, i1, i2, hmod],
      by rw [i5, FramI2C.withCursor_top]; omega,
      by rw [FramI2C.withCursor_top]; exact htop⟩

/-- An initialized ring with equal in-range indices holds the empty queue. -/
theorem RingInv.of_empty {f : FramI2C} {r : Ring_FramArray} {w : Chip} (g : RingGeom f r)
    (he : r._tailAddress = r._headAddress) (ht : r._tailAddress < r._numberOfElements) :
    RingInv f r w [] := by
  refine ⟨g, ht, by rw [← he]; exact ht, ?_, ?_⟩
  · unfold occupancy
    rw [he]
    simp
  · intro j b hjb
    simp at hjb


/-- Queue behaviour of a ring that holds the empty queue: pushes followed by pops. -/
theorem Ring_FramArray.fifo_core {f : FramI2C} {r : Ring_FramArray} {w : Chip} (N S : Nat)
    (es : List Buffer) (out : Buffer) (inv0 : RingInv f r w [])
    (hne : r._numberOfElements = N + 1) (hsz : r._sizeOfElement = S) (hN : 1 ≤ N) :
    (Ring_FramArray.popN f out (min es.length N + 1)
      (Ring_FramArray.pushAll f es (r, w))).1.length = min es.length N + 1 ∧
    (∀ (j : Nat) (x : Buffer), es[es.length - min es.length N + j]? = some x →
      ∃ b : Buffer,
        (Ring_FramArray.popN f out (min es.length N + 1)
          (Ring_FramArray.pushAll f es (r, w))).1[j]? = some (true, b) ∧
        ∀ i, i < S → b i = x i) ∧
    (Ring_FramArray.popN f out (min es.length N + 1)
      (Ring_FramArray.pushAll f es (r, w))).1[min es.length N]? = some (false, out) := by
  obtain ⟨inv1, _, hsz1⟩ := Ring_FramArray.pushAll_inv es inv0
  rw [hne, foldl_qpush (N + 1) (by omega)] at inv1
  rw [hsz] at hsz1
  have hlen : (es.drop (es.length - (N + 1 - 1))).length = min es.length N := by
    rw [List.length_drop]
    omega
  obtain ⟨k1, k2, k3⟩ := Ring_FramArray.popN_spec out _ inv1
  rw [hlen] at k1 k2 k3
  rw [hsz1] at k2
  refine ⟨k1, ?_, k3⟩
  intro j x hjx
  apply k2 j x
  rw [List.getElem?_drop]
  have : es.length - (N + 1 - 1) + j = es.length - min es.length N + j := by omega
  rw [this]
  exact hjx

/-- C4 (as amended): a ring of logical capacity `N >= 1` and element size 1..127,
constructed with result `framOK` on a device whose cursor is at or above the control
block end and such that `nextFreeByte + (N+1)*elementSize + 12` does not overflow 32
bits, which `initialize` left at `(0, 0)`: after pushing `e1..em`, the next
`min m N` pops return `true` with the last `min m N` pushed elements in push order, and
the pop after them returns `false`. -/
theorem C4_ring_fifo (p : framPartNumber) (c N S : Nat) (uninit : Ring_FramArray) (w : Chip)
    (es : List Buffer) (out : Buffer)
    (hc : (FramI2C.withCursor p c)._bottomAddress ≤ c)
    (hN : 1 ≤ N) (hS : 1 ≤ S ∧ S ≤ 127)
    (hres : (Ring_FramArray.new uninit (FramI2C.withCursor p c) N S).2.2 = framOK)
    (hfit : c + ((N + 1) * S + 12) < 2 ^ 32)
    (hinit : ((Ring_FramArray.boot uninit (FramI2C.withCursor p c) N S w).1._tailAddress,
      (Ring_FramArray.boot uninit (FramI2C.withCursor p c) N S w).1._headAddress) = (0, 0)) :
    (Ring_FramArray.popN (Ring_FramArray.new uninit (FramI2C.withCursor p c) N S).2.1 out
      (min es.length N + 1)
      (Ring_FramArray.pushAll (Ring_FramArray.new uninit (FramI2C.withCursor p c) N S).2.1 es
        (Ring_FramArray.boot uninit (FramI2C.withCursor p c) N S w))).1.length
      = min es.length N + 1 ∧
    (∀ (j : Nat) (x : Buffer), es[es.length - min es.length N + j]? = some x →
      ∃ b : Buffer,
        (Ring_FramArray.popN (Ring_FramArray.new uninit (FramI2C.withCursor p c) N S).2.1 out
          (min es.length N + 1)
          (Ring_FramArray.pushAll (Ring_FramArray.new uninit (FramI2C.withCursor p c) N S).2.1
            es (Ring_FramArray.boot uninit (FramI2C.withCursor p c) N S w))).1[j]?
          = some (true, b) ∧
        ∀ i, i < S → b i = x i) ∧
    (Ring_FramArray.popN (Ring_FramArray.new uninit (FramI2C.withCursor p c) N S).2.1 out
      (min es.length N + 1)
      (Ring_FramArray.pushAll (Ring_FramArray.new uninit (FramI2C.withCursor p c) N S).2.1 es
        (Ring_FramArray.boot uninit (FramI2C.withCursor p c) N S w))).1[min es.length N]?
      = some (false, out) := by
  rw [FramI2C.withCursor_bottom] at hc
  obtain ⟨hf, b1, b2, _, _, _, _, _, hg⟩ :=
    Ring_FramArray.boot_spec uninit p c N S w hc hS.1 hres hfit
  have g := hg (by omega)
  have ht0 := congrArg Prod.fst hinit
  have hh0 := congrArg Prod.snd hinit
  simp only at ht0 hh0
  rw [← hf] at g
  generalize Ring_FramArray.boot uninit (FramI2C.withCursor p c) N S w = s at b1 b2 g ht0 hh0 ⊢
  generalize (Ring_FramArray.new uninit (FramI2C.withCursor p c) N S).2.1 = f1 at g ⊢
  obtain ⟨r, w'⟩ := s
  simp only at b1 b2 g ht0 hh0
  have inv0 : RingInv f1 r w' [] :=
    RingInv.of_empty g (by rw [ht0, hh0]) (by rw [ht0, b1]; omega)
  exact Ring_FramArray.fifo_core N S es out inv0 b1 b2 hN

/-- Witness for C4, the scenario of the specification: on a fresh device with top address
`0x3FFF` a ring with `elementCount = 4`, `elementSize = 8` starts at 128, ends at
`128 + 40 + 12 = 180` with its trailer at 168, and after pushing `{1},{2},{3},{4},{5}`
the first pop returns `{2}`. -/
theorem C4_ring_fifo_witness :
    (FramI2C.new .MB85RC128A)._topAddress = 0x3FFF ∧
    (Ring_FramArray.boot rawRing (FramI2C.withCursor .MB85RC128A 128) 4 8 zeroChip).1._startAddress
      = 128 ∧
    (Ring_FramArray.boot rawRing (FramI2C.withCursor .MB85RC128A 128) 4 8 zeroChip).1._ringEndAddress
      = 180 ∧
    (Ring_FramArray.boot rawRing (FramI2C.withCursor .MB85RC128A 128) 4 8
      zeroChip).1._pointersAddress = 168 ∧
    ∃ b : Buffer,
      (Ring_FramArray.popN
        (Ring_FramArray.new rawRing (FramI2C.withCursor .MB85RC128A 128) 4 8).2.1 (fun _ => 0)
        (min [elem 1, elem 2, elem 3, elem 4, elem 5].length 4 + 1)
        (Ring_FramArray.pushAll
          (Ring_FramArray.new rawRing (FramI2C.withCursor .MB85RC128A 128) 4 8).2.1
          [elem 1, elem 2, elem 3, elem 4, elem 5]
          (Ring_FramArray.boot rawRing (FramI2C.withCursor .MB85RC128A 128) 4 8
            zeroChip))).1[0]? = some (true, b) ∧
      ∀ i, i < 8 → b i = elem 2 i :=
  ⟨by decide, by decide, by decide, by decide,
    (C4_ring_fifo .MB85RC128A 128 4 8 rawRing zeroChip
      [elem 1, elem 2, elem 3, elem 4, elem 5] (fun _ => 0)
      (by decide) (by decide) (by decide) (by decide) (by decide) (by decide)).2.1 0 (elem 2)
      rfl⟩

/-- Counterexample to C4 as stated: on an MB85RC64 on which 8000 bytes were allocated
before, a ring with `N = 33818639`, `elementSize = 127` is constructed with `framOK`
(`(N+1)*127 + 12 = 4294967292` does not overflow 32 bits, but the allocator's sum
`8128 + 4294967292` wraps to 8124), `initialize` leaves it at `(0, 0)`, and after pushing
one element of ones the first pop returns `true` with a buffer whose byte 0 is still 0:
slot 0 at 8128..8254 runs past the top address 8191, so `write` and `read` reject it. -/
theorem C4_counterexample :
    FramI2C.Reachable ((FramI2C.new .MB85RC64).allocateMemory 8000).2.2 ∧
    (Ring_FramArray.new rawRing ((FramI2C.new .MB85RC64).allocateMemory 8000).2.2
      33818639 127).2.2 = framOK ∧
    (33818639 + 1) * 127 + 12 < 2 ^ 32 ∧
    ((Ring_FramArray.boot rawRing ((FramI2C.new .MB85RC64).allocateMemory 8000).2.2
        33818639 127 zeroChip).1._tailAddress,
     (Ring_FramArray.boot rawRing ((FramI2C.new .MB85RC64).allocateMemory 8000).2.2
        33818639 127 zeroChip).1._headAddress) = (0, 0) ∧
    ((Ring_FramArray.popN
        (Ring_FramArray.new rawRing ((FramI2C.new .MB85RC64).allocateMemory 8000).2.2
          33818639 127).2.1 (fun _ => 0) 2
        (Ring_FramArray.pushAll
          (Ring_FramArray.new rawRing ((FramI2C.new .MB85RC64).allocateMemory 8000).2.2
            33818639 127).2.1 [fun _ => 1]
          (Ring_FramArray.boot rawRing ((FramI2C.new .MB85RC64).allocateMemory 8000).2.2
            33818639 127 zeroChip))).1.map (fun x => (x.1, x.2 0)))
      = [(true, 0), (false, 0)] ∧
    (fun _ => 1 : Buffer) 0 ≠ 0 :=
  ⟨FramI2C.Reachable.allocate _ _ (FramI2C.Reachable.construct _) (by norm_num),
    by decide, by decide, by decide, by decide, by decide⟩

theorem ofBytes_toBytes_mk (pc t h : Nat) (h1 : pc < 2 ^ 32) (h2 : t < 2 ^ 32)
    (h3 : h < 2 ^ 32) :
    addr_t.ofBytes (addr_t.toBytes { pointerCheck := pc, tail := t, head := h })
      = { pointerCheck := pc, tail := t, head := h } :=
  u32le_toBytes { pointerCheck := pc, tail := t, head := h } h1 h2 h3

theorem adopt_lt (t h stt sth pc P : Nat)
    (h6 : (t, h) = if (P + stt + sth) % 2 ^ 32 = pc then (stt, sth) else (0, 0))
    (hst : stt < 2 ^ 32 ∧ sth < 2 ^ 32) : t < 2 ^ 32 ∧ h < 2 ^ 32 := by
  by_cases hcond : (P + stt + sth) % 2 ^ 32 = pc
  · rw [if_pos hcond] at h6
    have e1 := congrArg Prod.fst h6
    have e2 := congrArg Prod.snd h6
    simp only at e1 e2
    omega
  · rw [if_neg hcond] at h6
    have e1 := congrArg Prod.fst h6
    have e2 := congrArg Prod.snd h6
    simp only at e1 e2
    omega

/-- C6 (as amended): for a ring whose construction reported `framOK` on a device whose
cursor is at or above the control block end, with
`nextFreeByte + (elementCount+1)*elementSize + 12` not overflowing 32 bits, and for every
chip content: with `{checksum, tail, head}` the twelve bytes stored at
`metadataAddress = ringEndAddress - 12`, `initialize` sets the in-memory indices to
`(0, 0)` if `checksum` differs from `(metadataAddress + tail + head) mod 2^32` and adopts
exactly `(tail, head)` if it matches; in both cases the trailer stored afterwards decodes
to the in-memory indices with a matching checksum. -/
theorem C6_initialize_checksum (p : framPartNumber) (c N S : Nat) (uninit : Ring_FramArray)
    (w : Chip)
    (hc : (FramI2C.withCursor p c)._bottomAddress ≤ c)
    (hres : (Ring_FramArray.new uninit (FramI2C.withCursor p c) N S).2.2 = framOK)
    (hfit : c + ((N + 1) * S + 12) < 2 ^ 32) :
    ((storedPointers w
        ((Ring_FramArray.new uninit (FramI2C.withCursor p c) N S).1._ringEndAddress - 12)).pointerCheck
      ≠ (((Ring_FramArray.new uninit (FramI2C.withCursor p c) N S).1._ringEndAddress - 12)
          + (storedPointers w
              ((Ring_FramArray.new uninit (FramI2C.withCursor p c) N S).1._ringEndAddress - 12)).tail
          + (storedPointers w
              ((Ring_FramArray.new uninit (FramI2C.withCursor p c) N S).1._ringEndAddress - 12)).head)
          % 2 ^ 32 →
      ((Ring_FramArray.boot uninit (FramI2C.withCursor p c) N S w).1._tailAddress,
       (Ring_FramArray.boot uninit (FramI2C.withCursor p c) N S w).1._headAddress) = (0, 0)) ∧
    ((storedPointers w
        ((Ring_FramArray.new uninit (FramI2C.withCursor p c) N S).1._ringEndAddress - 12)).pointerCheck
      = (((Ring_FramArray.new uninit (FramI2C.withCursor p c) N S).1._ringEndAddress - 12)
          + (storedPointers w
              ((Ring_FramArray.new uninit (FramI2C.withCursor p c) N S).1._ringEndAddress - 12)).tail
          + (storedPointers w
              ((Ring_FramArray.new uninit (FramI2C.withCursor p c) N S).1._ringEndAddress - 12)).head)
          % 2 ^ 32 →
      ((Ring_FramArray.boot uninit (FramI2C.withCursor p c) N S w).1._tailAddress,
       (Ring_FramArray.boot uninit (FramI2C.withCursor p c) N S w).1._headAddress) =
        ((storedPointers w
          ((Ring_FramArray.new uninit (FramI2C.withCursor p c) N S).1._ringEndAddress - 12)).tail,
         (storedPointers w
          ((Ring_FramArray.new uninit (FramI2C.withCursor p c) N S).1._ringEndAddress - 12)).head)) ∧
    storedPointers (Ring_FramArray.boot uninit (FramI2C.withCursor p c) N S w).2
        ((Ring_FramArray.new uninit (FramI2C.withCursor p c) N S).1._ringEndAddress - 12) =
      { pointerCheck :=
          (((Ring_FramArray.new uninit (FramI2C.withCursor p c) N S).1._ringEndAddress - 12)
            + (Ring_FramArray.boot uninit (FramI2C.withCursor p c) N S w).1._tailAddress
            + (Ring_FramArray.boot uninit (FramI2C.withCursor p c) N S w).1._headAddress) % 2 ^ 32
        tail := (Ring_FramArray.boot uninit (FramI2C.withCursor p c) N S w).1._tailAddress
        head := (Ring_FramArray.boot uninit (FramI2C.withCursor p c) N S w).1._headAddress } := by
  rw [FramI2C.withCursor_bottom] at hc
  obtain ⟨hS127, hlt, hr, hf⟩ := Ring_FramArray.new_spec uninit p c N S hres hfit
  have htop := (topAddress_lt p).2
  unfold Ring_FramArray.boot
  rw [hf, hr]
  obtain ⟨_, _, _, _, _, i6, i7⟩ := Ring_FramArray.initialize_spec
    (f := FramI2C.withCursor p (c + ((N + 1) * S + 12)))
    (r := { uninit with
        _numberOfElements := (N + 1) % 2 ^ 32
        _sizeOfElement := S
        _startAddress := c
        _ringEndAddress := c + ((N + 1) * S + 12) })
    (by simp only; omega)
    (by rw [FramI2C.withCursor_bottom]; simp only; omega)
    (by rw [FramI2C.withCursor_top]; simp only; omega)
    (by rw [FramI2C.withCursor_top]; exact htop) w
  simp only at i6 i7 ⊢
  generalize Ring_FramArray.initialize _ _ w = s at i6 i7 ⊢
  have hstlt : (storedPointers w (c + ((N + 1) * S + 12) - 12)).tail < 2 ^ 32 ∧
      (storedPointers w (c + ((N + 1) * S + 12) - 12)).head < 2 ^ 32 :=
    ⟨u32le_lt _ _, u32le_lt _ _⟩
  generalize storedPointers w (c + ((N + 1) * S + 12) - 12) = st at i6 hstlt ⊢
  generalize hP : c + ((N + 1) * S + 12) - 12 = P at i6 i7 ⊢
  have hpc : ∀ t h, pointerCheckOf P t h = (P + t + h) % 2 ^ 32 := by
    intro t h
    unfold pointerCheckOf
    omega
  rw [hpc] at i6
  refine ⟨?_, ?_, ?_⟩
  · intro hne
    rw [i6, if_neg (fun h => hne h.symm)]
  · intro heq
    rw [i6, if_pos heq.symm]
  · have hdec : storedPointers s.2 P = addr_t.ofBytes (addr_t.toBytes
          { pointerCheck := pointerCheckOf P s.1._tailAddress s.1._headAddress
            tail := s.1._tailAddress, head := s.1._headAddress }) := by
      unfold storedPointers
      apply addr_t.ofBytes_congr
      intro i hi
      rw [i7, if_pos (by omega)]
      apply congrArg
      omega
    have hth : s.1._tailAddress < 2 ^ 32 ∧ s.1._headAddress < 2 ^ 32 :=
      adopt_lt _ _ _ _ _ _ i6 hstlt
    have hck : pointerCheckOf P s.1._tailAddress s.1._headAddress < 2 ^ 32 := by
      rw [hpc]
      exact Nat.mod_lt _ (Nat.two_pow_pos 32)
    rw [hdec]
    refine (ofBytes_toBytes_mk _ _ _ hck hth.1 hth.2).trans ?_
    rw [hpc]

/-- The result code and the device object of a ring construction do not depend on the
raw object. -/
theorem Ring_FramArray.new_indep (u u' : Ring_FramArray) (f : FramI2C) (N S : Nat) :
    (Ring_FramArray.new u f N S).2 = (Ring_FramArray.new u' f N S).2 := by
  unfold Ring_FramArray.new
  split_ifs <;> rfl

/-- When the trailer on the chip matches the in-memory indices of an allocated ring, it
decodes to them with a checksum that passes the test of `initialize`. -/
theorem Synced.stored {f : FramI2C} {r : Ring_FramArray} {w : Chip} {q : List Buffer}
    (inv : RingInv f r w q) (hs : Synced r w) :
    storedPointers w r._pointersAddress =
      { pointerCheck := pointerCheckOf r._pointersAddress r._tailAddress r._headAddress
        tail := r._tailAddress, head := r._headAddress } := by
  have hn := inv.geom.ne_lt
  have ht := inv.htail
  have hh := inv.hhead
  have hdec : storedPointers w r._pointersAddress = addr_t.ofBytes (addr_t.toBytes
      { pointerCheck := pointerCheckOf r._pointersAddress r._tailAddress r._headAddress
        tail := r._tailAddress, head := r._headAddress }) := by
    unfold storedPointers
    apply addr_t.ofBytes_congr
    intro i hi
    exact hs i hi
  have hck : pointerCheckOf r._pointersAddress r._tailAddress r._headAddress < 2 ^ 32 := by
    unfold pointerCheckOf
    exact Nat.mod_lt _ (Nat.two_pow_pos 32)
  rw [hdec]
  exact ofBytes_toBytes_mk _ _ _ hck (by omega) (by omega)

/-- Restart: a ring object with the same layout whose indices were chosen by
`initialize` from a trailer that matches the old in-memory indices, over a chip that
agrees with the old one below the trailer, recovers the old indices and holds the same
queue. -/
theorem restart_core {f : FramI2C} {r1 r2 : Ring_FramArray} {w1 w2 : Chip} {q : List Buffer}
    (inv : RingInv f r1 w1 q) (hs : Synced r1 w1)
    (e1 : r2._numberOfElements = r1._numberOfElements)
    (e2 : r2._sizeOfElement = r1._sizeOfElement)
    (e3 : r2._startAddress = r1._startAddress)
    (e4 : r2._pointersAddress = r1._pointersAddress)
    (h6 : (r2._tailAddress, r2._headAddress) =
      (if pointerCheckOf r1._pointersAddress (storedPointers w1 r1._pointersAddress).tail
            (storedPointers w1 r1._pointersAddress).head
          = (storedPointers w1 r1._pointersAddress).pointerCheck
       then ((storedPointers w1 r1._pointersAddress).tail,
             (storedPointers w1 r1._pointersAddress).head)
       else (0, 0)))
    (hmem : ∀ a, a < r1._pointersAddress → w2.mem a = w1.mem a) :
    (r2._tailAddress, r2._headAddress) = (r1._tailAddress, r1._headAddress) ∧
    RingInv f r2 w2 q := by
  have hst := Synced.stored inv hs
  rw [hst] at h6
  simp only [if_true] at h6
  have t6 := congrArg Prod.fst h6
  have h6' := congrArg Prod.snd h6
  simp only at t6 h6'
  refine ⟨h6, ?_⟩
  have g := inv.geom
  refine ⟨⟨by rw [e1]; exact g.hne, by rw [e2]; exact g.hsize, g.hbot,
      by rw [e3]; exact g.hstart, by rw [e4, e3, e1, e2]; exact g.hptr,
      by rw [e4]; exact g.hend, g.htop⟩, ?_, ?_, ?_⟩
  · rw [t6, e1]; exact inv.htail
  · rw [h6', e1]; exact inv.hhead
  · exact Rep.transfer g inv.htail inv.hhead inv.rep e1 e2 e3 t6 h6' hmem

/-- C5 (as amended): take a ring of logical capacity `N >= 1` and element size 1..127
whose construction reported `framOK` on a device whose cursor is at or above the control
block end, with `nextFreeByte + (N+1)*elementSize + 12` not overflowing 32 bits, and which
`initialize` left empty (tail = head, a slot index). Push `e1..ek`, then restart: build a
fresh ring object (arbitrary raw members) with the same parameters on a fresh device
object with the same cursor, over the chip as the pushes left it, and call `initialize`.
The recovered `(tail, head)` equals the in-memory pair after the last push, and if
`1 <= k <= N` a `pop` on the recovered ring returns `true` and delivers `e1`. -/
theorem C5_persistence (p : framPartNumber) (c N S : Nat) (uninit uninit' : Ring_FramArray)
    (w : Chip) (es : List Buffer) (out : Buffer)
    (hc : (FramI2C.withCursor p c)._bottomAddress ≤ c)
    (hN : 1 ≤ N) (hS : 1 ≤ S ∧ S ≤ 127)
    (hres : (Ring_FramArray.new uninit (FramI2C.withCursor p c) N S).2.2 = framOK)
    (hfit : c + ((N + 1) * S + 12) < 2 ^ 32)
    (hempty : (Ring_FramArray.boot uninit (FramI2C.withCursor p c) N S w).1._tailAddress
      = (Ring_FramArray.boot uninit (FramI2C.withCursor p c) N S w).1._headAddress)
    (hrange : (Ring_FramArray.boot uninit (FramI2C.withCursor p c) N S w).1._tailAddress < N + 1) :
    ((Ring_FramArray.boot uninit' (FramI2C.withCursor p c) N S
        (Ring_FramArray.pushAll (Ring_FramArray.new uninit (FramI2C.withCursor p c) N S).2.1 es
          (Ring_FramArray.boot uninit (FramI2C.withCursor p c) N S w)).2).1._tailAddress,
     (Ring_FramArray.boot uninit' (FramI2C.withCursor p c) N S
        (Ring_FramArray.pushAll (Ring_FramArray.new uninit (FramI2C.withCursor p c) N S).2.1 es
          (Ring_FramArray.boot uninit (FramI2C.withCursor p c) N S w)).2).1._headAddress) =
      ((Ring_FramArray.pushAll (Ring_FramArray.new uninit (FramI2C.withCursor p c) N S).2.1 es
          (Ring_FramArray.boot uninit (FramI2C.withCursor p c) N S w)).1._tailAddress,
       (Ring_FramArray.pushAll (Ring_FramArray.new uninit (FramI2C.withCursor p c) N S).2.1 es
          (Ring_FramArray.boot uninit (FramI2C.withCursor p c) N S w)).1._headAddress) ∧
    ∀ (e1 : Buffer) (rest : List Buffer), es = e1 :: rest → es.length ≤ N →
      (Ring_FramArray.pop
        (Ring_FramArray.boot uninit' (FramI2C.withCursor p c) N S
          (Ring_FramArray.pushAll (Ring_FramArray.new uninit (FramI2C.withCursor p c) N S).2.1
            es (Ring_FramArray.boot uninit (FramI2C.withCursor p c) N S w)).2).1
        (Ring_FramArray.new uninit' (FramI2C.withCursor p c) N S).2.1
        (Ring_FramArray.boot uninit' (FramI2C.withCursor p c) N S
          (Ring_FramArray.pushAll (Ring_FramArray.new uninit (FramI2C.withCursor p c) N S).2.1
            es (Ring_FramArray.boot uninit (FramI2C.withCursor p c) N S w)).2).2 out).1 = true ∧
      ∀ i, i < S →
        (Ring_FramArray.pop
          (Ring_FramArray.boot uninit' (FramI2C.withCursor p c) N S
            (Ring_FramArray.pushAll (Ring_FramArray.new uninit (FramI2C.withCursor p c) N S).2.1
              es (Ring_FramArray.boot uninit (FramI2C.withCursor p c) N S w)).2).1
          (Ring_FramArray.new uninit' (FramI2C.withCursor p c) N S).2.1
          (Ring_FramArray.boot uninit' (FramI2C.withCursor p c) N S
            (Ring_FramArray.pushAll (Ring_FramArray.new uninit (FramI2C.withCursor p c) N S).2.1
              es (Ring_FramArray.boot uninit (FramI2C.withCursor p c) N S w)).2).2 out).2.2.2 i
          = e1 i := by
  rw [FramI2C.withCursor_bottom] at hc
  have hres' : (Ring_FramArray.new uninit' (FramI2C.withCursor p c) N S).2.2 = framOK := by
    rw [← hres]
    exact congrArg Prod.snd (Ring_FramArray.new_indep uninit' uninit _ N S)
  have hf' : (Ring_FramArray.new uninit' (FramI2C.withCursor p c) N S).2.1
      = (Ring_FramArray.new uninit (FramI2C.withCursor p c) N S).2.1 :=
    congrArg Prod.fst (Ring_FramArray.new_indep uninit' uninit _ N S)
  obtain ⟨hf, b1, b2, b3, b5, _, bsync, _, hg⟩ :=
    Ring_FramArray.boot_spec uninit p c N S w hc hS.1 hres hfit
  have g := hg (by omega)
  rw [← hf] at g
  -- the state after the first boot
  generalize Ring_FramArray.boot uninit (FramI2C.withCursor p c) N S w = s0
    at b1 b2 b3 b5 bsync g hempty hrange ⊢
  obtain ⟨r0, w0⟩ := s0
  simp only at b1 b2 b3 b5 bsync g hempty hrange
  have inv0 : RingInv (Ring_FramArray.new uninit (FramI2C.withCursor p c) N S).2.1 r0 w0 [] :=
    RingInv.of_empty g hempty (by rw [b1]; exact hrange)
  obtain ⟨inv1, n1, n2⟩ := Ring_FramArray.pushAll_inv es inv0
  have sync1 := Ring_FramArray.pushAll_synced es inv0 bsync
  obtain ⟨l1, l2, _⟩ := Ring_FramArray.pushAll_layout es inv0
  rw [b1, foldl_qpush (N + 1) (by omega)] at inv1
  -- the state after the pushes
  generalize Ring_FramArray.pushAll (Ring_FramArray.new uninit (FramI2C.withCursor p c) N S).2.1
    es (r0, w0) = s1 at inv1 n1 n2 sync1 l1 l2 ⊢
  obtain ⟨r1, w1⟩ := s1
  simp only at inv1 n1 n2 sync1 l1 l2 ⊢
  -- the restart
  obtain ⟨_, c1, c2, c3, c5, c6, _, cmem, _⟩ :=
    Ring_FramArray.boot_spec uninit' p c N S w1 hc hS.1 hres' hfit
  rw [hf']
  generalize Ring_FramArray.boot uninit' (FramI2C.withCursor p c) N S w1 = s2
    at c1 c2 c3 c5 c6 cmem ⊢
  obtain ⟨r2, w2⟩ := s2
  simp only at c1 c2 c3 c5 c6 cmem ⊢
  have hP : r1._pointersAddress = c + (N + 1) * S := by rw [l2, b5]
  rw [← hP] at c6 cmem
  obtain ⟨k1, inv2⟩ := restart_core inv1 sync1 (by rw [c1, n1, b1]) (by rw [c2, n2, b2])
    (by rw [c3, l1, b3]) (by rw [c5, hP]) c6 cmem
  refine ⟨k1, ?_⟩
  intro e1 rest hes hlen
  have hq : es.drop (es.length - (N + 1 - 1)) = e1 :: rest := by
    have : es.length - (N + 1 - 1) = 0 := by omega
    rw [this, List.drop_zero, hes]
  rw [hq] at inv2
  obtain ⟨p1, p2, _, _, _⟩ := Ring_FramArray.pop_inv_cons inv2 out
  refine ⟨p1, ?_⟩
  intro i hi
  exact p2 i (by rw [c2]; exact hi)

/-- Witness for C5: two elements pushed on the ring of the specification scenario, then a
restart. -/
theorem C5_persistence_witness :
    ((Ring_FramArray.boot rawRing (FramI2C.withCursor .MB85RC128A 128) 4 8
        (Ring_FramArray.pushAll
          (Ring_FramArray.new rawRing (FramI2C.withCursor .MB85RC128A 128) 4 8).2.1
          [elem 1, elem 2]
          (Ring_FramArray.boot rawRing (FramI2C.withCursor .MB85RC128A 128) 4 8
            zeroChip)).2).1._tailAddress,
     (Ring_FramArray.boot rawRing (FramI2C.withCursor .MB85RC128A 128) 4 8
        (Ring_FramArray.pushAll
          (Ring_FramArray.new rawRing (FramI2C.withCursor .MB85RC128A 128) 4 8).2.1
          [elem 1, elem 2]
          (Ring_FramArray.boot rawRing (FramI2C.withCursor .MB85RC128A 128) 4 8
            zeroChip)).2).1._headAddress) =
      ((Ring_FramArray.pushAll
          (Ring_FramArray.new rawRing (FramI2C.withCursor .MB85RC128A 128) 4 8).2.1
          [elem 1, elem 2]
          (Ring_FramArray.boot rawRing (FramI2C.withCursor .MB85RC128A 128) 4 8
            zeroChip)).1._tailAddress,
       (Ring_FramArray.pushAll
          (Ring_FramArray.new rawRing (FramI2C.withCursor .MB85RC128A 128) 4 8).2.1
          [elem 1, elem 2]
          (Ring_FramArray.boot rawRing (FramI2C.withCursor .MB85RC128A 128) 4 8
            zeroChip)).1._headAddress) :=
  (C5_persistence .MB85RC128A 128 4 8 rawRing rawRing zeroChip [elem 1, elem 2] (fun _ => 0)
    (by decide) (by decide) (by decide) (by decide) (by decide) (by decide) (by decide)).1

/-- Counterexample to C5 as stated: on a fresh MB85RC64 a ring with `N = 33818639`,
`elementSize = 127` is constructed with `framOK` (the allocator's sum
`128 + 4294967292` wraps to 124) and left empty at `(0, 0)` by `initialize`; after one
push the in-memory pair is `(0, 1)`, but the trailer address `124 - 12 = 112` lies in the
control block, so nothing was persisted and the restarted ring recovers `(0, 0)`. -/
theorem C5_counterexample :
    (Ring_FramArray.new rawRing (FramI2C.new .MB85RC64) 33818639 127).2.2 = framOK ∧
    ((Ring_FramArray.boot rawRing (FramI2C.new .MB85RC64) 33818639 127 zeroChip).1._tailAddress,
     (Ring_FramArray.boot rawRing (FramI2C.new .MB85RC64) 33818639 127 zeroChip).1._headAddress)
      = (0, 0) ∧
    ((Ring_FramArray.pushAll (Ring_FramArray.new rawRing (FramI2C.new .MB85RC64) 33818639 127).2.1
        [fun _ => 1]
        (Ring_FramArray.boot rawRing (FramI2C.new .MB85RC64) 33818639 127 zeroChip)).1._tailAddress,
     (Ring_FramArray.pushAll (Ring_FramArray.new rawRing (FramI2C.new .MB85RC64) 33818639 127).2.1
        [fun _ => 1]
        (Ring_FramArray.boot rawRing (FramI2C.new .MB85RC64) 33818639 127 zeroChip)).1._headAddress)
      = (0, 1) ∧
    ((Ring_FramArray.boot rawRing (FramI2C.new .MB85RC64) 33818639 127
        (Ring_FramArray.pushAll
          (Ring_FramArray.new rawRing (FramI2C.new .MB85RC64) 33818639 127).2.1 [fun _ => 1]
          (Ring_FramArray.boot rawRing (FramI2C.new .MB85RC64) 33818639 127
            zeroChip)).2).1._tailAddress,
     (Ring_FramArray.boot rawRing (FramI2C.new .MB85RC64) 33818639 127
        (Ring_FramArray.pushAll
          (Ring_FramArray.new rawRing (FramI2C.new .MB85RC64) 33818639 127).2.1 [fun _ => 1]
          (Ring_FramArray.boot rawRing (FramI2C.new .MB85RC64) 33818639 127
            zeroChip)).2).1._headAddress)
      = (0, 0) :=
  ⟨by decide, by decide, by decide, by decide⟩

/-- Witness for C6: on the ring of the specification scenario over a zeroed chip the
stored checksum 0 differs from `168 + 0 + 0`, and `initialize` leaves `(0, 0)`. -/
theorem C6_initialize_checksum_witness :
    ((Ring_FramArray.boot rawRing (FramI2C.withCursor .MB85RC128A 128) 4 8 zeroChip).1._tailAddress,
     (Ring_FramArray.boot rawRing (FramI2C.withCursor .MB85RC128A 128) 4 8 zeroChip).1._headAddress)
      = (0, 0) :=
  (C6_initialize_checksum .MB85RC128A 128 4 8 rawRing zeroChip
    (by decide) (by decide) (by decide)).1 (by decide)

/-- Counterexample to C6 as stated: on a fresh MB85RC64 the ring with `N = 33818639`,
`elementSize = 127` is constructed with `framOK` and `ringEndAddress = 124`, so
`metadataAddress = 112`. With the consistent trailer `{117, 2, 3}` stored there
(`117 = 112 + 2 + 3`), `initialize` does not adopt `(2, 3)` but sets `(0, 0)`, and the
trailer stored afterwards is still `{117, 2, 3}`: `read` and `write` reject address 112,
which lies below `_bottomAddress`. -/
theorem C6_counterexample :
    (Ring_FramArray.new rawRing (FramI2C.new .MB85RC64) 33818639 127).2.2 = framOK ∧
    (Ring_FramArray.new rawRing (FramI2C.new .MB85RC64) 33818639 127).1._ringEndAddress - 12
      = 112 ∧
    storedPointers
      ⟨fun a => if a = 112 then 117 else if a = 116 then 2 else if a = 120 then 3 else 0, []⟩
      112 = { pointerCheck := 117, tail := 2, head := 3 } ∧
    (117 : Nat) = (112 + 2 + 3) % 2 ^ 32 ∧
    ((Ring_FramArray.boot rawRing (FramI2C.new .MB85RC64) 33818639 127
        ⟨fun a => if a = 112 then 117 else if a = 116 then 2 else if a = 120 then 3 else 0,
          []⟩).1._tailAddress,
     (Ring_FramArray.boot rawRing (FramI2C.new .MB85RC64) 33818639 127
        ⟨fun a => if a = 112 then 117 else if a = 116 then 2 else if a = 120 then 3 else 0,
          []⟩).1._headAddress) = (0, 0) ∧
    storedPointers
      (Ring_FramArray.boot rawRing (FramI2C.new .MB85RC64) 33818639 127
        ⟨fun a => if a = 112 then 117 else if a = 116 then 2 else if a = 120 then 3 else 0,
          []⟩).2
      112 = { pointerCheck := 117, tail := 2, head := 3 } :=
  ⟨by decide, by decide, by decide, by decide, by decide, by decide⟩

/-- An array construction that reports `framOK` with no 32-bit wrap in the requested size
or in the allocator's sum: the region `[c, c + n*S)` is allocated below the top address. -/
theorem FramI2CArray.new_array_spec (p : framPartNumber) (c n S : Nat)
    (hres : (FramI2CArray.new (FramI2C.withCursor p c) n S).2.2 = framOK)
    (hfit : c + n * S < 2 ^ 32) :
    S ≤ 127 ∧ c + n * S < _topAddressForPartNumber p ∧
    (FramI2CArray.new (FramI2C.withCursor p c) n S).1 =
      { _numberOfElements := n, _sizeOfElement := S, _startAddress := c } ∧
    (FramI2CArray.new (FramI2C.withCursor p c) n S).2.1 = FramI2C.withCursor p (c + n * S) := by
  have htop := (topAddress_lt p).2
  unfold FramI2CArray.new at hres ⊢
  by_cases hS : S < (FramI2C.withCursor p c).getMaxBufferSize
  · rw [if_pos hS] at hres ⊢
    have hS' : S < 128 := hS
    simp only at hres ⊢
    have e0 : (n * S) % 2 ^ 32 = n * S := by omega
    rw [e0] at hres ⊢
    unfold FramI2C.allocateMemory at hres ⊢
    rw [FramI2C.withCursor_next, FramI2C.withCursor_top] at hres ⊢
    have e1 : (c + n * S) % 2 ^ 32 = c + n * S := by omega
    rw [e1] at hres ⊢
    by_cases hlt : c + n * S < _topAddressForPartNumber p
    · rw [if_pos hlt]
      have e2 : c % 2 ^ 16 = c := by omega
      rw [e2]
      exact ⟨by omega, hlt, rfl, rfl⟩
    · rw [if_neg hlt] at hres
      simp at hres
  · rw [if_neg hS] at hres
    simp at hres

/-- Element access of an array object laid out at `[c, c + n*S)` inside the device. -/
theorem FramI2CArray.element_roundtrip (p : framPartNumber) (c c' n S : Nat) (w : Chip)
    (i : Nat) (v out : Buffer) (hc : 128 ≤ c) (hS : 1 ≤ S ∧ S ≤ 127)
    (hlt : c + n * S < _topAddressForPartNumber p) (hi : i < n) :
    (FramI2CArray.writeElement ⟨n, S, c⟩ (FramI2C.withCursor p c') w i v).1 = framOK ∧
    (FramI2CArray.readElement ⟨n, S, c⟩ (FramI2C.withCursor p c')
      (FramI2CArray.writeElement ⟨n, S, c⟩ (FramI2C.withCursor p c') w i v).2 i out).1
      = framOK ∧
    ∀ k, k < S →
      (FramI2CArray.readElement ⟨n, S, c⟩ (FramI2C.withCursor p c')
        (FramI2CArray.writeElement ⟨n, S, c⟩ (FramI2C.withCursor p c') w i v).2 i out).2.2 k
        = v k := by
  have htop := (topAddress_lt p).2
  have hb := slot_bound (s := S) hi
  have haddr : (c + (i * S) % 2 ^ 32) % 2 ^ 32 = c + i * S := by omega
  have hc0 : ¬ (c = 0) := by omega
  have hir : ¬ (i ≥ n) := by omega
  unfold FramI2CArray.writeElement FramI2CArray.readElement
  simp only [hc0, hir, if_false, haddr]
  have hw := FramI2C.write_valid (FramI2C.withCursor p c') w (c + i * S) S v
    (by rw [FramI2C.withCursor_bottom]; omega) (by rw [FramI2C.withCursor_top]; omega)
    hS.1 (by omega) (by rw [FramI2C.withCursor_top]; exact htop)
  have hr := FramI2C.read_valid (FramI2C.withCursor p c')
    ((FramI2C.withCursor p c').write w (c + i * S) S v).2 (c + i * S) S out
    (by rw [FramI2C.withCursor_bottom]; omega) (by rw [FramI2C.withCursor_top]; omega)
    hS.1 (by omega) (by rw [FramI2C.withCursor_top]; exact htop)
  refine ⟨hw.1, hr.1, ?_⟩
  intro k hk
  rw [hr.2.2 k, if_pos hk, hw.2, if_pos (by omega)]
  apply congrArg
  omega

/-- An out-of-range index is rejected by `readElement` and `writeElement` of any array
object without touching the chip or the buffer. -/
theorem FramI2CArray.bad_index (a : FramI2CArray) (f : FramI2C) (w : Chip) (i : Nat)
    (buffer : Buffer) (hi : a._numberOfElements ≤ i) :
    (a.readElement f w i buffer).1 ≠ framOK ∧ (a.readElement f w i buffer).2 = (w, buffer) ∧
    (a.writeElement f w i buffer).1 ≠ framOK ∧ (a.writeElement f w i buffer).2 = w := by
  unfold FramI2CArray.readElement FramI2CArray.writeElement
  by_cases h0 : a._startAddress = 0
  · simp [h0]
  · have hge : i ≥ a._numberOfElements := hi
    simp [h0, hge]

/-- C7 (as amended): for an array with element size 1..127 whose construction reported
`framOK` on a device whose cursor is at or above the control block end, with
`nextFreeByte + elementCount*elementSize` not overflowing 32 bits: for every index
`i < elementCount` and every value `v`, `writeElement(i, v)` reports `framOK` and the
following `readElement(i)` reports `framOK` and returns `v`; for every index
`i >= elementCount`, `readElement` and `writeElement` report an error and return the chip
(memory and transaction log) and the caller's buffer unchanged. -/
theorem C7_array_roundtrip (p : framPartNumber) (c n S : Nat) (w : Chip) (i : Nat)
    (v out : Buffer)
    (hc : (FramI2C.withCursor p c)._bottomAddress ≤ c) (hS : 1 ≤ S ∧ S ≤ 127)
    (hres : (FramI2CArray.new (FramI2C.withCursor p c) n S).2.2 = framOK)
    (hfit : c + n * S < 2 ^ 32) :
    (i < n →
      ((FramI2CArray.new (FramI2C.withCursor p c) n S).1.writeElement
        (FramI2CArray.new (FramI2C.withCursor p c) n S).2.1 w i v).1 = framOK ∧
      ((FramI2CArray.new (FramI2C.withCursor p c) n S).1.readElement
        (FramI2CArray.new (FramI2C.withCursor p c) n S).2.1
        ((FramI2CArray.new (FramI2C.withCursor p c) n S).1.writeElement
          (FramI2CArray.new (FramI2C.withCursor p c) n S).2.1 w i v).2 i out).1 = framOK ∧
      ∀ k, k < S →
        ((FramI2CArray.new (FramI2C.withCursor p c) n S).1.readElement
          (FramI2CArray.new (FramI2C.withCursor p c) n S).2.1
          ((FramI2CArray.new (FramI2C.withCursor p c) n S).1.writeElement
            (FramI2CArray.new (FramI2C.withCursor p c) n S).2.1 w i v).2 i out).2.2 k = v k) ∧
    (n ≤ i →
      ((FramI2CArray.new (FramI2C.withCursor p c) n S).1.readElement
        (FramI2CArray.new (FramI2C.withCursor p c) n S).2.1 w i out).1 ≠ framOK ∧
      ((FramI2CArray.new (FramI2C.withCursor p c) n S).1.readElement
        (FramI2CArray.new (FramI2C.withCursor p c) n S).2.1 w i out).2 = (w, out) ∧
      ((FramI2CArray.new (FramI2C.withCursor p c) n S).1.writeElement
        (FramI2CArray.new (FramI2C.withCursor p c) n S).2.1 w i v).1 ≠ framOK ∧
      ((FramI2CArray.new (FramI2C.withCursor p c) n S).1.writeElement
        (FramI2CArray.new (FramI2C.withCursor p c) n S).2.1 w i v).2 = w) := by
  rw [FramI2C.withCursor_bottom] at hc
  obtain ⟨_, hlt, ha, hf⟩ := FramI2CArray.new_array_spec p c n S hres hfit
  rw [ha, hf]
  constructor
  · intro hi
    exact FramI2CArray.element_roundtrip p c (c + n * S) n S w i v out hc hS hlt hi
  · intro hi
    obtain ⟨h1, h2, _, _⟩ := FramI2CArray.bad_index ⟨n, S, c⟩
      (FramI2C.withCursor p (c + n * S)) w i out hi
    obtain ⟨_, _, h3, h4⟩ := FramI2CArray.bad_index ⟨n, S, c⟩
      (FramI2C.withCursor p (c + n * S)) w i v hi
    exact ⟨h1, h2, h3, h4⟩

/-- Witness for C7: an array of ten 16-byte elements on a fresh MB85RC128A; element 3 is
written and read back, index 10 is rejected. -/
theorem C7_array_roundtrip_witness :
    ((FramI2CArray.new (FramI2C.withCursor .MB85RC128A 128) 10 16).1.writeElement
      (FramI2CArray.new (FramI2C.withCursor .MB85RC128A 128) 10 16).2.1 zeroChip 3
      (elem 9)).1 = framOK ∧
    ((FramI2CArray.new (FramI2C.withCursor .MB85RC128A 128) 10 16).1.readElement
      (FramI2CArray.new (FramI2C.withCursor .MB85RC128A 128) 10 16).2.1
      ((FramI2CArray.new (FramI2C.withCursor .MB85RC128A 128) 10 16).1.writeElement
        (FramI2CArray.new (FramI2C.withCursor .MB85RC128A 128) 10 16).2.1 zeroChip 3
        (elem 9)).2 3 (fun _ => 0)).2.2 0 = elem 9 0 :=
  have h := (C7_array_roundtrip .MB85RC128A 128 10 16 zeroChip 3 (elem 9) (fun _ => 0)
    (by decide) (by decide) (by decide) (by decide)).1 (by decide)
  ⟨h.1, h.2.2 0 (by decide)⟩

/-- Counterexample to C7 as stated: on a fresh MB85RC128A the array with
`elementCount = 4294967196`, `elementSize = 1` is constructed with `framOK` (the
allocator's sum `128 + 4294967196` wraps to 28), yet `writeElement(20000, v)` with
`20000 < elementCount` reports `framBadStartAddress`. -/
theorem C7_counterexample :
    (FramI2CArray.new (FramI2C.new .MB85RC128A) 4294967196 1).2.2 = framOK ∧
    20000 < 4294967196 ∧
    ((FramI2CArray.new (FramI2C.new .MB85RC128A) 4294967196 1).1.writeElement
      (FramI2CArray.new (FramI2C.new .MB85RC128A) 4294967196 1).2.1 zeroChip 20000
      (fun _ => 1)).1 = framBadStartAddress :=
  ⟨by decide, by decide, by decide⟩

theorem range_map_shift (q : Nat) (g : Nat → WireCall) :
    (List.range (q + 1)).map g = g 0 :: (List.range q).map (fun k => g (k + 1)) := by
  rw [List.range_succ_eq_map, List.map_cons, List.map_map]
  rfl

/-- Transport calls issued by the loop of `write`. -/
theorem writeLoop_calls (fuel : Nat) : ∀ (s : LoopState), s.numberOfBytes / 30 ≤ fuel →
    s.address + s.numberOfBytes ≤ 2 ^ 16 →
    (FramI2C.writeLoop fuel s).w.calls = s.w.calls ++
      (List.range (s.numberOfBytes / 30)).map
        (fun k => WireCall.transmit (s.address + 30 * k) 30 (s.buf + 30 * k)) := by
  induction fuel with
  | zero =>
    intro s hf ha
    have h0 : s.numberOfBytes / 30 = 0 := by omega
    have hz : FramI2C.writeLoop 0 s = s := rfl
    rw [hz, h0]
    simp
  | succ fuel ih =>
    intro s hf ha
    unfold FramI2C.writeLoop
    by_cases hge : s.numberOfBytes ≥ 30
    · rw [if_pos hge]
      have hm : (s.address + 30) % 2 ^ 32 = s.address + 30 := by omega
      have ih1 := ih
        { w := FramI2C._writeMemory s.w s.address 30 s.buffer s.buf
          address := (s.address + 30) % 2 ^ 32
          numberOfBytes := s.numberOfBytes - 30
          buffer := s.buffer
          buf := s.buf + 30 } (by simp only; omega) (by simp only; omega)
      simp only at ih1
      rw [ih1]
      have hq : s.numberOfBytes / 30 = (s.numberOfBytes - 30) / 30 + 1 := by omega
      rw [hq, range_map_shift]
      simp only [FramI2C._writeMemory, hm]
      have hfa : s.address % 2 ^ 16 = s.address := by omega
      have h30 : 30 % 2 ^ 8 = 30 := by norm_num
      rw [hfa, h30, List.append_assoc]
      congr 1
      simp only [List.singleton_append, Nat.mul_zero, Nat.add_zero]
      congr 1
      apply List.map_congr_left
      intro k _
      congr 1 <;> omega
    · rw [if_neg hge]
      have h0 : s.numberOfBytes / 30 = 0 := by omega
      rw [h0]
      simp

/-- Transport calls issued by the loop of `read`. -/
theorem readLoop_calls (fuel : Nat) : ∀ (s : LoopState), s.numberOfBytes / 30 ≤ fuel →
    s.address + s.numberOfBytes ≤ 2 ^ 16 →
    (FramI2C.readLoop fuel s).w.calls = s.w.calls ++
      (List.range (s.numberOfBytes / 30)).map
        (fun k => WireCall.requestFrom (s.address + 30 * k) 30 (s.buf + 30 * k)) := by
  induction fuel with
  | zero =>
    intro s hf ha
    have h0 : s.numberOfBytes / 30 = 0 := by omega
    have hz : FramI2C.readLoop 0 s = s := rfl
    rw [hz, h0]
    simp
  | succ fuel ih =>
    intro s hf ha
    unfold FramI2C.readLoop
    by_cases hge : s.numberOfBytes ≥ 30
    · rw [if_pos hge]
      have hm : (s.address + 30) % 2 ^ 32 = s.address + 30 := by omega
      have ih1 := ih
        { w := (FramI2C._readMemory s.w s.address 30 s.buffer s.buf).1
          address := (s.address + 30) % 2 ^ 32
          numberOfBytes := s.numberOfBytes - 30
          buffer := (FramI2C._readMemory s.w s.address 30 s.buffer s.buf).2
          buf := s.buf + 30 } (by simp only; omega) (by simp only; omega)
      simp only at ih1
      rw [ih1]
      have hq : s.numberOfBytes / 30 = (s.numberOfBytes - 30) / 30 + 1 := by omega
      rw [hq, range_map_shift]
      simp only [FramI2C._readMemory, hm]
      have hfa : s.address % 2 ^ 16 = s.address := by omega
      have h30 : 30 % 2 ^ 8 = 30 := by norm_num
      rw [hfa, h30, List.append_assoc]
      congr 1
      simp only [List.singleton_append, Nat.mul_zero, Nat.add_zero]
      congr 1
      apply List.map_congr_left
      intro k _
      congr 1 <;> omega
    · rw [if_neg hge]
      have h0 : s.numberOfBytes / 30 = 0 := by omega
      rw [h0]
      simp

/-- Transport calls of a valid `write`. -/
theorem FramI2C.write_calls (f : FramI2C) (w : Chip) (startAddress numberOfBytes : Nat)
    (buffer : Buffer) (hb : f._bottomAddress ≤ startAddress)
    (ht : startAddress + numberOfBytes ≤ f._topAddress + 1) (hn : 1 ≤ numberOfBytes)
    (hm : numberOfBytes ≤ 128) (htop : f._topAddress < 2 ^ 16) :
    (f.write w startAddress numberOfBytes buffer).2.calls =
      w.calls ++ chunkCalls WireCall.transmit startAddress numberOfBytes := by
  have hfin : (startAddress + numberOfBytes + (2 ^ 32 - 1)) % 2 ^ 32
      = startAddress + numberOfBytes - 1 := by omega
  obtain ⟨e1, e2, e3, e4, _⟩ := writeLoop_spec numberOfBytes
    { w := w, address := startAddress, numberOfBytes := numberOfBytes,
      buffer := buffer, buf := 0 } (by simp only; omega) (by simp only; omega)
  have ec := writeLoop_calls numberOfBytes
    { w := w, address := startAddress, numberOfBytes := numberOfBytes,
      buffer := buffer, buf := 0 } (by simp only; omega) (by simp only; omega)
  simp only at e1 e2 e3 e4 ec
  unfold FramI2C.write chunkCalls
  rw [if_neg (by omega), if_neg (by simp only [_maxBufferSize]; omega), if_neg (by omega)]
  simp only
  by_cases hr : numberOfBytes % 30 > 0
  · rw [if_pos (by rw [e1]; exact hr), if_pos hr]
    simp only [FramI2C._writeMemory]
    rw [e1, e2, e3, ec]
    have h1 : (startAddress + 30 * (numberOfBytes / 30)) % 2 ^ 16
        = startAddress + 30 * (numberOfBytes / 30) := by omega
    have h2 : numberOfBytes % 30 % 2 ^ 8 = numberOfBytes % 30 := by omega
    rw [h1, h2, List.append_assoc]
    simp only [Nat.zero_add]
  · rw [if_neg (by rw [e1]; exact hr), if_neg hr]
    simp only
    rw [ec]
    simp only [Nat.zero_add, List.append_nil]

/-- Transport calls of a valid `read`. -/
theorem FramI2C.read_calls (f : FramI2C) (w : Chip) (startAddress numberOfBytes : Nat)
    (buffer : Buffer) (hb : f._bottomAddress ≤ startAddress)
    (ht : startAddress + numberOfBytes ≤ f._topAddress + 1) (hn : 1 ≤ numberOfBytes)
    (hm : numberOfBytes ≤ 128) (htop : f._topAddress < 2 ^ 16) :
    (f.read w startAddress numberOfBytes buffer).2.1.calls =
      w.calls ++ chunkCalls WireCall.requestFrom startAddress numberOfBytes := by
  have hfin : (startAddress + numberOfBytes + (2 ^ 32 - 1)) % 2 ^ 32
      = startAddress + numberOfBytes - 1 := by omega
  obtain ⟨e1, e2, e3, _, _⟩ := readLoop_spec numberOfBytes
    { w := w, address := startAddress, numberOfBytes := numberOfBytes,
      buffer := buffer, buf := 0 } (by simp only; omega) (by simp only; omega)
  have ec := readLoop_calls numberOfBytes
    { w := w, address := startAddress, numberOfBytes := numberOfBytes,
      buffer := buffer, buf := 0 } (by simp only; omega) (by simp only; omega)
  simp only at e1 e2 e3 ec
  unfold FramI2C.read chunkCalls
  rw [if_neg (by omega), if_neg (by simp only [_maxBufferSize]; omega), if_neg (by omega)]
  simp only
  by_cases hr : numberOfBytes % 30 > 0
  · rw [if_pos (by rw [e1]; exact hr), if_pos hr]
    simp only [FramI2C._readMemory]
    rw [e1, e2, e3, ec]
    have h1 : (startAddress + 30 * (numberOfBytes / 30)) % 2 ^ 16
        = startAddress + 30 * (numberOfBytes / 30) := by omega
    have h2 : numberOfBytes % 30 % 2 ^ 8 = numberOfBytes % 30 := by omega
    rw [h1, h2, List.append_assoc]
    simp only [Nat.zero_add]
  · rw [if_neg (by rw [e1]; exact hr), if_neg hr]
    simp only
    rw [ec]
    simp only [Nat.zero_add, List.append_nil]

/-- A `write` that returns `framOK` passed the three validations. -/
theorem FramI2C.write_accepted (p : framPartNumber) (c : Nat) (w : Chip)
    (startAddress numberOfBytes : Nat) (buffer : Buffer)
    (h : ((FramI2C.withCursor p c).write w startAddress numberOfBytes buffer).1 = framOK) :
    128 ≤ startAddress ∧ 1 ≤ numberOfBytes ∧ numberOfBytes ≤ 128 ∧
    startAddress + numberOfBytes ≤ _topAddressForPartNumber p + 1 := by
  have ht := (topAddress_lt p).2
  unfold FramI2C.write at h
  simp only [FramI2C.withCursor_bottom, FramI2C.withCursor_top, _maxBufferSize] at h
  by_cases h1 : startAddress < 128 ∨ startAddress > _topAddressForPartNumber p
  · rw [if_pos h1] at h
    simp at h
  · rw [if_neg h1] at h
    by_cases h2 : numberOfBytes > 128 ∨ numberOfBytes = 0
    · rw [if_pos h2] at h
      simp at h
    · rw [if_neg h2] at h
      have e : (startAddress + numberOfBytes + (2 ^ 32 - 1)) % 2 ^ 32
          = startAddress + numberOfBytes - 1 := by omega
      rw [e] at h
      by_cases h3 : startAddress + numberOfBytes - 1 > _topAddressForPartNumber p
      · rw [if_pos h3] at h
        simp at h
      · omega

theorem chunkCalls_sizes (mk : Nat → Nat → Nat → WireCall) (s n : Nat) :
    ∀ x ∈ chunkCalls mk s n, ∃ a len off, x = mk a len off ∧ 1 ≤ len ∧ len ≤ 30 ∧
      s ≤ a ∧ a + len ≤ s + n ∧ a = s + off := by
  intro x hx
  unfold chunkCalls at hx
  rcases List.mem_append.1 hx with h | h
  · obtain ⟨k, hk, rfl⟩ := List.mem_map.1 h
    have hk' := List.mem_range.1 hk
    exact ⟨_, _, _, rfl, by omega, by omega, by omega, by omega, rfl⟩
  · by_cases hr : n % 30 > 0
    · rw [if_pos hr] at h
      rw [List.mem_singleton] at h
      exact ⟨_, _, _, h, by omega, by omega, by omega, by omega, rfl⟩
    · rw [if_neg hr] at h
      simp at h

/-- The `i`-th chunk of a request of `n` bytes at `s`: there are `ceil(n / 30)` chunks, and
chunk `i` moves `min 30 (n - 30*i)` bytes at device address `s + 30*i` with buffer offset
`30*i`. -/
theorem chunkCalls_get (mk : Nat → Nat → Nat → WireCall) (s n : Nat) :
    (chunkCalls mk s n).length = (n + 29) / 30 ∧
    ∀ i, i < (n + 29) / 30 →
      (chunkCalls mk s n)[i]? = some (mk (s + 30 * i) (min 30 (n - 30 * i)) (30 * i)) := by
  unfold chunkCalls
  by_cases hr : n % 30 > 0
  · rw [if_pos hr]
    have hq : (n + 29) / 30 = n / 30 + 1 := by omega
    refine ⟨by simp only [List.length_append, List.length_map, List.length_range,
      List.length_singleton]; omega, ?_⟩
    intro i hi
    by_cases hlt : i < n / 30
    · rw [List.getElem?_append_left (by rw [List.length_map, List.length_range]; exact hlt),
        List.getElem?_map, List.getElem?_range hlt]
      have hm : min 30 (n - 30 * i) = 30 := by omega
      rw [hm]
      rfl
    · have hi' : i = n / 30 := by omega
      subst hi'
      rw [List.getElem?_append_right (by rw [List.length_map, List.length_range]),
        List.length_map, List.length_range, Nat.sub_self]
      have hm : min 30 (n - 30 * (n / 30)) = n % 30 := by omega
      rw [hm]
      rfl
  · rw [if_neg hr, List.append_nil]
    have hq : (n + 29) / 30 = n / 30 := by omega
    refine ⟨by rw [List.length_map, List.length_range]; omega, ?_⟩
    intro i hi
    have hlt : i < n / 30 := by omega
    rw [List.getElem?_map, List.getElem?_range hlt]
    have hm : min 30 (n - 30 * i) = 30 := by omega
    rw [hm]
    rfl

/-- The result codes of `read` and `write` for the same request agree: both run the same
three validations. -/
theorem FramI2C.read_result_eq_write (f : FramI2C) (w w' : Chip) (startAddress numberOfBytes : Nat)
    (buffer buffer' : Buffer) :
    (f.read w startAddress numberOfBytes buffer).1
      = (f.write w' startAddress numberOfBytes buffer').1 := by
  unfold FramI2C.read FramI2C.write
  by_cases h1 : startAddress < f._bottomAddress ∨ startAddress > f._topAddress
  · rw [if_pos h1, if_pos h1]
  · rw [if_neg h1, if_neg h1]
    by_cases h2 : numberOfBytes > _maxBufferSize ∨ numberOfBytes = 0
    · rw [if_pos h2, if_pos h2]
    · rw [if_neg h2, if_neg h2]
      by_cases h3 : (startAddress + numberOfBytes + (2 ^ 32 - 1)) % 2 ^ 32 > f._topAddress
      · rw [if_pos h3, if_pos h3]
      · rw [if_neg h3, if_neg h3]
        simp only
        split_ifs <;> rfl

/-- C18: for every request that `read` or `write` accepts (result `framOK`; both accept
the same requests), with start address `s` and length `n`, the transport calls issued are
exactly `n / 30` calls of 30 bytes at `s, s+30, ...` with buffer offsets `0, 30, ...`
followed by one call of `n % 30` bytes at `s + 30*(n/30)` with that buffer offset when
`n % 30 > 0`; every call moves 1..30 bytes inside `[s, s+n)` with buffer offset equal to
its address offset; the `i`-th call moves `min 30 (n - 30*i)` bytes at `s + 30*i`, so the
addresses increase strictly and the chunks are contiguous and cover `[s, s+n)` exactly
once; and a write leaves every device byte outside `[s, s+n)` unchanged. -/
theorem C18_chunk_sequence (p : framPartNumber) (c : Nat) (w : Chip) (s n : Nat)
    (buffer : Buffer)
    (hacc : ((FramI2C.withCursor p c).write w s n buffer).1 = framOK ∨
      ((FramI2C.withCursor p c).read w s n buffer).1 = framOK) :
    ((FramI2C.withCursor p c).write w s n buffer).1 = framOK ∧
    ((FramI2C.withCursor p c).read w s n buffer).1 = framOK ∧
    ((FramI2C.withCursor p c).write w s n buffer).2.calls
      = w.calls ++ chunkCalls WireCall.transmit s n ∧
    ((FramI2C.withCursor p c).read w s n buffer).2.1.calls
      = w.calls ++ chunkCalls WireCall.requestFrom s n ∧
    (∀ (mk : Nat → Nat → Nat → WireCall), ∀ x ∈ chunkCalls mk s n,
      ∃ a len off, x = mk a len off ∧ 1 ≤ len ∧ len ≤ 30 ∧ s ≤ a ∧ a + len ≤ s + n ∧
        a = s + off) ∧
    (∀ (mk : Nat → Nat → Nat → WireCall),
      (chunkCalls mk s n).length = (n + 29) / 30 ∧
      ∀ i, i < (n + 29) / 30 →
        (chunkCalls mk s n)[i]? = some (mk (s + 30 * i) (min 30 (n - 30 * i)) (30 * i))) ∧
    (∀ a, ¬ (s ≤ a ∧ a < s + n) →
      ((FramI2C.withCursor p c).write w s n buffer).2.mem a = w.mem a) := by
  have ht := (topAddress_lt p).2
  have hw : ((FramI2C.withCursor p c).write w s n buffer).1 = framOK := by
    rcases hacc with h | h
    · exact h
    · rw [← FramI2C.read_result_eq_write _ w w s n buffer buffer]
      exact h
  obtain ⟨v1, v2, v3, v4⟩ := FramI2C.write_accepted p c w s n buffer hw
  have hb : (FramI2C.withCursor p c)._bottomAddress ≤ s := by
    rw [FramI2C.withCursor_bottom]; exact v1
  have hte : s + n ≤ (FramI2C.withCursor p c)._topAddress + 1 := by
    rw [FramI2C.withCursor_top]; exact v4
  have htop : (FramI2C.withCursor p c)._topAddress < 2 ^ 16 := by
    rw [FramI2C.withCursor_top]; exact ht
  refine ⟨hw, (FramI2C.read_valid _ w s n buffer hb hte v2 v3 htop).1,
    FramI2C.write_calls _ w s n buffer hb hte v2 v3 htop,
    FramI2C.read_calls _ w s n buffer hb hte v2 v3 htop,
    fun mk => chunkCalls_sizes mk s n, fun mk => chunkCalls_get mk s n, ?_⟩
  intro a ha
  rw [(FramI2C.write_valid _ w s n buffer hb hte v2 v3 htop).2 a, if_neg ha]

/-- Witness for C18: a 70-byte write at address 1000 of an MB85RC64 is issued as two
30-byte chunks and a 10-byte remainder. -/
theorem C18_chunk_sequence_witness :
    ((FramI2C.withCursor .MB85RC64 128).write zeroChip 1000 70 (fun _ => 1)).2.calls
      = zeroChip.calls ++ chunkCalls WireCall.transmit 1000 70 ∧
    chunkCalls WireCall.transmit 1000 70 =
      [WireCall.transmit 1000 30 0, WireCall.transmit 1030 30 30, WireCall.transmit 1060 10 60] :=
  ⟨(C18_chunk_sequence .MB85RC64 128 zeroChip 1000 70 (fun _ => 1)
      (Or.inl (by decide))).2.2.1,
    by decide⟩

/-- C16: the constructor of `FramI2CArray` reports `framArrayElementTooBig`, sets the
start address to 0 and leaves the device object unchanged exactly when
`elementSize >= 128`; otherwise it passes the 32-bit product `elementCount * elementSize`
to `allocateMemory` and takes its address, result and device object. `readElement` and
`writeElement` report `framBadArrayStartAddress` when the start address is 0, otherwise
`framBadArrayIndex` when `index >= elementCount`, and otherwise are the device
`read`/`write` at the 32-bit address `regionStart + index * elementSize` for
`elementSize` bytes. -/
theorem C16_array_errors (p : framPartNumber) (c n S : Nat) (a : FramI2CArray)
    (f : FramI2C) (w : Chip) (index : Nat) (buffer : Buffer) :
    (((FramI2CArray.new (FramI2C.withCursor p c) n S).2.2 = framArrayElementTooBig ∧
      (FramI2CArray.new (FramI2C.withCursor p c) n S).1._startAddress = 0 ∧
      (FramI2CArray.new (FramI2C.withCursor p c) n S).2.1 = FramI2C.withCursor p c)
      ↔ 128 ≤ S) ∧
    (S < 128 →
      FramI2CArray.new (FramI2C.withCursor p c) n S =
        ({ _numberOfElements := n, _sizeOfElement := S,
           _startAddress := ((FramI2C.withCursor p c).allocateMemory ((n * S) % 2 ^ 32)).1 },
         ((FramI2C.withCursor p c).allocateMemory ((n * S) % 2 ^ 32)).2.2,
         ((FramI2C.withCursor p c).allocateMemory ((n * S) % 2 ^ 32)).2.1)) ∧
    (a._startAddress = 0 →
      a.readElement f w index buffer = (framBadArrayStartAddress, w, buffer) ∧
      a.writeElement f w index buffer = (framBadArrayStartAddress, w)) ∧
    (a._startAddress ≠ 0 → a._numberOfElements ≤ index →
      a.readElement f w index buffer = (framBadArrayIndex, w, buffer) ∧
      a.writeElement f w index buffer = (framBadArrayIndex, w)) ∧
    (a._startAddress ≠ 0 → index < a._numberOfElements →
      a.readElement f w index buffer =
        f.read w ((a._startAddress + (index * a._sizeOfElement) % 2 ^ 32) % 2 ^ 32)
          a._sizeOfElement buffer ∧
      a.writeElement f w index buffer =
        f.write w ((a._startAddress + (index * a._sizeOfElement) % 2 ^ 32) % 2 ^ 32)
          a._sizeOfElement buffer) := by
  refine ⟨?_, ?_, ?_, ?_, ?_⟩
  · unfold FramI2CArray.new FramI2C.getMaxBufferSize _maxBufferSize
    by_cases hS : S < 128
    · rw [if_pos hS]
      constructor
      · intro h
        have h1 := h.1
        simp only at h1
        unfold FramI2C.allocateMemory at h1
        split_ifs at h1
      · intro h
        omega
    · rw [if_neg hS]
      constructor
      · intro _
        omega
      · intro _
        exact ⟨rfl, rfl, rfl⟩
  · intro hS
    unfold FramI2CArray.new FramI2C.getMaxBufferSize _maxBufferSize
    rw [if_pos hS]
  · intro h0
    unfold FramI2CArray.readElement FramI2CArray.writeElement
    rw [if_pos h0, if_pos h0]
    exact ⟨rfl, rfl⟩
  · intro h0 hi
    unfold FramI2CArray.readElement FramI2CArray.writeElement
    rw [if_neg h0, if_neg h0, if_pos hi, if_pos hi]
    exact ⟨rfl, rfl⟩
  · intro h0 hi
    unfold FramI2CArray.readElement FramI2CArray.writeElement
    have hi' : ¬ (index ≥ a._numberOfElements) := by omega
    rw [if_neg h0, if_neg h0, if_neg hi', if_neg hi']
    exact ⟨rfl, rfl⟩

theorem topAddress_mod (p : framPartNumber) : (_topAddressForPartNumber p + 1) % 128 = 0 := by
  cases p <;> rfl

/-- The loop of `format` started at a chunk boundary `i` with `result = framOK`: it ends
with `i` at `_topAddress + 1` and result `framOK`, has zeroed `[i, _topAddress]` and
nothing else, and every `write` it issued had 128 bytes and returned `framOK`. -/
theorem FramI2C.formatLoop_spec (p : framPartNumber) (c : Nat) (fuel : Nat) :
    ∀ (s : FormatState), s.result = framOK → 128 ≤ s.i → s.i % 128 = 0 →
    s.i ≤ _topAddressForPartNumber p + 1 →
    _topAddressForPartNumber p + 1 - s.i ≤ 128 * fuel →
    (∀ x ∈ s.writes, x.numberOfBytes = 128 ∧ x.result = framOK) →
    (FramI2C.formatLoop (FramI2C.withCursor p c) (fun _ => 0) fuel s).result = framOK ∧
    (FramI2C.formatLoop (FramI2C.withCursor p c) (fun _ => 0) fuel s).i
      = _topAddressForPartNumber p + 1 ∧
    (∀ a, (FramI2C.formatLoop (FramI2C.withCursor p c) (fun _ => 0) fuel s).w.mem a =
      if s.i ≤ a ∧ a ≤ _topAddressForPartNumber p then 0 else s.w.mem a) ∧
    (∀ x ∈ (FramI2C.formatLoop (FramI2C.withCursor p c) (fun _ => 0) fuel s).writes,
      x.numberOfBytes = 128 ∧ x.result = framOK) := by
  have ht := topAddress_lt p
  have hm := topAddress_mod p
  induction fuel with
  | zero =>
    intro s hr h1 h2 h3 h4 hw
    have hz : FramI2C.formatLoop (FramI2C.withCursor p c) (fun _ => 0) 0 s = s := rfl
    rw [hz]
    refine ⟨hr, by omega, ?_, hw⟩
    intro a
    rw [if_neg (by omega)]
  | succ fuel ih =>
    intro s hr h1 h2 h3 h4 hw
    unfold FramI2C.formatLoop
    rw [FramI2C.withCursor_top]
    by_cases hlt : s.i < _topAddressForPartNumber p
    · rw [if_pos ⟨hlt, hr⟩]
      have hv := FramI2C.write_valid (FramI2C.withCursor p c) s.w s.i 128 (fun _ => 0)
        (by rw [FramI2C.withCursor_bottom]; exact h1)
        (by rw [FramI2C.withCursor_top]; omega) (by norm_num) (by norm_num)
        (by rw [FramI2C.withCursor_top]; exact ht.2)
      have hi : (s.i + _maxBufferSize) % 2 ^ 32 = s.i + 128 := by
        simp only [_maxBufferSize]
        omega
      have hmb : _maxBufferSize = 128 := rfl
      obtain ⟨r1, r2, r3, r4⟩ := ih
        { i := (s.i + _maxBufferSize) % 2 ^ 32
          result := ((FramI2C.withCursor p c).write s.w s.i _maxBufferSize (fun _ => 0)).1
          w := ((FramI2C.withCursor p c).write s.w s.i _maxBufferSize (fun _ => 0)).2
          writes := s.writes ++
            [{ startAddress := s.i, numberOfBytes := _maxBufferSize,
               result := ((FramI2C.withCursor p c).write s.w s.i _maxBufferSize
                 (fun _ => 0)).1 }] }
        (by simp only; rw [hmb]; exact hv.1)
        (by simp only; rw [hi]; omega) (by simp only; rw [hi]; omega)
        (by simp only; rw [hi]; omega) (by simp only; rw [hi]; omega)
        (by
          simp only
          intro x hx
          rcases List.mem_append.1 hx with h | h
          · exact hw x h
          · rw [List.mem_singleton] at h
            rw [h]
            exact ⟨rfl, by simp only; rw [hmb]; exact hv.1⟩)
      refine ⟨r1, r2, ?_, r4⟩
      intro a
      rw [r3 a]
      simp only
      rw [hi, hmb, hv.2 a]
      split_ifs <;> first | (exfalso; omega) | rfl
    · rw [if_neg (fun h => hlt h.1)]
      refine ⟨hr, by omega, ?_, hw⟩
      intro a
      rw [if_neg (by omega)]

/-- C15: for every capacity class, cursor and chip content, `format` returns `framOK`
with its loop ended by the condition `i < _topAddress` (not by the fuel of the model);
afterwards every byte in `[controlBlockEnd, topAddress)` is zero and every byte of the
control block `[baseAddress, controlBlockEnd)` has its previous value; every `write` it
issued had 128 bytes and returned `framOK`, so none follows a failed one. (`format`
assigns no member of the device object, so `nextFreeByte` is unchanged.) -/
theorem C15_format (p : framPartNumber) (c : Nat) (w : Chip) :
    ((FramI2C.withCursor p c).format w).1 = framOK ∧
    (FramI2C.withCursor p c)._topAddress ≤
      (FramI2C.formatLoop (FramI2C.withCursor p c) (fun _ => 0)
        (FramI2C.withCursor p c)._topAddress
        { i := (FramI2C.withCursor p c)._bottomAddress, result := framOK, w := w,
          writes := [] }).i ∧
    (∀ a, (FramI2C.withCursor p c)._bottomAddress ≤ a → a < (FramI2C.withCursor p c)._topAddress →
      ((FramI2C.withCursor p c).format w).2.1.mem a = 0) ∧
    (∀ a, (FramI2C.withCursor p c)._baseAddress ≤ a → a < (FramI2C.withCursor p c)._bottomAddress →
      ((FramI2C.withCursor p c).format w).2.1.mem a = w.mem a) ∧
    (∀ x ∈ ((FramI2C.withCursor p c).format w).2.2,
      x.numberOfBytes = 128 ∧ x.result = framOK) := by
  have ht := topAddress_lt p
  obtain ⟨r1, r2, r3, r4⟩ := FramI2C.formatLoop_spec p c (_topAddressForPartNumber p)
    { i := 128, result := framOK, w := w, writes := [] } rfl (by simp only; omega)
    (by simp only) (by simp only; omega) (by simp only; omega)
    (by simp)
  simp only at r3
  unfold FramI2C.format
  simp only [FramI2C.withCursor_bottom, FramI2C.withCursor_top, FramI2C.withCursor_base]
  refine ⟨r1, by rw [r2]; omega, ?_, ?_, r4⟩
  · intro a h1 h2
    rw [r3 a, if_pos (by omega)]
  · intro a _ h2
    rw [r3 a, if_neg (by omega)]

/-- `setPointers` assigns the struct `_pointers` only. -/
theorem Ring_FramArray.setPointers_keep (r : Ring_FramArray) (f : FramI2C) (w : Chip) :
    (r.setPointers f w).1.layout = r.layout ∧
    (r.setPointers f w).1._tailAddress = r._tailAddress ∧
    (r.setPointers f w).1._headAddress = r._headAddress := by
  unfold Ring_FramArray.setPointers
  split_ifs <;> exact ⟨rfl, rfl, rfl⟩

theorem Ring_FramArray.myModulo_succ {x n : Nat} (hn : n < 2 ^ 31) (h : x < n) :
    Ring_FramArray.myModulo ((x + 1) % 2 ^ 32) n = nextIndex x n := by
  have e : (x + 1) % 2 ^ 32 = x + 1 := by omega
  rw [e, Ring_FramArray.myModulo_eq _ _ (by omega) (by omega), mod_next h]

theorem tmod_neg_one (n : Nat) : Int.tmod (-1) (n : Int) = -(((1 % n : Nat)) : Int) := by
  show Int.tmod (Int.negSucc 0) (Int.ofNat n) = _
  rfl

theorem Ring_FramArray.myModulo_pred {x n : Nat} (h1 : 1 ≤ n) (hn : n < 2 ^ 31) (h : x < n) :
    Ring_FramArray.myModulo ((x + (2 ^ 32 - 1)) % 2 ^ 32) n = prevIndex x n := by
  unfold prevIndex
  by_cases hx : x = 0
  · subst hx
    rw [if_pos rfl]
    unfold Ring_FramArray.myModulo
    have ha : toInt32 ((0 + (2 ^ 32 - 1)) % 2 ^ 32) = -1 := by
      unfold toInt32
      norm_num
    rw [ha, toInt32_small n hn, tmod_neg_one]
    by_cases hn1 : n = 1
    · subst hn1
      norm_num
    · have h1n : 1 % n = 1 := Nat.mod_eq_of_lt (by omega)
      rw [h1n]
      simp only
      have hneg : ¬ (-((1 : Nat) : Int) ≥ 0) := by omega
      rw [if_neg hneg]
      have : (-((1 : Nat) : Int) + (n : Int)) % 2 ^ 32 = ((n - 1 : Nat) : Int) := by omega
      rw [this]
      exact Int.toNat_natCast _
  · rw [if_neg hx]
    have e : (x + (2 ^ 32 - 1)) % 2 ^ 32 = x - 1 := by omega
    rw [e, Ring_FramArray.myModulo_eq _ _ (by omega) (by omega)]
    exact Nat.mod_eq_of_lt (by omega)

theorem prevIndex_lt {x n : Nat} (hn : 1 ≤ n) (h : x < n) : prevIndex x n < n := by
  unfold prevIndex
  split_ifs <;> omega

theorem nextIndex_lt_one {x n : Nat} (hn : 1 ≤ n) (h : x < n) : nextIndex x n < n := by
  unfold nextIndex
  split_ifs <;> omega

/-- `push` on a ring with in-range indices: layout kept, head advanced, tail advanced
exactly when the ring was full. No assumption on where the ring lies. -/
theorem Ring_FramArray.push_fields {r : Ring_FramArray} (f : FramI2C) (w : Chip) (e : Buffer)
    (hn : r._numberOfElements < 2 ^ 31)
    (ht : r._tailAddress < r._numberOfElements) (hh : r._headAddress < r._numberOfElements) :
    (r.push f w e).1.layout = r.layout ∧
    (r.push f w e).1._headAddress = nextIndex r._headAddress r._numberOfElements ∧
    (r.push f w e).1._tailAddress =
      (if nextIndex r._headAddress r._numberOfElements = r._tailAddress
       then nextIndex r._tailAddress r._numberOfElements else r._tailAddress) := by
  have hfull : r.isFull = true ↔ nextIndex r._headAddress r._numberOfElements = r._tailAddress := by
    unfold Ring_FramArray.isFull
    simp only [Ring_FramArray.myModulo_succ hn hh]
    split_ifs with h <;> simp [h]
  unfold Ring_FramArray.push
  by_cases hf : r.isFull = true
  · have hf' := hfull.1 hf
    simp only [hf, Bool.not_true, Bool.false_eq_true, if_false]
    simp only [Ring_FramArray.myModulo_succ hn hh, Ring_FramArray.myModulo_succ hn ht]
    obtain ⟨k1, k2, k3⟩ := Ring_FramArray.setPointers_keep
      { r with
        _headAddress := nextIndex r._headAddress r._numberOfElements
        _tailAddress := nextIndex r._tailAddress r._numberOfElements } f
      (f.write w ((r._startAddress + (r._headAddress * r._sizeOfElement) % 2 ^ 32) % 2 ^ 32)
        r._sizeOfElement e).2
    rw [k1, k2, k3, if_pos hf']
    exact ⟨rfl, rfl, rfl⟩
  · have hf' : ¬ nextIndex r._headAddress r._numberOfElements = r._tailAddress :=
      fun h => hf (hfull.2 h)
    simp only [hf, Bool.not_false, if_true]
    simp only [Ring_FramArray.myModulo_succ hn hh]
    obtain ⟨k1, k2, k3⟩ := Ring_FramArray.setPointers_keep
      { r with _headAddress := nextIndex r._headAddress r._numberOfElements } f
      (f.write w ((r._startAddress + (r._headAddress * r._sizeOfElement) % 2 ^ 32) % 2 ^ 32)
        r._sizeOfElement e).2
    rw [k1, k2, k3, if_neg hf']
    exact ⟨rfl, rfl, rfl⟩

theorem Ring_FramArray.pushElement_eq (r : Ring_FramArray) (f : FramI2C) (w : Chip)
    (e : Buffer) : r.pushElement f w e = r.push f w e := rfl

theorem Ring_FramArray.popFirstElement_eq (r : Ring_FramArray) (f : FramI2C) (w : Chip)
    (b : Buffer) : r.popFirstElement f w b = r.pop f w b := rfl

/-- `pop`: either nothing changes (result `false`), or the layout and head are kept and
the tail advances (result `true`). -/
theorem Ring_FramArray.pop_fields {r : Ring_FramArray} (f : FramI2C) (w : Chip) (b : Buffer)
    (hn : r._numberOfElements < 2 ^ 31) (ht : r._tailAddress < r._numberOfElements) :
    ((r.pop f w b).1 = false ∧ (r.pop f w b).2.1 = r ∧ (r.pop f w b).2.2.1 = w) ∨
    ((r.pop f w b).1 = true ∧ r._tailAddress ≠ r._headAddress ∧ r._startAddress ≠ 0 ∧
      (r.pop f w b).2.1.layout = r.layout ∧
      (r.pop f w b).2.1._headAddress = r._headAddress ∧
      (r.pop f w b).2.1._tailAddress = nextIndex r._tailAddress r._numberOfElements) := by
  unfold Ring_FramArray.pop
  by_cases hc : (!r.isEmpty && !(decide (r._startAddress = 0))) = true
  · right
    rw [if_pos hc]
    simp only [Bool.and_eq_true, Bool.not_eq_true', decide_eq_false_iff_not] at hc
    have hne : r._tailAddress ≠ r._headAddress := by
      intro h
      have := (Ring_FramArray.isEmpty_iff r).2 h
      rw [this] at hc
      exact absurd hc.1 (by simp)
    simp only [Ring_FramArray.myModulo_succ hn ht]
    obtain ⟨k1, k2, k3⟩ := Ring_FramArray.setPointers_keep
      { r with _tailAddress := nextIndex r._tailAddress r._numberOfElements } f
      (f.read w ((r._startAddress + (r._tailAddress * r._sizeOfElement) % 2 ^ 32) % 2 ^ 32)
        r._sizeOfElement b).2.1
    rw [k1, k2, k3]
    exact ⟨trivial, hne, hc.2, rfl, rfl, rfl⟩
  · left
    rw [if_neg hc]
    exact ⟨rfl, rfl, rfl⟩

/-- `popLastElement`: either nothing changes (result `false`), or the layout and tail
are kept and the head moves back by one (result `true`). -/
theorem Ring_FramArray.popLast_fields {r : Ring_FramArray} (f : FramI2C) (w : Chip)
    (b : Buffer) (h1 : 1 ≤ r._numberOfElements) (hn : r._numberOfElements < 2 ^ 31)
    (hh : r._headAddress < r._numberOfElements) :
    ((r.popLastElement f w b).1 = false ∧ (r.popLastElement f w b).2.1 = r ∧
      (r.popLastElement f w b).2.2.1 = w) ∨
    ((r.popLastElement f w b).1 = true ∧ r._tailAddress ≠ r._headAddress ∧
      r._startAddress ≠ 0 ∧
      (r.popLastElement f w b).2.1.layout = r.layout ∧
      (r.popLastElement f w b).2.1._tailAddress = r._tailAddress ∧
      (r.popLastElement f w b).2.1._headAddress = prevIndex r._headAddress r._numberOfElements) := by
  unfold Ring_FramArray.popLastElement
  by_cases hc : (!r.isEmpty && !(decide (r._startAddress = 0))) = true
  · right
    rw [if_pos hc]
    simp only [Bool.and_eq_true, Bool.not_eq_true', decide_eq_false_iff_not] at hc
    have hne : r._tailAddress ≠ r._headAddress := by
      intro h
      have := (Ring_FramArray.isEmpty_iff r).2 h
      rw [this] at hc
      exact absurd hc.1 (by simp)
    simp only [Ring_FramArray.myModulo_pred h1 hn hh]
    obtain ⟨k1, k2, k3⟩ := Ring_FramArray.setPointers_keep
      { r with _headAddress := prevIndex r._headAddress r._numberOfElements } f
      (f.read w ((r._startAddress +
        (prevIndex r._headAddress r._numberOfElements * r._sizeOfElement) % 2 ^ 32) % 2 ^ 32)
        r._sizeOfElement b).2.1
    rw [k1, k2, k3]
    exact ⟨trivial, hne, hc.2, rfl, rfl, rfl⟩
  · left
    rw [if_neg hc]
    exact ⟨rfl, rfl, rfl⟩

/-- `clearArray`: either nothing changes (unallocated ring) or the layout is kept and
both indices are 0. -/
theorem Ring_FramArray.clearArray_fields (r : Ring_FramArray) (f : FramI2C) (w : Chip) :
    (r._startAddress = 0 ∧ r.clearArray f w = (r, w)) ∨
    (r._startAddress ≠ 0 ∧ (r.clearArray f w).1.layout = r.layout ∧
      (r.clearArray f w).1._tailAddress = 0 ∧ (r.clearArray f w).1._headAddress = 0) := by
  unfold Ring_FramArray.clearArray
  by_cases h0 : r._startAddress = 0
  · left
    rw [if_neg (by simp [h0])]
    exact ⟨h0, rfl⟩
  · right
    rw [if_pos h0]
    obtain ⟨k1, k2, k3⟩ := Ring_FramArray.setPointers_keep
      { r with _tailAddress := 0, _headAddress := 0 } f
      (Ring_FramArray.clearLoop r f r._numberOfElements (0, w)).2
    simp only
    rw [k1, k2, k3]
    exact ⟨h0, rfl, rfl, rfl⟩

/-- `setIndices`: `true` exactly when both values are below `_numberOfElements`; then the
layout is kept and the indices are the arguments; otherwise nothing changes. -/
theorem Ring_FramArray.setIndices_fields (r : Ring_FramArray) (f : FramI2C) (w : Chip)
    (a b : Nat) :
    ((r.setIndices f w a b).1 = true ↔ (a < r._numberOfElements ∧ b < r._numberOfElements)) ∧
    ((r.setIndices f w a b).1 = true →
      (r.setIndices f w a b).2.1.layout = r.layout ∧
      (r.setIndices f w a b).2.1._tailAddress = a ∧
      (r.setIndices f w a b).2.1._headAddress = b) ∧
    ((r.setIndices f w a b).1 = false → (r.setIndices f w a b).2 = (r, w)) := by
  unfold Ring_FramArray.setIndices
  by_cases hc : (a ≥ 0 ∧ a < r._numberOfElements) ∧ (b ≥ 0 ∧ b < r._numberOfElements)
  · rw [if_pos hc]
    obtain ⟨k1, k2, k3⟩ := Ring_FramArray.setPointers_keep
      { r with _tailAddress := a, _headAddress := b } f w
    refine ⟨⟨fun _ => ⟨hc.1.2, hc.2.2⟩, fun _ => rfl⟩, ?_, ?_⟩
    · intro _
      simp only
      rw [k1, k2, k3]
      exact ⟨rfl, rfl, rfl⟩
    · intro h
      simp at h
  · rw [if_neg hc]
    refine ⟨⟨fun h => by simp at h, fun h => absurd ⟨⟨Nat.zero_le _, h.1⟩, ⟨Nat.zero_le _, h.2⟩⟩ hc⟩,
      fun h => by simp at h, fun _ => rfl⟩

theorem Ring_FramArray.setPointers_layout (r r' : Ring_FramArray) (f : FramI2C) (w : Chip)
    (h : r'.layout = r.layout) : (r'.setPointers f w).1.layout = r.layout :=
  (Ring_FramArray.setPointers_keep r' f w).1.trans h

theorem Ring_FramArray.push_layout (r : Ring_FramArray) (f : FramI2C) (w : Chip) (e : Buffer) :
    (r.push f w e).1.layout = r.layout := by
  unfold Ring_FramArray.push
  split_ifs
  · simp only
    apply Ring_FramArray.setPointers_layout
    simp only [Ring_FramArray.layout]
  · simp only
    apply Ring_FramArray.setPointers_layout
    simp only [Ring_FramArray.layout]

theorem Ring_FramArray.pop_layout (r : Ring_FramArray) (f : FramI2C) (w : Chip) (b : Buffer) :
    (r.pop f w b).2.1.layout = r.layout := by
  unfold Ring_FramArray.pop
  split_ifs
  · simp only
    apply Ring_FramArray.setPointers_layout
    simp only [Ring_FramArray.layout]
  · rfl

theorem Ring_FramArray.popLast_layout (r : Ring_FramArray) (f : FramI2C) (w : Chip)
    (b : Buffer) : (r.popLastElement f w b).2.1.layout = r.layout := by
  unfold Ring_FramArray.popLastElement
  split_ifs
  · simp only
    apply Ring_FramArray.setPointers_layout
    simp only [Ring_FramArray.layout]
  · rfl

theorem Ring_FramArray.clearArray_layout (r : Ring_FramArray) (f : FramI2C) (w : Chip) :
    (r.clearArray f w).1.layout = r.layout := by
  rcases Ring_FramArray.clearArray_fields r f w with ⟨_, h⟩ | ⟨_, h, _⟩
  · rw [h]
  · exact h

theorem Ring_FramArray.setIndices_layout (r : Ring_FramArray) (f : FramI2C) (w : Chip)
    (a b : Nat) : (r.setIndices f w a b).2.1.layout = r.layout := by
  obtain ⟨_, h1, h2⟩ := Ring_FramArray.setIndices_fields r f w a b
  cases h : (r.setIndices f w a b).1
  · rw [h2 h]
  · exact (h1 h).1

/-- `initialize` keeps the slot count, element size, start and end address and sets the
trailer address to `_ringEndAddress - 12` (modulo `2^32`). -/
theorem Ring_FramArray.initialize_layout (r : Ring_FramArray) (f : FramI2C) (w : Chip) :
    ( Ring_FramArray.initialize r f w).1.layout =
      (r._numberOfElements, r._sizeOfElement, r._startAddress, r._ringEndAddress,
       (r._ringEndAddress + (2 ^ 32 - sizeofPointers)) % 2 ^ 32) := by
  unfold Ring_FramArray.initialize
  simp only
  split_ifs
  · refine (Ring_FramArray.setPointers_keep _ f _).1.trans ?_
    simp only [Ring_FramArray.layout, Ring_FramArray.getPointers]
  · refine (Ring_FramArray.setPointers_keep _ f _).1.trans ?_
    simp only [Ring_FramArray.layout, Ring_FramArray.getPointers]

/-- Every method call keeps the layout of a ring whose trailer address has been set by
`initialize`. -/
theorem Ring_FramArray.step_layout (f : FramI2C) (s : Ring_FramArray × Chip) (op : RingOp)
    (hP : s.1._pointersAddress = (s.1._ringEndAddress + (2 ^ 32 - sizeofPointers)) % 2 ^ 32) :
    (Ring_FramArray.step f s op).1.layout = s.1.layout := by
  cases op with
  | init =>
    show ( Ring_FramArray.initialize s.1 f s.2).1.layout = _
    rw [Ring_FramArray.initialize_layout]
    unfold Ring_FramArray.layout
    rw [hP]
  | push b => exact Ring_FramArray.push_layout _ f _ b
  | pushElement b => exact Ring_FramArray.push_layout _ f _ b
  | pop b => exact Ring_FramArray.pop_layout _ f _ b
  | popFirstElement b => exact Ring_FramArray.pop_layout _ f _ b
  | popLastElement b => exact Ring_FramArray.popLast_layout _ f _ b
  | clearArray => exact Ring_FramArray.clearArray_layout _ f _
  | setIndices a b => exact Ring_FramArray.setIndices_layout _ f _ a b

theorem Ring_FramArray.layout_ptr {r r' : Ring_FramArray} (h : r'.layout = r.layout) :
    r'._numberOfElements = r._numberOfElements ∧ r'._sizeOfElement = r._sizeOfElement ∧
    r'._startAddress = r._startAddress ∧ r'._ringEndAddress = r._ringEndAddress ∧
    r'._pointersAddress = r._pointersAddress := by
  unfold Ring_FramArray.layout at h
  simp only [Prod.mk.injEq] at h
  exact h

/-- A run of method calls keeps the layout of an initialized ring. -/
theorem Ring_FramArray.run_layout (f : FramI2C) (ops : List RingOp) :
    ∀ (s : Ring_FramArray × Chip),
    s.1._pointersAddress = (s.1._ringEndAddress + (2 ^ 32 - sizeofPointers)) % 2 ^ 32 →
    (Ring_FramArray.run f ops s).1.layout = s.1.layout := by
  induction ops with
  | nil => intro s _; rfl
  | cons op ops ih =>
    intro s hP
    have h1 := Ring_FramArray.step_layout f s op hP
    obtain ⟨_, _, _, e4, e5⟩ := Ring_FramArray.layout_ptr h1
    show (Ring_FramArray.run f ops (Ring_FramArray.step f s op)).1.layout = _
    rw [ih _ (by rw [e5, e4]; exact hP), h1]

/-- Every method call other than `initialize` keeps in-range indices in range, for a
slot count in `[1, 2^31)`. -/
theorem Ring_FramArray.step_idx (f : FramI2C) (s : Ring_FramArray × Chip) (op : RingOp)
    (n : Nat) (h1 : 1 ≤ n) (hn : n < 2 ^ 31) (hop : op.isInit = false) (h : IdxOK n s.1) :
    IdxOK n (Ring_FramArray.step f s op).1 := by
  obtain ⟨e, ht, hh⟩ := h
  subst e
  cases op with
  | init => simp [RingOp.isInit] at hop
  | push b =>
    obtain ⟨k1, k2, k3⟩ := Ring_FramArray.push_fields f s.2 b hn ht hh
    have k0 := (Ring_FramArray.layout_ptr k1).1
    refine ⟨k0, ?_, ?_⟩
    · show (s.1.push f s.2 b).1._tailAddress < _
      rw [k3]
      split_ifs
      · exact nextIndex_lt_one h1 ht
      · exact ht
    · show (s.1.push f s.2 b).1._headAddress < _
      rw [k2]
      exact nextIndex_lt_one h1 hh
  | pushElement b =>
    obtain ⟨k1, k2, k3⟩ := Ring_FramArray.push_fields f s.2 b hn ht hh
    have k0 := (Ring_FramArray.layout_ptr k1).1
    refine ⟨k0, ?_, ?_⟩
    · show (s.1.push f s.2 b).1._tailAddress < _
      rw [k3]
      split_ifs
      · exact nextIndex_lt_one h1 ht
      · exact ht
    · show (s.1.push f s.2 b).1._headAddress < _
      rw [k2]
      exact nextIndex_lt_one h1 hh
  | pop b =>
    show IdxOK _ (s.1.pop f s.2 b).2.1
    rcases Ring_FramArray.pop_fields f s.2 b hn ht with ⟨_, k, _⟩ | ⟨_, _, _, k1, k2, k3⟩
    · rw [k]; exact ⟨rfl, ht, hh⟩
    · exact ⟨(Ring_FramArray.layout_ptr k1).1, by rw [k3]; exact nextIndex_lt_one h1 ht,
        by rw [k2]; exact hh⟩
  | popFirstElement b =>
    show IdxOK _ (s.1.pop f s.2 b).2.1
    rcases Ring_FramArray.pop_fields f s.2 b hn ht with ⟨_, k, _⟩ | ⟨_, _, _, k1, k2, k3⟩
    · rw [k]; exact ⟨rfl, ht, hh⟩
    · exact ⟨(Ring_FramArray.layout_ptr k1).1, by rw [k3]; exact nextIndex_lt_one h1 ht,
        by rw [k2]; exact hh⟩
  | popLastElement b =>
    show IdxOK _ (s.1.popLastElement f s.2 b).2.1
    rcases Ring_FramArray.popLast_fields f s.2 b h1 hn hh with
      ⟨_, k, _⟩ | ⟨_, _, _, k1, k2, k3⟩
    · rw [k]; exact ⟨rfl, ht, hh⟩
    · exact ⟨(Ring_FramArray.layout_ptr k1).1, by rw [k2]; exact ht,
        by rw [k3]; exact prevIndex_lt h1 hh⟩
  | clearArray =>
    show IdxOK _ (s.1.clearArray f s.2).1
    rcases Ring_FramArray.clearArray_fields s.1 f s.2 with ⟨_, k⟩ | ⟨_, k1, k2, k3⟩
    · rw [k]; exact ⟨rfl, ht, hh⟩
    · exact ⟨(Ring_FramArray.layout_ptr k1).1, by rw [k2]; omega, by rw [k3]; omega⟩
  | setIndices a b =>
    show IdxOK _ (s.1.setIndices f s.2 a b).2.1
    obtain ⟨k0, k1, k2⟩ := Ring_FramArray.setIndices_fields s.1 f s.2 a b
    cases hb : (s.1.setIndices f s.2 a b).1
    · rw [k2 hb]; exact ⟨rfl, ht, hh⟩
    · obtain ⟨l1, l2, l3⟩ := k1 hb
      have hab := k0.1 hb
      exact ⟨(Ring_FramArray.layout_ptr l1).1, by rw [l2]; exact hab.1, by rw [l3]; exact hab.2⟩

/-- A run of method calls without `initialize` keeps in-range indices in range. -/
theorem Ring_FramArray.run_idx (f : FramI2C) (n : Nat) (h1 : 1 ≤ n) (hn : n < 2 ^ 31)
    (ops : List RingOp) : ∀ (s : Ring_FramArray × Chip),
    (∀ op ∈ ops, op.isInit = false) → IdxOK n s.1 →
    IdxOK n (Ring_FramArray.run f ops s).1 := by
  induction ops with
  | nil => intro s _ h; exact h
  | cons op ops ih =>
    intro s hops h
    exact ih _ (fun o ho => hops o (List.mem_cons_of_mem _ ho))
      (Ring_FramArray.step_idx f s op n h1 hn (hops op (List.mem_cons_self _ _)) h)

/-- A ring construction that reports `framOK` passed the size check and incremented the
slot count. -/
theorem Ring_FramArray.new_slots (uninit : Ring_FramArray) (f : FramI2C) (N S : Nat)
    (hres : (Ring_FramArray.new uninit f N S).2.2 = framOK) :
    S < 128 ∧ (Ring_FramArray.new uninit f N S).1._numberOfElements = (N + 1) % 2 ^ 32 := by
  unfold Ring_FramArray.new at hres ⊢
  by_cases hS : S < f.getMaxBufferSize
  · rw [if_pos hS]
    exact ⟨hS, rfl⟩
  · rw [if_neg hS] at hres
    simp at hres

/-- Slot count of a ring after `boot`, for a construction that reported `framOK`. -/
theorem Ring_FramArray.boot_slots (uninit : Ring_FramArray) (f : FramI2C) (N S : Nat)
    (w : Chip) (hres : (Ring_FramArray.new uninit f N S).2.2 = framOK) :
    (Ring_FramArray.boot uninit f N S w).1._numberOfElements = (N + 1) % 2 ^ 32 := by
  have h := Ring_FramArray.initialize_layout (Ring_FramArray.new uninit f N S).1
    (Ring_FramArray.new uninit f N S).2.1 w
  have h1 := congrArg Prod.fst h
  rw [(Ring_FramArray.new_slots uninit f N S hres).2] at h1
  exact h1

theorem RingOp.isQueueOp_not_init {op : RingOp} (h : op.isQueueOp = true) :
    op.isInit = false := by
  cases op <;> first | rfl | (simp [RingOp.isQueueOp] at h)

/-- The tests `isEmpty` and `isFull` on a ring with in-range indices and fewer than
`2^31` slots. -/
theorem Ring_FramArray.empty_full_iff {r : Ring_FramArray} {n : Nat} (hn : n < 2 ^ 31)
    (h : IdxOK n r) :
    (r.isEmpty = true ↔ r._tailAddress = r._headAddress) ∧
    (r.isFull = true ↔ (r._headAddress + 1) % n = r._tailAddress) ∧
    Ring_FramArray.myModulo ((r._headAddress + 1) % 2 ^ 32) r._numberOfElements
      = (r._headAddress + 1) % n := by
  obtain ⟨e, _, hh⟩ := h
  subst e
  have hm := Ring_FramArray.myModulo_succ hn hh
  refine ⟨Ring_FramArray.isEmpty_iff r, ?_, by rw [hm, mod_next hh]⟩
  unfold Ring_FramArray.isFull
  simp only [hm, mod_next hh]
  split_ifs with h <;> simp [h]

/-- C17: for a ring constructed with result `framOK` whose slot count
`elementCount + 1` is below `2^31` and which `initialize` left at `(0, 0)`, after any
sequence of `push`, `pushElement`, `pop`, `popFirstElement` and `popLastElement` calls:
`isEmpty()` returns true exactly when `tailIndex == headIndex`, `isFull()` returns true
exactly when `(headIndex + 1) mod (elementCount + 1) == tailIndex` with the mathematical
remainder, and the value `myModulo(headIndex + 1, physicalSlotCount)` computed with signed
arithmetic equals that remainder. -/
theorem C17_empty_full (p : framPartNumber) (c N S : Nat) (uninit : Ring_FramArray) (w : Chip)
    (ops : List RingOp)
    (hres : (Ring_FramArray.new uninit (FramI2C.withCursor p c) N S).2.2 = framOK)
    (hN : N + 1 < 2 ^ 31)
    (hinit : ((Ring_FramArray.boot uninit (FramI2C.withCursor p c) N S w).1._tailAddress,
      (Ring_FramArray.boot uninit (FramI2C.withCursor p c) N S w).1._headAddress) = (0, 0))
    (hops : ∀ op ∈ ops, op.isQueueOp = true) :
    ((Ring_FramArray.run (Ring_FramArray.new uninit (FramI2C.withCursor p c) N S).2.1 ops
        (Ring_FramArray.boot uninit (FramI2C.withCursor p c) N S w)).1.isEmpty = true ↔
      (Ring_FramArray.run (Ring_FramArray.new uninit (FramI2C.withCursor p c) N S).2.1 ops
        (Ring_FramArray.boot uninit (FramI2C.withCursor p c) N S w)).1._tailAddress =
      (Ring_FramArray.run (Ring_FramArray.new uninit (FramI2C.withCursor p c) N S).2.1 ops
        (Ring_FramArray.boot uninit (FramI2C.withCursor p c) N S w)).1._headAddress) ∧
    ((Ring_FramArray.run (Ring_FramArray.new uninit (FramI2C.withCursor p c) N S).2.1 ops
        (Ring_FramArray.boot uninit (FramI2C.withCursor p c) N S w)).1.isFull = true ↔
      ((Ring_FramArray.run (Ring_FramArray.new uninit (FramI2C.withCursor p c) N S).2.1 ops
        (Ring_FramArray.boot uninit (FramI2C.withCursor p c) N S w)).1._headAddress + 1)
          % (N + 1) =
      (Ring_FramArray.run (Ring_FramArray.new uninit (FramI2C.withCursor p c) N S).2.1 ops
        (Ring_FramArray.boot uninit (FramI2C.withCursor p c) N S w)).1._tailAddress) ∧
    Ring_FramArray.myModulo
      (((Ring_FramArray.run (Ring_FramArray.new uninit (FramI2C.withCursor p c) N S).2.1 ops
        (Ring_FramArray.boot uninit (FramI2C.withCursor p c) N S w)).1._headAddress + 1)
          % 2 ^ 32)
      (Ring_FramArray.run (Ring_FramArray.new uninit (FramI2C.withCursor p c) N S).2.1 ops
        (Ring_FramArray.boot uninit (FramI2C.withCursor p c) N S w)).1._numberOfElements
      = ((Ring_FramArray.run (Ring_FramArray.new uninit (FramI2C.withCursor p c) N S).2.1 ops
        (Ring_FramArray.boot uninit (FramI2C.withCursor p c) N S w)).1._headAddress + 1)
          % (N + 1) := by
  have hne := Ring_FramArray.boot_slots uninit (FramI2C.withCursor p c) N S w hres
  have hmod : (N + 1) % 2 ^ 32 = N + 1 := by omega
  rw [hmod] at hne
  have ht0 := congrArg Prod.fst hinit
  have hh0 := congrArg Prod.snd hinit
  simp only at ht0 hh0
  generalize Ring_FramArray.boot uninit (FramI2C.withCursor p c) N S w = s at hne ht0 hh0 ⊢
  generalize (Ring_FramArray.new uninit (FramI2C.withCursor p c) N S).2.1 = f1
  have h0 : IdxOK (N + 1) s.1 := ⟨hne, by rw [ht0]; omega, by rw [hh0]; omega⟩
  have h := Ring_FramArray.run_idx f1 (N + 1) (by omega) hN ops s
    (fun op ho => RingOp.isQueueOp_not_init (hops op ho)) h0
  exact Ring_FramArray.empty_full_iff hN h

/-- Witness for C17: a ring with `elementCount = 4`, `elementSize = 8` on a fresh
MB85RC128A over a zeroed chip, after two pushes and one pop. -/
theorem C17_empty_full_witness :
    (Ring_FramArray.run (Ring_FramArray.new rawRing (FramI2C.withCursor .MB85RC128A 128) 4 8).2.1
        [RingOp.push (elem 1), RingOp.push (elem 2), RingOp.pop (fun _ => 0)]
        (Ring_FramArray.boot rawRing (FramI2C.withCursor .MB85RC128A 128) 4 8 zeroChip)).1.isFull
      = false ∧
    ((Ring_FramArray.run (Ring_FramArray.new rawRing (FramI2C.withCursor .MB85RC128A 128) 4 8).2.1
        [RingOp.push (elem 1), RingOp.push (elem 2), RingOp.pop (fun _ => 0)]
        (Ring_FramArray.boot rawRing (FramI2C.withCursor .MB85RC128A 128) 4 8 zeroChip)).1.isFull
        = true ↔
      ((Ring_FramArray.run (Ring_FramArray.new rawRing (FramI2C.withCursor .MB85RC128A 128) 4 8).2.1
        [RingOp.push (elem 1), RingOp.push (elem 2), RingOp.pop (fun _ => 0)]
        (Ring_FramArray.boot rawRing (FramI2C.withCursor .MB85RC128A 128) 4 8 zeroChip)).1._headAddress
          + 1) % (4 + 1) =
      (Ring_FramArray.run (Ring_FramArray.new rawRing (FramI2C.withCursor .MB85RC128A 128) 4 8).2.1
        [RingOp.push (elem 1), RingOp.push (elem 2), RingOp.pop (fun _ => 0)]
        (Ring_FramArray.boot rawRing (FramI2C.withCursor .MB85RC128A 128) 4 8 zeroChip)).1._tailAddress) :=
  ⟨by decide,
    (C17_empty_full .MB85RC128A 128 4 8 rawRing zeroChip
      [RingOp.push (elem 1), RingOp.push (elem 2), RingOp.pop (fun _ => 0)]
      (by decide) (by decide) (by decide) (by decide)).2.1⟩

theorem tmod_bound (A : Int) (M : Nat) (hM : 0 < M) :
    -(M : Int) < Int.tmod A (M : Int) ∧ Int.tmod A (M : Int) < (M : Int) := by
  have hm : ∀ k : Nat, k % M < M := fun k => Nat.mod_lt k hM
  cases A with
  | ofNat m =>
    show -(M : Int) < ((m % M : Nat) : Int) ∧ ((m % M : Nat) : Int) < (M : Int)
    have := hm m
    omega
  | negSucc m =>
    show -(M : Int) < -(((m + 1) % M : Nat) : Int) ∧ -(((m + 1) % M : Nat) : Int) < (M : Int)
    have := hm (m + 1)
    omega

/-- The value of `myModulo(a, b)` is below `b` for every 32-bit `a` and every `b` in
`[1, 2^32)`, whatever the signs of the `int` conversions. -/
theorem Ring_FramArray.myModulo_lt (a b : Nat) (h1 : 1 ≤ b) (hb : b < 2 ^ 32) :
    Ring_FramArray.myModulo a b < b := by
  unfold Ring_FramArray.myModulo
  simp only
  by_cases hs : b < 2 ^ 31
  · have eB : toInt32 b = (b : Int) := toInt32_small b hs
    rw [eB]
    obtain ⟨l, u⟩ := tmod_bound (toInt32 a) b (by omega)
    generalize Int.tmod (toInt32 a) (b : Int) = x at l u
    split_ifs with hx <;> omega
  · have eB : toInt32 b = -(((2 ^ 32 - b : Nat)) : Int) := by
      unfold toInt32
      have : b % 2 ^ 32 = b := Nat.mod_eq_of_lt hb
      rw [this, if_neg hs]
      omega
    rw [eB, Int.tmod_neg]
    obtain ⟨l, u⟩ := tmod_bound (toInt32 a) (2 ^ 32 - b) (by omega)
    generalize Int.tmod (toInt32 a) ((2 ^ 32 - b : Nat) : Int) = x at l u
    split_ifs with hx <;> omega

theorem Ring_FramArray.setPointers_idx (r' : Ring_FramArray) (f : FramI2C) (w : Chip)
    (n : Nat) (h : IdxOK n r') : IdxOK n (r'.setPointers f w).1 := by
  obtain ⟨k1, k2, k3⟩ := Ring_FramArray.setPointers_keep r' f w
  obtain ⟨e, ht, hh⟩ := h
  exact ⟨(Ring_FramArray.layout_ptr k1).1.trans e, by rw [k2]; exact ht, by rw [k3]; exact hh⟩

/-- Every method call other than `initialize` keeps in-range indices in range, for every
slot count in `[1, 2^32)`. -/
theorem Ring_FramArray.step_range (f : FramI2C) (s : Ring_FramArray × Chip) (op : RingOp)
    (n : Nat) (h1 : 1 ≤ n) (hn : n < 2 ^ 32) (hop : op.isInit = false) (h : IdxOK n s.1) :
    IdxOK n (Ring_FramArray.step f s op).1 := by
  obtain ⟨e, ht, hh⟩ := h
  subst e
  have hpush : ∀ b, IdxOK s.1._numberOfElements (s.1.push f s.2 b).1 := by
    intro b
    unfold Ring_FramArray.push
    split_ifs
    · simp only
      apply Ring_FramArray.setPointers_idx
      exact ⟨rfl, ht, Ring_FramArray.myModulo_lt _ _ h1 hn⟩
    · simp only
      apply Ring_FramArray.setPointers_idx
      exact ⟨rfl, Ring_FramArray.myModulo_lt _ _ h1 hn, Ring_FramArray.myModulo_lt _ _ h1 hn⟩
  have hpop : ∀ b, IdxOK s.1._numberOfElements (s.1.pop f s.2 b).2.1 := by
    intro b
    unfold Ring_FramArray.pop
    split_ifs
    · simp only
      apply Ring_FramArray.setPointers_idx
      exact ⟨rfl, Ring_FramArray.myModulo_lt _ _ h1 hn, hh⟩
    · exact ⟨rfl, ht, hh⟩
  cases op with
  | init => simp [RingOp.isInit] at hop
  | push b => exact hpush b
  | pushElement b => exact hpush b
  | pop b => exact hpop b
  | popFirstElement b => exact hpop b
  | popLastElement b =>
    show IdxOK _ (s.1.popLastElement f s.2 b).2.1
    unfold Ring_FramArray.popLastElement
    split_ifs
    · simp only
      apply Ring_FramArray.setPointers_idx
      refine ⟨rfl, ht, ?_⟩
      generalize (s.1._headAddress + (2 ^ 32 - 1)) % 2 ^ 32 = a
      exact Ring_FramArray.myModulo_lt a _ h1 hn
    · exact ⟨rfl, ht, hh⟩
  | clearArray =>
    show IdxOK _ (s.1.clearArray f s.2).1
    rcases Ring_FramArray.clearArray_fields s.1 f s.2 with ⟨_, k⟩ | ⟨_, k1, k2, k3⟩
    · rw [k]; exact ⟨rfl, ht, hh⟩
    · exact ⟨(Ring_FramArray.layout_ptr k1).1, by rw [k2]; omega, by rw [k3]; omega⟩
  | setIndices a b =>
    show IdxOK _ (s.1.setIndices f s.2 a b).2.1
    obtain ⟨k0, k1, k2⟩ := Ring_FramArray.setIndices_fields s.1 f s.2 a b
    cases hb : (s.1.setIndices f s.2 a b).1
    · rw [k2 hb]; exact ⟨rfl, ht, hh⟩
    · obtain ⟨l1, l2, l3⟩ := k1 hb
      have hab := k0.1 hb
      exact ⟨(Ring_FramArray.layout_ptr l1).1, by rw [l2]; exact hab.1, by rw [l3]; exact hab.2⟩

/-- A run of method calls without `initialize` keeps in-range indices in range, for every
slot count in `[1, 2^32)`. -/
theorem Ring_FramArray.run_range (f : FramI2C) (n : Nat) (h1 : 1 ≤ n) (hn : n < 2 ^ 32)
    (ops : List RingOp) : ∀ (s : Ring_FramArray × Chip),
    (∀ op ∈ ops, op.isInit = false) → IdxOK n s.1 →
    IdxOK n (Ring_FramArray.run f ops s).1 := by
  induction ops with
  | nil => intro s _ h; exact h
  | cons op ops ih =>
    intro s hops h
    exact ih _ (fun o ho => hops o (List.mem_cons_of_mem _ ho))
      (Ring_FramArray.step_range f s op n h1 hn (hops op (List.mem_cons_self _ _)) h)

/-- The indices `initialize` leaves, in terms of the struct it has read: the read pair
when its checksum matches, `(0, 0)` otherwise. -/
theorem Ring_FramArray.initialize_idx (r : Ring_FramArray) (f : FramI2C) (w : Chip) :
    (( Ring_FramArray.initialize r f w).1._tailAddress,
     ( Ring_FramArray.initialize r f w).1._headAddress) =
      (if pointerCheckOf ((r._ringEndAddress + (2 ^ 32 - sizeofPointers)) % 2 ^ 32)
            (r.readTrailer f w).tail (r.readTrailer f w).head
          = (r.readTrailer f w).pointerCheck
       then ((r.readTrailer f w).tail, (r.readTrailer f w).head)
       else (0, 0)) := by
  unfold Ring_FramArray.initialize Ring_FramArray.readTrailer pointerCheckOf
  simp only [Ring_FramArray.getPointers]
  split_ifs
  · rw [(Ring_FramArray.setPointers_keep _ f _).2.1, (Ring_FramArray.setPointers_keep _ f _).2.2]
  · rw [(Ring_FramArray.setPointers_keep _ f _).2.1, (Ring_FramArray.setPointers_keep _ f _).2.2]

/-- The struct `initialize` reads is the stored trailer when the trailer lies inside the
device. -/
theorem Ring_FramArray.readTrailer_stored {f : FramI2C} {r : Ring_FramArray}
    (hb : f._bottomAddress + 12 ≤ r._ringEndAddress)
    (he : r._ringEndAddress ≤ f._topAddress + 1) (htop : f._topAddress < 2 ^ 16) (w : Chip) :
    r.readTrailer f w = storedPointers w (r._ringEndAddress - 12) := by
  have hP : (r._ringEndAddress + (2 ^ 32 - sizeofPointers)) % 2 ^ 32 = r._ringEndAddress - 12 := by
    simp only [sizeofPointers]
    omega
  unfold Ring_FramArray.readTrailer
  rw [hP]
  obtain ⟨g1, _⟩ := Ring_FramArray.getPointers_trailer
    (f := f) (r := { r with _pointersAddress := r._ringEndAddress - 12 })
    (by simp only; omega) (by simp only; omega) htop w
  rw [g1]

/-- Layout of a ring right after `boot`, for a construction that reported `framOK` with
nothing wrapping. -/
theorem Ring_FramArray.boot_layout (uninit : Ring_FramArray) (p : framPartNumber)
    (c N S : Nat) (w : Chip)
    (hres : (Ring_FramArray.new uninit (FramI2C.withCursor p c) N S).2.2 = framOK)
    (hfit : c + ((N + 1) * S + 12) < 2 ^ 32) (hN : N + 1 < 2 ^ 32) :
    (Ring_FramArray.boot uninit (FramI2C.withCursor p c) N S w).1.layout
      = (N + 1, S, c, c + ((N + 1) * S + 12), c + (N + 1) * S) := by
  obtain ⟨_, _, hr, _⟩ := Ring_FramArray.new_spec uninit p c N S hres hfit
  unfold Ring_FramArray.boot
  rw [Ring_FramArray.initialize_layout, hr]
  simp only [sizeofPointers]
  have e1 : (N + 1) % 2 ^ 32 = N + 1 := by omega
  have e2 : (c + ((N + 1) * S + 12) + (2 ^ 32 - 12)) % 2 ^ 32 = c + (N + 1) * S := by omega
  rw [e1, e2]

/-- Every state reached from `boot` by method calls has the layout fixed by the
construction: `elementCount + 1` slots of `elementSize` bytes from the cursor `c`,
followed by the twelve-byte trailer, below the top address. -/
theorem Ring_FramArray.reach_layout (uninit : Ring_FramArray) (p : framPartNumber)
    (c N S : Nat) (w : Chip) (ops : List RingOp)
    (hres : (Ring_FramArray.new uninit (FramI2C.withCursor p c) N S).2.2 = framOK)
    (hfit : c + ((N + 1) * S + 12) < 2 ^ 32) (hN : N + 1 < 2 ^ 32) :
    (Ring_FramArray.new uninit (FramI2C.withCursor p c) N S).2.1
      = FramI2C.withCursor p (c + ((N + 1) * S + 12)) ∧
    S ≤ 127 ∧ c + ((N + 1) * S + 12) < _topAddressForPartNumber p ∧
    (Ring_FramArray.run (Ring_FramArray.new uninit (FramI2C.withCursor p c) N S).2.1 ops
      (Ring_FramArray.boot uninit (FramI2C.withCursor p c) N S w)).1.layout
      = (N + 1, S, c, c + ((N + 1) * S + 12), c + (N + 1) * S) := by
  obtain ⟨h1, h2, _, hf⟩ := Ring_FramArray.new_spec uninit p c N S hres hfit
  have hb := Ring_FramArray.boot_layout uninit p c N S w hres hfit hN
  refine ⟨hf, h1, h2, ?_⟩
  generalize Ring_FramArray.boot uninit (FramI2C.withCursor p c) N S w = s at hb ⊢
  have hb' := hb
  unfold Ring_FramArray.layout at hb'
  simp only [Prod.mk.injEq] at hb'
  obtain ⟨_, _, _, e4, e5⟩ := hb'
  have hP : s.1._pointersAddress
      = (s.1._ringEndAddress + (2 ^ 32 - sizeofPointers)) % 2 ^ 32 := by
    rw [e4, e5]
    simp only [sizeofPointers]
    omega
  rw [Ring_FramArray.run_layout _ ops s hP, hb]

/-- The members of a ring object with a given layout. -/
theorem Ring_FramArray.layout_fields {r : Ring_FramArray} {n S c e P : Nat}
    (h : r.layout = (n, S, c, e, P)) :
    r._numberOfElements = n ∧ r._sizeOfElement = S ∧ r._startAddress = c ∧
    r._ringEndAddress = e ∧ r._pointersAddress = P := by
  unfold Ring_FramArray.layout at h
  simp only [Prod.mk.injEq] at h
  exact h

/-- A ring with the layout of a successful, non-wrapping construction above the control
block lies inside the device. -/
theorem RingGeom.of_layout {p : framPartNumber} {c N S c' : Nat} {r : Ring_FramArray}
    (h : r.layout = (N + 1, S, c, c + ((N + 1) * S + 12), c + (N + 1) * S))
    (hc : 128 ≤ c) (hN : 1 ≤ N) (hS : 1 ≤ S ∧ S ≤ 127)
    (hlt : c + ((N + 1) * S + 12) < _topAddressForPartNumber p) :
    RingGeom (FramI2C.withCursor p c') r := by
  obtain ⟨e1, e2, e3, _, e5⟩ := Ring_FramArray.layout_fields h
  have htop := (topAddress_lt p).2
  exact ⟨by rw [e1]; omega, by rw [e2]; exact hS,
    by rw [FramI2C.withCursor_bottom]; norm_num,
    by rw [FramI2C.withCursor_bottom, e3]; exact hc,
    by rw [e5, e3, e1, e2],
    by rw [e5, FramI2C.withCursor_top]; omega,
    by rw [FramI2C.withCursor_top]; exact htop⟩

/-- Every method call keeps the slot count. -/
theorem Ring_FramArray.step_slots (f : FramI2C) (s : Ring_FramArray × Chip) (op : RingOp) :
    (Ring_FramArray.step f s op).1._numberOfElements = s.1._numberOfElements := by
  cases op with
  | init =>
    exact congrArg Prod.fst (Ring_FramArray.initialize_layout s.1 f s.2)
  | push b => exact (Ring_FramArray.layout_ptr (Ring_FramArray.push_layout _ f _ b)).1
  | pushElement b => exact (Ring_FramArray.layout_ptr (Ring_FramArray.push_layout _ f _ b)).1
  | pop b => exact (Ring_FramArray.layout_ptr (Ring_FramArray.pop_layout _ f _ b)).1
  | popFirstElement b => exact (Ring_FramArray.layout_ptr (Ring_FramArray.pop_layout _ f _ b)).1
  | popLastElement b =>
    exact (Ring_FramArray.layout_ptr (Ring_FramArray.popLast_layout _ f _ b)).1
  | clearArray => exact (Ring_FramArray.layout_ptr (Ring_FramArray.clearArray_layout _ f _)).1
  | setIndices a b =>
    exact (Ring_FramArray.layout_ptr (Ring_FramArray.setIndices_layout _ f _ a b)).1

/-- A run of method calls keeps the slot count. -/
theorem Ring_FramArray.run_slots (f : FramI2C) (ops : List RingOp) :
    ∀ (s : Ring_FramArray × Chip),
    (Ring_FramArray.run f ops s).1._numberOfElements = s.1._numberOfElements := by
  induction ops with
  | nil => intro s; rfl
  | cons op ops ih =>
    intro s
    show (Ring_FramArray.run f ops (Ring_FramArray.step f s op)).1._numberOfElements = _
    rw [ih, Ring_FramArray.step_slots]

/-- A chip whose twelve bytes at `P` are the bytes of a trailer of 32-bit values decodes
to that trailer. -/
theorem storedPointers_of_bytes (w : Chip) (P pc t h : Nat)
    (hb : ∀ i, i < 12 → w.mem (P + i)
      = (addr_t.toBytes { pointerCheck := pc, tail := t, head := h }) i)
    (h1 : pc < 2 ^ 32) (h2 : t < 2 ^ 32) (h3 : h < 2 ^ 32) :
    storedPointers w P = { pointerCheck := pc, tail := t, head := h } := by
  unfold storedPointers
  rw [addr_t.ofBytes_congr _ _ hb]
  exact ofBytes_toBytes_mk pc t h h1 h2 h3

theorem Ring_FramArray.reach_init (uninit : Ring_FramArray) (f : FramI2C) (N S : Nat)
    (w : Chip) (ops : List RingOp) :
    Ring_FramArray.reach uninit f N S w (RingOp.init :: ops) =
      Ring_FramArray.run (Ring_FramArray.new uninit f N S).2.1 ops
        (Ring_FramArray.boot uninit f N S w) := rfl

/-- The trailer stored by a successful `setIndices` on an allocated ring whose trailer
lies inside the device. -/
theorem Ring_FramArray.setIndices_trailer {f : FramI2C} {r : Ring_FramArray}
    (hs : ¬ (r._startAddress = 0)) (hb : f._bottomAddress ≤ r._pointersAddress)
    (he : r._pointersAddress + 12 ≤ f._topAddress + 1) (htop : f._topAddress < 2 ^ 16)
    (w : Chip) (a b : Nat) (ha : a < r._numberOfElements) (hb' : b < r._numberOfElements)
    (hn : r._numberOfElements ≤ 2 ^ 32) :
    storedPointers (r.setIndices f w a b).2.2 r._pointersAddress =
      { pointerCheck := pointerCheckOf r._pointersAddress a b, tail := a, head := b } := by
  unfold Ring_FramArray.setIndices
  rw [if_pos ⟨⟨Nat.zero_le _, ha⟩, ⟨Nat.zero_le _, hb'⟩⟩]
  simp only
  obtain ⟨_, s2⟩ := Ring_FramArray.setPointers_trailer
    (f := f) (r := { r with _tailAddress := a, _headAddress := b }) hs hb he htop w
  simp only at s2
  apply storedPointers_of_bytes
  · intro i hi
    rw [s2, if_pos (by omega)]
    apply congrArg
    omega
  · unfold pointerCheckOf
    exact Nat.mod_lt _ (Nat.two_pow_pos 32)
  · omega
  · omega

/-- C13 (as amended): for a ring whose construction passed the element-size check
(`elementSize < 128`) and whose slot count `elementCount + 1` does not overflow 32 bits,
in every state `s` reached from construction by method calls (`f1` is the device object
after construction) and for every pair `(a, b)`: `setIndices(a, b)` returns true exactly
when both values are below `elementCount + 1`, and then `tailIndex = a`, `headIndex = b`
and `getIndices` returns the pair; otherwise it returns false and the ring object and the
chip are unchanged. When moreover the construction reported `framOK` with the cursor at
or above the control block end and `nextFreeByte + (elementCount+1)*elementSize + 12` not
overflowing 32 bits, and `initialize` was the first call, the trailer stored at
`ringEndAddress - 12` after a successful `setIndices` holds the pair with the checksum
`(metadataAddress + a + b) mod 2^32`. -/
theorem C13_setIndices (p : framPartNumber) (c N S : Nat) (uninit : Ring_FramArray)
    (w : Chip) (ops : List RingOp) (a b : Nat) (f1 : FramI2C) (s : Ring_FramArray × Chip)
    (hS : S < 128) (hN : N + 1 < 2 ^ 32)
    (hf1 : f1 = (Ring_FramArray.new uninit (FramI2C.withCursor p c) N S).2.1)
    (hs : s = Ring_FramArray.reach uninit (FramI2C.withCursor p c) N S w ops) :
    ((s.1.setIndices f1 s.2 a b).1 = true ↔ a < N + 1 ∧ b < N + 1) ∧
    ((s.1.setIndices f1 s.2 a b).1 = true →
      (s.1.setIndices f1 s.2 a b).2.1._tailAddress = a ∧
      (s.1.setIndices f1 s.2 a b).2.1._headAddress = b ∧
      (s.1.setIndices f1 s.2 a b).2.1.getIndices = (a, b)) ∧
    ((s.1.setIndices f1 s.2 a b).1 = false → (s.1.setIndices f1 s.2 a b).2 = s) ∧
    (∀ ops1, ops = RingOp.init :: ops1 → (FramI2C.withCursor p c)._bottomAddress ≤ c →
      (Ring_FramArray.new uninit (FramI2C.withCursor p c) N S).2.2 = framOK →
      c + ((N + 1) * S + 12) < 2 ^ 32 → (s.1.setIndices f1 s.2 a b).1 = true →
      (Ring_FramArray.new uninit (FramI2C.withCursor p c) N S).1._ringEndAddress - 12
        = c + (N + 1) * S ∧
      storedPointers (s.1.setIndices f1 s.2 a b).2.2 (c + (N + 1) * S) =
        { pointerCheck := (c + (N + 1) * S + a + b) % 2 ^ 32, tail := a, head := b }) := by
  have hmod : (N + 1) % 2 ^ 32 = N + 1 := by omega
  have hne0 : (Ring_FramArray.new uninit (FramI2C.withCursor p c) N S).1._numberOfElements
      = N + 1 := by
    unfold Ring_FramArray.new
    rw [if_pos (show S < (FramI2C.withCursor p c).getMaxBufferSize from hS)]
    exact hmod
  have hne : s.1._numberOfElements = N + 1 := by
    rw [hs]
    unfold Ring_FramArray.reach
    rw [Ring_FramArray.run_slots]
    exact hne0
  have h4 : ∀ ops1, ops = RingOp.init :: ops1 → 128 ≤ c →
      (Ring_FramArray.new uninit (FramI2C.withCursor p c) N S).2.2 = framOK →
      c + ((N + 1) * S + 12) < 2 ^ 32 →
      f1 = FramI2C.withCursor p (c + ((N + 1) * S + 12)) ∧
      c + ((N + 1) * S + 12) < _topAddressForPartNumber p ∧
      (Ring_FramArray.new uninit (FramI2C.withCursor p c) N S).1._ringEndAddress - 12
        = c + (N + 1) * S ∧
      s.1.layout = (N + 1, S, c, c + ((N + 1) * S + 12), c + (N + 1) * S) := by
    intro ops1 ho hc hres hfit
    subst ho
    obtain ⟨l1, _, l3, l4⟩ := Ring_FramArray.reach_layout uninit p c N S w ops1 hres hfit hN
    obtain ⟨_, _, hr, _⟩ := Ring_FramArray.new_spec uninit p c N S hres hfit
    refine ⟨hf1.trans l1, l3, ?_, ?_⟩
    · rw [hr]
      simp only
      omega
    · rw [hs, Ring_FramArray.reach_init]
      exact l4
  clear hs hf1 hne0
  obtain ⟨k0, k1, k2⟩ := Ring_FramArray.setIndices_fields s.1 f1 s.2 a b
  rw [hne] at k0
  refine ⟨k0, ?_, k2, ?_⟩
  · intro ht
    obtain ⟨_, l2, l3⟩ := k1 ht
    refine ⟨l2, l3, ?_⟩
    unfold Ring_FramArray.getIndices
    rw [l2, l3]
  · intro ops1 ho hc hres hfit ht
    rw [FramI2C.withCursor_bottom] at hc
    obtain ⟨hf, hlt, hre, hl⟩ := h4 ops1 ho hc hres hfit
    obtain ⟨e1, _, e3, _, e5⟩ := Ring_FramArray.layout_fields hl
    have hab := k0.1 ht
    have htop := (topAddress_lt p).2
    refine ⟨hre, ?_⟩
    have hst := Ring_FramArray.setIndices_trailer (f := f1) (r := s.1)
      (by rw [e3]; omega) (by rw [hf, FramI2C.withCursor_bottom, e5]; omega)
      (by rw [hf, FramI2C.withCursor_top, e5]; omega)
      (by rw [hf, FramI2C.withCursor_top]; exact htop) s.2 a b
      (by rw [e1]; exact hab.1) (by rw [e1]; exact hab.2) (by rw [e1]; omega)
    rw [e5] at hst
    rw [hst]
    unfold pointerCheckOf
    have : ((c + (N + 1) * S + a) % 2 ^ 32 + b) % 2 ^ 32 = (c + (N + 1) * S + a + b) % 2 ^ 32 := by
      omega
    rw [this]

/-- Witness for C13: on a ring with `elementCount = 4`, `elementSize = 8` on a fresh
MB85RC128A, initialized over a zeroed chip and pushed once, `setIndices(3, 1)` returns
true and the trailer at 168 then holds `{168 + 3 + 1, 3, 1}`. -/
theorem C13_setIndices_witness :
    ((Ring_FramArray.reach rawRing (FramI2C.withCursor .MB85RC128A 128) 4 8 zeroChip
        [RingOp.init, RingOp.push (elem 1)]).1.setIndices
      (Ring_FramArray.new rawRing (FramI2C.withCursor .MB85RC128A 128) 4 8).2.1
      (Ring_FramArray.reach rawRing (FramI2C.withCursor .MB85RC128A 128) 4 8 zeroChip
        [RingOp.init, RingOp.push (elem 1)]).2 3 1).1 = true ∧
    storedPointers
      ((Ring_FramArray.reach rawRing (FramI2C.withCursor .MB85RC128A 128) 4 8 zeroChip
          [RingOp.init, RingOp.push (elem 1)]).1.setIndices
        (Ring_FramArray.new rawRing (FramI2C.withCursor .MB85RC128A 128) 4 8).2.1
        (Ring_FramArray.reach rawRing (FramI2C.withCursor .MB85RC128A 128) 4 8 zeroChip
          [RingOp.init, RingOp.push (elem 1)]).2 3 1).2.2 (128 + (4 + 1) * 8) =
      { pointerCheck := (128 + (4 + 1) * 8 + 3 + 1) % 2 ^ 32, tail := 3, head := 1 } :=
  ⟨by decide,
    ((C13_setIndices .MB85RC128A 128 4 8 rawRing zeroChip [RingOp.init, RingOp.push (elem 1)]
      3 1 _ _ (by decide) (by decide) rfl rfl).2.2.2 [RingOp.push (elem 1)] rfl (by decide)
      (by decide) (by decide) (by decide)).2⟩

/-- Counterexample to C13 as stated, three inputs. (1) A ring constructed with
`elementCount = 4` and `elementSize = 200` is rejected with `framArrayElementTooBig` and
keeps the slot count 4, so `setIndices(4, 0)` returns false although both values are
below `elementCount + 1 = 5`. (2) With `elementCount = 2^32 - 1` and `elementSize = 1` the
construction reports `framOK` with the slot count wrapped to 0, so `setIndices(0, 0)`
returns false. (3) On a fresh MB85RC64 the ring with `elementCount = 33818639`,
`elementSize = 127` is constructed with `framOK` and start address 128 (the allocator's
sum wraps to 124), its trailer address is 112, below the control block end:
`setIndices(5, 7)` returns true but the trailer is not written. -/
theorem C13_counterexample :
    ((Ring_FramArray.new rawRing (FramI2C.withCursor .MB85RC128A 128) 4 200).2.2
        = framArrayElementTooBig ∧
      ((Ring_FramArray.reach rawRing (FramI2C.withCursor .MB85RC128A 128) 4 200 zeroChip
          []).1.setIndices
        (Ring_FramArray.new rawRing (FramI2C.withCursor .MB85RC128A 128) 4 200).2.1
        zeroChip 4 0).1 = false ∧
      4 < 4 + 1 ∧ 0 < 4 + 1) ∧
    ((Ring_FramArray.new rawRing (FramI2C.withCursor .MB85RC128A 128) 4294967295 1).2.2
        = framOK ∧
      ((Ring_FramArray.reach rawRing (FramI2C.withCursor .MB85RC128A 128) 4294967295 1 zeroChip
          [RingOp.init]).1.setIndices
        (Ring_FramArray.new rawRing (FramI2C.withCursor .MB85RC128A 128) 4294967295 1).2.1
        (Ring_FramArray.reach rawRing (FramI2C.withCursor .MB85RC128A 128) 4294967295 1
          zeroChip [RingOp.init]).2 0 0).1 = false ∧
      0 < 4294967295 + 1) ∧
    ((Ring_FramArray.new rawRing (FramI2C.withCursor .MB85RC64 128) 33818639 127).2.2 = framOK ∧
      (Ring_FramArray.reach rawRing (FramI2C.withCursor .MB85RC64 128) 33818639 127 zeroChip
        [RingOp.init]).1.layout = (33818639 + 1, 127, 128, 124, 112) ∧
      ((Ring_FramArray.reach rawRing (FramI2C.withCursor .MB85RC64 128) 33818639 127 zeroChip
          [RingOp.init]).1.setIndices
        (Ring_FramArray.new rawRing (FramI2C.withCursor .MB85RC64 128) 33818639 127).2.1
        (Ring_FramArray.reach rawRing (FramI2C.withCursor .MB85RC64 128) 33818639 127 zeroChip
          [RingOp.init]).2 5 7).1 = true ∧
      5 < 33818639 + 1 ∧ 7 < 33818639 + 1 ∧
      storedPointers
        ((Ring_FramArray.reach rawRing (FramI2C.withCursor .MB85RC64 128) 33818639 127 zeroChip
            [RingOp.init]).1.setIndices
          (Ring_FramArray.new rawRing (FramI2C.withCursor .MB85RC64 128) 33818639 127).2.1
          (Ring_FramArray.reach rawRing (FramI2C.withCursor .MB85RC64 128) 33818639 127 zeroChip
            [RingOp.init]).2 5 7).2.2 112 = { pointerCheck := 0, tail := 0, head := 0 }) :=
  ⟨⟨by decide, by decide, by decide, by decide⟩,
    ⟨by decide, by decide, by decide⟩,
    ⟨by decide, by decide, by decide, by decide, by decide, by decide⟩⟩

theorem prevIndex_nextIndex (x n : Nat) : prevIndex (nextIndex x n) n = x := by
  unfold prevIndex nextIndex
  by_cases h1 : x + 1 = n
  · rw [if_pos h1, if_pos rfl]
    omega
  · rw [if_neg h1, if_neg (by omega)]
    omega

theorem prevIndex_mod {x n : Nat} (h : x < n + 1) : prevIndex x (n + 1) = (x + n) % (n + 1) := by
  unfold prevIndex
  split_ifs with h0
  · subst h0
    rw [Nat.zero_add, Nat.mod_eq_of_lt (Nat.lt_succ_self n)]
    rfl
  · have e : x + n = (x - 1) + (n + 1) := by omega
    rw [e, Nat.add_mod_right, Nat.mod_eq_of_lt (by omega)]

/-- What `popLastElement` does to an allocated, non-empty ring with an in-range head: it
returns `true`, delivers the bytes of the slot before the head, moves the head back to
that slot and rewrites the trailer; no other chip byte changes. -/
theorem Ring_FramArray.popLast_spec {f : FramI2C} {r : Ring_FramArray} (g : RingGeom f r)
    (hh : r._headAddress < r._numberOfElements) (hne : r._tailAddress ≠ r._headAddress)
    (w : Chip) (buffer : Buffer) :
    (r.popLastElement f w buffer).1 = true ∧
    (r.popLastElement f w buffer).2.1.layout = r.layout ∧
    (r.popLastElement f w buffer).2.1._tailAddress = r._tailAddress ∧
    (r.popLastElement f w buffer).2.1._headAddress
      = prevIndex r._headAddress r._numberOfElements ∧
    (∀ a, (r.popLastElement f w buffer).2.2.1.mem a =
      if r._pointersAddress ≤ a ∧ a < r._pointersAddress + 12 then
        (addr_t.toBytes
          { pointerCheck := pointerCheckOf r._pointersAddress r._tailAddress
              (prevIndex r._headAddress r._numberOfElements)
            tail := r._tailAddress
            head := prevIndex r._headAddress r._numberOfElements }) (a - r._pointersAddress)
      else w.mem a) ∧
    ∀ j, (r.popLastElement f w buffer).2.2.2 j =
      if j < r._sizeOfElement
      then w.mem (r._startAddress
        + prevIndex r._headAddress r._numberOfElements * r._sizeOfElement + j)
      else buffer j := by
  have hn := g.ne_lt
  have h1 : 1 ≤ r._numberOfElements := by have := g.hne; omega
  have hp := prevIndex_lt h1 hh
  obtain ⟨_, hr2, hr3⟩ := g.read_slot w hp buffer
  have hs : ¬ (r._startAddress = 0) := by
    have := g.hbot; have := g.hstart; omega
  have hemp : r.isEmpty = false := by
    cases h : r.isEmpty
    · rfl
    · exact absurd ((Ring_FramArray.isEmpty_iff r).1 h) hne
  unfold Ring_FramArray.popLastElement
  simp only [hemp, hs, Bool.not_false, decide_False, Bool.and_self, if_true]
  simp only [Ring_FramArray.myModulo_pred h1 (by omega) hh]
  have g2 : RingGeom f { r with
      _headAddress := prevIndex r._headAddress r._numberOfElements } :=
    ⟨g.hne, g.hsize, g.hbot, g.hstart, g.hptr, g.hend, g.htop⟩
  obtain ⟨s1, s2⟩ := Ring_FramArray.setPointers_spec g2
    (f.read w ((r._startAddress +
      (prevIndex r._headAddress r._numberOfElements * r._sizeOfElement) % 2 ^ 32) % 2 ^ 32)
      r._sizeOfElement buffer).2.1
  simp only at s1 s2
  rw [s1]
  refine ⟨trivial, rfl, rfl, rfl, ?_, hr3⟩
  intro a
  rw [s2 a, hr2]
  rfl

/-- `popLastElement` on an empty ring returns `false` and changes nothing. -/
theorem Ring_FramArray.popLast_empty (f : FramI2C) (r : Ring_FramArray)
    (he : r._tailAddress = r._headAddress) (w : Chip) (buffer : Buffer) :
    r.popLastElement f w buffer = (false, r, w, buffer) := by
  have hemp : r.isEmpty = true := (Ring_FramArray.isEmpty_iff r).2 he
  unfold Ring_FramArray.popLastElement
  simp [hemp]

/-- A `push` followed by `popLastElement` on an allocated ring with in-range indices
returns the pushed element. -/
theorem Ring_FramArray.push_popLast {f : FramI2C} {r : Ring_FramArray} (g : RingGeom f r)
    (hh : r._headAddress < r._numberOfElements) (ht : r._tailAddress < r._numberOfElements)
    (w : Chip) (e buffer : Buffer) :
    ((r.push f w e).1.popLastElement f (r.push f w e).2 buffer).1 = true ∧
    ∀ i, i < r._sizeOfElement →
      ((r.push f w e).1.popLastElement f (r.push f w e).2 buffer).2.2.2 i = e i := by
  obtain ⟨e1, e2, e3, e4, e5, e6, e7, _, _⟩ := Ring_FramArray.push_spec g hh ht w e
  have hm := fun i (hi : i < r._sizeOfElement) =>
    Ring_FramArray.push_mem_slot g hh ht w e hh hi
  have hne := g.hne
  have g1 : RingGeom f (r.push f w e).1 :=
    ⟨by rw [e1]; exact g.hne, by rw [e2]; exact g.hsize, g.hbot, by rw [e3]; exact g.hstart,
     by rw [e5, e3, e1, e2]; exact g.hptr, by rw [e5]; exact g.hend, g.htop⟩
  have hh1 : (r.push f w e).1._headAddress < (r.push f w e).1._numberOfElements := by
    rw [e6, e1]
    exact nextIndex_lt hne hh
  have hne1 : (r.push f w e).1._tailAddress ≠ (r.push f w e).1._headAddress := by
    rw [e6, e7]
    unfold nextIndex
    split_ifs <;> omega
  obtain ⟨p1, _, _, _, _, p6⟩ := Ring_FramArray.popLast_spec g1 hh1 hne1 (r.push f w e).2 buffer
  refine ⟨p1, ?_⟩
  intro i hi
  rw [p6 i, e2, if_pos hi, e3, e6, e1, prevIndex_nextIndex, hm i hi, if_pos rfl]

/-- A ring holds its `contents`. -/
theorem Rep.contents (r : Ring_FramArray) (w : Chip) : Rep r w (r.contents w) := by
  unfold Rep Ring_FramArray.contents
  refine ⟨by rw [List.length_map, List.length_range], ?_⟩
  intro j b hjb i _
  rw [List.getElem?_map] at hjb
  cases hr : (List.range (occupancy r._tailAddress r._headAddress r._numberOfElements))[j]? with
  | none =>
    rw [hr] at hjb
    simp at hjb
  | some k =>
    rw [hr] at hjb
    simp only [Option.map_some', Option.some.injEq] at hjb
    rw [List.getElem?_range] at hr
    · simp only [Option.some.injEq] at hr
      rw [← hjb, hr]
    · by_contra hlt
      rw [List.getElem?_eq_none (by rw [List.length_range]; omega)] at hr
      simp at hr

theorem occupancy_mod {t h n : Nat} (ht : t < n) (hh : h < n) :
    occupancy t h n = (h + n - t) % n := by
  unfold occupancy
  split_ifs with hle
  · have e : h + n - t = (h - t) + n := by omega
    rw [e, Nat.add_mod_right, Nat.mod_eq_of_lt (by omega)]
  · rw [Nat.mod_eq_of_lt (by omega)]

theorem occupancy_le {t h n : Nat} (ht : t < n) (hh : h < n) : occupancy t h n + 1 ≤ n := by
  unfold occupancy
  split_ifs <;> omega

theorem occupancy_full {t h n : Nat} (ht : t < n) (hf : nextIndex h n = t) :
    occupancy t h n + 1 = n := by
  unfold occupancy
  unfold nextIndex at hf
  split_ifs at hf ⊢ <;> omega

/-- C19, the code at the failing inputs. (1) On a fresh MB85RC64 the construction of a ring
with `elementCount = 1000`, `elementSize = 100` is rejected by the allocator
(`framBadFinishAddress`) and leaves `regionStart = 0`; after `initialize` and three
`push` calls of an element of ones over a zeroed chip, the chip byte at address 200 is 1:
the third `push` writes its element at `0 + 2 * 100`, which the device accepts. (2) The
construction with `elementCount = 5`, `elementSize = 128` is rejected with
`framArrayElementTooBig` and `regionStart = 0`; after `initialize` and two `push` calls
the chip byte at address 128 is 1. -/
theorem C19_failed_ring_writes :
    ((Ring_FramArray.new rawRing (FramI2C.new .MB85RC64) 1000 100).2.2 = framBadFinishAddress ∧
      (Ring_FramArray.new rawRing (FramI2C.new .MB85RC64) 1000 100).1._startAddress = 0 ∧
      zeroChip.mem 200 = 0 ∧
      (Ring_FramArray.reach rawRing (FramI2C.new .MB85RC64) 1000 100 zeroChip
        [RingOp.init, RingOp.push (fun _ => 1), RingOp.push (fun _ => 1),
          RingOp.push (fun _ => 1)]).1._startAddress = 0 ∧
      (Ring_FramArray.reach rawRing (FramI2C.new .MB85RC64) 1000 100 zeroChip
        [RingOp.init, RingOp.push (fun _ => 1), RingOp.push (fun _ => 1),
          RingOp.push (fun _ => 1)]).2.mem 200 = 1) ∧
    ((Ring_FramArray.new rawRing (FramI2C.new .MB85RC64) 5 128).2.2 = framArrayElementTooBig ∧
      (Ring_FramArray.new rawRing (FramI2C.new .MB85RC64) 5 128).1._startAddress = 0 ∧
      zeroChip.mem 128 = 0 ∧
      (Ring_FramArray.reach rawRing (FramI2C.new .MB85RC64) 5 128 zeroChip
        [RingOp.init, RingOp.push (fun _ => 1), RingOp.push (fun _ => 1)]).2.mem 128 = 1) :=
  ⟨⟨by decide, by decide, by decide, by decide, by decide⟩,
    ⟨by decide, by decide, by decide, by decide⟩⟩

/-- Frame of `writeElement` for an array object laid out at `[c, c + n*S)` inside the
device: only the bytes of element `i` change, and `readElement` of any other index gives
the same result code and buffer before and after. -/
theorem FramI2CArray.element_frame (p : framPartNumber) (c c' n S : Nat) (w : Chip)
    (i : Nat) (v out : Buffer) (hc : 128 ≤ c) (hS : 1 ≤ S ∧ S ≤ 127)
    (hlt : c + n * S < _topAddressForPartNumber p) (hi : i < n) :
    (FramI2CArray.writeElement ⟨n, S, c⟩ (FramI2C.withCursor p c') w i v).1 = framOK ∧
    (∀ x, (FramI2CArray.writeElement ⟨n, S, c⟩ (FramI2C.withCursor p c') w i v).2.mem x =
      if c + i * S ≤ x ∧ x < c + (i + 1) * S then v (x - (c + i * S)) else w.mem x) ∧
    (∀ j, j ≠ i →
      (FramI2CArray.readElement ⟨n, S, c⟩ (FramI2C.withCursor p c')
        (FramI2CArray.writeElement ⟨n, S, c⟩ (FramI2C.withCursor p c') w i v).2 j out).1
        = (FramI2CArray.readElement ⟨n, S, c⟩ (FramI2C.withCursor p c') w j out).1 ∧
      ∀ k, (FramI2CArray.readElement ⟨n, S, c⟩ (FramI2C.withCursor p c')
          (FramI2CArray.writeElement ⟨n, S, c⟩ (FramI2C.withCursor p c') w i v).2 j out).2.2 k
        = (FramI2CArray.readElement ⟨n, S, c⟩ (FramI2C.withCursor p c') w j out).2.2 k) := by
  have htop := (topAddress_lt p).2
  have hb := slot_bound (s := S) hi
  have hsucc : (i + 1) * S = i * S + S := by rw [Nat.add_mul, Nat.one_mul]
  have haddr : (c + (i * S) % 2 ^ 32) % 2 ^ 32 = c + i * S := by omega
  have hc0 : ¬ (c = 0) := by omega
  have hir : ¬ (i ≥ n) := by omega
  have hw := FramI2C.write_valid (FramI2C.withCursor p c') w (c + i * S) S v
    (by rw [FramI2C.withCursor_bottom]; omega) (by rw [FramI2C.withCursor_top]; omega)
    hS.1 (by omega) (by rw [FramI2C.withCursor_top]; exact htop)
  have hwe : FramI2CArray.writeElement ⟨n, S, c⟩ (FramI2C.withCursor p c') w i v
      = (FramI2C.withCursor p c').write w (c + i * S) S v := by
    unfold FramI2CArray.writeElement
    simp only [hc0, hir, if_false, haddr]
  rw [hwe, hsucc, ← Nat.add_assoc]
  refine ⟨hw.1, hw.2, ?_⟩
  intro j hji
  by_cases hj : j < n
  · have hbj := slot_bound (s := S) hj
    have haddrj : (c + (j * S) % 2 ^ 32) % 2 ^ 32 = c + j * S := by omega
    have hjr : ¬ (j ≥ n) := by omega
    have hre : ∀ w' : Chip, FramI2CArray.readElement ⟨n, S, c⟩ (FramI2C.withCursor p c') w' j out
        = (FramI2C.withCursor p c').read w' (c + j * S) S out := by
      intro w'
      unfold FramI2CArray.readElement
      simp only [hc0, hjr, if_false, haddrj]
    have hr := fun w' : Chip => FramI2C.read_valid (FramI2C.withCursor p c') w' (c + j * S) S out
      (by rw [FramI2C.withCursor_bottom]; omega) (by rw [FramI2C.withCursor_top]; omega)
      hS.1 (by omega) (by rw [FramI2C.withCursor_top]; exact htop)
    rw [hre, hre]
    refine ⟨by rw [(hr _).1, (hr _).1], ?_⟩
    intro k
    rw [(hr _).2.2 k, (hr _).2.2 k]
    by_cases hk : k < S
    · rw [if_pos hk, if_pos hk, hw.2]
      rcases Nat.lt_or_gt_of_ne hji with hlt' | hgt
      · have := slot_lt (s := S) hlt'
        rw [if_neg (by omega)]
      · have := slot_lt (s := S) hgt
        rw [if_neg (by omega)]
    · rw [if_neg hk, if_neg hk]
  · have hb1 := fun w' : Chip => (FramI2CArray.bad_index ⟨n, S, c⟩ (FramI2C.withCursor p c') w' j out
      (by simp only; omega))
    have hres : ∀ w' : Chip,
        (FramI2CArray.readElement ⟨n, S, c⟩ (FramI2C.withCursor p c') w' j out).1
          = framBadArrayIndex := by
      intro w'
      unfold FramI2CArray.readElement
      have hjr : j ≥ n := by omega
      simp only [hc0, hjr, if_false, if_true]
    refine ⟨by rw [hres, hres], ?_⟩
    intro k
    rw [(hb1 _).2.1, (hb1 _).2.1]

/-- C21 (as amended): for an array with element size 1..127 whose construction reported
`framOK` on a device whose cursor is at or above the control block end, with
`nextFreeByte + elementCount*elementSize` not overflowing 32 bits (`a` is the array
object, `f1` the device object after construction), and every index `i < elementCount`:
`writeElement(i, v)` is accepted and changes only the chip bytes in
`[regionStart + i*elementSize, regionStart + (i+1)*elementSize)`, which lie inside the
allocation `[regionStart, regionStart + elementCount*elementSize)` below the top address;
`readElement(j)` for every other index `j` gives the same result code and buffer before
and after, and every byte outside the allocation is unchanged. -/
theorem C21_array_frame (p : framPartNumber) (c n S : Nat) (w : Chip) (i : Nat)
    (v out : Buffer) (a : FramI2CArray) (f1 : FramI2C)
    (hc : (FramI2C.withCursor p c)._bottomAddress ≤ c) (hS : 1 ≤ S ∧ S ≤ 127)
    (hres : (FramI2CArray.new (FramI2C.withCursor p c) n S).2.2 = framOK)
    (hfit : c + n * S < 2 ^ 32)
    (ha : a = (FramI2CArray.new (FramI2C.withCursor p c) n S).1)
    (hf1 : f1 = (FramI2CArray.new (FramI2C.withCursor p c) n S).2.1)
    (hi : i < n) :
    a._startAddress = c ∧
    (a.writeElement f1 w i v).1 = framOK ∧
    (∀ x, ¬ (a._startAddress + i * S ≤ x ∧ x < a._startAddress + (i + 1) * S) →
      (a.writeElement f1 w i v).2.mem x = w.mem x) ∧
    (a._startAddress ≤ a._startAddress + i * S ∧
      a._startAddress + (i + 1) * S ≤ a._startAddress + n * S ∧
      a._startAddress + n * S < f1._topAddress) ∧
    (∀ j, j ≠ i →
      (a.readElement f1 (a.writeElement f1 w i v).2 j out).1 = (a.readElement f1 w j out).1 ∧
      ∀ k, (a.readElement f1 (a.writeElement f1 w i v).2 j out).2.2 k
        = (a.readElement f1 w j out).2.2 k) ∧
    (∀ x, ¬ (a._startAddress ≤ x ∧ x < a._startAddress + n * S) →
      (a.writeElement f1 w i v).2.mem x = w.mem x) := by
  rw [FramI2C.withCursor_bottom] at hc
  obtain ⟨_, hlt, ha', hf⟩ := FramI2CArray.new_array_spec p c n S hres hfit
  rw [ha'] at ha
  rw [hf] at hf1
  subst ha hf1
  obtain ⟨h1, h2, h3⟩ := FramI2CArray.element_frame p c (c + n * S) n S w i v out hc hS hlt hi
  have hb := slot_bound (s := S) hi
  have hsucc : (i + 1) * S = i * S + S := by rw [Nat.add_mul, Nat.one_mul]
  simp only
  refine ⟨trivial, h1, ?_, ⟨by omega, by omega, by rw [FramI2C.withCursor_top]; exact hlt⟩,
    h3, ?_⟩
  · intro x hx
    rw [h2 x, if_neg hx]
  · intro x hx
    rw [h2 x, if_neg (by omega)]

/-- Witness for C21: an array of ten 16-byte elements on a fresh MB85RC128A over a zeroed
chip; writing element 3 is accepted, leaves the byte at address 300 unchanged, and
`readElement(5)` gives the same result code before and after. -/
theorem C21_array_frame_witness :
    ((FramI2CArray.new (FramI2C.withCursor .MB85RC128A 128) 10 16).1.writeElement
      (FramI2CArray.new (FramI2C.withCursor .MB85RC128A 128) 10 16).2.1 zeroChip 3
      (elem 9)).1 = framOK ∧
    ((FramI2CArray.new (FramI2C.withCursor .MB85RC128A 128) 10 16).1.writeElement
      (FramI2CArray.new (FramI2C.withCursor .MB85RC128A 128) 10 16).2.1 zeroChip 3
      (elem 9)).2.mem 300 = zeroChip.mem 300 ∧
    ((FramI2CArray.new (FramI2C.withCursor .MB85RC128A 128) 10 16).1.readElement
      (FramI2CArray.new (FramI2C.withCursor .MB85RC128A 128) 10 16).2.1
      ((FramI2CArray.new (FramI2C.withCursor .MB85RC128A 128) 10 16).1.writeElement
        (FramI2CArray.new (FramI2C.withCursor .MB85RC128A 128) 10 16).2.1 zeroChip 3
        (elem 9)).2 5 (fun _ => 0)).1
      = ((FramI2CArray.new (FramI2C.withCursor .MB85RC128A 128) 10 16).1.readElement
          (FramI2CArray.new (FramI2C.withCursor .MB85RC128A 128) 10 16).2.1 zeroChip 5
          (fun _ => 0)).1 :=
  ⟨(C21_array_frame .MB85RC128A 128 10 16 zeroChip 3 (elem 9) (fun _ => 0) _ _
      (by decide) (by decide) (by decide) (by decide) rfl rfl (by decide)).2.1,
    (C21_array_frame .MB85RC128A 128 10 16 zeroChip 3 (elem 9) (fun _ => 0) _ _
      (by decide) (by decide) (by decide) (by decide) rfl rfl (by decide)).2.2.1 300
      (by decide),
    ((C21_array_frame .MB85RC128A 128 10 16 zeroChip 3 (elem 9) (fun _ => 0) _ _
      (by decide) (by decide) (by decide) (by decide) rfl rfl (by decide)).2.2.2.2.1 5
      (by decide)).1⟩

/-- Counterexample to C21 as stated: on an MB85RC64 on which 7872 bytes were allocated
before (cursor 8000), the array with `elementCount = 4294966296`, `elementSize = 1` is
constructed with `framOK` and `regionStart = 8000` (`elementCount * elementSize` does
not overflow 32 bits, but the allocator's sum `8000 + 4294966296` wraps to 7000). For the
index `i = 4294960296 < elementCount`, `writeElement(i, v)` is accepted and changes the
chip byte at address 1000 (the 32-bit sum `8000 + i` wraps to 1000), which is neither in
`[regionStart + i, regionStart + i + 1)` nor at or above `regionStart`. -/
theorem C21_counterexample :
    FramI2C.Reachable ((FramI2C.new .MB85RC64).allocateMemory 7872).2.2 ∧
    (FramI2CArray.new ((FramI2C.new .MB85RC64).allocateMemory 7872).2.2 4294966296 1).2.2
      = framOK ∧
    4294966296 * 1 < 2 ^ 32 ∧
    (FramI2CArray.new ((FramI2C.new .MB85RC64).allocateMemory 7872).2.2
      4294966296 1).1._startAddress = 8000 ∧
    4294960296 < 4294966296 ∧
    ((FramI2CArray.new ((FramI2C.new .MB85RC64).allocateMemory 7872).2.2
        4294966296 1).1.writeElement
      (FramI2CArray.new ((FramI2C.new .MB85RC64).allocateMemory 7872).2.2 4294966296 1).2.1
      zeroChip 4294960296 (fun _ => 1)).1 = framOK ∧
    ((FramI2CArray.new ((FramI2C.new .MB85RC64).allocateMemory 7872).2.2
        4294966296 1).1.writeElement
      (FramI2CArray.new ((FramI2C.new .MB85RC64).allocateMemory 7872).2.2 4294966296 1).2.1
      zeroChip 4294960296 (fun _ => 1)).2.mem 1000 = 1 ∧
    zeroChip.mem 1000 = 0 ∧
    ¬ (8000 + 4294960296 * 1 ≤ 1000 ∧ 1000 < 8000 + (4294960296 + 1) * 1) ∧
    ¬ (8000 ≤ 1000) :=
  ⟨FramI2C.Reachable.allocate _ _ (FramI2C.Reachable.construct _) (by norm_num),
    by decide, by decide, by decide, by decide, by decide, by decide, by decide, by decide,
    by decide⟩

theorem Effect.refl (lo hi : Nat) (w : Chip) : Effect lo hi [] w w :=
  ⟨fun _ _ => rfl, (List.append_nil _).symm⟩

theorem Effect.trans {lo hi : Nat} {l1 l2 : List WireCall} {w w1 w2 : Chip}
    (h1 : Effect lo hi l1 w w1) (h2 : Effect lo hi l2 w1 w2) : Effect lo hi (l1 ++ l2) w w2 :=
  ⟨fun a ha => (h2.1 a ha).trans (h1.1 a ha), by rw [h2.2, h1.2, List.append_assoc]⟩

theorem Effect.mono {lo hi lo' hi' : Nat} {l : List WireCall} {w w' : Chip}
    (h : Effect lo hi l w w') (h1 : lo' ≤ lo) (h2 : hi ≤ hi') : Effect lo' hi' l w w' :=
  ⟨fun a ha => h.1 a (fun hh => ha ⟨by omega, by omega⟩), h.2⟩

/-- A valid `write` is accepted, is confined to `[start, start + n)` and puts its chunks
on the bus. -/
theorem FramI2C.write_effect (f : FramI2C) (w : Chip) (startAddress numberOfBytes : Nat)
    (buffer : Buffer) (hb : f._bottomAddress ≤ startAddress)
    (ht : startAddress + numberOfBytes ≤ f._topAddress + 1) (hn : 1 ≤ numberOfBytes)
    (hm : numberOfBytes ≤ 128) (htop : f._topAddress < 2 ^ 16) :
    (f.write w startAddress numberOfBytes buffer).1 = framOK ∧
    Effect startAddress (startAddress + numberOfBytes)
      (chunkCalls WireCall.transmit startAddress numberOfBytes) w
      (f.write w startAddress numberOfBytes buffer).2 := by
  obtain ⟨h1, h2⟩ := FramI2C.write_valid f w startAddress numberOfBytes buffer hb ht hn hm htop
  refine ⟨h1, ?_, FramI2C.write_calls f w startAddress numberOfBytes buffer hb ht hn hm htop⟩
  intro a ha
  rw [h2 a, if_neg ha]

/-- A valid `read` changes no chip byte and puts its chunks on the bus. -/
theorem FramI2C.read_effect (f : FramI2C) (w : Chip) (startAddress numberOfBytes : Nat)
    (buffer : Buffer) (hb : f._bottomAddress ≤ startAddress)
    (ht : startAddress + numberOfBytes ≤ f._topAddress + 1) (hn : 1 ≤ numberOfBytes)
    (hm : numberOfBytes ≤ 128) (htop : f._topAddress < 2 ^ 16) (lo hi : Nat) :
    Effect lo hi (chunkCalls WireCall.requestFrom startAddress numberOfBytes) w
      (f.read w startAddress numberOfBytes buffer).2.1 := by
  obtain ⟨_, h2, _⟩ := FramI2C.read_valid f w startAddress numberOfBytes buffer hb ht hn hm htop
  refine ⟨?_, FramI2C.read_calls f w startAddress numberOfBytes buffer hb ht hn hm htop⟩
  intro a _
  rw [h2]

/-- `setPointers` on an allocated ring whose trailer lies inside the device writes the
trailer and nothing else. -/
theorem Ring_FramArray.setPointers_effect {f : FramI2C} {r : Ring_FramArray}
    (hs : ¬ (r._startAddress = 0)) (hb : f._bottomAddress ≤ r._pointersAddress)
    (he : r._pointersAddress + 12 ≤ f._topAddress + 1) (htop : f._topAddress < 2 ^ 16)
    (w : Chip) :
    Effect r._pointersAddress (r._pointersAddress + 12)
      (chunkCalls WireCall.transmit r._pointersAddress 12) w (r.setPointers f w).2 := by
  unfold Ring_FramArray.setPointers
  rw [if_pos hs]
  exact (FramI2C.write_effect f w r._pointersAddress 12 _ hb he (by omega) (by omega) htop).2

/-- The chunks of a request lie inside the requested range. -/
theorem chunkCalls_inside (s n lo hi : Nat) (h1 : lo ≤ s) (h2 : s + n ≤ hi) :
    ∀ x ∈ chunkCalls WireCall.transmit s n, WireCall.inside lo hi x := by
  intro x hx
  obtain ⟨a, len, off, rfl, _, _, h5, h6, _⟩ := chunkCalls_sizes WireCall.transmit s n x hx
  exact ⟨by omega, by omega⟩

theorem chunkCalls_inside_read (s n lo hi : Nat) :
    ∀ x ∈ chunkCalls WireCall.requestFrom s n, WireCall.inside lo hi x := by
  intro x hx
  obtain ⟨a, len, off, rfl, _⟩ := chunkCalls_sizes WireCall.requestFrom s n x hx
  exact trivial

/-- `setPointers` on a ring with start address `c` and trailer address `P` inside the
device writes the trailer and nothing else. -/
theorem Ring_FramArray.setPointers_at {f : FramI2C} {r : Ring_FramArray} {c P : Nat}
    (h3 : r._startAddress = c) (h5 : r._pointersAddress = P) (hc0 : 1 ≤ c)
    (hb : f._bottomAddress ≤ P) (he : P + 12 ≤ f._topAddress + 1)
    (htop : f._topAddress < 2 ^ 16) (w : Chip) :
    Effect P (P + 12) (chunkCalls WireCall.transmit P 12) w (r.setPointers f w).2 := by
  subst h5
  exact Ring_FramArray.setPointers_effect (by rw [h3]; omega) hb he htop w

/-- The `write` of an element into slot `k` of a ring laid out at `c` inside the device is
accepted, is confined to the slot and puts its chunks on the bus. -/
theorem Ring_FramArray.slot_write {f : FramI2C} {r : Ring_FramArray} {c n S : Nat}
    (h2 : r._sizeOfElement = S) (h3 : r._startAddress = c)
    (hS : 1 ≤ S ∧ S ≤ 127) (hb : f._bottomAddress ≤ c)
    (he : c + n * S ≤ f._topAddress + 1) (htop : f._topAddress < 2 ^ 16)
    (w : Chip) (k : Nat) (hk : k < n) (e : Buffer) :
    (f.write w ((r._startAddress + (k * r._sizeOfElement) % 2 ^ 32) % 2 ^ 32)
      r._sizeOfElement e).1 = framOK ∧
    Effect (c + k * S) (c + k * S + S) (chunkCalls WireCall.transmit (c + k * S) S) w
      (f.write w ((r._startAddress + (k * r._sizeOfElement) % 2 ^ 32) % 2 ^ 32)
        r._sizeOfElement e).2 := by
  have hsb := slot_bound (s := S) hk
  have haddr : (c + (k * S) % 2 ^ 32) % 2 ^ 32 = c + k * S := by omega
  rw [h2, h3, haddr]
  exact FramI2C.write_effect f w (c + k * S) S e (by omega) (by omega) hS.1 (by omega) htop

/-- The `read` of slot `k` of a ring laid out at `c` inside the device changes no chip
byte and puts its chunks on the bus. -/
theorem Ring_FramArray.slot_read {f : FramI2C} {r : Ring_FramArray} {c n S : Nat}
    (h2 : r._sizeOfElement = S) (h3 : r._startAddress = c)
    (hS : 1 ≤ S ∧ S ≤ 127) (hb : f._bottomAddress ≤ c)
    (he : c + n * S ≤ f._topAddress + 1) (htop : f._topAddress < 2 ^ 16)
    (w : Chip) (k : Nat) (hk : k < n) (buffer : Buffer) (lo hi : Nat) :
    Effect lo hi (chunkCalls WireCall.requestFrom (c + k * S) S) w
      (f.read w ((r._startAddress + (k * r._sizeOfElement) % 2 ^ 32) % 2 ^ 32)
        r._sizeOfElement buffer).2.1 := by
  have hsb := slot_bound (s := S) hk
  have haddr : (c + (k * S) % 2 ^ 32) % 2 ^ 32 = c + k * S := by omega
  rw [h2, h3, haddr]
  exact FramI2C.read_effect f w (c + k * S) S buffer (by omega) (by omega) hS.1 (by omega)
    htop lo hi

/-- The loop of `clearArray` started at slot `i` with enough fuel writes the slots
`i, i+1, ..., n-1` and nothing else. -/
theorem Ring_FramArray.clearLoop_effect {f : FramI2C} {r : Ring_FramArray} {c n S : Nat}
    (h1 : r._numberOfElements = n) (h2 : r._sizeOfElement = S) (h3 : r._startAddress = c)
    (hS : 1 ≤ S ∧ S ≤ 127) (hb : f._bottomAddress ≤ c)
    (he : c + n * S ≤ f._topAddress + 1) (htop : f._topAddress < 2 ^ 16) (fuel : Nat) :
    ∀ (i : Nat) (w : Chip), i ≤ n → n - i ≤ fuel →
    Effect c (c + n * S)
      (((List.range' i (n - i)).map
        (fun k => chunkCalls WireCall.transmit (c + k * S) S)).flatten) w
      (Ring_FramArray.clearLoop r f fuel (i, w)).2 := by
  have hn : n ≤ 2 ^ 16 := by
    have : n * 1 ≤ n * S := Nat.mul_le_mul_left _ hS.1
    omega
  induction fuel with
  | zero =>
    intro i w hi hf
    have e0 : n - i = 0 := by omega
    rw [e0]
    exact Effect.refl _ _ w
  | succ fuel ih =>
    intro i w hi hf
    unfold Ring_FramArray.clearLoop
    simp only
    by_cases hlt : i < r._numberOfElements
    · rw [if_pos hlt]
      rw [h1] at hlt
      have e0 : n - i = (n - (i + 1)) + 1 := by omega
      have e1 : (i + 1) % 2 ^ 32 = i + 1 := by omega
      rw [e0, List.range'_succ, List.map_cons, List.flatten_cons, e1]
      have hw := (Ring_FramArray.slot_write h2 h3 hS hb he htop w i hlt (fun _ => 0)).2
      have hsb := slot_bound (s := S) hlt
      exact (hw.mono (by omega) (by omega)).trans (ih (i + 1) _ (by omega) (by omega))
    · rw [if_neg hlt]
      rw [h1] at hlt
      have e0 : n - i = 0 := by omega
      rw [e0]
      exact Effect.refl _ _ w

/-- Every method call on a ring laid out at `[c, c + (N+1)*S + 12)` inside the device with
in-range indices changes only bytes of that range, and the transport calls it issues are
the expected ones: every request it makes is accepted. -/
theorem Ring_FramArray.step_effect {f : FramI2C} {r : Ring_FramArray} {c N S : Nat}
    (hl : r.layout = (N + 1, S, c, c + ((N + 1) * S + 12), c + (N + 1) * S))
    (hc : 1 ≤ c) (hS : 1 ≤ S ∧ S ≤ 127) (hb : f._bottomAddress ≤ c)
    (he : c + ((N + 1) * S + 12) ≤ f._topAddress + 1) (htop : f._topAddress < 2 ^ 16)
    (ht : r._tailAddress < N + 1) (hh : r._headAddress < N + 1) (w : Chip) (op : RingOp) :
    Effect c (c + ((N + 1) * S + 12))
      (expectedCalls c N S r._tailAddress r._headAddress op) w
      (Ring_FramArray.step f (r, w) op).2 := by
  obtain ⟨e1, e2, e3, e4, e5⟩ := Ring_FramArray.layout_fields hl
  have hb5 : f._bottomAddress ≤ c + (N + 1) * S := by omega
  have he5 : c + (N + 1) * S + 12 ≤ f._topAddress + 1 := by omega
  have hes : c + (N + 1) * S ≤ f._topAddress + 1 := by omega
  have hN1 : (N + 1) * 1 ≤ (N + 1) * S := Nat.mul_le_mul_left _ hS.1
  have hN31 : r._numberOfElements < 2 ^ 31 := by rw [e1]; omega
  have ht' : r._tailAddress < r._numberOfElements := by rw [e1]; exact ht
  have hh' : r._headAddress < r._numberOfElements := by rw [e1]; exact hh
  have htr : ∀ (r' : Ring_FramArray) (w' : Chip), r'._startAddress = c →
      r'._pointersAddress = c + (N + 1) * S →
      Effect c (c + ((N + 1) * S + 12)) (chunkCalls WireCall.transmit (c + (N + 1) * S) 12) w'
        (r'.setPointers f w').2 := by
    intro r' w' h3 h5
    exact (Ring_FramArray.setPointers_at h3 h5 hc hb5 he5 htop w').mono (by omega) (by omega)
  have hwr : ∀ (w' : Chip) (k : Nat), k < N + 1 → ∀ e : Buffer,
      Effect c (c + ((N + 1) * S + 12)) (chunkCalls WireCall.transmit (c + k * S) S) w'
        (f.write w' ((r._startAddress + (k * r._sizeOfElement) % 2 ^ 32) % 2 ^ 32)
          r._sizeOfElement e).2 := by
    intro w' k hk e
    have hsb := slot_bound (s := S) hk
    exact ((Ring_FramArray.slot_write e2 e3 hS hb hes htop w' k hk e).2).mono
      (by omega) (by omega)
  have hrd : ∀ (w' : Chip) (k : Nat), k < N + 1 → ∀ b : Buffer,
      Effect c (c + ((N + 1) * S + 12)) (chunkCalls WireCall.requestFrom (c + k * S) S) w'
        (f.read w' ((r._startAddress + (k * r._sizeOfElement) % 2 ^ 32) % 2 ^ 32)
          r._sizeOfElement b).2.1 := by
    intro w' k hk b
    exact Ring_FramArray.slot_read e2 e3 hS hb hes htop w' k hk b _ _
  have hpush : ∀ b : Buffer, Effect c (c + ((N + 1) * S + 12))
      (chunkCalls WireCall.transmit (c + r._headAddress * S) S ++
        chunkCalls WireCall.transmit (c + (N + 1) * S) 12) w (r.push f w b).2 := by
    intro b
    unfold Ring_FramArray.push
    split_ifs
    · exact (hwr w _ hh b).trans (htr _ _ e3 e5)
    · exact (hwr w _ hh b).trans (htr _ _ e3 e5)
  have hpop : ∀ b : Buffer, Effect c (c + ((N + 1) * S + 12))
      (if r._tailAddress = r._headAddress then []
       else chunkCalls WireCall.requestFrom (c + r._tailAddress * S) S ++
        chunkCalls WireCall.transmit (c + (N + 1) * S) 12) w (r.pop f w b).2.2.1 := by
    intro b
    by_cases hne : r._tailAddress = r._headAddress
    · rw [if_pos hne, Ring_FramArray.pop_empty f r hne w b]
      exact Effect.refl _ _ w
    · rw [if_neg hne]
      have hemp : r.isEmpty = false := by
        cases h : r.isEmpty
        · rfl
        · exact absurd ((Ring_FramArray.isEmpty_iff r).1 h) hne
      have hs0 : ¬ (r._startAddress = 0) := by rw [e3]; omega
      unfold Ring_FramArray.pop
      simp only [hemp, hs0, Bool.not_false, decide_False, Bool.and_self, if_true]
      exact (hrd w _ ht b).trans (htr _ _ e3 e5)
  cases op with
  | init =>
    show Effect _ _ (chunkCalls WireCall.requestFrom (c + (N + 1) * S) 12 ++
      chunkCalls WireCall.transmit (c + (N + 1) * S) 12) w ( Ring_FramArray.initialize r f w).2
    have hP : (r._ringEndAddress + (2 ^ 32 - sizeofPointers)) % 2 ^ 32 = c + (N + 1) * S := by
      rw [e4]
      simp only [sizeofPointers]
      omega
    unfold Ring_FramArray.initialize
    simp only
    rw [hP]
    refine Effect.trans
      (?_ : Effect _ _ _ w (Ring_FramArray.getPointers
        { r with _pointersAddress := c + (N + 1) * S } f w).2) (htr _ _ ?_ ?_)
    · unfold Ring_FramArray.getPointers
      simp only [sizeofPointers]
      exact FramI2C.read_effect f w _ 12 _ hb5 he5 (by omega) (by omega) htop _ _
    · split_ifs <;> exact e3
    · split_ifs <;> rfl
  | push b => exact hpush b
  | pushElement b => exact hpush b
  | pop b => exact hpop b
  | popFirstElement b => exact hpop b
  | popLastElement b =>
    show Effect _ _ (if r._tailAddress = r._headAddress then []
       else chunkCalls WireCall.requestFrom (c + prevIndex r._headAddress (N + 1) * S) S ++
        chunkCalls WireCall.transmit (c + (N + 1) * S) 12) w (r.popLastElement f w b).2.2.1
    by_cases hne : r._tailAddress = r._headAddress
    · rw [if_pos hne, Ring_FramArray.popLast_empty f r hne w b]
      exact Effect.refl _ _ w
    · rw [if_neg hne]
      have hemp : r.isEmpty = false := by
        cases h : r.isEmpty
        · rfl
        · exact absurd ((Ring_FramArray.isEmpty_iff r).1 h) hne
      have hs0 : ¬ (r._startAddress = 0) := by rw [e3]; omega
      have hp : prevIndex r._headAddress r._numberOfElements < N + 1 := by
        rw [e1]
        exact prevIndex_lt (by omega) hh
      rw [show prevIndex r._headAddress (N + 1)
        = prevIndex r._headAddress r._numberOfElements from by rw [e1]]
      unfold Ring_FramArray.popLastElement
      simp only [hemp, hs0, Bool.not_false, decide_False, Bool.and_self, if_true]
      simp only [Ring_FramArray.myModulo_pred (by omega) hN31 hh']
      exact (hrd w (prevIndex r._headAddress r._numberOfElements) hp b).trans
        (htr _ _ e3 e5)
  | clearArray =>
    show Effect _ _ (((List.range (N + 1)).map
        (fun k => chunkCalls WireCall.transmit (c + k * S) S)).flatten ++
      chunkCalls WireCall.transmit (c + (N + 1) * S) 12) w (r.clearArray f w).2
    have hs0 : ¬ (r._startAddress = 0) := by rw [e3]; omega
    unfold Ring_FramArray.clearArray
    rw [if_pos hs0]
    simp only
    have hloop := Ring_FramArray.clearLoop_effect e1 e2 e3 hS hb hes htop r._numberOfElements
      0 w (Nat.zero_le _) (by rw [e1]; omega)
    rw [Nat.sub_zero, ← List.range_eq_range'] at hloop
    exact (hloop.mono (Nat.le_refl _) (by omega)).trans (htr _ _ e3 e5)
  | setIndices a b =>
    show Effect _ _ (if a < N + 1 ∧ b < N + 1
      then chunkCalls WireCall.transmit (c + (N + 1) * S) 12 else []) w
      (r.setIndices f w a b).2.2
    unfold Ring_FramArray.setIndices
    by_cases hab : a < N + 1 ∧ b < N + 1
    · rw [if_pos hab, if_pos ⟨⟨Nat.zero_le _, by rw [e1]; exact hab.1⟩,
        ⟨Nat.zero_le _, by rw [e1]; exact hab.2⟩⟩]
      exact htr _ _ e3 e5
    · rw [if_neg hab, if_neg (by rw [e1]; intro h; exact hab ⟨h.1.2, h.2.2⟩)]
      exact Effect.refl _ _ w

theorem WireCall.inside_mono {lo hi lo' hi' : Nat} {x : WireCall}
    (h : WireCall.inside lo hi x) (h1 : lo' ≤ lo) (h2 : hi ≤ hi') : WireCall.inside lo' hi' x := by
  cases x with
  | requestFrom a n b => exact trivial
  | transmit a n b =>
    obtain ⟨k1, k2⟩ := h
    exact ⟨by omega, by omega⟩

/-- Every expected transport call of a method call with in-range indices lies inside the
slot area `[c, c + (N+1)*S)` or inside the trailer `[c + (N+1)*S, c + (N+1)*S + 12)`. -/
theorem expectedCalls_inside (c N S tail head : Nat) (hh : head < N + 1) (op : RingOp) :
    ∀ x ∈ expectedCalls c N S tail head op,
      WireCall.inside c (c + (N + 1) * S) x ∨
      WireCall.inside (c + (N + 1) * S) (c + (N + 1) * S + 12) x := by
  have htrail : ∀ x ∈ chunkCalls WireCall.transmit (c + (N + 1) * S) 12,
      WireCall.inside c (c + (N + 1) * S) x ∨
      WireCall.inside (c + (N + 1) * S) (c + (N + 1) * S + 12) x :=
    fun x hx => Or.inr (chunkCalls_inside _ _ _ _ (Nat.le_refl _) (Nat.le_refl _) x hx)
  have hslot : ∀ k, k < N + 1 → ∀ x ∈ chunkCalls WireCall.transmit (c + k * S) S,
      WireCall.inside c (c + (N + 1) * S) x ∨
      WireCall.inside (c + (N + 1) * S) (c + (N + 1) * S + 12) x := by
    intro k hk x hx
    have hsb := slot_bound (s := S) hk
    exact Or.inl (chunkCalls_inside _ _ _ _ (by omega) (by omega) x hx)
  have hread : ∀ a n, ∀ x ∈ chunkCalls WireCall.requestFrom a n,
      WireCall.inside c (c + (N + 1) * S) x ∨
      WireCall.inside (c + (N + 1) * S) (c + (N + 1) * S + 12) x :=
    fun a n x hx => Or.inl (chunkCalls_inside_read a n _ _ x hx)
  intro x hx
  cases op with
  | init =>
    rcases List.mem_append.1 hx with h | h
    · exact hread _ _ x h
    · exact htrail x h
  | push b =>
    rcases List.mem_append.1 hx with h | h
    · exact hslot head hh x h
    · exact htrail x h
  | pushElement b =>
    rcases List.mem_append.1 hx with h | h
    · exact hslot head hh x h
    · exact htrail x h
  | pop b =>
    simp only [expectedCalls] at hx
    split_ifs at hx
    · simp at hx
    · rcases List.mem_append.1 hx with h | h
      · exact hread _ _ x h
      · exact htrail x h
  | popFirstElement b =>
    simp only [expectedCalls] at hx
    split_ifs at hx
    · simp at hx
    · rcases List.mem_append.1 hx with h | h
      · exact hread _ _ x h
      · exact htrail x h
  | popLastElement b =>
    simp only [expectedCalls] at hx
    split_ifs at hx
    · simp at hx
    · rcases List.mem_append.1 hx with h | h
      · exact hread _ _ x h
      · exact htrail x h
  | clearArray =>
    rcases List.mem_append.1 hx with h | h
    · obtain ⟨l, hl, hxl⟩ := List.mem_flatten.1 h
      obtain ⟨k, hk, rfl⟩ := List.mem_map.1 hl
      exact hslot k (List.mem_range.1 hk) x hxl
    · exact htrail x h
  | setIndices a b =>
    simp only [expectedCalls] at hx
    split_ifs at hx
    · exact htrail x hx
    · simp at hx

/-- C20 (as amended): for a ring of element size 1..127 constructed with result `framOK`
on a device whose cursor is at or above the control block end, with
`nextFreeByte + (elementCount+1)*elementSize + 12` not overflowing 32 bits, in every state
`s` reached by `initialize` followed by method calls in which both indices are below
`elementCount + 1` (`f1` is the device object after construction), and for every call
`op` of `initialize`, `push`, `pushElement`, `pop`, `popFirstElement`, `popLastElement`,
`clearArray` or `setIndices`: the allocation is `[regionStart, ringEndAddress)` with
`regionStart = c` and `ringEndAddress = c + (elementCount+1)*elementSize + 12`; the
transport calls issued by `op` are exactly the expected ones, so every device request it
makes is accepted; each of them lies inside the slot area
`[regionStart, regionStart + (elementCount+1)*elementSize)` or inside the trailer (the
twelve bytes after the slot area); chip bytes outside the allocation are unchanged; and
a `write` of an element to any slot, and of the trailer, returns `framOK`. -/
theorem C20_ring_frame (p : framPartNumber) (c N S : Nat) (uninit : Ring_FramArray)
    (w : Chip) (ops : List RingOp) (f1 : FramI2C) (s : Ring_FramArray × Chip)
    (hc : (FramI2C.withCursor p c)._bottomAddress ≤ c) (hS : 1 ≤ S)
    (hres : (Ring_FramArray.new uninit (FramI2C.withCursor p c) N S).2.2 = framOK)
    (hfit : c + ((N + 1) * S + 12) < 2 ^ 32)
    (hf1 : f1 = (Ring_FramArray.new uninit (FramI2C.withCursor p c) N S).2.1)
    (hs : s = Ring_FramArray.reach uninit (FramI2C.withCursor p c) N S w (RingOp.init :: ops))
    (hidx : s.1._tailAddress < N + 1 ∧ s.1._headAddress < N + 1) :
    (s.1._startAddress = c ∧ s.1._ringEndAddress = c + ((N + 1) * S + 12) ∧
      s.1._pointersAddress = c + (N + 1) * S ∧ s.1._ringEndAddress ≤ f1._topAddress) ∧
    (∀ op, (Ring_FramArray.step f1 s op).2.calls =
      s.2.calls ++ expectedCalls c N S s.1._tailAddress s.1._headAddress op) ∧
    (∀ op, ∀ x ∈ expectedCalls c N S s.1._tailAddress s.1._headAddress op,
      WireCall.inside c (c + (N + 1) * S) x ∨
      WireCall.inside (c + (N + 1) * S) (c + (N + 1) * S + 12) x) ∧
    (∀ op a, ¬ (s.1._startAddress ≤ a ∧ a < s.1._ringEndAddress) →
      (Ring_FramArray.step f1 s op).2.mem a = s.2.mem a) ∧
    (∀ op, Within s.1._startAddress s.1._ringEndAddress s.2 (Ring_FramArray.step f1 s op).2) ∧
    (∀ (k : Nat) (e : Buffer) (w1 : Chip), k < N + 1 →
      (f1.write w1 ((s.1._startAddress + (k * s.1._sizeOfElement) % 2 ^ 32) % 2 ^ 32)
        s.1._sizeOfElement e).1 = framOK) ∧
    (∀ (e : Buffer) (w1 : Chip),
      (f1.write w1 s.1._pointersAddress sizeofPointers e).1 = framOK) := by
  rw [FramI2C.withCursor_bottom] at hc
  have hN1 : (N + 1) * 1 ≤ (N + 1) * S := Nat.mul_le_mul_left _ hS
  have hN32 : N + 1 < 2 ^ 32 := by omega
  obtain ⟨l1, l2, l3, l4⟩ := Ring_FramArray.reach_layout uninit p c N S w ops hres hfit hN32
  rw [← Ring_FramArray.reach_init, ← hs] at l4
  rw [← hf1] at l1
  clear hs hf1 hres
  obtain ⟨e1, e2, e3, e4, e5⟩ := Ring_FramArray.layout_fields l4
  have htop := (topAddress_lt p).2
  have hb1 : f1._bottomAddress ≤ c := by rw [l1, FramI2C.withCursor_bottom]; exact hc
  have he1 : c + ((N + 1) * S + 12) ≤ f1._topAddress + 1 := by
    rw [l1, FramI2C.withCursor_top]; omega
  have ht1 : f1._topAddress < 2 ^ 16 := by rw [l1, FramI2C.withCursor_top]; exact htop
  have heff := fun op => Ring_FramArray.step_effect (f := f1) l4 (by omega) ⟨hS, l2⟩ hb1 he1 ht1
    hidx.1 hidx.2 s.2 op
  have hin := fun op => expectedCalls_inside c N S s.1._tailAddress s.1._headAddress hidx.2 op
  refine ⟨⟨e3, e4, e5, by rw [e4, l1, FramI2C.withCursor_top]; omega⟩,
    fun op => (heff op).2, hin, ?_, ?_, ?_, ?_⟩
  · intro op a ha
    rw [e3, e4] at ha
    exact (heff op).1 a ha
  · intro op
    rw [e3, e4]
    refine ⟨(heff op).1, _, (heff op).2, ?_⟩
    intro x hx
    rcases hin op x hx with h | h
    · exact WireCall.inside_mono h (Nat.le_refl _) (by omega)
    · exact WireCall.inside_mono h (by omega) (by omega)
  · intro k e w1 hk
    have hes : c + (N + 1) * S ≤ f1._topAddress + 1 := by omega
    exact (Ring_FramArray.slot_write e2 e3 ⟨hS, l2⟩ hb1 hes ht1 w1 k hk e).1
  · intro e w1
    rw [e5]
    exact (FramI2C.write_effect f1 w1 _ 12 e (by omega) (by omega) (by omega) (by omega)
      ht1).1

/-- Witness for C20: a ring with `elementCount = 4`, `elementSize = 8` on a fresh
MB85RC128A, initialized over a zeroed chip and pushed once (indices `(0, 1)`): the next
`push` issues one 8-byte transport write at 136 (slot 1) and one 12-byte write at 168
(the trailer), and nothing else. -/
theorem C20_ring_frame_witness :
    (Ring_FramArray.step (Ring_FramArray.new rawRing (FramI2C.withCursor .MB85RC128A 128) 4 8).2.1
        (Ring_FramArray.reach rawRing (FramI2C.withCursor .MB85RC128A 128) 4 8 zeroChip
          [RingOp.init, RingOp.push (elem 1)])
        (RingOp.push (elem 2))).2.calls =
      (Ring_FramArray.reach rawRing (FramI2C.withCursor .MB85RC128A 128) 4 8 zeroChip
          [RingOp.init, RingOp.push (elem 1)]).2.calls ++
        expectedCalls 128 4 8
          (Ring_FramArray.reach rawRing (FramI2C.withCursor .MB85RC128A 128) 4 8 zeroChip
            [RingOp.init, RingOp.push (elem 1)]).1._tailAddress
          (Ring_FramArray.reach rawRing (FramI2C.withCursor .MB85RC128A 128) 4 8 zeroChip
            [RingOp.init, RingOp.push (elem 1)]).1._headAddress
          (RingOp.push (elem 2)) ∧
    expectedCalls 128 4 8 0 1 (RingOp.push (elem 2))
      = [WireCall.transmit 136 8 0, WireCall.transmit 168 12 0] :=
  ⟨(C20_ring_frame .MB85RC128A 128 4 8 rawRing zeroChip [RingOp.push (elem 1)] _ _
      (by decide) (by decide) (by decide) (by decide) rfl rfl (by decide)).2.1
      (RingOp.push (elem 2)),
    by decide⟩

/-- Counterexample to C20 as stated, two inputs. (1) On a fresh MB85RC64 the ring with
`elementCount = 33818639`, `elementSize = 127` is constructed with `framOK`
(`(elementCount+1)*elementSize + 12 = 4294967292` does not overflow 32 bits, but the
allocator's sum wraps to 124): the start address is 128, the end address 124 and the
trailer address 112. After `initialize` the indices are `(0, 0)`; the trailer write at
112 is rejected with `framBadStartAddress` (no transport call was issued), and `push`
changes the chip byte at 128, which is not inside `[regionStart, ringEndAddress)`.
(2) On a fresh MB85RC128A a ring with `elementCount = 4`, `elementSize = 8` whose raw
object happens to hold `_pointersAddress = 5000` and indices `(0, 0)` is constructed with
`framOK` (allocation 128..179); `push` before any `initialize` writes the trailer at
5000. -/
theorem C20_counterexample :
    ((Ring_FramArray.new rawRing (FramI2C.withCursor .MB85RC64 128) 33818639 127).2.2 = framOK ∧
      (33818639 + 1) * 127 + 12 < 2 ^ 32 ∧
      (Ring_FramArray.reach rawRing (FramI2C.withCursor .MB85RC64 128) 33818639 127 zeroChip
        [RingOp.init]).1.layout = (33818639 + 1, 127, 128, 124, 112) ∧
      ((Ring_FramArray.reach rawRing (FramI2C.withCursor .MB85RC64 128) 33818639 127 zeroChip
          [RingOp.init]).1._tailAddress,
       (Ring_FramArray.reach rawRing (FramI2C.withCursor .MB85RC64 128) 33818639 127 zeroChip
          [RingOp.init]).1._headAddress) = (0, 0) ∧
      (Ring_FramArray.reach rawRing (FramI2C.withCursor .MB85RC64 128) 33818639 127 zeroChip
        [RingOp.init]).2.calls = [] ∧
      ((Ring_FramArray.new rawRing (FramI2C.withCursor .MB85RC64 128) 33818639 127).2.1.write
        (Ring_FramArray.reach rawRing (FramI2C.withCursor .MB85RC64 128) 33818639 127 zeroChip
          [RingOp.init]).2 112 sizeofPointers (fun _ => 0)).1 = framBadStartAddress ∧
      (Ring_FramArray.reach rawRing (FramI2C.withCursor .MB85RC64 128) 33818639 127 zeroChip
        [RingOp.init]).2.mem 128 = 0 ∧
      (Ring_FramArray.step
        (Ring_FramArray.new rawRing (FramI2C.withCursor .MB85RC64 128) 33818639 127).2.1
        (Ring_FramArray.reach rawRing (FramI2C.withCursor .MB85RC64 128) 33818639 127 zeroChip
          [RingOp.init])
        (RingOp.push (fun _ => 1))).2.mem 128 = 1 ∧
      ¬ (128 ≤ 128 ∧ 128 < 124)) ∧
    ((Ring_FramArray.new { rawRing with _pointersAddress := 5000 }
        (FramI2C.withCursor .MB85RC128A 128) 4 8).2.2 = framOK ∧
      (Ring_FramArray.reach { rawRing with _pointersAddress := 5000 }
        (FramI2C.withCursor .MB85RC128A 128) 4 8 zeroChip []).1.layout
        = (4 + 1, 8, 128, 180, 5000) ∧
      ((Ring_FramArray.reach { rawRing with _pointersAddress := 5000 }
          (FramI2C.withCursor .MB85RC128A 128) 4 8 zeroChip []).1._tailAddress,
       (Ring_FramArray.reach { rawRing with _pointersAddress := 5000 }
          (FramI2C.withCursor .MB85RC128A 128) 4 8 zeroChip []).1._headAddress) = (0, 0) ∧
      (Ring_FramArray.step
        (Ring_FramArray.new { rawRing with _pointersAddress := 5000 }
          (FramI2C.withCursor .MB85RC128A 128) 4 8).2.1
        (Ring_FramArray.reach { rawRing with _pointersAddress := 5000 }
          (FramI2C.withCursor .MB85RC128A 128) 4 8 zeroChip [])
        (RingOp.push (elem 1))).2.mem 5000 = 137 ∧
      zeroChip.mem 5000 = 0 ∧
      ¬ (128 ≤ 5000 ∧ 5000 < 180)) :=
  ⟨⟨by decide, by decide, by decide, by decide, by decide, by decide, by decide, by decide,
      by decide⟩,
    ⟨by decide, by decide, by decide, by decide, by decide, by decide⟩⟩

/-- A checked run that ends in a state ends in the state of the unchecked run. -/
theorem Ring_FramArray.runChecked_some (f : FramI2C) (ops : List RingOp) :
    ∀ (s s1 : Ring_FramArray × Chip), Ring_FramArray.runChecked f ops s = some s1 →
    s1 = Ring_FramArray.run f ops s := by
  induction ops with
  | nil =>
    intro s s1 h
    simp only [Ring_FramArray.runChecked, Option.some.injEq] at h
    exact h.symm
  | cons op ops ih =>
    intro s s1 h
    unfold Ring_FramArray.runChecked at h
    unfold Ring_FramArray.stepChecked at h
    split_ifs at h with hd
    exact ih _ _ h

/-- The remainder in `myModulo` is defined for every dividend when the divisor is a slot
count in `[1, 2^32 - 1)`. -/
theorem Ring_FramArray.myModuloDefined_of_lt (a b : Nat) (h1 : 1 ≤ b) (hb : b < 2 ^ 32 - 1) :
    Ring_FramArray.myModuloDefined a b = true := by
  have hB : toInt32 b ≠ 0 ∧ toInt32 b ≠ -1 := by
    unfold toInt32
    have : b % 2 ^ 32 = b := Nat.mod_eq_of_lt (by omega)
    rw [this]
    split_ifs <;> constructor <;> omega
  unfold Ring_FramArray.myModuloDefined
  simp [hB.1, hB.2]

/-- Every `myModulo` call of a method call has the slot count as divisor. -/
theorem Ring_FramArray.moduloCalls_divisor (r : Ring_FramArray) (op : RingOp) :
    ∀ ab ∈ Ring_FramArray.moduloCalls r op, ab.2 = r._numberOfElements := by
  have hpush : ∀ ab ∈ r.pushModuloCalls, ab.2 = r._numberOfElements := by
    intro ab hab
    unfold Ring_FramArray.pushModuloCalls at hab
    rcases List.mem_cons.1 hab with h | h
    · rw [h]
    · split_ifs at h
      · rw [List.mem_singleton.1 h]
      · rcases List.mem_cons.1 h with h' | h'
        · rw [h']
        · rw [List.mem_singleton.1 h']
  have hpop : ∀ ab ∈ (if !r.isEmpty && !(decide (r._startAddress = 0)) then
      [((r._tailAddress + 1) % 2 ^ 32, r._numberOfElements)] else []),
      ab.2 = r._numberOfElements := by
    intro ab hab
    split_ifs at hab
    · rw [List.mem_singleton.1 hab]
    · exact absurd hab (List.not_mem_nil _)
  intro ab hab
  cases op with
  | init => exact absurd hab (List.not_mem_nil _)
  | push b => exact hpush ab hab
  | pushElement b => exact hpush ab hab
  | pop b => exact hpop ab hab
  | popFirstElement b => exact hpop ab hab
  | popLastElement b =>
    simp only [Ring_FramArray.moduloCalls] at hab
    split_ifs at hab
    · rcases List.mem_cons.1 hab with h' | h'
      · rw [h']
      · rw [List.mem_singleton.1 h']
    · exact absurd hab (List.not_mem_nil _)
  | clearArray => exact absurd hab (List.not_mem_nil _)
  | setIndices a b => exact absurd hab (List.not_mem_nil _)

/-- With a slot count in `[1, 2^32 - 1)` no method call runs into the undefined remainder:
every checked run ends in the state of the unchecked run. -/
theorem Ring_FramArray.runChecked_total (f : FramI2C) (n : Nat) (h1 : 1 ≤ n)
    (hn : n < 2 ^ 32 - 1) (ops : List RingOp) :
    ∀ (s : Ring_FramArray × Chip), s.1._numberOfElements = n →
    Ring_FramArray.runChecked f ops s = some (Ring_FramArray.run f ops s) := by
  induction ops with
  | nil => intro s _; rfl
  | cons op ops ih =>
    intro s hs
    have hd : (Ring_FramArray.moduloCalls s.1 op).all
        (fun ab => Ring_FramArray.myModuloDefined ab.1 ab.2) = true := by
      rw [List.all_eq_true]
      intro ab hab
      rw [Ring_FramArray.moduloCalls_divisor s.1 op ab hab, hs]
      exact Ring_FramArray.myModuloDefined_of_lt _ _ h1 hn
    unfold Ring_FramArray.runChecked Ring_FramArray.stepChecked
    rw [if_pos hd]
    exact ih _ ((Ring_FramArray.step_slots f s op).trans hs)

/-- C11 (as amended): for a ring constructed with result `framOK` whose slot count
`elementCount + 1` does not overflow 32 bits, and for every chip content such that the
trailer `{checksum, tail, head}` which `initialize` reads either fails the checksum test
or has `tail` and `head` below `elementCount + 1`: in every state `s1` reached by
`initialize` followed by any sequence of `push`, `pushElement`, `pop`,
`popFirstElement`, `popLastElement`, `clearArray` and `setIndices` calls none of which
evaluates an undefined remainder in `myModulo` (`runChecked` gives a state), the slot
count is `elementCount + 1` and both indices are below it. Every such sequence reaches a
state unless `elementCount + 1 = 2^32 - 1`, the one slot count at which `myModulo` can
evaluate `INT_MIN % -1`. When the cursor at construction is at or above the control block
end and `nextFreeByte + (elementCount+1)*elementSize + 12` does not overflow 32 bits, the
trailer read is the twelve bytes stored at `ringEndAddress - 12`. -/
theorem C11_indices_in_range (p : framPartNumber) (c N S : Nat) (uninit : Ring_FramArray)
    (w : Chip) (ops : List RingOp) (s1 : Ring_FramArray × Chip)
    (hres : (Ring_FramArray.new uninit (FramI2C.withCursor p c) N S).2.2 = framOK)
    (hN : N + 1 < 2 ^ 32)
    (hstored :
      pointerCheckOf
          (((Ring_FramArray.new uninit (FramI2C.withCursor p c) N S).1._ringEndAddress
            + (2 ^ 32 - sizeofPointers)) % 2 ^ 32)
          ((Ring_FramArray.new uninit (FramI2C.withCursor p c) N S).1.readTrailer
            (Ring_FramArray.new uninit (FramI2C.withCursor p c) N S).2.1 w).tail
          ((Ring_FramArray.new uninit (FramI2C.withCursor p c) N S).1.readTrailer
            (Ring_FramArray.new uninit (FramI2C.withCursor p c) N S).2.1 w).head
        = ((Ring_FramArray.new uninit (FramI2C.withCursor p c) N S).1.readTrailer
            (Ring_FramArray.new uninit (FramI2C.withCursor p c) N S).2.1 w).pointerCheck →
      ((Ring_FramArray.new uninit (FramI2C.withCursor p c) N S).1.readTrailer
          (Ring_FramArray.new uninit (FramI2C.withCursor p c) N S).2.1 w).tail < N + 1 ∧
      ((Ring_FramArray.new uninit (FramI2C.withCursor p c) N S).1.readTrailer
          (Ring_FramArray.new uninit (FramI2C.withCursor p c) N S).2.1 w).head < N + 1)
    (hops : ∀ op ∈ ops, op.isInit = false)
    (hrun : Ring_FramArray.runChecked
      (Ring_FramArray.new uninit (FramI2C.withCursor p c) N S).2.1 ops
      (Ring_FramArray.boot uninit (FramI2C.withCursor p c) N S w) = some s1) :
    s1.1._numberOfElements = N + 1 ∧
    s1.1._tailAddress < N + 1 ∧
    s1.1._headAddress < N + 1 ∧
    (N + 1 < 2 ^ 32 - 1 → ∀ ops2 : List RingOp,
      Ring_FramArray.runChecked
        (Ring_FramArray.new uninit (FramI2C.withCursor p c) N S).2.1 ops2
        (Ring_FramArray.boot uninit (FramI2C.withCursor p c) N S w)
      = some (Ring_FramArray.run
        (Ring_FramArray.new uninit (FramI2C.withCursor p c) N S).2.1 ops2
        (Ring_FramArray.boot uninit (FramI2C.withCursor p c) N S w))) ∧
    ((FramI2C.withCursor p c)._bottomAddress ≤ c → c + ((N + 1) * S + 12) < 2 ^ 32 →
      (Ring_FramArray.new uninit (FramI2C.withCursor p c) N S).1.readTrailer
          (Ring_FramArray.new uninit (FramI2C.withCursor p c) N S).2.1 w
        = storedPointers w
            ((Ring_FramArray.new uninit (FramI2C.withCursor p c) N S).1._ringEndAddress - 12)) := by
  have hne := Ring_FramArray.boot_slots uninit (FramI2C.withCursor p c) N S w hres
  have hmod : (N + 1) % 2 ^ 32 = N + 1 := by omega
  rw [hmod] at hne
  have hidx := Ring_FramArray.initialize_idx
    (Ring_FramArray.new uninit (FramI2C.withCursor p c) N S).1
    (Ring_FramArray.new uninit (FramI2C.withCursor p c) N S).2.1 w
  have h0 : IdxOK (N + 1)
      (Ring_FramArray.boot uninit (FramI2C.withCursor p c) N S w).1 := by
    generalize Ring_FramArray.readTrailer _ _ w = t at hstored hidx
    generalize pointerCheckOf _ _ _ = pc at hstored hidx
    refine ⟨hne, ?_, ?_⟩
    · have e := congrArg Prod.fst hidx
      simp only at e
      show ( Ring_FramArray.initialize _ _ w).1._tailAddress < N + 1
      rw [e]
      split_ifs with hk
      · exact (hstored hk).1
      · exact Nat.succ_pos N
    · have e := congrArg Prod.snd hidx
      simp only at e
      show ( Ring_FramArray.initialize _ _ w).1._headAddress < N + 1
      rw [e]
      split_ifs with hk
      · exact (hstored hk).2
      · exact Nat.succ_pos N
  have h := Ring_FramArray.run_range
    (Ring_FramArray.new uninit (FramI2C.withCursor p c) N S).2.1 (N + 1) (by omega) hN ops
    (Ring_FramArray.boot uninit (FramI2C.withCursor p c) N S w) hops h0
  rw [← Ring_FramArray.runChecked_some _ ops _ s1 hrun] at h
  refine ⟨h.1, h.2.1, h.2.2, ?_, ?_⟩
  · intro hlt ops2
    exact Ring_FramArray.runChecked_total _ (N + 1) (by omega) hlt ops2 _ hne
  · intro hc hfit
    rw [FramI2C.withCursor_bottom] at hc
    obtain ⟨_, hlt, hr, hf⟩ := Ring_FramArray.new_spec uninit p c N S hres hfit
    have htop := (topAddress_lt p).2
    rw [hf, hr]
    exact Ring_FramArray.readTrailer_stored
      (by rw [FramI2C.withCursor_bottom]; simp only; omega)
      (by rw [FramI2C.withCursor_top]; simp only; omega)
      (by rw [FramI2C.withCursor_top]; exact htop) w

/-- Witness for C11: a ring with `elementCount = 4`, `elementSize = 8` on a fresh
MB85RC128A over a chip whose trailer at 168 holds `(tail, head) = (3, 1)` with the
matching checksum `168 + 3 + 1`; `initialize` adopts `(3, 1)` and the indices stay below
5 through a run of calls. -/
theorem C11_indices_in_range_witness :
    ((Ring_FramArray.boot rawRing (FramI2C.withCursor .MB85RC128A 128) 4 8
        (trailerChip 168 172 3 1)).1._tailAddress,
     (Ring_FramArray.boot rawRing (FramI2C.withCursor .MB85RC128A 128) 4 8
        (trailerChip 168 172 3 1)).1._headAddress) = (3, 1) ∧
    (Ring_FramArray.run (Ring_FramArray.new rawRing (FramI2C.withCursor .MB85RC128A 128) 4 8).2.1
      [RingOp.push (elem 7), RingOp.pop (fun _ => 0), RingOp.setIndices 2 2, RingOp.clearArray,
        RingOp.popLastElement (fun _ => 0)]
      (Ring_FramArray.boot rawRing (FramI2C.withCursor .MB85RC128A 128) 4 8
        (trailerChip 168 172 3 1))).1._tailAddress < 4 + 1 ∧
    (Ring_FramArray.run (Ring_FramArray.new rawRing (FramI2C.withCursor .MB85RC128A 128) 4 8).2.1
      [RingOp.push (elem 7), RingOp.pop (fun _ => 0), RingOp.setIndices 2 2, RingOp.clearArray,
        RingOp.popLastElement (fun _ => 0)]
      (Ring_FramArray.boot rawRing (FramI2C.withCursor .MB85RC128A 128) 4 8
        (trailerChip 168 172 3 1))).1._headAddress < 4 + 1 :=
  ⟨by decide,
    (C11_indices_in_range .MB85RC128A 128 4 8 rawRing (trailerChip 168 172 3 1)
      [RingOp.push (elem 7), RingOp.pop (fun _ => 0), RingOp.setIndices 2 2, RingOp.clearArray,
        RingOp.popLastElement (fun _ => 0)] _
      (by decide) (by decide) (by decide) (by decide) rfl).2.1,
    (C11_indices_in_range .MB85RC128A 128 4 8 rawRing (trailerChip 168 172 3 1)
      [RingOp.push (elem 7), RingOp.pop (fun _ => 0), RingOp.setIndices 2 2, RingOp.clearArray,
        RingOp.popLastElement (fun _ => 0)] _
      (by decide) (by decide) (by decide) (by decide) rfl).2.2.1⟩

/-- Counterexample to C11 as stated, two inputs. (1) A ring with `elementCount = 4`,
`elementSize = 8` is constructed with `framOK` on a fresh MB85RC128A (region 128..179,
trailer at 168). The chip holds at 168 the trailer `{367, 99, 100}`, whose checksum
`168 + 99 + 100 = 367` matches, so `initialize` adopts `tailIndex = 99` and
`headIndex = 100`, which are not below `physicalSlotCount = 5`. (2) A ring with
`elementCount = 2^32 - 2`, `elementSize = 0` is constructed with `framOK` on a fresh
MB85RC64; over a zeroed chip `initialize` leaves `(0, 0)`, `setIndices(0, 2147483647)`
returns true, and the first remainder of the following `push` (in `isFull`) is
`myModulo(2147483648, 4294967295)`, that is `INT_MIN % -1`, whose value is undefined: the
run reaches no state. -/
theorem C11_counterexample :
    ((Ring_FramArray.new rawRing (FramI2C.withCursor .MB85RC128A 128) 4 8).2.2 = framOK ∧
      (Ring_FramArray.boot rawRing (FramI2C.withCursor .MB85RC128A 128) 4 8
        (trailerChip 168 367 99 100)).1._numberOfElements = 4 + 1 ∧
      ((Ring_FramArray.run
          (Ring_FramArray.new rawRing (FramI2C.withCursor .MB85RC128A 128) 4 8).2.1 []
          (Ring_FramArray.boot rawRing (FramI2C.withCursor .MB85RC128A 128) 4 8
            (trailerChip 168 367 99 100))).1._tailAddress,
       (Ring_FramArray.run
          (Ring_FramArray.new rawRing (FramI2C.withCursor .MB85RC128A 128) 4 8).2.1 []
          (Ring_FramArray.boot rawRing (FramI2C.withCursor .MB85RC128A 128) 4 8
            (trailerChip 168 367 99 100))).1._headAddress) = (99, 100) ∧
      ¬ (99 < 4 + 1) ∧ ¬ (100 < 4 + 1)) ∧
    ((Ring_FramArray.new rawRing (FramI2C.withCursor .MB85RC64 128) 4294967294 0).2.2
        = framOK ∧
      4294967294 + 1 < 2 ^ 32 ∧
      ((Ring_FramArray.run
          (Ring_FramArray.new rawRing (FramI2C.withCursor .MB85RC64 128) 4294967294 0).2.1
          [RingOp.setIndices 0 2147483647]
          (Ring_FramArray.boot rawRing (FramI2C.withCursor .MB85RC64 128) 4294967294 0
            zeroChip)).1._tailAddress,
       (Ring_FramArray.run
          (Ring_FramArray.new rawRing (FramI2C.withCursor .MB85RC64 128) 4294967294 0).2.1
          [RingOp.setIndices 0 2147483647]
          (Ring_FramArray.boot rawRing (FramI2C.withCursor .MB85RC64 128) 4294967294 0
            zeroChip)).1._headAddress) = (0, 2147483647) ∧
      (Ring_FramArray.moduloCalls
        (Ring_FramArray.run
          (Ring_FramArray.new rawRing (FramI2C.withCursor .MB85RC64 128) 4294967294 0).2.1
          [RingOp.setIndices 0 2147483647]
          (Ring_FramArray.boot rawRing (FramI2C.withCursor .MB85RC64 128) 4294967294 0
            zeroChip)).1 (RingOp.push (elem 1))).head?
        = some (2147483648, 4294967295) ∧
      Ring_FramArray.myModuloDefined 2147483648 4294967295 = false ∧
      toInt32 2147483648 = -2 ^ 31 ∧ toInt32 4294967295 = -1 ∧
      Ring_FramArray.runChecked
        (Ring_FramArray.new rawRing (FramI2C.withCursor .MB85RC64 128) 4294967294 0).2.1
        [RingOp.setIndices 0 2147483647, RingOp.push (elem 1)]
        (Ring_FramArray.boot rawRing (FramI2C.withCursor .MB85RC64 128) 4294967294 0
          zeroChip) = none) :=
  ⟨⟨by decide, by decide, by decide, by decide, by decide⟩,
    ⟨by decide, by decide, by decide, by decide, by decide, by decide, by decide, rfl⟩⟩

theorem toInt32_half : toInt32 (2 ^ 31) = -2 ^ 31 := by
  unfold toInt32
  norm_num

/-- The remainder computed by `myModulo` for an incremented in-range index, for slot
counts up to `2^31`. -/
theorem Ring_FramArray.myModulo_succ_le {x n : Nat} (hn : n ≤ 2 ^ 31) (h : x < n) :
    Ring_FramArray.myModulo ((x + 1) % 2 ^ 32) n = nextIndex x n := by
  by_cases hlt : n < 2 ^ 31
  · exact Ring_FramArray.myModulo_succ hlt h
  · have hn' : n = 2 ^ 31 := by omega
    subst hn'
    have e : (x + 1) % 2 ^ 32 = x + 1 := by omega
    rw [e]
    unfold Ring_FramArray.myModulo nextIndex
    rw [toInt32_half]
    by_cases hx : x + 1 = 2 ^ 31
    · rw [hx, toInt32_half, Int.tmod_self, if_pos rfl]
      rfl
    · rw [if_neg hx, toInt32_small _ (by omega), Int.tmod_neg,
        Int.tmod_eq_of_lt (Int.natCast_nonneg _) (by omega)]
      simp only
      rw [if_pos (Int.natCast_nonneg _)]
      exact Int.toNat_natCast _

/-- The remainder computed by `myModulo` for a decremented in-range index, for slot
counts up to `2^31`. -/
theorem Ring_FramArray.myModulo_pred_le {x n : Nat} (h1 : 1 ≤ n) (hn : n ≤ 2 ^ 31)
    (h : x < n) :
    Ring_FramArray.myModulo ((x + (2 ^ 32 - 1)) % 2 ^ 32) n = prevIndex x n := by
  by_cases hlt : n < 2 ^ 31
  · exact Ring_FramArray.myModulo_pred h1 hlt h
  · have hn' : n = 2 ^ 31 := by omega
    subst hn'
    unfold Ring_FramArray.myModulo prevIndex
    rw [toInt32_half]
    by_cases hx : x = 0
    · subst hx
      rw [if_pos rfl]
      decide
    · rw [if_neg hx]
      have e : (x + (2 ^ 32 - 1)) % 2 ^ 32 = x - 1 := by omega
      rw [e, toInt32_small _ (by omega), Int.tmod_neg,
        Int.tmod_eq_of_lt (Int.natCast_nonneg _) (by omega)]
      simp only
      rw [if_pos (Int.natCast_nonneg _)]
      exact Int.toNat_natCast _

/-- A `read` of zero bytes is refused: chip and buffer are unchanged. -/
theorem FramI2C.read_zero (f : FramI2C) (w : Chip) (a : Nat) (b : Buffer) :
    (f.read w a 0 b).2 = (w, b) := by
  unfold FramI2C.read
  by_cases h : a < f._bottomAddress ∨ a > f._topAddress
  · rw [if_pos h]
  · rw [if_neg h, if_pos (Or.inr rfl)]

/-- A `write` of zero bytes is refused: the chip is unchanged. -/
theorem FramI2C.write_zero (f : FramI2C) (w : Chip) (a : Nat) (b : Buffer) :
    (f.write w a 0 b).2 = w := by
  unfold FramI2C.write
  by_cases h : a < f._bottomAddress ∨ a > f._topAddress
  · rw [if_pos h]
  · rw [if_neg h, if_pos (Or.inr rfl)]

/-- The test `isFull` on a ring with an in-range head and at most `2^31` slots. -/
theorem Ring_FramArray.isFull_iff_le {r : Ring_FramArray} (hn : r._numberOfElements ≤ 2 ^ 31)
    (hh : r._headAddress < r._numberOfElements) :
    r.isFull = true ↔ nextIndex r._headAddress r._numberOfElements = r._tailAddress := by
  unfold Ring_FramArray.isFull
  simp only [Ring_FramArray.myModulo_succ_le hn hh]
  split_ifs with h <;> simp [h]

/-- `push` on a ring with in-range indices and at most `2^31` slots: layout kept, head
advanced, tail advanced exactly when the ring was full. No assumption on where the ring
lies. -/
theorem Ring_FramArray.push_fields_le {r : Ring_FramArray} (f : FramI2C) (w : Chip)
    (e : Buffer) (hn : r._numberOfElements ≤ 2 ^ 31)
    (ht : r._tailAddress < r._numberOfElements) (hh : r._headAddress < r._numberOfElements) :
    (r.push f w e).1.layout = r.layout ∧
    (r.push f w e).1._headAddress = nextIndex r._headAddress r._numberOfElements ∧
    (r.push f w e).1._tailAddress =
      (if nextIndex r._headAddress r._numberOfElements = r._tailAddress
       then nextIndex r._tailAddress r._numberOfElements else r._tailAddress) := by
  have hfull := Ring_FramArray.isFull_iff_le hn hh
  unfold Ring_FramArray.push
  by_cases hf : r.isFull = true
  · have hf' := hfull.1 hf
    simp only [hf, Bool.not_true, Bool.false_eq_true, if_false]
    simp only [Ring_FramArray.myModulo_succ_le hn hh, Ring_FramArray.myModulo_succ_le hn ht]
    obtain ⟨k1, k2, k3⟩ := Ring_FramArray.setPointers_keep
      { r with
        _headAddress := nextIndex r._headAddress r._numberOfElements
        _tailAddress := nextIndex r._tailAddress r._numberOfElements } f
      (f.write w ((r._startAddress + (r._headAddress * r._sizeOfElement) % 2 ^ 32) % 2 ^ 32)
        r._sizeOfElement e).2
    rw [k1, k2, k3, if_pos hf']
    exact ⟨rfl, rfl, rfl⟩
  · have hf' : ¬ nextIndex r._headAddress r._numberOfElements = r._tailAddress :=
      fun h => hf (hfull.2 h)
    simp only [hf, Bool.not_false, if_true]
    simp only [Ring_FramArray.myModulo_succ_le hn hh]
    obtain ⟨k1, k2, k3⟩ := Ring_FramArray.setPointers_keep
      { r with _headAddress := nextIndex r._headAddress r._numberOfElements } f
      (f.write w ((r._startAddress + (r._headAddress * r._sizeOfElement) % 2 ^ 32) % 2 ^ 32)
        r._sizeOfElement e).2
    rw [k1, k2, k3, if_neg hf']
    exact ⟨rfl, rfl, rfl⟩

/-- `pop` on a non-empty allocated ring with an in-range tail and at most `2^31` slots:
the result is `true`, layout and head are kept and the tail advances; a ring of element
size 0 leaves the caller's buffer as it was. -/
theorem Ring_FramArray.pop_true_le {r : Ring_FramArray} (f : FramI2C) (w : Chip) (b : Buffer)
    (hn : r._numberOfElements ≤ 2 ^ 31) (ht : r._tailAddress < r._numberOfElements)
    (hne : r._tailAddress ≠ r._headAddress) (h0 : r._startAddress ≠ 0) :
    (r.pop f w b).1 = true ∧
    (r.pop f w b).2.1.layout = r.layout ∧
    (r.pop f w b).2.1._headAddress = r._headAddress ∧
    (r.pop f w b).2.1._tailAddress = nextIndex r._tailAddress r._numberOfElements ∧
    (r._sizeOfElement = 0 → (r.pop f w b).2.2.2 = b) := by
  have hE : r.isEmpty = false := by
    cases hE : r.isEmpty
    · rfl
    · exact absurd ((Ring_FramArray.isEmpty_iff r).1 hE) hne
  have hc : (!r.isEmpty && !(decide (r._startAddress = 0))) = true := by
    rw [hE]
    simp [h0]
  unfold Ring_FramArray.pop
  rw [if_pos hc]
  simp only [Ring_FramArray.myModulo_succ_le hn ht]
  obtain ⟨k1, k2, k3⟩ := Ring_FramArray.setPointers_keep
    { r with _tailAddress := nextIndex r._tailAddress r._numberOfElements } f
    (f.read w ((r._startAddress + (r._tailAddress * r._sizeOfElement) % 2 ^ 32) % 2 ^ 32)
      r._sizeOfElement b).2.1
  rw [k1, k2, k3]
  refine ⟨trivial, rfl, rfl, rfl, ?_⟩
  intro hs
  rw [hs, FramI2C.read_zero]

/-- `popLastElement` on a non-empty allocated ring with an in-range head and at most
`2^31` slots: the result is `true`, layout and tail are kept and the head moves back by
one; a ring of element size 0 leaves the caller's buffer as it was and the chip is the
one `setPointers` leaves for the new indices. -/
theorem Ring_FramArray.popLast_true_le {r : Ring_FramArray} (f : FramI2C) (w : Chip)
    (b : Buffer) (h1 : 1 ≤ r._numberOfElements) (hn : r._numberOfElements ≤ 2 ^ 31)
    (hh : r._headAddress < r._numberOfElements)
    (hne : r._tailAddress ≠ r._headAddress) (h0 : r._startAddress ≠ 0) :
    (r.popLastElement f w b).1 = true ∧
    (r.popLastElement f w b).2.1.layout = r.layout ∧
    (r.popLastElement f w b).2.1._tailAddress = r._tailAddress ∧
    (r.popLastElement f w b).2.1._headAddress = prevIndex r._headAddress r._numberOfElements ∧
    (r._sizeOfElement = 0 →
      (r.popLastElement f w b).2.2.2 = b ∧
      (r.popLastElement f w b).2.2.1 =
        (Ring_FramArray.setPointers
          { r with _headAddress := prevIndex r._headAddress r._numberOfElements } f w).2) := by
  have hE : r.isEmpty = false := by
    cases hE : r.isEmpty
    · rfl
    · exact absurd ((Ring_FramArray.isEmpty_iff r).1 hE) hne
  have hc : (!r.isEmpty && !(decide (r._startAddress = 0))) = true := by
    rw [hE]
    simp [h0]
  unfold Ring_FramArray.popLastElement
  rw [if_pos hc]
  simp only [Ring_FramArray.myModulo_pred_le h1 hn hh]
  obtain ⟨k1, k2, k3⟩ := Ring_FramArray.setPointers_keep
    { r with _headAddress := prevIndex r._headAddress r._numberOfElements } f
    (f.read w ((r._startAddress +
      (prevIndex r._headAddress r._numberOfElements * r._sizeOfElement) % 2 ^ 32) % 2 ^ 32)
      r._sizeOfElement b).2.1
  rw [k1, k2, k3]
  refine ⟨trivial, rfl, rfl, rfl, ?_⟩
  intro hs
  rw [hs, FramI2C.read_zero]
  exact ⟨rfl, rfl⟩

theorem occupancy_next_tail {t h n : Nat} (ht : t < n) (hh : h < n) (hne : t ≠ h) :
    occupancy (nextIndex t n) h n + 1 = occupancy t h n := by
  unfold occupancy nextIndex
  split_ifs <;> omega

theorem occupancy_empty (t n : Nat) : occupancy t t n = 0 := by
  unfold occupancy
  rw [if_pos (Nat.le_refl t)]
  omega

/-- Repeated `pop` on an allocated ring of element size 0 with in-range indices and at
most `2^31` slots: as many calls as the occupancy return `true`, the next one returns
`false`; the caller's buffer is never touched. -/
theorem Ring_FramArray.popN_flags (f : FramI2C) (out : Buffer) {n : Nat} (hn : n ≤ 2 ^ 31) :
    ∀ (m : Nat) (s : Ring_FramArray × Chip), IdxOK n s.1 → s.1._startAddress ≠ 0 →
      s.1._sizeOfElement = 0 →
      (∀ j, j < m → j < occupancy s.1._tailAddress s.1._headAddress n →
        (Ring_FramArray.popN f out m s).1[j]? = some (true, out)) ∧
      (occupancy s.1._tailAddress s.1._headAddress n < m →
        (Ring_FramArray.popN f out m s).1[occupancy s.1._tailAddress s.1._headAddress n]?
          = some (false, out)) := by
  intro m
  induction m with
  | zero =>
    intro s _ _ _
    exact ⟨fun j hj => absurd hj (Nat.not_lt_zero j), fun h => absurd h (Nat.not_lt_zero _)⟩
  | succ m ih =>
    intro s hidx h0 hsz
    obtain ⟨e1, ht, hh⟩ := hidx
    have hstep : Ring_FramArray.popN f out (m + 1) s
        = (((s.1.pop f s.2 out).1, (s.1.pop f s.2 out).2.2.2) ::
            (Ring_FramArray.popN f out m ((s.1.pop f s.2 out).2.1, (s.1.pop f s.2 out).2.2.1)).1,
           (Ring_FramArray.popN f out m
            ((s.1.pop f s.2 out).2.1, (s.1.pop f s.2 out).2.2.1)).2) := rfl
    rw [hstep]
    by_cases hne : s.1._tailAddress = s.1._headAddress
    · rw [hne, occupancy_empty]
      refine ⟨fun j _ hj => absurd hj (Nat.not_lt_zero j), fun _ => ?_⟩
      rw [Ring_FramArray.pop_empty f s.1 hne s.2 out]
      exact List.getElem?_cons_zero
    · obtain ⟨p1, p2, p3, p4, p5⟩ := Ring_FramArray.pop_true_le f s.2 out
        (by rw [e1]; exact hn) (by rw [e1]; exact ht) hne h0
      have p5' := p5 hsz
      obtain ⟨q1, q2, q3, _, _⟩ := Ring_FramArray.layout_fields
        (p2.trans (rfl : s.1.layout = (s.1._numberOfElements, s.1._sizeOfElement,
          s.1._startAddress, s.1._ringEndAddress, s.1._pointersAddress)))
      rw [e1] at p4 q1
      have hocc := occupancy_next_tail ht hh hne
      have hidx' : IdxOK n (s.1.pop f s.2 out).2.1 :=
        ⟨q1, by rw [p4]; exact nextIndex_lt_one (by omega) ht, by rw [p3]; exact hh⟩
      obtain ⟨i1, i2⟩ := ih ((s.1.pop f s.2 out).2.1, (s.1.pop f s.2 out).2.2.1) hidx'
        (by rw [q3]; exact h0) (by rw [q2]; exact hsz)
      simp only at i1 i2
      rw [p3, p4] at i1 i2
      rw [p1, p5']
      refine ⟨?_, ?_⟩
      · intro j hj hjo
        cases j with
        | zero => exact List.getElem?_cons_zero
        | succ j =>
          rw [List.getElem?_cons_succ]
          exact i1 j (by omega) (by omega)
      · intro hlt
        obtain ⟨k, hk⟩ : ∃ k, occupancy s.1._tailAddress s.1._headAddress n = k + 1 :=
          ⟨occupancy (nextIndex s.1._tailAddress n) s.1._headAddress n, hocc.symm⟩
        rw [hk, List.getElem?_cons_succ]
        have hk' : occupancy (nextIndex s.1._tailAddress n) s.1._headAddress n = k := by omega
        rw [hk'] at i2
        exact i2 (by omega)

/-- For every slot count `n` above `2^31` the remainder `myModulo(2^32 - n, n)` has a
defined value in C++ and is 0, although `2^32 - n` is a positive number below `n`: the
divisor `(int)n` is the negative number `n - 2^32`. -/
theorem Ring_FramArray.myModulo_above_half {n : Nat} (h1 : 2 ^ 31 < n) (h2 : n < 2 ^ 32) :
    Ring_FramArray.myModuloDefined (2 ^ 32 - n) n = true ∧
    Ring_FramArray.myModulo (2 ^ 32 - n) n = 0 ∧
    (2 ^ 32 - n) % n = 2 ^ 32 - n ∧ 0 < 2 ^ 32 - n := by
  have ha : toInt32 (2 ^ 32 - n) = ((2 ^ 32 - n : Nat) : Int) := toInt32_small _ (by omega)
  have hb : toInt32 n = -((2 ^ 32 - n : Nat) : Int) := by
    unfold toInt32
    have e : n % 2 ^ 32 = n := Nat.mod_eq_of_lt h2
    rw [e, if_neg (by omega)]
    omega
  refine ⟨?_, ?_, Nat.mod_eq_of_lt (by omega), by omega⟩
  · unfold Ring_FramArray.myModuloDefined
    rw [ha, hb]
    have c1 : (-((2 ^ 32 - n : Nat) : Int) ≠ 0) := by omega
    have c2 : ¬ (((2 ^ 32 - n : Nat) : Int) = -2 ^ 31) := by omega
    rw [decide_eq_true c1, decide_eq_false c2]
    rfl
  · unfold Ring_FramArray.myModulo
    rw [ha, hb, Int.tmod_neg, Int.tmod_self]
    rfl

/-- The head index after `push` is the value `myModulo` returns for the incremented
head index. -/
theorem Ring_FramArray.push_head (r : Ring_FramArray) (f : FramI2C) (w : Chip) (e : Buffer) :
    (r.push f w e).1._headAddress
      = Ring_FramArray.myModulo ((r._headAddress + 1) % 2 ^ 32) r._numberOfElements := by
  unfold Ring_FramArray.push
  by_cases hf : r.isFull = true
  · simp only [hf, Bool.not_true, Bool.false_eq_true, if_false]
    exact (Ring_FramArray.setPointers_keep _ f _).2.2
  · simp only [hf, Bool.not_false, if_true]
    exact (Ring_FramArray.setPointers_keep _ f _).2.2

/-- The head index after `popLastElement` on a non-empty allocated ring is the value
`myModulo` returns for the decremented head index. -/
theorem Ring_FramArray.popLast_head (r : Ring_FramArray) (f : FramI2C) (w : Chip)
    (b : Buffer) (hne : r._tailAddress ≠ r._headAddress) (h0 : r._startAddress ≠ 0) :
    (r.popLastElement f w b).1 = true ∧
    (r.popLastElement f w b).2.1._headAddress
      = Ring_FramArray.myModulo ((r._headAddress + (2 ^ 32 - 1)) % 2 ^ 32)
          r._numberOfElements := by
  have hE : r.isEmpty = false := by
    cases hE : r.isEmpty
    · rfl
    · exact absurd ((Ring_FramArray.isEmpty_iff r).1 hE) hne
  have hc : (!r.isEmpty && !(decide (r._startAddress = 0))) = true := by
    rw [hE]
    simp [h0]
  unfold Ring_FramArray.popLastElement
  rw [if_pos hc]
  simp only
  generalize Ring_FramArray.myModulo ((r._headAddress + (2 ^ 32 - 1)) % 2 ^ 32)
    r._numberOfElements = m
  obtain ⟨_, _, k3⟩ := Ring_FramArray.setPointers_keep
    { r with _headAddress := m } f
    (f.read w ((r._startAddress + (m * r._sizeOfElement) % 2 ^ 32) % 2 ^ 32)
      r._sizeOfElement b).2.1
  exact ⟨trivial, k3⟩


theorem Ring_FramArray.run_setIndices (f : FramI2C) (s0 : Ring_FramArray × Chip)
    (n c a b : Nat) (h1 : s0.1._numberOfElements = n) (h3 : s0.1._startAddress = c)
    (ha : a < n) (hb : b < n) :
    (Ring_FramArray.run f [RingOp.setIndices a b] s0).1._numberOfElements = n ∧
    (Ring_FramArray.run f [RingOp.setIndices a b] s0).1._startAddress = c ∧
    (Ring_FramArray.run f [RingOp.setIndices a b] s0).1._tailAddress = a ∧
    (Ring_FramArray.run f [RingOp.setIndices a b] s0).1._headAddress = b := by
  have hrun : Ring_FramArray.run f [RingOp.setIndices a b] s0
      = ((s0.1.setIndices f s0.2 a b).2.1, (s0.1.setIndices f s0.2 a b).2.2) := rfl
  rw [hrun]
  obtain ⟨k1, k2, _⟩ := Ring_FramArray.setIndices_fields s0.1 f s0.2 a b
  have ht := k1.2 ⟨by rw [h1]; exact ha, by rw [h1]; exact hb⟩
  obtain ⟨m1, m2, m3⟩ := k2 ht
  obtain ⟨n1, _, n3, _, _⟩ := Ring_FramArray.layout_fields
    (m1.trans (rfl : s0.1.layout = (s0.1._numberOfElements, s0.1._sizeOfElement,
      s0.1._startAddress, s0.1._ringEndAddress, s0.1._pointersAddress)))
  exact ⟨n1.trans h1, n3.trans h3, m2, m3⟩

/-- A ring of element size 0 with any slot count `N + 1 < 2^32` is constructed with
`framOK` on a fresh MB85RC64 (it takes the twelve trailer bytes at 128..139), and after
`initialize` and `setIndices(0, h)` with `h` below the slot count the ring object has
`N + 1` slots, start address 128, tail index 0 and head index `h`. -/
theorem Ring_FramArray.size_zero_ring (N h : Nat) (w : Chip) (hN : N + 1 < 2 ^ 32)
    (hh : h < N + 1) :
    (Ring_FramArray.new rawRing (FramI2C.withCursor .MB85RC64 128) N 0).2.2 = framOK ∧
    (Ring_FramArray.reach rawRing (FramI2C.withCursor .MB85RC64 128) N 0 w
      [RingOp.init, RingOp.setIndices 0 h]).1._numberOfElements = N + 1 ∧
    (Ring_FramArray.reach rawRing (FramI2C.withCursor .MB85RC64 128) N 0 w
      [RingOp.init, RingOp.setIndices 0 h]).1._startAddress = 128 ∧
    (Ring_FramArray.reach rawRing (FramI2C.withCursor .MB85RC64 128) N 0 w
      [RingOp.init, RingOp.setIndices 0 h]).1._tailAddress = 0 ∧
    (Ring_FramArray.reach rawRing (FramI2C.withCursor .MB85RC64 128) N 0 w
      [RingOp.init, RingOp.setIndices 0 h]).1._headAddress = h := by
  have hres : (Ring_FramArray.new rawRing (FramI2C.withCursor .MB85RC64 128) N 0).2.2
      = framOK := by
    unfold Ring_FramArray.new
    rw [if_pos (by decide)]
    simp only [Nat.mul_zero, Nat.zero_mod, Nat.zero_add]
    rfl
  have hfit : 128 + ((N + 1) * 0 + 12) < 2 ^ 32 := by
    rw [Nat.mul_zero]
    norm_num
  have hl := (Ring_FramArray.reach_layout rawRing .MB85RC64 128 N 0 w [] hres hfit hN).2.2.2
  simp only [Ring_FramArray.run] at hl
  obtain ⟨e1, _, e3, _, _⟩ := Ring_FramArray.layout_fields hl
  rw [Ring_FramArray.reach_init]
  exact ⟨hres, Ring_FramArray.run_setIndices _ _ (N + 1) 128 0 h e1 e3 (Nat.succ_pos N) hh⟩

/-- C12 (as amended): for a ring of logical capacity `N >= 1`, with at most `2^31`
slots if the element size is 0, constructed with result `framOK` on a device whose cursor
is at or above the control block end, with `nextFreeByte + (N+1)*elementSize + 12` not
overflowing 32 bits, in every state `s` reached by `initialize` followed by method calls
in which both indices are below `N + 1` (`f1` is the device object after construction):
`regionStart` is the cursor `c` at construction, `push(e)` stores `e` at
`regionStart + headIndex * elementSize`, sets `headIndex` to `(headIndex + 1) mod (N+1)`,
leaves `tailIndex` unchanged if the ring was not full and sets it to
`(tailIndex + 1) mod (N+1)` if it was full; the occupancy `(head - tail) mod (N+1)` after
the push is at most `N`; a push into a full ring leaves it full with occupancy exactly
`N`, and the ring then holds the old contents without their first (oldest) element
followed by `e`: the next `N` pops return exactly these and the pop after them returns
false. -/
theorem C12_push (p : framPartNumber) (c N S : Nat) (uninit : Ring_FramArray)
    (w : Chip) (ops : List RingOp) (e out : Buffer) (f1 : FramI2C)
    (s : Ring_FramArray × Chip)
    (hc : (FramI2C.withCursor p c)._bottomAddress ≤ c) (hN : 1 ≤ N)
    (hNE : S = 0 → N + 1 ≤ 2 ^ 31)
    (hres : (Ring_FramArray.new uninit (FramI2C.withCursor p c) N S).2.2 = framOK)
    (hfit : c + ((N + 1) * S + 12) < 2 ^ 32)
    (hf1 : f1 = (Ring_FramArray.new uninit (FramI2C.withCursor p c) N S).2.1)
    (hs : s = Ring_FramArray.reach uninit (FramI2C.withCursor p c) N S w (RingOp.init :: ops))
    (hidx : s.1._tailAddress < N + 1 ∧ s.1._headAddress < N + 1) :
    s.1._startAddress = c ∧
    (∀ i, i < S → (s.1.push f1 s.2 e).2.mem (c + s.1._headAddress * S + i) = e i) ∧
    (s.1.push f1 s.2 e).1._headAddress = (s.1._headAddress + 1) % (N + 1) ∧
    (s.1.isFull = true ↔ (s.1._headAddress + 1) % (N + 1) = s.1._tailAddress) ∧
    (s.1.isFull = false → (s.1.push f1 s.2 e).1._tailAddress = s.1._tailAddress) ∧
    (s.1.isFull = true →
      (s.1.push f1 s.2 e).1._tailAddress = (s.1._tailAddress + 1) % (N + 1)) ∧
    occupancy (s.1.push f1 s.2 e).1._tailAddress (s.1.push f1 s.2 e).1._headAddress (N + 1)
      = ((s.1.push f1 s.2 e).1._headAddress + (N + 1) - (s.1.push f1 s.2 e).1._tailAddress)
          % (N + 1) ∧
    occupancy (s.1.push f1 s.2 e).1._tailAddress (s.1.push f1 s.2 e).1._headAddress (N + 1)
      ≤ N ∧
    (s.1.isFull = true →
      (s.1.push f1 s.2 e).1.isFull = true ∧
      occupancy (s.1.push f1 s.2 e).1._tailAddress (s.1.push f1 s.2 e).1._headAddress (N + 1)
        = N ∧
      ((s.1.contents s.2).drop 1 ++ [e]).length = N ∧
      (∀ (j : Nat) (x : Buffer), ((s.1.contents s.2).drop 1 ++ [e])[j]? = some x →
        ∃ b : Buffer,
          (Ring_FramArray.popN f1 out (N + 1) (s.1.push f1 s.2 e)).1[j]? = some (true, b) ∧
          ∀ i, i < S → b i = x i) ∧
      (Ring_FramArray.popN f1 out (N + 1) (s.1.push f1 s.2 e)).1[N]? = some (false, out)) := by
  rw [FramI2C.withCursor_bottom] at hc
  have hN32 : N + 1 < 2 ^ 32 := by
    by_cases h0 : S = 0
    · have := hNE h0
      omega
    · have hN1 : (N + 1) * 1 ≤ (N + 1) * S := Nat.mul_le_mul_left _ (by omega)
      omega
  obtain ⟨l1, l2, l3, l4⟩ := Ring_FramArray.reach_layout uninit p c N S w ops hres hfit hN32
  rw [← Ring_FramArray.reach_init, ← hs] at l4
  rw [← hf1] at l1
  clear hs hf1 hres
  obtain ⟨e1, e2, e3, _, e5⟩ := Ring_FramArray.layout_fields l4
  by_cases hS0 : S = 0
  · have hNE' := hNE hS0
    subst hS0
    obtain ⟨ht, hh⟩ := hidx
    have hn : s.1._numberOfElements ≤ 2 ^ 31 := by rw [e1]; exact hNE'
    have ht' : s.1._tailAddress < s.1._numberOfElements := by rw [e1]; exact ht
    have hh' : s.1._headAddress < s.1._numberOfElements := by rw [e1]; exact hh
    obtain ⟨p1, p6, p7⟩ := Ring_FramArray.push_fields_le f1 s.2 e hn ht' hh'
    have hfull := Ring_FramArray.isFull_iff_le hn hh'
    rw [e1] at p6 p7 hfull
    have hth1 : (s.1.push f1 s.2 e).1._tailAddress < N + 1 := by
      rw [p7]
      by_cases hk : nextIndex s.1._headAddress (N + 1) = s.1._tailAddress
      · rw [if_pos hk]
        exact nextIndex_lt_one (by omega) ht
      · rw [if_neg hk]
        exact ht
    have hhh1 : (s.1.push f1 s.2 e).1._headAddress < N + 1 := by
      rw [p6]
      exact nextIndex_lt_one (by omega) hh
    have hocc := occupancy_le hth1 hhh1
    refine ⟨e3, ?_, ?_, ?_, ?_, ?_, occupancy_mod hth1 hhh1, by omega, ?_⟩
    · intro i hi
      exact absurd hi (Nat.not_lt_zero i)
    · rw [p6, mod_next hh]
    · rw [mod_next hh]
      exact hfull
    · intro hnf
      have hne : ¬ nextIndex s.1._headAddress (N + 1) = s.1._tailAddress := by
        intro h
        rw [hfull.2 h] at hnf
        exact absurd hnf (by simp)
      rw [p7, if_neg hne]
    · intro hf
      rw [p7, if_pos (hfull.1 hf), mod_next ht]
    · intro hf
      have hf' := hfull.1 hf
      have hq : (s.1.contents s.2).length = N := by
        have := (Rep.contents s.1 s.2).1
        rw [e1] at this
        have := occupancy_full ht hf'
        omega
      have hlen : ((s.1.contents s.2).drop 1 ++ [e]).length = N := by
        rw [List.length_append, List.length_drop, hq]
        simp only [List.length_singleton]
        omega
      obtain ⟨q1, q2, q3, _, _⟩ := Ring_FramArray.layout_fields (p1.trans l4)
      have hfl : (s.1.push f1 s.2 e).1.isFull = true := by
        apply (Ring_FramArray.isFull_iff_le (by rw [q1]; exact hNE')
          (by rw [q1]; exact hhh1)).2
        rw [q1, p6, p7, if_pos hf', hf']
      have hoc : occupancy (s.1.push f1 s.2 e).1._tailAddress
          (s.1.push f1 s.2 e).1._headAddress (N + 1) = N := by
        have := occupancy_full hth1 (h := (s.1.push f1 s.2 e).1._headAddress)
          (by rw [p6, p7, if_pos hf', hf'])
        omega
      obtain ⟨i1, i2⟩ := Ring_FramArray.popN_flags f1 out hNE' (N + 1) (s.1.push f1 s.2 e)
        ⟨q1, hth1, hhh1⟩ (by rw [q3]; omega) q2
      rw [hoc] at i1 i2
      refine ⟨hfl, hoc, hlen, ?_, i2 (by omega)⟩
      intro j x hx
      have hj : j < N := by
        by_contra hcon
        rw [List.getElem?_eq_none (by omega)] at hx
        cases hx
      exact ⟨out, i1 j (by omega) hj, fun i hi => absurd hi (Nat.not_lt_zero i)⟩
  have hS : 1 ≤ S := by omega
  have g : RingGeom f1 s.1 := by
    rw [l1]
    exact RingGeom.of_layout l4 hc hN ⟨hS, l2⟩ l3
  obtain ⟨ht, hh⟩ := hidx
  have ht' : s.1._tailAddress < s.1._numberOfElements := by rw [e1]; exact ht
  have hh' : s.1._headAddress < s.1._numberOfElements := by rw [e1]; exact hh
  have inv : RingInv f1 s.1 s.2 (s.1.contents s.2) := ⟨g, ht', hh', Rep.contents s.1 s.2⟩
  obtain ⟨p1, _, _, _, _, p6, p7, _, _⟩ := Ring_FramArray.push_spec g hh' ht' s.2 e
  obtain ⟨inv1, _, _⟩ := Ring_FramArray.push_inv inv e
  have hfull := g.isFull_iff hh'
  rw [e1] at p6 p7 hfull
  have hth1 : (s.1.push f1 s.2 e).1._tailAddress < N + 1 := by
    have := inv1.htail
    rw [p1, e1] at this
    exact this
  have hhh1 : (s.1.push f1 s.2 e).1._headAddress < N + 1 := by
    have := inv1.hhead
    rw [p1, e1] at this
    exact this
  have hocc := occupancy_le hth1 hhh1
  refine ⟨e3, ?_, ?_, ?_, ?_, ?_, occupancy_mod hth1 hhh1, by omega, ?_⟩
  · intro i hi
    have hm := Ring_FramArray.push_mem_slot g hh' ht' s.2 e hh' (by rw [e2]; exact hi)
    rw [e2, e3, if_pos rfl] at hm
    exact hm
  · rw [p6, mod_next hh]
  · rw [mod_next hh]
    exact hfull
  · intro hnf
    have hne : ¬ nextIndex s.1._headAddress (N + 1) = s.1._tailAddress := by
      intro h
      rw [hfull.2 h] at hnf
      exact absurd hnf (by simp)
    rw [p7, if_neg hne]
  · intro hf
    rw [p7, if_pos (hfull.1 hf), mod_next ht]
  · intro hf
    have hf' := hfull.1 hf
    have hq : (s.1.contents s.2).length = N := by
      have := inv.rep.1
      rw [e1] at this
      have := occupancy_full ht hf'
      omega
    have hqp : qpush s.1._numberOfElements (s.1.contents s.2) e
        = (s.1.contents s.2).drop 1 ++ [e] := by
      unfold qpush
      rw [if_neg (by rw [hq, e1]; omega)]
    rw [hqp] at inv1
    have hlen : ((s.1.contents s.2).drop 1 ++ [e]).length = N := by
      rw [List.length_append, List.length_drop, hq]
      simp only [List.length_singleton]
      omega
    have g1 := inv1.geom
    have hfull1 := g1.isFull_iff inv1.hhead
    rw [p1, e1, p6, p7, if_pos hf'] at hfull1
    have hfl : (s.1.push f1 s.2 e).1.isFull = true := by
      apply hfull1.2
      rw [hf']
    have hoc : occupancy (s.1.push f1 s.2 e).1._tailAddress
        (s.1.push f1 s.2 e).1._headAddress (N + 1) = N := by
      have := occupancy_full hth1 (h := (s.1.push f1 s.2 e).1._headAddress)
        (by rw [p6, p7, if_pos hf', hf'])
      omega
    obtain ⟨k1, k2, k3⟩ := Ring_FramArray.popN_spec out _ inv1
    rw [hlen] at k1 k2 k3
    have hsz : (s.1.push f1 s.2 e).1._sizeOfElement = S := by
      have := (Ring_FramArray.push_inv inv e).2.2
      rw [this, e2]
    rw [hsz] at k2
    exact ⟨hfl, hoc, hlen, k2, k3⟩


/-- Witness for C12, two rings with `N = 4` on a fresh MB85RC128A, initialized over a
zeroed chip and filled by four pushes, one with `elementSize = 8` and one with
`elementSize = 0`: each is full; `push({5})` sets `headIndex` to
`(headIndex + 1) mod 5` and leaves the ring full, and the fifth pop after it returns
false. -/
theorem C12_push_witness :
    ((Ring_FramArray.reach rawRing (FramI2C.withCursor .MB85RC128A 128) 4 8 zeroChip
        [RingOp.init, RingOp.push (elem 1), RingOp.push (elem 2), RingOp.push (elem 3),
          RingOp.push (elem 4)]).1.isFull = true ∧
    ((Ring_FramArray.reach rawRing (FramI2C.withCursor .MB85RC128A 128) 4 8 zeroChip
        [RingOp.init, RingOp.push (elem 1), RingOp.push (elem 2), RingOp.push (elem 3),
          RingOp.push (elem 4)]).1.push
      (Ring_FramArray.new rawRing (FramI2C.withCursor .MB85RC128A 128) 4 8).2.1
      (Ring_FramArray.reach rawRing (FramI2C.withCursor .MB85RC128A 128) 4 8 zeroChip
        [RingOp.init, RingOp.push (elem 1), RingOp.push (elem 2), RingOp.push (elem 3),
          RingOp.push (elem 4)]).2 (elem 5)).1._headAddress
      = ((Ring_FramArray.reach rawRing (FramI2C.withCursor .MB85RC128A 128) 4 8 zeroChip
        [RingOp.init, RingOp.push (elem 1), RingOp.push (elem 2), RingOp.push (elem 3),
          RingOp.push (elem 4)]).1._headAddress + 1) % (4 + 1) ∧
    ((Ring_FramArray.reach rawRing (FramI2C.withCursor .MB85RC128A 128) 4 8 zeroChip
        [RingOp.init, RingOp.push (elem 1), RingOp.push (elem 2), RingOp.push (elem 3),
          RingOp.push (elem 4)]).1.push
      (Ring_FramArray.new rawRing (FramI2C.withCursor .MB85RC128A 128) 4 8).2.1
      (Ring_FramArray.reach rawRing (FramI2C.withCursor .MB85RC128A 128) 4 8 zeroChip
        [RingOp.init, RingOp.push (elem 1), RingOp.push (elem 2), RingOp.push (elem 3),
          RingOp.push (elem 4)]).2 (elem 5)).1.isFull = true ∧
    (Ring_FramArray.popN
      (Ring_FramArray.new rawRing (FramI2C.withCursor .MB85RC128A 128) 4 8).2.1 (fun _ => 0)
      (4 + 1)
      ((Ring_FramArray.reach rawRing (FramI2C.withCursor .MB85RC128A 128) 4 8 zeroChip
        [RingOp.init, RingOp.push (elem 1), RingOp.push (elem 2), RingOp.push (elem 3),
          RingOp.push (elem 4)]).1.push
        (Ring_FramArray.new rawRing (FramI2C.withCursor .MB85RC128A 128) 4 8).2.1
        (Ring_FramArray.reach rawRing (FramI2C.withCursor .MB85RC128A 128) 4 8 zeroChip
        [RingOp.init, RingOp.push (elem 1), RingOp.push (elem 2), RingOp.push (elem 3),
          RingOp.push (elem 4)]).2 (elem 5))).1[4]? = some (false, fun _ => 0)) ∧
    ((Ring_FramArray.reach rawRing (FramI2C.withCursor .MB85RC128A 128) 4 0 zeroChip
        [RingOp.init, RingOp.push (elem 1), RingOp.push (elem 2), RingOp.push (elem 3),
          RingOp.push (elem 4)]).1.isFull = true ∧
    ((Ring_FramArray.reach rawRing (FramI2C.withCursor .MB85RC128A 128) 4 0 zeroChip
        [RingOp.init, RingOp.push (elem 1), RingOp.push (elem 2), RingOp.push (elem 3),
          RingOp.push (elem 4)]).1.push
      (Ring_FramArray.new rawRing (FramI2C.withCursor .MB85RC128A 128) 4 0).2.1
      (Ring_FramArray.reach rawRing (FramI2C.withCursor .MB85RC128A 128) 4 0 zeroChip
        [RingOp.init, RingOp.push (elem 1), RingOp.push (elem 2), RingOp.push (elem 3),
          RingOp.push (elem 4)]).2 (elem 5)).1._headAddress
      = ((Ring_FramArray.reach rawRing (FramI2C.withCursor .MB85RC128A 128) 4 0 zeroChip
        [RingOp.init, RingOp.push (elem 1), RingOp.push (elem 2), RingOp.push (elem 3),
          RingOp.push (elem 4)]).1._headAddress + 1) % (4 + 1) ∧
    ((Ring_FramArray.reach rawRing (FramI2C.withCursor .MB85RC128A 128) 4 0 zeroChip
        [RingOp.init, RingOp.push (elem 1), RingOp.push (elem 2), RingOp.push (elem 3),
          RingOp.push (elem 4)]).1.push
      (Ring_FramArray.new rawRing (FramI2C.withCursor .MB85RC128A 128) 4 0).2.1
      (Ring_FramArray.reach rawRing (FramI2C.withCursor .MB85RC128A 128) 4 0 zeroChip
        [RingOp.init, RingOp.push (elem 1), RingOp.push (elem 2), RingOp.push (elem 3),
          RingOp.push (elem 4)]).2 (elem 5)).1.isFull = true ∧
    (Ring_FramArray.popN
      (Ring_FramArray.new rawRing (FramI2C.withCursor .MB85RC128A 128) 4 0).2.1 (fun _ => 0)
      (4 + 1)
      ((Ring_FramArray.reach rawRing (FramI2C.withCursor .MB85RC128A 128) 4 0 zeroChip
        [RingOp.init, RingOp.push (elem 1), RingOp.push (elem 2), RingOp.push (elem 3),
          RingOp.push (elem 4)]).1.push
        (Ring_FramArray.new rawRing (FramI2C.withCursor .MB85RC128A 128) 4 0).2.1
        (Ring_FramArray.reach rawRing (FramI2C.withCursor .MB85RC128A 128) 4 0 zeroChip
        [RingOp.init, RingOp.push (elem 1), RingOp.push (elem 2), RingOp.push (elem 3),
          RingOp.push (elem 4)]).2 (elem 5))).1[4]? = some (false, fun _ => 0)) :=
  ⟨⟨by decide,
    (C12_push .MB85RC128A 128 4 8 rawRing zeroChip
      [RingOp.push (elem 1), RingOp.push (elem 2), RingOp.push (elem 3), RingOp.push (elem 4)]
      (elem 5) (fun _ => 0) _ _ (by decide) (by decide) (by decide) (by decide) (by decide)
      rfl rfl (by decide)).2.2.1,
    ((C12_push .MB85RC128A 128 4 8 rawRing zeroChip
      [RingOp.push (elem 1), RingOp.push (elem 2), RingOp.push (elem 3), RingOp.push (elem 4)]
      (elem 5) (fun _ => 0) _ _ (by decide) (by decide) (by decide) (by decide) (by decide)
      rfl rfl (by decide)).2.2.2.2.2.2.2.2 (by decide)).1,
    ((C12_push .MB85RC128A 128 4 8 rawRing zeroChip
      [RingOp.push (elem 1), RingOp.push (elem 2), RingOp.push (elem 3), RingOp.push (elem 4)]
      (elem 5) (fun _ => 0) _ _ (by decide) (by decide) (by decide) (by decide) (by decide)
      rfl rfl (by decide)).2.2.2.2.2.2.2.2 (by decide)).2.2.2.2⟩,
   ⟨by decide,
    (C12_push .MB85RC128A 128 4 0 rawRing zeroChip
      [RingOp.push (elem 1), RingOp.push (elem 2), RingOp.push (elem 3), RingOp.push (elem 4)]
      (elem 5) (fun _ => 0) _ _ (by decide) (by decide) (by decide) (by decide) (by decide)
      rfl rfl (by decide)).2.2.1,
    ((C12_push .MB85RC128A 128 4 0 rawRing zeroChip
      [RingOp.push (elem 1), RingOp.push (elem 2), RingOp.push (elem 3), RingOp.push (elem 4)]
      (elem 5) (fun _ => 0) _ _ (by decide) (by decide) (by decide) (by decide) (by decide)
      rfl rfl (by decide)).2.2.2.2.2.2.2.2 (by decide)).1,
    ((C12_push .MB85RC128A 128 4 0 rawRing zeroChip
      [RingOp.push (elem 1), RingOp.push (elem 2), RingOp.push (elem 3), RingOp.push (elem 4)]
      (elem 5) (fun _ => 0) _ _ (by decide) (by decide) (by decide) (by decide) (by decide)
      rfl rfl (by decide)).2.2.2.2.2.2.2.2 (by decide)).2.2.2.2⟩⟩

/-- Counterexample to C12 as stated. (1) On an MB85RC64 on which 8000 bytes were allocated
before, the ring with `N = 33818639`, `elementSize = 127` is constructed with `framOK`
(the allocator's sum wraps); after `initialize` over a zeroed chip the indices are
`(0, 0)` and the start address is 8128, and after `push` of an element of ones the byte at
`regionStart + headIndex * elementSize = 8128` is still 0, because slot 0 at 8128..8254
runs past the top address 8191. (2) With `N = 2^31` and `elementSize = 0` the
construction on a fresh MB85RC64 reports `framOK` with `2^31 + 1` slots; after
`setIndices(0, 2147483646)` both indices are in range, the remainder
`myModulo(2147483647, 2147483649)` is defined, and `push` sets `headIndex` to 0, while
`(2147483646 + 1) mod (N + 1) = 2147483647`. (3) The same happens for every size-0 ring
with more than `2^31` slots: for every `N` with `2^31 < N + 1 < 2^32`, after
`setIndices(0, 2^32 - (N+1) - 1)` the indices are in range and `push` sets `headIndex` to
0, while `(headIndex + 1) mod (N + 1) = 2^32 - (N + 1) > 0`. (4) With `N = 2^32 - 1` and
`elementSize = 0` the construction reports `framOK` and the slot count `N + 1` wraps to
0; after `initialize` over a zeroed chip the indices are `(0, 0)`, and `push` evaluates
`myModulo(1, 0)`, a remainder by zero, whose value is undefined: the call reaches no
state. -/
theorem C12_counterexample :
    (FramI2C.Reachable ((FramI2C.new .MB85RC64).allocateMemory 8000).2.2 ∧
      (Ring_FramArray.new rawRing ((FramI2C.new .MB85RC64).allocateMemory 8000).2.2
        33818639 127).2.2 = framOK ∧
      ((Ring_FramArray.reach rawRing ((FramI2C.new .MB85RC64).allocateMemory 8000).2.2
          33818639 127 zeroChip [RingOp.init]).1._startAddress,
       (Ring_FramArray.reach rawRing ((FramI2C.new .MB85RC64).allocateMemory 8000).2.2
          33818639 127 zeroChip [RingOp.init]).1._tailAddress,
       (Ring_FramArray.reach rawRing ((FramI2C.new .MB85RC64).allocateMemory 8000).2.2
          33818639 127 zeroChip [RingOp.init]).1._headAddress)
        = (8128, 0, 0) ∧
      ((Ring_FramArray.reach rawRing ((FramI2C.new .MB85RC64).allocateMemory 8000).2.2
          33818639 127 zeroChip [RingOp.init]).1.push
        (Ring_FramArray.new rawRing ((FramI2C.new .MB85RC64).allocateMemory 8000).2.2
          33818639 127).2.1
        (Ring_FramArray.reach rawRing ((FramI2C.new .MB85RC64).allocateMemory 8000).2.2
          33818639 127 zeroChip [RingOp.init]).2
        (fun _ => 1)).2.mem (8128 + 0 * 127 + 0) = 0 ∧
      (fun _ => 1 : Buffer) 0 ≠ 0) ∧
    ((Ring_FramArray.new rawRing (FramI2C.withCursor .MB85RC64 128) 2147483648 0).2.2
        = framOK ∧
      ¬ (2147483648 + 1 ≤ 2 ^ 31) ∧
      ((Ring_FramArray.reach rawRing (FramI2C.withCursor .MB85RC64 128) 2147483648 0 zeroChip
          [RingOp.init, RingOp.setIndices 0 2147483646]).1._numberOfElements,
       (Ring_FramArray.reach rawRing (FramI2C.withCursor .MB85RC64 128) 2147483648 0 zeroChip
          [RingOp.init, RingOp.setIndices 0 2147483646]).1._tailAddress,
       (Ring_FramArray.reach rawRing (FramI2C.withCursor .MB85RC64 128) 2147483648 0 zeroChip
          [RingOp.init, RingOp.setIndices 0 2147483646]).1._headAddress) = (2147483648 + 1, 0, 2147483646) ∧
      2147483646 < 2147483648 + 1 ∧
      Ring_FramArray.myModuloDefined ((2147483646 + 1) % 2 ^ 32) (2147483648 + 1) = true ∧
      ((Ring_FramArray.reach rawRing (FramI2C.withCursor .MB85RC64 128) 2147483648 0 zeroChip
          [RingOp.init, RingOp.setIndices 0 2147483646]).1.push
        (Ring_FramArray.new rawRing (FramI2C.withCursor .MB85RC64 128) 2147483648 0).2.1
        (Ring_FramArray.reach rawRing (FramI2C.withCursor .MB85RC64 128) 2147483648 0 zeroChip
          [RingOp.init, RingOp.setIndices 0 2147483646]).2 (fun _ => 1)).1._headAddress = 0 ∧
      (2147483646 + 1) % (2147483648 + 1) = 2147483647) ∧
    (∀ N : Nat, 2 ^ 31 < N + 1 → N + 1 < 2 ^ 32 →
      (Ring_FramArray.new rawRing (FramI2C.withCursor .MB85RC64 128) N 0).2.2 = framOK ∧
      (Ring_FramArray.reach rawRing (FramI2C.withCursor .MB85RC64 128) N 0 zeroChip
          [RingOp.init, RingOp.setIndices 0 (2 ^ 32 - (N + 1) - 1)]).1._tailAddress = 0 ∧
      (Ring_FramArray.reach rawRing (FramI2C.withCursor .MB85RC64 128) N 0 zeroChip
          [RingOp.init, RingOp.setIndices 0 (2 ^ 32 - (N + 1) - 1)]).1._headAddress = 2 ^ 32 - (N + 1) - 1 ∧
      2 ^ 32 - (N + 1) - 1 < N + 1 ∧
      Ring_FramArray.myModuloDefined ((2 ^ 32 - (N + 1) - 1 + 1) % 2 ^ 32) (N + 1) = true ∧
      ((Ring_FramArray.reach rawRing (FramI2C.withCursor .MB85RC64 128) N 0 zeroChip
          [RingOp.init, RingOp.setIndices 0 (2 ^ 32 - (N + 1) - 1)]).1.push
        (Ring_FramArray.new rawRing (FramI2C.withCursor .MB85RC64 128) N 0).2.1
        (Ring_FramArray.reach rawRing (FramI2C.withCursor .MB85RC64 128) N 0 zeroChip
          [RingOp.init, RingOp.setIndices 0 (2 ^ 32 - (N + 1) - 1)]).2 (fun _ => 1)).1._headAddress = 0 ∧
      (2 ^ 32 - (N + 1) - 1 + 1) % (N + 1) = 2 ^ 32 - (N + 1) ∧
      0 < 2 ^ 32 - (N + 1)) ∧
    ((Ring_FramArray.new rawRing (FramI2C.withCursor .MB85RC64 128) 4294967295 0).2.2
        = framOK ∧
      ((Ring_FramArray.reach rawRing (FramI2C.withCursor .MB85RC64 128) 4294967295 0 zeroChip
          [RingOp.init]).1._numberOfElements,
       (Ring_FramArray.reach rawRing (FramI2C.withCursor .MB85RC64 128) 4294967295 0 zeroChip
          [RingOp.init]).1._tailAddress,
       (Ring_FramArray.reach rawRing (FramI2C.withCursor .MB85RC64 128) 4294967295 0 zeroChip
          [RingOp.init]).1._headAddress) = (0, 0, 0) ∧
      (Ring_FramArray.moduloCalls
        (Ring_FramArray.reach rawRing (FramI2C.withCursor .MB85RC64 128) 4294967295 0 zeroChip
          [RingOp.init]).1
        (RingOp.push (fun _ => 1))).head? = some (1, 0) ∧
      Ring_FramArray.myModuloDefined 1 0 = false ∧
      Ring_FramArray.stepChecked
        (Ring_FramArray.new rawRing (FramI2C.withCursor .MB85RC64 128) 4294967295 0).2.1
        (Ring_FramArray.reach rawRing (FramI2C.withCursor .MB85RC64 128) 4294967295 0 zeroChip
          [RingOp.init])
        (RingOp.push (fun _ => 1)) = none) := by
  refine ⟨⟨FramI2C.Reachable.allocate _ _ (FramI2C.Reachable.construct _) (by norm_num),
      by decide, by decide, by decide, by decide⟩,
    ⟨by decide, by decide, by decide, by decide, by decide, by decide, by decide⟩, ?_,
    ⟨by decide, by decide, by decide, by decide, rfl⟩⟩
  intro N h1 h2
  obtain ⟨z1, z2, _, z4, z5⟩ := Ring_FramArray.size_zero_ring N (2 ^ 32 - (N + 1) - 1)
    zeroChip h2 (by omega)
  obtain ⟨m1, m2, m3, m4⟩ := Ring_FramArray.myModulo_above_half h1 h2
  have e : (2 ^ 32 - (N + 1) - 1 + 1) % 2 ^ 32 = 2 ^ 32 - (N + 1) := by omega
  have e2 : 2 ^ 32 - (N + 1) - 1 + 1 = 2 ^ 32 - (N + 1) := by omega
  refine ⟨z1, z4, z5, by omega, by rw [e]; exact m1, ?_, by rw [e2]; exact m3, m4⟩
  rw [Ring_FramArray.push_head, z5, z2, e]
  exact m2

/-- C14 (as amended): for a ring, with at most `2^31` slots if the element size is 0,
constructed with result `framOK` on a device whose cursor is at or above the control
block end, with `nextFreeByte + (elementCount+1)*elementSize + 12` not overflowing 32
bits, in every state `s` reached by `initialize` followed by method calls in which both
indices are below `elementCount + 1` (`f1` is the device object after construction):
`regionStart` is the cursor `c` at construction and the trailer address is
`c + (elementCount+1)*elementSize`; if the ring is non-empty, `popLastElement` returns
true with the bytes stored at slot `(headIndex - 1) mod (elementCount + 1)` (slot
`elementCount` when `headIndex` is 0), sets `headIndex` to that slot index, leaves
`tailIndex` unchanged and stores the trailer of the new indices, changing no other chip
byte; for `elementCount >= 1`, `push(e)` immediately followed by `popLastElement` returns
true with `e`; on an empty ring `popLastElement` returns false and changes neither the
ring object nor the chip nor the buffer. -/
theorem C14_popLastElement (p : framPartNumber) (c N S : Nat) (uninit : Ring_FramArray)
    (w : Chip) (ops : List RingOp) (e buffer : Buffer) (f1 : FramI2C)
    (s : Ring_FramArray × Chip)
    (hc : (FramI2C.withCursor p c)._bottomAddress ≤ c)
    (hNE : S = 0 → N + 1 ≤ 2 ^ 31)
    (hres : (Ring_FramArray.new uninit (FramI2C.withCursor p c) N S).2.2 = framOK)
    (hfit : c + ((N + 1) * S + 12) < 2 ^ 32)
    (hf1 : f1 = (Ring_FramArray.new uninit (FramI2C.withCursor p c) N S).2.1)
    (hs : s = Ring_FramArray.reach uninit (FramI2C.withCursor p c) N S w (RingOp.init :: ops))
    (hidx : s.1._tailAddress < N + 1 ∧ s.1._headAddress < N + 1) :
    (s.1._startAddress = c ∧ s.1._pointersAddress = c + (N + 1) * S) ∧
    (s.1._tailAddress ≠ s.1._headAddress →
      (s.1.popLastElement f1 s.2 buffer).1 = true ∧
      (∀ i, i < S → (s.1.popLastElement f1 s.2 buffer).2.2.2 i
        = s.2.mem (c + prevIndex s.1._headAddress (N + 1) * S + i)) ∧
      prevIndex s.1._headAddress (N + 1) = (s.1._headAddress + N) % (N + 1) ∧
      (s.1.popLastElement f1 s.2 buffer).2.1._headAddress = prevIndex s.1._headAddress (N + 1) ∧
      (s.1.popLastElement f1 s.2 buffer).2.1._tailAddress = s.1._tailAddress ∧
      storedPointers (s.1.popLastElement f1 s.2 buffer).2.2.1 (c + (N + 1) * S) =
        { pointerCheck := pointerCheckOf (c + (N + 1) * S) s.1._tailAddress
            (prevIndex s.1._headAddress (N + 1))
          tail := s.1._tailAddress
          head := prevIndex s.1._headAddress (N + 1) } ∧
      (∀ a, ¬ (c + (N + 1) * S ≤ a ∧ a < c + (N + 1) * S + 12) →
        (s.1.popLastElement f1 s.2 buffer).2.2.1.mem a = s.2.mem a)) ∧
    (1 ≤ N →
      ((s.1.push f1 s.2 e).1.popLastElement f1 (s.1.push f1 s.2 e).2 buffer).1 = true ∧
      ∀ i, i < S →
        ((s.1.push f1 s.2 e).1.popLastElement f1 (s.1.push f1 s.2 e).2 buffer).2.2.2 i = e i) ∧
    (s.1._tailAddress = s.1._headAddress →
      s.1.popLastElement f1 s.2 buffer = (false, s.1, s.2, buffer)) := by
  rw [FramI2C.withCursor_bottom] at hc
  have hN : N + 1 < 2 ^ 32 := by
    by_cases h0 : S = 0
    · have := hNE h0
      omega
    · have hN1 : (N + 1) * 1 ≤ (N + 1) * S := Nat.mul_le_mul_left _ (by omega)
      omega
  obtain ⟨l1, l2, l3, l4⟩ := Ring_FramArray.reach_layout uninit p c N S w ops hres hfit hN
  rw [← Ring_FramArray.reach_init, ← hs] at l4
  rw [← hf1] at l1
  clear hs hf1 hres
  obtain ⟨e1, e2, e3, _, e5⟩ := Ring_FramArray.layout_fields l4
  by_cases hS0 : S = 0
  · have hNE' := hNE hS0
    have hmul : (N + 1) * S = 0 := by rw [hS0, Nat.mul_zero]
    have hsz : s.1._sizeOfElement = 0 := e2.trans hS0
    have hn : s.1._numberOfElements ≤ 2 ^ 31 := by rw [e1]; exact hNE'
    have ht' : s.1._tailAddress < s.1._numberOfElements := by rw [e1]; exact hidx.1
    have hh' : s.1._headAddress < s.1._numberOfElements := by rw [e1]; exact hidx.2
    have h0 : s.1._startAddress ≠ 0 := by rw [e3]; omega
    have htop := (topAddress_lt p).2
    refine ⟨⟨e3, e5⟩, ?_, ?_, ?_⟩
    · intro hne
      obtain ⟨p1, _, p3, p4, p5⟩ := Ring_FramArray.popLast_true_le f1 s.2 buffer
        (by rw [e1]; omega) hn hh' hne h0
      obtain ⟨_, p6⟩ := p5 hsz
      obtain ⟨_, t2⟩ := Ring_FramArray.setPointers_trailer (f := f1)
        (r := { s.1 with
          _headAddress := prevIndex s.1._headAddress s.1._numberOfElements })
        h0 (by rw [l1, FramI2C.withCursor_bottom]; show 128 ≤ s.1._pointersAddress
               rw [e5]; omega)
        (by rw [l1, FramI2C.withCursor_top]; show s.1._pointersAddress + 12 ≤ _
            rw [e5]; omega)
        (by rw [l1, FramI2C.withCursor_top]; exact htop) s.2
      rw [← p6] at t2
      simp only at t2
      rw [e1] at p4
      rw [e1, e5] at t2
      have hp : prevIndex s.1._headAddress (N + 1) < N + 1 := prevIndex_lt (by omega) hidx.2
      have ht := hidx.1
      refine ⟨p1, ?_, prevIndex_mod hidx.2, p4, p3, ?_, ?_⟩
      · intro i hi
        omega
      · apply storedPointers_of_bytes
        · intro i hi
          rw [t2, if_pos (by omega)]
          apply congrArg
          omega
        · unfold pointerCheckOf
          exact Nat.mod_lt _ (Nat.two_pow_pos 32)
        · omega
        · omega
      · intro a ha
        rw [t2, if_neg ha]
    · intro h1
      obtain ⟨q1, q6, q7⟩ := Ring_FramArray.push_fields_le f1 s.2 e hn ht' hh'
      obtain ⟨r1, _, r3, _, _⟩ := Ring_FramArray.layout_fields (q1.trans l4)
      rw [e1] at q6 q7
      have hne : (s.1.push f1 s.2 e).1._tailAddress ≠ (s.1.push f1 s.2 e).1._headAddress := by
        rw [q6, q7]
        have ht := hidx.1
        have hh := hidx.2
        unfold nextIndex
        split_ifs <;> omega
      refine ⟨(Ring_FramArray.popLast_head _ f1 _ buffer hne (by rw [r3]; omega)).1, ?_⟩
      intro i hi
      omega
    · intro he
      exact Ring_FramArray.popLast_empty f1 s.1 he s.2 buffer
  have hS : 1 ≤ S := by omega
  have hgeo : 1 ≤ N → RingGeom f1 s.1 := by
    intro h1
    rw [l1]
    exact RingGeom.of_layout l4 hc h1 ⟨hS, l2⟩ l3
  refine ⟨⟨e3, e5⟩, ?_, ?_, ?_⟩
  · intro hne
    have g := hgeo (by omega)
    obtain ⟨p1, _, p3, p4, p5, p6⟩ := Ring_FramArray.popLast_spec g
      (by rw [e1]; exact hidx.2) hne s.2 buffer
    rw [e1] at p4
    rw [e1, e5] at p5
    rw [e1, e2, e3] at p6
    have hp : prevIndex s.1._headAddress (N + 1) < N + 1 := prevIndex_lt (by omega) hidx.2
    have ht := hidx.1
    refine ⟨p1, ?_, prevIndex_mod hidx.2, p4, p3, ?_, ?_⟩
    · intro i hi
      rw [p6 i, if_pos hi]
    · apply storedPointers_of_bytes
      · intro i hi
        rw [p5, if_pos (by omega)]
        apply congrArg
        omega
      · unfold pointerCheckOf
        exact Nat.mod_lt _ (Nat.two_pow_pos 32)
      · omega
      · omega
    · intro a ha
      rw [p5, if_neg ha]
  · intro h1
    have g := hgeo h1
    have h := Ring_FramArray.push_popLast g (by rw [e1]; exact hidx.2)
      (by rw [e1]; exact hidx.1) s.2 e buffer
    rw [e2] at h
    exact h
  · intro he
    exact Ring_FramArray.popLast_empty f1 s.1 he s.2 buffer


/-- Witness for C14, two rings with `elementCount = 4` on a fresh MB85RC128A, initialized
over a zeroed chip, after two pushes, one with `elementSize = 8` and one with
`elementSize = 0`: `popLastElement` returns true and sets `headIndex` to
`(headIndex - 1) mod 5`; `push({9})` followed by `popLastElement` returns true, and with
`elementSize = 8` it returns `{9}`. -/
theorem C14_popLastElement_witness :
    (((Ring_FramArray.reach rawRing (FramI2C.withCursor .MB85RC128A 128) 4 8 zeroChip
        [RingOp.init, RingOp.push (elem 1), RingOp.push (elem 2)]).1.popLastElement
      (Ring_FramArray.new rawRing (FramI2C.withCursor .MB85RC128A 128) 4 8).2.1
      (Ring_FramArray.reach rawRing (FramI2C.withCursor .MB85RC128A 128) 4 8 zeroChip
        [RingOp.init, RingOp.push (elem 1), RingOp.push (elem 2)]).2 (fun _ => 0)).1 = true ∧
    (∀ i, i < 8 →
      (((Ring_FramArray.reach rawRing (FramI2C.withCursor .MB85RC128A 128) 4 8 zeroChip
        [RingOp.init, RingOp.push (elem 1), RingOp.push (elem 2)]).1.push
        (Ring_FramArray.new rawRing (FramI2C.withCursor .MB85RC128A 128) 4 8).2.1
        (Ring_FramArray.reach rawRing (FramI2C.withCursor .MB85RC128A 128) 4 8 zeroChip
        [RingOp.init, RingOp.push (elem 1), RingOp.push (elem 2)]).2 (elem 9)).1.popLastElement
      (Ring_FramArray.new rawRing (FramI2C.withCursor .MB85RC128A 128) 4 8).2.1
      ((Ring_FramArray.reach rawRing (FramI2C.withCursor .MB85RC128A 128) 4 8 zeroChip
        [RingOp.init, RingOp.push (elem 1), RingOp.push (elem 2)]).1.push
        (Ring_FramArray.new rawRing (FramI2C.withCursor .MB85RC128A 128) 4 8).2.1
        (Ring_FramArray.reach rawRing (FramI2C.withCursor .MB85RC128A 128) 4 8 zeroChip
        [RingOp.init, RingOp.push (elem 1), RingOp.push (elem 2)]).2 (elem 9)).2 (fun _ => 0)).2.2.2 i
        = elem 9 i)) ∧
    (((Ring_FramArray.reach rawRing (FramI2C.withCursor .MB85RC128A 128) 4 0 zeroChip
        [RingOp.init, RingOp.push (elem 1), RingOp.push (elem 2)]).1.popLastElement
      (Ring_FramArray.new rawRing (FramI2C.withCursor .MB85RC128A 128) 4 0).2.1
      (Ring_FramArray.reach rawRing (FramI2C.withCursor .MB85RC128A 128) 4 0 zeroChip
        [RingOp.init, RingOp.push (elem 1), RingOp.push (elem 2)]).2 (fun _ => 0)).1 = true ∧
    ((Ring_FramArray.reach rawRing (FramI2C.withCursor .MB85RC128A 128) 4 0 zeroChip
        [RingOp.init, RingOp.push (elem 1), RingOp.push (elem 2)]).1.popLastElement
      (Ring_FramArray.new rawRing (FramI2C.withCursor .MB85RC128A 128) 4 0).2.1
      (Ring_FramArray.reach rawRing (FramI2C.withCursor .MB85RC128A 128) 4 0 zeroChip
        [RingOp.init, RingOp.push (elem 1), RingOp.push (elem 2)]).2 (fun _ => 0)).2.1._headAddress
      = prevIndex (Ring_FramArray.reach rawRing (FramI2C.withCursor .MB85RC128A 128) 4 0 zeroChip
        [RingOp.init, RingOp.push (elem 1), RingOp.push (elem 2)]).1._headAddress (4 + 1) ∧
    (((Ring_FramArray.reach rawRing (FramI2C.withCursor .MB85RC128A 128) 4 0 zeroChip
        [RingOp.init, RingOp.push (elem 1), RingOp.push (elem 2)]).1.push
        (Ring_FramArray.new rawRing (FramI2C.withCursor .MB85RC128A 128) 4 0).2.1
        (Ring_FramArray.reach rawRing (FramI2C.withCursor .MB85RC128A 128) 4 0 zeroChip
        [RingOp.init, RingOp.push (elem 1), RingOp.push (elem 2)]).2 (elem 9)).1.popLastElement
      (Ring_FramArray.new rawRing (FramI2C.withCursor .MB85RC128A 128) 4 0).2.1
      ((Ring_FramArray.reach rawRing (FramI2C.withCursor .MB85RC128A 128) 4 0 zeroChip
        [RingOp.init, RingOp.push (elem 1), RingOp.push (elem 2)]).1.push
        (Ring_FramArray.new rawRing (FramI2C.withCursor .MB85RC128A 128) 4 0).2.1
        (Ring_FramArray.reach rawRing (FramI2C.withCursor .MB85RC128A 128) 4 0 zeroChip
        [RingOp.init, RingOp.push (elem 1), RingOp.push (elem 2)]).2 (elem 9)).2 (fun _ => 0)).1 = true) :=
  ⟨⟨((C14_popLastElement .MB85RC128A 128 4 8 rawRing zeroChip
      [RingOp.push (elem 1), RingOp.push (elem 2)] (elem 9) (fun _ => 0) _ _
      (by decide) (by decide) (by decide) (by decide) rfl rfl (by decide)).2.1 (by decide)).1,
    ((C14_popLastElement .MB85RC128A 128 4 8 rawRing zeroChip
      [RingOp.push (elem 1), RingOp.push (elem 2)] (elem 9) (fun _ => 0) _ _
      (by decide) (by decide) (by decide) (by decide) rfl rfl (by decide)).2.2.1 (by decide)).2⟩,
   ⟨((C14_popLastElement .MB85RC128A 128 4 0 rawRing zeroChip
      [RingOp.push (elem 1), RingOp.push (elem 2)] (elem 9) (fun _ => 0) _ _
      (by decide) (by decide) (by decide) (by decide) rfl rfl (by decide)).2.1 (by decide)).1,
    ((C14_popLastElement .MB85RC128A 128 4 0 rawRing zeroChip
      [RingOp.push (elem 1), RingOp.push (elem 2)] (elem 9) (fun _ => 0) _ _
      (by decide) (by decide) (by decide) (by decide) rfl rfl (by decide)).2.1 (by decide)).2.2.2.1,
    ((C14_popLastElement .MB85RC128A 128 4 0 rawRing zeroChip
      [RingOp.push (elem 1), RingOp.push (elem 2)] (elem 9) (fun _ => 0) _ _
      (by decide) (by decide) (by decide) (by decide) rfl rfl (by decide)).2.2.1 (by decide)).1⟩⟩

/-- Counterexample to C14 as stated. (1) On an MB85RC64 on which 8000 bytes were allocated
before, the ring with `elementCount = 33818639`, `elementSize = 127` is constructed with
`framOK` (the allocator's sum wraps); after `initialize` over a zeroed chip the indices
are `(0, 0)`, and `push` of an element of ones followed by `popLastElement` returns true
with a buffer whose byte 0 is still 0, because slot 0 at 8128..8254 runs past the top
address 8191. (2) With `elementCount = 2^31` and `elementSize = 0` the construction on a
fresh MB85RC64 reports `framOK` with `2^31 + 1` slots; after `setIndices(0, 2147483648)`
the ring is non-empty with in-range indices, the remainder
`myModulo(2147483647, 2147483649)` is defined, and `popLastElement` sets `headIndex` to 0,
while `(2147483648 - 1) mod (elementCount + 1) = 2147483647`. (3) With `elementCount = 0`
the ring is constructed with `framOK` and `push` followed by `popLastElement` returns
false. (4) What (2) shows happens for every size-0 ring with more than `2^31` slots: for
every `N` with `2^31 < N + 1 < 2^32`, after `setIndices(0, 2^32 - (N+1) + 1)` the ring is
non-empty with in-range indices and `popLastElement` returns true and sets `headIndex` to
0, while `(headIndex - 1) mod (N + 1) = 2^32 - (N + 1) > 0`. (5) With
`elementCount = 2^32 - 1` and `elementSize = 0` the construction reports `framOK` and the
slot count `elementCount + 1` wraps to 0; over a chip whose trailer at 128 holds
`(tail, head) = (0, 1)` with the matching checksum `128 + 0 + 1`, `initialize` adopts
`(0, 1)`, the ring is non-empty, and `popLastElement` evaluates `myModulo(0, 0)`, a
remainder by zero, whose value is undefined: the call reaches no state. -/
theorem C14_counterexample :
    (FramI2C.Reachable ((FramI2C.new .MB85RC64).allocateMemory 8000).2.2 ∧
      (Ring_FramArray.new rawRing ((FramI2C.new .MB85RC64).allocateMemory 8000).2.2
        33818639 127).2.2 = framOK ∧
      ((Ring_FramArray.reach rawRing ((FramI2C.new .MB85RC64).allocateMemory 8000).2.2
          33818639 127 zeroChip [RingOp.init]).1._tailAddress,
       (Ring_FramArray.reach rawRing ((FramI2C.new .MB85RC64).allocateMemory 8000).2.2
          33818639 127 zeroChip [RingOp.init]).1._headAddress) = (0, 0) ∧
      ((Ring_FramArray.reach rawRing ((FramI2C.new .MB85RC64).allocateMemory 8000).2.2
          33818639 127 zeroChip [RingOp.init, RingOp.push (fun _ => 1)]).1.popLastElement
        (Ring_FramArray.new rawRing ((FramI2C.new .MB85RC64).allocateMemory 8000).2.2
          33818639 127).2.1
        (Ring_FramArray.reach rawRing ((FramI2C.new .MB85RC64).allocateMemory 8000).2.2
          33818639 127 zeroChip [RingOp.init, RingOp.push (fun _ => 1)]).2 (fun _ => 0)).1
        = true ∧
      ((Ring_FramArray.reach rawRing ((FramI2C.new .MB85RC64).allocateMemory 8000).2.2
          33818639 127 zeroChip [RingOp.init, RingOp.push (fun _ => 1)]).1.popLastElement
        (Ring_FramArray.new rawRing ((FramI2C.new .MB85RC64).allocateMemory 8000).2.2
          33818639 127).2.1
        (Ring_FramArray.reach rawRing ((FramI2C.new .MB85RC64).allocateMemory 8000).2.2
          33818639 127 zeroChip [RingOp.init, RingOp.push (fun _ => 1)]).2 (fun _ => 0)).2.2.2 0
        = 0 ∧
      (fun _ => 1 : Buffer) 0 ≠ 0) ∧
    ((Ring_FramArray.new rawRing (FramI2C.withCursor .MB85RC64 128) 2147483648 0).2.2
        = framOK ∧
      ¬ (2147483648 + 1 ≤ 2 ^ 31) ∧
      ((Ring_FramArray.reach rawRing (FramI2C.withCursor .MB85RC64 128) 2147483648 0 zeroChip
          [RingOp.init, RingOp.setIndices 0 2147483648]).1._numberOfElements,
       (Ring_FramArray.reach rawRing (FramI2C.withCursor .MB85RC64 128) 2147483648 0 zeroChip
          [RingOp.init, RingOp.setIndices 0 2147483648]).1._tailAddress,
       (Ring_FramArray.reach rawRing (FramI2C.withCursor .MB85RC64 128) 2147483648 0 zeroChip
          [RingOp.init, RingOp.setIndices 0 2147483648]).1._headAddress) = (2147483648 + 1, 0, 2147483648) ∧
      2147483648 < 2147483648 + 1 ∧
      Ring_FramArray.myModuloDefined ((2147483648 + (2 ^ 32 - 1)) % 2 ^ 32) (2147483648 + 1)
        = true ∧
      ((Ring_FramArray.reach rawRing (FramI2C.withCursor .MB85RC64 128) 2147483648 0 zeroChip
          [RingOp.init, RingOp.setIndices 0 2147483648]).1.popLastElement
        (Ring_FramArray.new rawRing (FramI2C.withCursor .MB85RC64 128) 2147483648 0).2.1
        (Ring_FramArray.reach rawRing (FramI2C.withCursor .MB85RC64 128) 2147483648 0 zeroChip
          [RingOp.init, RingOp.setIndices 0 2147483648]).2 (fun _ => 0)).1 = true ∧
      ((Ring_FramArray.reach rawRing (FramI2C.withCursor .MB85RC64 128) 2147483648 0 zeroChip
          [RingOp.init, RingOp.setIndices 0 2147483648]).1.popLastElement
        (Ring_FramArray.new rawRing (FramI2C.withCursor .MB85RC64 128) 2147483648 0).2.1
        (Ring_FramArray.reach rawRing (FramI2C.withCursor .MB85RC64 128) 2147483648 0 zeroChip
          [RingOp.init, RingOp.setIndices 0 2147483648]).2 (fun _ => 0)).2.1._headAddress = 0 ∧
      (2147483648 + 2147483648) % (2147483648 + 1) = 2147483647) ∧
    ((Ring_FramArray.new rawRing (FramI2C.withCursor .MB85RC64 128) 0 8).2.2 = framOK ∧
      ((Ring_FramArray.reach rawRing (FramI2C.withCursor .MB85RC64 128) 0 8 zeroChip
          [RingOp.init]).1._tailAddress,
       (Ring_FramArray.reach rawRing (FramI2C.withCursor .MB85RC64 128) 0 8 zeroChip
          [RingOp.init]).1._headAddress) = (0, 0) ∧
      ((Ring_FramArray.reach rawRing (FramI2C.withCursor .MB85RC64 128) 0 8 zeroChip
          [RingOp.init, RingOp.push (elem 9)]).1.popLastElement
        (Ring_FramArray.new rawRing (FramI2C.withCursor .MB85RC64 128) 0 8).2.1
        (Ring_FramArray.reach rawRing (FramI2C.withCursor .MB85RC64 128) 0 8 zeroChip
          [RingOp.init, RingOp.push (elem 9)]).2 (fun _ => 0)).1 = false) ∧
    (∀ N : Nat, 2 ^ 31 < N + 1 → N + 1 < 2 ^ 32 →
      (Ring_FramArray.new rawRing (FramI2C.withCursor .MB85RC64 128) N 0).2.2 = framOK ∧
      (Ring_FramArray.reach rawRing (FramI2C.withCursor .MB85RC64 128) N 0 zeroChip
          [RingOp.init, RingOp.setIndices 0 (2 ^ 32 - (N + 1) + 1)]).1._tailAddress = 0 ∧
      (Ring_FramArray.reach rawRing (FramI2C.withCursor .MB85RC64 128) N 0 zeroChip
          [RingOp.init, RingOp.setIndices 0 (2 ^ 32 - (N + 1) + 1)]).1._headAddress = 2 ^ 32 - (N + 1) + 1 ∧
      2 ^ 32 - (N + 1) + 1 < N + 1 ∧
      Ring_FramArray.myModuloDefined ((2 ^ 32 - (N + 1) + 1 + (2 ^ 32 - 1)) % 2 ^ 32) (N + 1)
        = true ∧
      ((Ring_FramArray.reach rawRing (FramI2C.withCursor .MB85RC64 128) N 0 zeroChip
          [RingOp.init, RingOp.setIndices 0 (2 ^ 32 - (N + 1) + 1)]).1.popLastElement
        (Ring_FramArray.new rawRing (FramI2C.withCursor .MB85RC64 128) N 0).2.1
        (Ring_FramArray.reach rawRing (FramI2C.withCursor .MB85RC64 128) N 0 zeroChip
          [RingOp.init, RingOp.setIndices 0 (2 ^ 32 - (N + 1) + 1)]).2 (fun _ => 0)).1 = true ∧
      ((Ring_FramArray.reach rawRing (FramI2C.withCursor .MB85RC64 128) N 0 zeroChip
          [RingOp.init, RingOp.setIndices 0 (2 ^ 32 - (N + 1) + 1)]).1.popLastElement
        (Ring_FramArray.new rawRing (FramI2C.withCursor .MB85RC64 128) N 0).2.1
        (Ring_FramArray.reach rawRing (FramI2C.withCursor .MB85RC64 128) N 0 zeroChip
          [RingOp.init, RingOp.setIndices 0 (2 ^ 32 - (N + 1) + 1)]).2 (fun _ => 0)).2.1._headAddress = 0 ∧
      (2 ^ 32 - (N + 1) + 1 + N) % (N + 1) = 2 ^ 32 - (N + 1) ∧
      0 < 2 ^ 32 - (N + 1)) ∧
    ((Ring_FramArray.new rawRing (FramI2C.withCursor .MB85RC64 128) 4294967295 0).2.2
        = framOK ∧
      ((Ring_FramArray.reach rawRing (FramI2C.withCursor .MB85RC64 128) 4294967295 0
          (trailerChip 128 129 0 1) [RingOp.init]).1._numberOfElements,
       (Ring_FramArray.reach rawRing (FramI2C.withCursor .MB85RC64 128) 4294967295 0
          (trailerChip 128 129 0 1) [RingOp.init]).1._tailAddress,
       (Ring_FramArray.reach rawRing (FramI2C.withCursor .MB85RC64 128) 4294967295 0
          (trailerChip 128 129 0 1) [RingOp.init]).1._headAddress) = (0, 0, 1) ∧
      (Ring_FramArray.moduloCalls
        (Ring_FramArray.reach rawRing (FramI2C.withCursor .MB85RC64 128) 4294967295 0
          (trailerChip 128 129 0 1) [RingOp.init]).1
        (RingOp.popLastElement (fun _ => 0))).head? = some (0, 0) ∧
      Ring_FramArray.myModuloDefined 0 0 = false ∧
      Ring_FramArray.stepChecked
        (Ring_FramArray.new rawRing (FramI2C.withCursor .MB85RC64 128) 4294967295 0).2.1
        (Ring_FramArray.reach rawRing (FramI2C.withCursor .MB85RC64 128) 4294967295 0
          (trailerChip 128 129 0 1) [RingOp.init])
        (RingOp.popLastElement (fun _ => 0)) = none) := by
  refine ⟨⟨FramI2C.Reachable.allocate _ _ (FramI2C.Reachable.construct _) (by norm_num),
      by decide, by decide, by decide, by decide, by decide⟩,
    ⟨by decide, by decide, by decide, by decide, by decide, by decide, by decide, by decide⟩,
    ⟨by decide, by decide, by decide⟩, ?_,
    ⟨by decide, by decide, by decide, by decide, rfl⟩⟩
  intro N h1 h2
  obtain ⟨z1, z2, z3, z4, z5⟩ := Ring_FramArray.size_zero_ring N (2 ^ 32 - (N + 1) + 1)
    zeroChip h2 (by omega)
  obtain ⟨m1, m2, _, m4⟩ := Ring_FramArray.myModulo_above_half h1 h2
  have e : (2 ^ 32 - (N + 1) + 1 + (2 ^ 32 - 1)) % 2 ^ 32 = 2 ^ 32 - (N + 1) := by omega
  have e2 : 2 ^ 32 - (N + 1) + 1 + N = 2 ^ 32 - (N + 1) + (N + 1) := by omega
  obtain ⟨k1, k2⟩ := Ring_FramArray.popLast_head _
    (Ring_FramArray.new rawRing (FramI2C.withCursor .MB85RC64 128) N 0).2.1
    (Ring_FramArray.reach rawRing (FramI2C.withCursor .MB85RC64 128) N 0 zeroChip
          [RingOp.init, RingOp.setIndices 0 (2 ^ 32 - (N + 1) + 1)]).2 (fun _ => 0)
    (by rw [z4, z5]; omega) (by rw [z3]; omega)
  rw [z5, z2, e] at k2
  refine ⟨z1, z4, z5, by omega, by rw [e]; exact m1, k1, k2.trans m2, ?_, m4⟩
  rw [e2, Nat.add_mod_right]
  exact Nat.mod_eq_of_lt (by omega)

end Fram
